import Mathlib

/-!
# CppADCodeGen thread pool (`pthread_pool.c`): embedding and verification

The C sources are embedded as Lean functions.

* `float` values are rationals (`ℚ`); infinities and NaN are not represented.
  The first sections compute with them exactly. The section on rounded
  arithmetic repeats the queue and the pool with every `float` operation
  rounded (namespace `Rounded`), for an arbitrary rounding and for IEEE 754
  `binary32` (`binary32_round`); with the identity as rounding it is the exact
  model.
* A C array argument `a` is the function `i ↦ a[i]`; a pointer argument that
  may be `NULL` is an `Option`.
* Pointers into caller memory (`&avgElapsed[j]`, `&elapsed[j]`) are addresses
  (`Nat`, in units of one `float`), and `mem p` is the value `*p`.
* Function pointers and `void*` arguments are opaque identifiers (`Nat`); a
  synchronous call `f(arg)` is recorded as the pair `(f, arg)` in a trace.
* A run that dereferences a null pointer has no result (`none`).
-/

namespace CppadcgPool

/-! ## Reorder helper: `comparePair`, `cppadcg_thpool_update_order` -/

/-- The C struct `pair_double_int`. -/
structure pair_double_int where
  val : ℚ
  index : Nat
deriving DecidableEq, Repr

/-- The comparator `comparePair` handed to `qsort`. -/
def comparePair (a b : pair_double_int) : Int :=
  if a.val < b.val then -1
  else if a.val = b.val then 0
  else 1

/-- The contract of the C library routine `qsort` for the comparator `cmp`:
the array afterwards is a rearrangement of the array before and is ascending
for `cmp`. The order of elements that compare equal is left open, as in C. -/
def QsortContract (qsort : (pair_double_int → pair_double_int → Int) →
    List pair_double_int → List pair_double_int) : Prop :=
  ∀ l, (qsort comparePair l).Perm l ∧
    (qsort comparePair l).Pairwise (fun a b => comparePair a b ≤ 0)

/-- The width of `unsigned int`. -/
def UINT_WIDTH : Nat := 4294967296

/-- First loop of `cppadcg_thpool_update_order`: is some `elapsed[i] != 0`? -/
def update_order_nonZero (elapsed : Nat → ℚ) (nJobs : Nat) : Bool :=
  (List.range nJobs).any (fun i => decide (elapsed i ≠ 0))

/-- One iteration of the second loop: the moving-average update of entry `i`
and the pair stored in `elapsed2[i]`. The divisor `n_time_meas + 1` is
`unsigned int` arithmetic. When it wraps to `0` the C quotient is an infinity
or NaN, which `ℚ` does not have; the rational quotient is then `0`. -/
def update_order_avg_step (n_time_meas : Nat) (elapsed : Nat → ℚ)
    (st : (Nat → ℚ) × List pair_double_int) (i : Nat) :
    (Nat → ℚ) × List pair_double_int :=
  let v := (st.1 i * (n_time_meas : ℚ) + elapsed i) /
    (((n_time_meas + 1) % UINT_WIDTH : Nat) : ℚ)
  (Function.update st.1 i v, st.2 ++ [{ val := v, index := i }])

/-- Second loop of `cppadcg_thpool_update_order`: new `avgElapsed` and the
array `elapsed2`. -/
def update_order_avg (avgElapsed : Nat → ℚ) (n_time_meas : Nat)
    (elapsed : Nat → ℚ) (nJobs : Nat) : (Nat → ℚ) × List pair_double_int :=
  (List.range nJobs).foldl (update_order_avg_step n_time_meas elapsed) (avgElapsed, [])

/-- Third loop: `order[elapsed2[i].index] = nJobs - i - 1` for `i` from the
given start, along the sorted array. -/
def update_order_write (nJobs : Nat) :
    List pair_double_int → Nat → (Nat → Nat) → (Nat → Nat)
  | [], _, order => order
  | p :: ps, i, order =>
      update_order_write nJobs ps (i + 1) (Function.update order p.index (nJobs - i - 1))

/-- The function `cppadcg_thpool_update_order`: returns the arrays
`avgElapsed` and `order` as they are after the call. -/
def cppadcg_thpool_update_order
    (qsort : (pair_double_int → pair_double_int → Int) →
      List pair_double_int → List pair_double_int)
    (avgElapsed : Option (Nat → ℚ)) (n_time_meas : Nat)
    (elapsed : Option (Nat → ℚ)) (order : Option (Nat → Nat)) (nJobs : Nat) :
    Option (Nat → ℚ) × Option (Nat → Nat) :=
  match avgElapsed, elapsed, order with
  | some avg, some el, some ord =>
      if nJobs = 0 then (some avg, some ord)
      else if !(update_order_nonZero el nJobs) then (some avg, some ord)
      else
        let r := update_order_avg avg n_time_meas el nJobs
        let elapsed2 := qsort comparePair r.2
        (some r.1, some (update_order_write nJobs elapsed2 0 ord))
  | _, _, _ => (avgElapsed, order)

/-- A stable `qsort`: insertion sort on the comparator. -/
def qsort_stable (cmp : pair_double_int → pair_double_int → Int)
    (l : List pair_double_int) : List pair_double_int :=
  l.insertionSort (fun a b => cmp a b ≤ 0)

/-- The array with the given entries (and `0` elsewhere). -/
def arr {α : Type} [Zero α] (l : List α) : Nat → α := fun i => l.getD i 0

/-- The first `n` entries of an array. -/
def firstN {α : Type} (a : Nat → α) (n : Nat) : List α := (List.range n).map a

/-- The exact moving average `(avg[i] * n + elapsed[i]) / (n + 1)`, with the
divisor taken in `unsigned int` arithmetic as the code does. -/
def movingAvg (avg : Nat → ℚ) (n : Nat) (el : Nat → ℚ) (i : Nat) : ℚ :=
  (avg i * (n : ℚ) + el i) / (((n + 1) % UINT_WIDTH : Nat) : ℚ)

/-! ## Data model of the pool -/

/-- The C enum `ScheduleStrategy`. -/
inductive ScheduleStrategy where
  | SCHED_SINGLE_JOB
  | SCHED_MULTI_JOB
  | SCHED_STATIC
deriving DecidableEq, Repr

/-- The C struct `Job` without its `prev` link (the link is the list structure
of the queue). `avgElapsed` and `elapsed` are addresses of `float`s. -/
structure Job where
  function : Nat
  arg : Nat
  avgElapsed : Option Nat
  elapsed : Option Nat
deriving DecidableEq, Repr, Inhabited

/-- The C struct `WorkGroup` without its `prev` link: the array `jobs` and the
counter `size`. -/
structure WorkGroup where
  jobs : List Job
  size : Nat
deriving DecidableEq, Repr, Inhabited

/-- The C struct `JobQueue`. `front` is the chain of records reached from the
pointer `front` by following `prev`; `rear` is the last record of that chain.
`group_front` is the chain of pre-built work groups. `has_jobs` is the value
`v` of the binary semaphore. -/
structure JobQueue where
  front : List Job
  group_front : List WorkGroup
  has_jobs : Nat
  len : Nat
  total_time : ℚ
  highest_expected_return : ℚ
deriving DecidableEq, Repr

/-- The C struct `ThPool` (the thread handles and the locks are left out). -/
structure ThPool where
  num_threads : Nat
  num_threads_alive : Nat
  num_threads_working : Nat
  jobqueue : JobQueue
  threads_keepalive : Int
  threads_on_hold : Int
deriving DecidableEq, Repr

/-- The file-level variables of `pthread_pool.c`. -/
structure Globals where
  cppadcg_pool : Option ThPool
  cppadcg_pool_n_threads : Int
  cppadcg_pool_disabled : Int
  cppadcg_pool_verbose : Int
  cppadcg_pool_time_meas : Nat
  cppadcg_pool_multijob_maxgroupwork : ℚ
  group_gen_strategy : ScheduleStrategy
deriving DecidableEq, Repr

/-- What the code reads from its surroundings: the caller's `float` memory and
the outcome of the checked allocations. Unchecked allocations succeed. -/
structure Env where
  mem : Nat → ℚ
  malloc_pool : Bool
  malloc_job : Nat → Bool
  malloc_static : Bool

/-- The values of the variables at program start. -/
def Globals.initial : Globals :=
  { cppadcg_pool := none
    cppadcg_pool_n_threads := 2
    cppadcg_pool_disabled := 0
    cppadcg_pool_verbose := 0
    cppadcg_pool_time_meas := 10
    cppadcg_pool_multijob_maxgroupwork := 3 / 4
    group_gen_strategy := ScheduleStrategy.SCHED_SINGLE_JOB }

/-! ## Job queue -/

/-- The queue built by `jobqueue_init`. -/
def jobqueue_init : JobQueue :=
  { front := [], group_front := [], has_jobs := 0, len := 0, total_time := 0,
    highest_expected_return := 0 }

/-- The function `jobqueue_push_internal`. -/
def jobqueue_push_internal (mem : Nat → ℚ) (queue : JobQueue) (newjob : Job) : JobQueue :=
  let q1 : JobQueue :=
    match queue.len with
    | 0 => { queue with front := [newjob] }
    | _ => { queue with front := queue.front ++ [newjob] }
  let q2 : JobQueue :=
    match newjob.avgElapsed with
    | some p => { q1 with total_time := q1.total_time + mem p }
    | none => q1
  { q2 with len := q2.len + 1 }

/-- The function `jobqueue_push`. -/
def jobqueue_push (mem : Nat → ℚ) (queue : JobQueue) (newjob : Job) : JobQueue :=
  { jobqueue_push_internal mem queue newjob with has_jobs := 1 }

/-- The function `jobqueue_multipush`. -/
def jobqueue_multipush (mem : Nat → ℚ) (queue : JobQueue) (newjob : List Job) : JobQueue :=
  { newjob.foldl (jobqueue_push_internal mem) queue with has_jobs := 1 }

/-- The function `jobqueue_extract_single`: the returned pointer (`none` is
`NULL`) and the queue afterwards. No result when `job->prev` is read through
a null `front`. -/
def jobqueue_extract_single (mem : Nat → ℚ) (queue : JobQueue) :
    Option (Option Job × JobQueue) :=
  match queue.len with
  | 0 => some (none, queue)
  | 1 => some (queue.front.head?,
      { queue with front := [], len := 0, total_time := 0, highest_expected_return := 0 })
  | _ =>
    match queue.front with
    | [] => none
    | job :: rest =>
      let q1 : JobQueue := { queue with front := rest, len := queue.len - 1 }
      match job.avgElapsed with
      | some p => some (some job, { q1 with total_time := q1.total_time - mem p })
      | none => some (some job, q1)

/-- The function `jobqueue_extract_single_group`: the fields written into
`group` and the queue afterwards. -/
def jobqueue_extract_single_group (mem : Nat → ℚ) (queue : JobQueue) :
    Option (WorkGroup × JobQueue) :=
  match jobqueue_extract_single mem queue with
  | none => none
  | some (some job, q) => some ({ jobs := [job], size := 1 }, q)
  | some (none, q) => some ({ jobs := [], size := 0 }, q)

/-- The function `get_monotonic_time`; `clock` is what `clock_gettime` reads,
`none` when it fails. Returns the time and `info`. -/
def get_monotonic_time (clock : Option ℚ) : ℚ × Int :=
  match clock with
  | some t => (t, 0)
  | none => (0, -1)

/-- The `do ... while` loop of `jobqueue_pull`: the first argument is the chain
from `job` on. Returns `size` and `duration`. Reading `job->avgElapsed` at the
end of the chain is a null dereference. The test `job != queue->front` of the
loop never fails on a chain. -/
def jobqueue_pull_walk (mem : Nat → ℚ) (target_duration : ℚ) :
    List Job → Nat → ℚ → ℚ → Option (Nat × ℚ)
  | [], _, _, _ => none
  | job :: rest, size, duration, duration_next =>
    match job.avgElapsed with
    | none => some (size, duration)
    | some p =>
      if duration_next + mem p < target_duration then
        jobqueue_pull_walk mem target_duration rest (size + 1)
          (duration_next + mem p) (duration_next + mem p)
      else some (size, duration)

/-- The extraction loop of `jobqueue_pull`: `count` calls of
`jobqueue_extract_single`, each result copied into the next slot of
`group->jobs`. Copying from a null result is a null dereference. -/
def jobqueue_pull_extract (mem : Nat → ℚ) : Nat → JobQueue → List Job →
    Option (List Job × JobQueue)
  | 0, queue, jobs => some (jobs, queue)
  | count + 1, queue, jobs =>
    match jobqueue_extract_single mem queue with
    | some (some job, q) => jobqueue_pull_extract mem count q (jobs ++ [job])
    | _ => none

/-- The final `bsem_post` of `jobqueue_pull`. -/
def jobqueue_pull_post (queue : JobQueue) : JobQueue :=
  if 0 < queue.len ∨ queue.group_front ≠ [] then { queue with has_jobs := 1 } else queue

/-- The function `jobqueue_pull`: the work group handed to the worker and the
pool afterwards. -/
def jobqueue_pull (g : Globals) (mem : Nat → ℚ) (clock : Option ℚ) (thpool : ThPool) :
    Option (WorkGroup × ThPool) :=
  let queue := thpool.jobqueue
  let finish : WorkGroup × JobQueue → WorkGroup × ThPool :=
    fun r => (r.1, { thpool with jobqueue := jobqueue_pull_post r.2 })
  match decide (g.group_gen_strategy = ScheduleStrategy.SCHED_STATIC), queue.group_front with
  | true, group :: prev => some (finish (group, { queue with group_front := prev }))
  | _, _ =>
    if g.group_gen_strategy = ScheduleStrategy.SCHED_SINGLE_JOB ∨ queue.len ≤ 1 ∨
        queue.total_time ≤ 0 then
      (jobqueue_extract_single_group mem queue).map finish
    else
      match queue.front with
      | [] => none
      | job :: rest =>
        match job.avgElapsed with
        | none => (jobqueue_extract_single_group mem queue).map finish
        | some p =>
          let duration := mem p
          let target0 : ℚ := queue.total_time * g.cppadcg_pool_multijob_maxgroupwork /
            (thpool.num_threads : ℚ)
          let t := get_monotonic_time clock
          let current_time := t.1
          let info := t.2
          let min_duration : ℚ := 9 / 10 * (queue.highest_expected_return - current_time)
          let target_duration : ℚ :=
            if 0 < queue.highest_expected_return ∧ info ≠ 0 then
              (if target0 < min_duration then min_duration else target0)
            else target0
          match jobqueue_pull_walk mem target_duration rest 1 duration duration with
          | none => none
          | some (size, duration) =>
            match jobqueue_pull_extract mem size queue [] with
            | none => none
            | some (jobs, q) =>
              let duration_next := current_time + duration
              let q2 : JobQueue :=
                if q.highest_expected_return < duration_next then
                  { q with highest_expected_return := duration_next }
                else q
              some (finish ({ jobs := jobs, size := size }, q2))

/-! ## Static scheduling: `jobqueue_push_static_jobs` -/

/-- The bins as the placement loop keeps them: `durations`, `n_jobs` and the
part of `jobs2thread` written so far. -/
structure StaticBins where
  durations : List ℚ
  n_jobs : List Nat
  jobs2thread : List Nat
deriving DecidableEq, Repr

/-- The inner first-fit loop: the first bin `i` (counted from `i0`) with
`durations[i] + avgElapsed[j] < target_duration`. -/
def static_first_fit (target_duration a : ℚ) : List ℚ → Nat → Option Nat
  | [], _ => none
  | d :: ds, i0 =>
    if d + a < target_duration then some i0
    else static_first_fit target_duration a ds (i0 + 1)

/-- The fallback loop over the bins from `i0` on: keeps `best_duration` and
`iBest`, replaced only by a strictly smaller `next_duration`. -/
def static_least_loaded (a : ℚ) : List ℚ → Nat → ℚ → Nat → ℚ × Nat
  | [], _, best_duration, iBest => (best_duration, iBest)
  | d :: ds, i0, best_duration, iBest =>
    if d + a < best_duration then static_least_loaded a ds (i0 + 1) (d + a) i0
    else static_least_loaded a ds (i0 + 1) best_duration iBest

/-- One iteration of the placement loop, for a job of average `a`. -/
def static_place (target_duration : ℚ) (st : StaticBins) (a : ℚ) : StaticBins :=
  match static_first_fit target_duration a st.durations 0 with
  | some i =>
    { durations := st.durations.set i (st.durations.getD i 0 + a)
      n_jobs := st.n_jobs.set i (st.n_jobs.getD i 0 + 1)
      jobs2thread := st.jobs2thread ++ [i] }
  | none =>
    let r := static_least_loaded a st.durations.tail 1 (st.durations.headD 0 + a) 0
    { durations := st.durations.set r.2 r.1
      n_jobs := st.n_jobs.set r.2 (st.n_jobs.getD r.2 0 + 1)
      jobs2thread := st.jobs2thread ++ [r.2] }

/-- The number of bins: `num_threads`, lowered to `nJobs` when that is smaller. -/
def static_num_bins (num_threads nJobs : Nat) : Nat :=
  if nJobs < num_threads then nJobs else num_threads

/-- The sum `total_duration` of `avgElapsed[0 .. nJobs-1]`. -/
def static_total_duration (avgElapsed : Nat → ℚ) (nJobs : Nat) : ℚ :=
  (List.range nJobs).foldl (fun t i => t + avgElapsed i) 0

/-- The placement part of `jobqueue_push_static_jobs`: the bins after all
`nJobs` jobs have been placed. -/
def static_assign (num_threads : Nat) (avgElapsed : Nat → ℚ) (nJobs : Nat) : StaticBins :=
  let bins := static_num_bins num_threads nJobs
  let target_duration := static_total_duration avgElapsed nJobs / (bins : ℚ)
  (List.range nJobs).foldl (fun st j => static_place target_duration st (avgElapsed j))
    { durations := List.replicate bins 0, n_jobs := List.replicate bins 0, jobs2thread := [] }

/-- The copy loop: `group->jobs[group->size] = *newjobs[j]; group->size++` for
the group `jobs2thread[j]`. -/
def static_fill (groups : List WorkGroup) : List (Job × Nat) → List WorkGroup
  | [] => groups
  | (job, i) :: rest =>
    let group := groups.getD i default
    static_fill (groups.set i { jobs := group.jobs.set group.size job, size := group.size + 1 })
      rest

/-- The function `jobqueue_push_static_jobs`: the return value and the pool
afterwards. `avgElapsed` is the address of the caller's array. No result when
there is no bin (`groups[num_threads - 1]` is then outside the array). -/
def jobqueue_push_static_jobs (env : Env) (thpool : ThPool) (newjobs : List Job)
    (avgElapsed : Nat) (nJobs : Nat) : Option (Int × ThPool) :=
  let num_threads := static_num_bins thpool.num_threads nJobs
  if !env.malloc_static then some (-1, thpool)
  else if num_threads = 0 then none
  else
    let st := static_assign thpool.num_threads (fun j => env.mem (avgElapsed + j)) nJobs
    let groups : List WorkGroup :=
      st.n_jobs.map (fun n => { jobs := List.replicate n default, size := 0 })
    let groups := static_fill groups (List.zip newjobs st.jobs2thread)
    let queue := thpool.jobqueue
    some (0, { thpool with
      jobqueue := { queue with group_front := groups ++ queue.group_front, has_jobs := 1 } })

/-! ## Pool: creation and submission -/

/-- The function `thpool_init`. The pool is returned once every worker has
marked itself alive, which is when the waiting loop ends. -/
def thpool_init (g : Globals) (env : Env) (num_threads : Int) : Globals × Option ThPool :=
  let num_threads := if num_threads < 0 then 0 else num_threads
  if num_threads = 0 then ({ g with cppadcg_pool_disabled := 1 }, none)
  else if !env.malloc_pool then (g, none)
  else (g, some
    { num_threads := num_threads.toNat
      num_threads_alive := num_threads.toNat
      num_threads_working := 0
      jobqueue := jobqueue_init
      threads_keepalive := 1
      threads_on_hold := 0 })

/-- The function `cppadcg_thpool_prepare`. -/
def cppadcg_thpool_prepare (g : Globals) (env : Env) : Globals :=
  match g.cppadcg_pool with
  | none =>
    let r := thpool_init g env g.cppadcg_pool_n_threads
    { r.1 with cppadcg_pool := r.2 }
  | some _ => g

/-- The function `thpool_add_job`. -/
def thpool_add_job (env : Env) (thpool : ThPool) (function arg : Nat)
    (avgElapsed elapsed : Option Nat) : Int × ThPool :=
  if !env.malloc_job 0 then (-1, thpool)
  else
    let newjob : Job :=
      { function := function, arg := arg, avgElapsed := avgElapsed, elapsed := elapsed }
    (0, { thpool with jobqueue := jobqueue_push env.mem thpool.jobqueue newjob })

/-- The records `newjobs[0 .. nJobs-1]` filled by the first loop of
`thpool_add_jobs`; `avgElapsed` and `elapsed` are the addresses of the
caller's arrays. -/
def thpool_add_jobs_records (functions args : Nat → Nat) (avgElapsed elapsed : Option Nat)
    (order : Option (Nat → Nat)) (nJobs : Nat) : List Job :=
  (List.range nJobs).map (fun i =>
    let j := match order with
      | some o => o i
      | none => i
    { function := functions j
      arg := args j
      avgElapsed := avgElapsed.map (fun base => base + j)
      elapsed := elapsed.map (fun base => base + j) })

/-- The test of `thpool_add_jobs` that routes a batch to
`jobqueue_push_static_jobs`. -/
def thpool_add_jobs_static (g : Globals) (env : Env) (avgElapsed : Option Nat)
    (order : Option (Nat → Nat)) (nJobs : Nat) : Bool :=
  match avgElapsed, order with
  | some base, some _ =>
    decide (g.group_gen_strategy = ScheduleStrategy.SCHED_STATIC) && decide (0 < nJobs) &&
      decide (0 < env.mem base)
  | _, _ => false

/-- The function `thpool_add_jobs`: the return value and the pool afterwards. -/
def thpool_add_jobs (g : Globals) (env : Env) (thpool : ThPool) (functions args : Nat → Nat)
    (avgElapsed elapsed : Option Nat) (order : Option (Nat → Nat)) (nJobs : Nat) :
    Option (Int × ThPool) :=
  if !(List.range nJobs).all env.malloc_job then some (-1, thpool)
  else
    let newjobs := thpool_add_jobs_records functions args avgElapsed elapsed order nJobs
    if thpool_add_jobs_static g env avgElapsed order nJobs then
      jobqueue_push_static_jobs env thpool newjobs (avgElapsed.getD 0) nJobs
    else
      some (0, { thpool with jobqueue := jobqueue_multipush env.mem thpool.jobqueue newjobs })

/-- The function `cppadcg_thpool_add_job`: the variables afterwards and the
calls made on the calling thread. -/
def cppadcg_thpool_add_job (g : Globals) (env : Env) (function arg : Nat)
    (avgElapsed elapsed : Option Nat) : Globals × List (Nat × Nat) :=
  if g.cppadcg_pool_disabled = 0 then
    let g1 := cppadcg_thpool_prepare g env
    match g1.cppadcg_pool with
    | some pool =>
      let r := thpool_add_job env pool function arg avgElapsed elapsed
      ({ g1 with cppadcg_pool := some r.2 }, [])
    | none => (g1, [(function, arg)])
  else (g, [(function, arg)])

/-- The function `cppadcg_thpool_add_jobs`: the variables afterwards and the
calls made on the calling thread, in the order made. -/
def cppadcg_thpool_add_jobs (g : Globals) (env : Env) (functions args : Nat → Nat)
    (avgElapsed elapsed : Option Nat) (order : Option (Nat → Nat)) (nJobs : Nat) :
    Option (Globals × List (Nat × Nat)) :=
  let inline : List (Nat × Nat) := (List.range nJobs).map (fun i => (functions i, args i))
  if g.cppadcg_pool_disabled = 0 then
    let g1 := cppadcg_thpool_prepare g env
    match g1.cppadcg_pool with
    | some pool =>
      (thpool_add_jobs g1 env pool functions args avgElapsed elapsed order nJobs).map
        (fun r => ({ g1 with cppadcg_pool := some r.2 }, []))
    | none => some (g1, inline)
  else some (g, inline)

/-- The calls `fns[order[i]](args[order[i]])` for `i = 0 .. n-1`, in sequence. -/
def calls_in_order (functions args : Nat → Nat) (order : Nat → Nat) (n : Nat) :
    List (Nat × Nat) :=
  (List.range n).map (fun i => (functions (order i), args (order i)))

/-- A `qsort` that keeps elements comparing equal in their array order. -/
def QsortStable (qsort : (pair_double_int → pair_double_int → Int) →
    List pair_double_int → List pair_double_int) : Prop :=
  ∀ l a b, comparePair a b = 0 → List.Sublist [a, b] l →
    List.Sublist [a, b] (qsort comparePair l)

/-- Repeated calls of `cppadcg_thpool_update_order` on the same `elapsed`. -/
def update_order_repeat
    (qsort : (pair_double_int → pair_double_int → Int) →
      List pair_double_int → List pair_double_int)
    (n_time_meas : Nat) (elapsed : Option (Nat → ℚ)) (nJobs : Nat) :
    Nat → Option (Nat → ℚ) × Option (Nat → Nat) → Option (Nat → ℚ) × Option (Nat → Nat)
  | 0, st => st
  | k + 1, st =>
    update_order_repeat qsort n_time_meas elapsed nJobs k
      (cppadcg_thpool_update_order qsort st.1 n_time_meas elapsed st.2 nJobs)

/-- An environment in which every allocation succeeds. -/
def env_ok (mem : Nat → ℚ) : Env :=
  { mem := mem, malloc_pool := true, malloc_job := fun _ => true, malloc_static := true }

/-- A pool of `n` threads as `thpool_init` returns it. -/
def fresh_pool (n : Nat) : ThPool :=
  { num_threads := n, num_threads_alive := n, num_threads_working := 0,
    jobqueue := jobqueue_init, threads_keepalive := 1, threads_on_hold := 0 }

/-- The value `*job->avgElapsed`, or `0` for a null pointer. -/
def jobAvg (mem : Nat → ℚ) (job : Job) : ℚ :=
  match job.avgElapsed with
  | some p => mem p
  | none => 0

/-- The sum of `*avgElapsed` over the records of a chain that have one. -/
def sumAvg (mem : Nat → ℚ) (l : List Job) : ℚ := (l.map (jobAvg mem)).sum

/-- The largest of `avgElapsed[0 .. nJobs-1]` (and `0`). -/
def static_max (avgElapsed : Nat → ℚ) (nJobs : Nat) : ℚ :=
  (List.range nJobs).foldl (fun m i => max m (avgElapsed i)) 0

/-- The bins after the first `k` jobs have been placed, for a given number of
bins and target. -/
def static_assign_upto (bins : Nat) (target_duration : ℚ) (avgElapsed : Nat → ℚ) (k : Nat) :
    StaticBins :=
  (List.range k).foldl (fun st j => static_place target_duration st (avgElapsed j))
    { durations := List.replicate bins 0, n_jobs := List.replicate bins 0, jobs2thread := [] }

/-- One submission to the queue: a single `jobqueue_push` or a
`jobqueue_multipush` of a batch. -/
inductive Submission where
  | push (job : Job)
  | multipush (jobs : List Job)
deriving DecidableEq, Repr

/-- The records a submission hands over, in order. -/
def Submission.jobs : Submission → List Job
  | Submission.push job => [job]
  | Submission.multipush jobs => jobs

/-- Calls `jobqueue_pull` again and again until `len = 0`, at most `fuel`
times; pull number `k` reads the monotonic clock successfully as `clock k`.
Returns the work groups in pull order. No result when a pull has none, or
when the queue is not empty after `fuel` pulls. -/
def pull_until_empty (g : Globals) (mem : Nat → ℚ) (clock : Nat → ℚ) :
    Nat → Nat → ThPool → Option (List WorkGroup × ThPool)
  | 0, _, thpool => if thpool.jobqueue.len = 0 then some ([], thpool) else none
  | fuel + 1, k, thpool =>
    if thpool.jobqueue.len = 0 then some ([], thpool)
    else
      match jobqueue_pull g mem (some (clock k)) thpool with
      | none => none
      | some (group, p) =>
        (pull_until_empty g mem clock fuel (k + 1) p).map (fun r => (group :: r.1, r.2))

/-- The variables at program start, with the strategy set to `SCHED_MULTI_JOB`. -/
def globals_multi_job : Globals :=
  { Globals.initial with group_gen_strategy := ScheduleStrategy.SCHED_MULTI_JOB }

/-- The function `get_thread_time`; `clock` is what `clock_gettime` reads,
`none` when it fails. Returns the time and `info`. -/
def get_thread_time (clock : Option ℚ) : ℚ × Int :=
  match clock with
  | some t => (t, 0)
  | none => (0, -1)

/-- What a worker changes while it runs a work group: the caller's `float`
memory (the `elapsed` slots), the calls made so far, the number of thread-clock
reads made so far, and the locals `elapsed` and `info` of `thread_do`. -/
structure WorkerRun where
  mem : Nat → ℚ
  calls : List (Nat × Nat)
  reads : Nat
  elapsed : ℚ
  info : Int

/-- One iteration of the job loop of `thread_do`; read number `k` of the
thread clock gives `clock k`. The called job is opaque: only the call itself
is recorded. -/
def thread_do_job (clock : Nat → Option ℚ) (st : WorkerRun) (job : Job) : WorkerRun :=
  let do_benchmark : Bool := job.elapsed.isSome
  let st1 : WorkerRun :=
    if do_benchmark then
      { st with elapsed := -(get_thread_time (clock st.reads)).1
                info := (get_thread_time (clock st.reads)).2
                reads := st.reads + 1 }
    else st
  let st2 : WorkerRun := { st1 with calls := st1.calls ++ [(job.function, job.arg)] }
  if do_benchmark = true ∧ st2.info = 0 then
    let st3 : WorkerRun :=
      { st2 with elapsed := st2.elapsed + (get_thread_time (clock st2.reads)).1
                 info := (get_thread_time (clock st2.reads)).2
                 reads := st2.reads + 1 }
    if st3.info = 0 then
      match job.elapsed with
      | some p => { st3 with mem := Function.update st3.mem p st3.elapsed }
      | none => st3
    else st3
  else st2

/-- The job loop of `thread_do` over `work_group->jobs[0 .. size-1]`. Every
group the code builds has at least `size` entries in `jobs`. -/
def thread_do_group (clock : Nat → Option ℚ) (st : WorkerRun) (group : WorkGroup) :
    WorkerRun :=
  (group.jobs.take group.size).foldl (thread_do_job clock) st

/-! ## The target of a greedy pull -/

/-- The value of `target_duration` when the walk of `jobqueue_pull` starts
(lines 1130-1138 of the source). -/
def jobqueue_pull_target (g : Globals) (clock : Option ℚ) (thpool : ThPool) : ℚ :=
  let queue := thpool.jobqueue
  let target0 : ℚ := queue.total_time * g.cppadcg_pool_multijob_maxgroupwork /
    (thpool.num_threads : ℚ)
  let t := get_monotonic_time clock
  let min_duration : ℚ := 9 / 10 * (queue.highest_expected_return - t.1)
  if 0 < queue.highest_expected_return ∧ t.2 ≠ 0 then
    (if target0 < min_duration then min_duration else target0)
  else target0

/-- The variables at program start, with the strategy set to `SCHED_STATIC`. -/
def globals_static : Globals :=
  { Globals.initial with group_gen_strategy := ScheduleStrategy.SCHED_STATIC }

/-- The array `order = [0, 1, 2, ...]`. -/
def identity_order : Nat → Nat := fun i => i

/-- The variables at program start, with `n_threads` set to `0`. -/
def globals_no_threads : Globals :=
  { Globals.initial with cppadcg_pool_n_threads := 0 }

/-- A worker that has made no call and no clock read yet. -/
def worker_start (mem : Nat → ℚ) : WorkerRun :=
  { mem := mem, calls := [], reads := 0, elapsed := 0, info := 0 }

/-- A pool of `num_threads` threads whose queue holds `nJobs` records handed
over by one `jobqueue_multipush`: record `j` has function `j`, argument `j`
and `avgElapsed = &mem[j]`. -/
def queued_pool (mem : Nat → ℚ) (num_threads nJobs : Nat) : ThPool :=
  { fresh_pool num_threads with
    jobqueue := jobqueue_multipush mem jobqueue_init
      (thpool_add_jobs_records id id (some 0) none none nJobs) }

/-- Eight averages of `1`. -/
def avg_ones : Nat → ℚ := arr [1, 1, 1, 1, 1, 1, 1, 1]

/-! ## Repeated pulls -/

/-- Successive calls of `jobqueue_pull`, `count` of them; call number `k`
reads the monotonic clock as `clock k` (`none` when the read fails). Returns
the work groups in pull order. No result when one of the pulls has none. -/
def jobqueue_pull_many (g : Globals) (mem : Nat → ℚ) (clock : Nat → Option ℚ) :
    Nat → Nat → ThPool → Option (List WorkGroup × ThPool)
  | 0, _, thpool => some ([], thpool)
  | count + 1, k, thpool =>
    match jobqueue_pull g mem (clock k) thpool with
    | none => none
    | some (group, p) =>
      (jobqueue_pull_many g mem clock count (k + 1) p).map (fun r => (group :: r.1, r.2))

/-! ## Semaphore, setters and the worker loop -/

/-- The function `bsem_post`: the value `v` of the semaphore afterwards. -/
def bsem_post (_v : Nat) : Nat := 1

/-- The function `bsem_post_all`: the value `v` of the semaphore afterwards. -/
def bsem_post_all (_v : Nat) : Nat := 1

/-- The function `bsem_wait`: it returns once `v = 1` and leaves `v = 0`.
No result while it blocks. -/
def bsem_wait (v : Nat) : Option Nat := if v = 1 then some 0 else none

/-- The function `cppadcg_thpool_set_threads`. -/
def cppadcg_thpool_set_threads (g : Globals) (n : Int) : Globals :=
  { g with cppadcg_pool_n_threads := n }

/-- The function `cppadcg_thpool_get_threads`. -/
def cppadcg_thpool_get_threads (g : Globals) : Int := g.cppadcg_pool_n_threads

/-- The function `cppadcg_thpool_set_scheduler_strategy`; with a pool the
assignment is made under the queue lock. -/
def cppadcg_thpool_set_scheduler_strategy (g : Globals) (s : ScheduleStrategy) : Globals :=
  match g.cppadcg_pool with
  | some _ => { g with group_gen_strategy := s }
  | none => { g with group_gen_strategy := s }

/-- The function `cppadcg_thpool_set_multijob_maxgroupwork`; with a pool the
assignment is made under the queue lock. -/
def cppadcg_thpool_set_multijob_maxgroupwork (g : Globals) (v : ℚ) : Globals :=
  match g.cppadcg_pool with
  | some _ => { g with cppadcg_pool_multijob_maxgroupwork := v }
  | none => { g with cppadcg_pool_multijob_maxgroupwork := v }

/-- Where a worker stands in `thread_do`: before it marks itself alive
(`starting`), at the loop test or in `bsem_wait` (`idle`), after `bsem_wait`
has returned (`woken`), before `num_threads_working++` (`counting`), before
`jobqueue_pull` (`pulling`), in the job loop up to `num_threads_working--`
(`running`), after the loop and before `num_threads_alive--` (`leaving`), and
returned (`exited`). -/
inductive WorkerPc where
  | starting
  | idle
  | woken
  | counting
  | pulling
  | running
  | leaving
  | exited
deriving DecidableEq, Repr

/-- One step of a worker in `thread_do`, from one lock-protected action to
the next. `clock` is the monotonic clock read of `jobqueue_pull`. The jobs of
the pulled group are run in state `running`; what they do to memory is not
followed here. No result while the worker blocks in `bsem_wait`, when
`jobqueue_pull` has none, and after the worker has returned. -/
def thread_do_step (g : Globals) (mem : Nat → ℚ) (clock : Option ℚ) (pc : WorkerPc)
    (thpool : ThPool) : Option (WorkerPc × ThPool) :=
  match pc with
  | WorkerPc.starting =>
    some (WorkerPc.idle, { thpool with num_threads_alive := thpool.num_threads_alive + 1 })
  | WorkerPc.idle =>
    if thpool.threads_keepalive ≠ 0 then
      (bsem_wait thpool.jobqueue.has_jobs).map (fun v =>
        (WorkerPc.woken, { thpool with jobqueue := { thpool.jobqueue with has_jobs := v } }))
    else some (WorkerPc.leaving, thpool)
  | WorkerPc.woken =>
    if thpool.threads_keepalive = 0 then some (WorkerPc.leaving, thpool)
    else some (WorkerPc.counting, thpool)
  | WorkerPc.counting =>
    some (WorkerPc.pulling,
      { thpool with num_threads_working := thpool.num_threads_working + 1 })
  | WorkerPc.pulling =>
    (jobqueue_pull g mem clock thpool).map (fun r => (WorkerPc.running, r.2))
  | WorkerPc.running =>
    some (WorkerPc.idle, { thpool with num_threads_working := thpool.num_threads_working - 1 })
  | WorkerPc.leaving =>
    some (WorkerPc.exited, { thpool with num_threads_alive := thpool.num_threads_alive - 1 })
  | WorkerPc.exited => none

/-- The file-level variables together with the position of every worker of
the pool. -/
structure PoolRun where
  g : Globals
  pcs : List WorkerPc

/-- What can happen next: a call of the public interface on the main thread, a
step of worker `i`, or one of the actions of `thpool_destroy` (clearing
`threads_keepalive`, a `bsem_post_all`, and the release of the pool once no
worker is alive, after which `cppadcg_thpool_shutdown` clears the pointer). -/
inductive PoolAction where
  | prepare
  | set_threads (n : Int)
  | set_scheduler_strategy (s : ScheduleStrategy)
  | set_multijob_maxgroupwork (v : ℚ)
  | add_job (function arg : Nat) (avgElapsed elapsed : Option Nat)
  | add_jobs (functions args : Nat → Nat) (avgElapsed elapsed : Option Nat)
      (order : Option (Nat → Nat)) (nJobs : Nat)
  | worker (i : Nat) (clock : Option ℚ)
  | destroy_keepalive
  | destroy_post
  | destroy_free

/-- One action on the pool. `cppadcg_thpool_prepare` returns when every worker
of a new pool has marked itself alive, and is then at its loop test. No result
when the action cannot be taken. -/
def pool_step (env : Env) (s : PoolRun) : PoolAction → Option PoolRun
  | PoolAction.prepare =>
    match s.g.cppadcg_pool with
    | some _ => some s
    | none =>
      let g1 := cppadcg_thpool_prepare s.g env
      match g1.cppadcg_pool with
      | some pool => some { g := g1, pcs := List.replicate pool.num_threads WorkerPc.idle }
      | none => some { g := g1, pcs := [] }
  | PoolAction.set_threads n => some { s with g := cppadcg_thpool_set_threads s.g n }
  | PoolAction.set_scheduler_strategy st =>
    some { s with g := cppadcg_thpool_set_scheduler_strategy s.g st }
  | PoolAction.set_multijob_maxgroupwork v =>
    some { s with g := cppadcg_thpool_set_multijob_maxgroupwork s.g v }
  | PoolAction.add_job function arg avgElapsed elapsed =>
    match s.g.cppadcg_pool with
    | some pool =>
      some { s with g := { s.g with
        cppadcg_pool := some (thpool_add_job env pool function arg avgElapsed elapsed).2 } }
    | none => none
  | PoolAction.add_jobs functions args avgElapsed elapsed order nJobs =>
    match s.g.cppadcg_pool with
    | some pool =>
      (thpool_add_jobs s.g env pool functions args avgElapsed elapsed order nJobs).map
        (fun r => { s with g := { s.g with cppadcg_pool := some r.2 } })
    | none => none
  | PoolAction.worker i clock =>
    match s.g.cppadcg_pool, s.pcs[i]? with
    | some pool, some pc =>
      (thread_do_step s.g env.mem clock pc pool).map (fun r =>
        { g := { s.g with cppadcg_pool := some r.2 }, pcs := s.pcs.set i r.1 })
    | _, _ => none
  | PoolAction.destroy_keepalive =>
    match s.g.cppadcg_pool with
    | some pool =>
      some { s with g := { s.g with cppadcg_pool := some { pool with threads_keepalive := 0 } } }
    | none => none
  | PoolAction.destroy_post =>
    match s.g.cppadcg_pool with
    | some pool =>
      if pool.threads_keepalive = 0 ∧ pool.num_threads_alive ≠ 0 then
        some { s with g := { s.g with cppadcg_pool := some { pool with
          jobqueue := { pool.jobqueue with has_jobs := bsem_post_all pool.jobqueue.has_jobs } } } }
      else none
    | none => none
  | PoolAction.destroy_free =>
    match s.g.cppadcg_pool with
    | some pool =>
      if pool.threads_keepalive = 0 ∧ pool.num_threads_alive = 0 then
        some { g := { s.g with cppadcg_pool := none }, pcs := [] }
      else none
    | none => none

/-- The actions of a list, one after the other. -/
def pool_run (env : Env) : PoolRun → List PoolAction → Option PoolRun
  | s, [] => some s
  | s, a :: rest =>
    match pool_step env s a with
    | some s1 => pool_run env s1 rest
    | none => none

/-- A worker that has passed `num_threads_working++` and not yet
`num_threads_working--`. -/
def WorkerPc.working : WorkerPc → Bool
  | WorkerPc.pulling => true
  | WorkerPc.running => true
  | _ => false

/-- A worker that has passed `num_threads_alive += 1` and not yet
`num_threads_alive--`. -/
def WorkerPc.alive : WorkerPc → Bool
  | WorkerPc.starting => false
  | WorkerPc.exited => false
  | _ => true

/-- The counters of the pool count the workers: one worker position per
thread, `num_threads_working` of them between the increment and the decrement
of that counter, `num_threads_alive` of them between the increment and the
decrement of that one. -/
def counters_consistent (s : PoolRun) : Prop :=
  ∀ pool, s.g.cppadcg_pool = some pool →
    s.pcs.length = pool.num_threads ∧
    pool.num_threads_working = s.pcs.countP WorkerPc.working ∧
    pool.num_threads_alive = s.pcs.countP WorkerPc.alive

/-- The actions of the C25 witness: creation, one submission, and the steps of
worker `0` up to its pull. -/
def example_actions : List PoolAction :=
  [PoolAction.prepare, PoolAction.add_job 10 20 none none,
    PoolAction.worker 0 none, PoolAction.worker 0 none, PoolAction.worker 0 none,
    PoolAction.worker 0 none]

/-- The sum of `f j` over the positions `j` of the batch that `jobs2thread`
sends to bin `i`. -/
def bin_sum (jobs2thread : List Nat) (i : Nat) (f : Nat → ℚ) : ℚ :=
  ((((List.range jobs2thread.length).zip jobs2thread).filter
    (fun x => decide (x.2 = i))).map (fun x => f x.1)).sum


/-! ## `DummyDerivatives::reduceEquations` (`cg_dummy_deriv.hpp`) -/

/-- The loop of `reduceEquations` that fills `resNew`, over the equation
indices still to visit; the state is `resNew` and the position `p`. The set
`removedEquations` is given by its elements. An assignment to `resNew[p]`
with `p` outside the vector has no result. -/
def reduceEquations_fill {α : Type} (res0 : Nat → α) (removedEquations : List Nat) :
    List Nat → List α × Nat → Option (List α × Nat)
  | [], st => some st
  | i :: rest, st =>
    if i ∈ removedEquations then
      if st.2 < st.1.length then
        reduceEquations_fill res0 removedEquations rest (st.1.set st.2 (res0 i), st.2 + 1)
      else none
    else reduceEquations_fill res0 removedEquations rest st

/-- The vector `resNew` of `reduceEquations` as it is when the loop over the
equations ends. `res0` holds the residuals, `range` is
`reducedFun_->Range()`, `enodes` is `enodes_.size()`, and `dummyD` lists, for
every dummy derivative in `dummyD_`, the index of its assignment equation (so
`removedEquations` is the set of its entries and `dummyD_.size()` its
length). `resNew` starts as `range - dummyD_.size()` default-constructed
entries `dflt`; when the `size_t` difference wraps, the vector cannot be
allocated and there is no result. -/
def reduceEquations_resNew {α : Type} (dflt : α) (res0 : Nat → α) (range : Nat)
    (dummyD : List Nat) (enodes : Nat) : Option (List α) :=
  if range < dummyD.length then none
  else
    (reduceEquations_fill res0 dummyD (List.range enodes)
      (List.replicate (range - dummyD.length) dflt, 0)).map (fun st => st.1)

/-! ## The job queue with its pointers

The queue of `JobQueue` above is the list of records that the pointers of the
C structure describe. Here the pointers themselves are kept: `front`, `rear`
and the `prev` field of every record, with the records in a heap indexed by
address. -/

namespace Heap

/-- A `Job` record in memory: the pointer `prev` and the other fields. -/
structure JobCell where
  prev : Option Nat
  job : Job

/-- The C struct `JobQueue` with its pointers; `heap a` is the record at
address `a`. -/
structure JobQueue where
  heap : Nat → JobCell
  front : Option Nat
  rear : Option Nat
  group_front : List WorkGroup
  has_jobs : Nat
  len : Nat
  total_time : ℚ
  highest_expected_return : ℚ

/-- The queue built by `jobqueue_init`, in a given heap. -/
def jobqueue_init (heap : Nat → JobCell) : JobQueue :=
  { heap := heap, front := none, rear := none, group_front := [], has_jobs := 0, len := 0,
    total_time := 0, highest_expected_return := 0 }

/-- The assignments of `thpool_add_job` and `thpool_add_jobs` to the fields of
the record they have allocated at `newjob`; `prev` is not written. -/
def job_store (queue : JobQueue) (newjob : Nat) (job : Job) : JobQueue :=
  let cell : JobCell := { prev := (queue.heap newjob).prev, job := job }
  { queue with heap := Function.update queue.heap newjob cell }

/-- The function `jobqueue_push_internal`. No result when `queue->rear->prev`
is written through a null `rear`. -/
def jobqueue_push_internal (mem : Nat → ℚ) (queue : JobQueue) (newjob : Nat) :
    Option JobQueue :=
  let heap1 := Function.update queue.heap newjob { queue.heap newjob with prev := none }
  let q1 : Option JobQueue :=
    match queue.len with
    | 0 => some { queue with heap := heap1, front := some newjob, rear := some newjob }
    | _ =>
      match queue.rear with
      | none => none
      | some rear =>
        let heap2 := Function.update heap1 rear { heap1 rear with prev := some newjob }
        some { queue with heap := heap2, rear := some newjob }
  q1.map (fun q1 =>
    let q2 : JobQueue :=
      match (q1.heap newjob).job.avgElapsed with
      | some p => { q1 with total_time := q1.total_time + mem p }
      | none => q1
    { q2 with len := q2.len + 1 })

/-- The function `jobqueue_push`. -/
def jobqueue_push (mem : Nat → ℚ) (queue : JobQueue) (newjob : Nat) : Option JobQueue :=
  (jobqueue_push_internal mem queue newjob).map (fun q => { q with has_jobs := 1 })

/-- The loop of `jobqueue_multipush`. -/
def jobqueue_multipush_loop (mem : Nat → ℚ) : JobQueue → List Nat → Option JobQueue
  | queue, [] => some queue
  | queue, newjob :: rest =>
    match jobqueue_push_internal mem queue newjob with
    | some q => jobqueue_multipush_loop mem q rest
    | none => none

/-- The function `jobqueue_multipush`. -/
def jobqueue_multipush (mem : Nat → ℚ) (queue : JobQueue) (newjob : List Nat) :
    Option JobQueue :=
  (jobqueue_multipush_loop mem queue newjob).map (fun q => { q with has_jobs := 1 })

/-- What `jobqueue_push_static_jobs` does to the queue under its lock: the new
groups go in front of the group chain and the semaphore is posted. -/
def jobqueue_push_static_chain (queue : JobQueue) (groups : List WorkGroup) : JobQueue :=
  { queue with group_front := groups ++ queue.group_front, has_jobs := 1 }

/-- The function `jobqueue_extract_single`: the pointer returned and the queue
afterwards. No result when `job->prev` is read through a null `front`. -/
def jobqueue_extract_single (mem : Nat → ℚ) (queue : JobQueue) :
    Option (Option Nat × JobQueue) :=
  match queue.len with
  | 0 => some (none, queue)
  | 1 => some (queue.front,
      { queue with front := none, rear := none, len := 0, total_time := 0,
                   highest_expected_return := 0 })
  | _ =>
    match queue.front with
    | none => none
    | some job =>
      let q1 : JobQueue := { queue with front := (queue.heap job).prev, len := queue.len - 1 }
      match (queue.heap job).job.avgElapsed with
      | some p => some (some job, { q1 with total_time := q1.total_time - mem p })
      | none => some (some job, q1)

/-- The function `jobqueue_extract_single_group`: the fields written into
`group` and the queue afterwards. -/
def jobqueue_extract_single_group (mem : Nat → ℚ) (queue : JobQueue) :
    Option (WorkGroup × JobQueue) :=
  match jobqueue_extract_single mem queue with
  | none => none
  | some (some job, q) => some ({ jobs := [(queue.heap job).job], size := 1 }, q)
  | some (none, q) => some ({ jobs := [], size := 0 }, q)

/-- The `do ... while (job != queue->front)` loop of `jobqueue_pull`, for at
most `fuel` iterations, from the pointer `job`. Returns `size` and `duration`.
The outer `none` says that `fuel` iterations were not enough, the inner `none`
that `job->avgElapsed` was read through a null `job`. -/
def jobqueue_pull_walk (heap : Nat → JobCell) (mem : Nat → ℚ) (target_duration : ℚ)
    (front : Option Nat) : Nat → Option Nat → Nat → ℚ → ℚ → Option (Option (Nat × ℚ))
  | 0, _, _, _, _ => none
  | fuel + 1, job, size, duration, duration_next =>
    match job with
    | none => some none
    | some a =>
      match (heap a).job.avgElapsed with
      | none => some (some (size, duration))
      | some p =>
        if duration_next + mem p < target_duration then
          if (heap a).prev = front then some (some (size + 1, duration_next + mem p))
          else
            jobqueue_pull_walk heap mem target_duration front fuel (heap a).prev (size + 1)
              (duration_next + mem p) (duration_next + mem p)
        else some (some (size, duration))

/-- The extraction loop of `jobqueue_pull`: `count` calls of
`jobqueue_extract_single`, each result copied into the next slot of
`group->jobs`. Copying from a null result is a null dereference. -/
def jobqueue_pull_extract (mem : Nat → ℚ) : Nat → JobQueue → List Job →
    Option (List Job × JobQueue)
  | 0, queue, jobs => some (jobs, queue)
  | count + 1, queue, jobs =>
    match jobqueue_extract_single mem queue with
    | some (some job, q) => jobqueue_pull_extract mem count q (jobs ++ [(queue.heap job).job])
    | _ => none

/-- The final `bsem_post` of `jobqueue_pull`. -/
def jobqueue_pull_post (queue : JobQueue) : JobQueue :=
  if 0 < queue.len ∨ queue.group_front ≠ [] then { queue with has_jobs := 1 } else queue

/-- The function `jobqueue_pull` for a pool of `num_threads` threads: the work
group handed to the worker and the queue afterwards. The walk is given
`queue->len` iterations. The outer `none` says that these were not enough,
the inner `none` that a null pointer was dereferenced. -/
def jobqueue_pull (g : Globals) (mem : Nat → ℚ) (clock : Option ℚ) (num_threads : Nat)
    (queue : JobQueue) : Option (Option (WorkGroup × JobQueue)) :=
  let finish : WorkGroup × JobQueue → WorkGroup × JobQueue :=
    fun r => (r.1, jobqueue_pull_post r.2)
  match decide (g.group_gen_strategy = ScheduleStrategy.SCHED_STATIC), queue.group_front with
  | true, group :: prev => some (some (finish (group, { queue with group_front := prev })))
  | _, _ =>
    if g.group_gen_strategy = ScheduleStrategy.SCHED_SINGLE_JOB ∨ queue.len ≤ 1 ∨
        queue.total_time ≤ 0 then
      some ((jobqueue_extract_single_group mem queue).map finish)
    else
      match queue.front with
      | none => some none
      | some job =>
        match (queue.heap job).job.avgElapsed with
        | none => some ((jobqueue_extract_single_group mem queue).map finish)
        | some p =>
          let duration := mem p
          let target0 : ℚ := queue.total_time * g.cppadcg_pool_multijob_maxgroupwork /
            (num_threads : ℚ)
          let t := get_monotonic_time clock
          let current_time := t.1
          let info := t.2
          let min_duration : ℚ := 9 / 10 * (queue.highest_expected_return - current_time)
          let target_duration : ℚ :=
            if 0 < queue.highest_expected_return ∧ info ≠ 0 then
              (if target0 < min_duration then min_duration else target0)
            else target0
          match jobqueue_pull_walk queue.heap mem target_duration queue.front queue.len
              (queue.heap job).prev 1 duration duration with
          | none => none
          | some none => some none
          | some (some (size, duration)) =>
            match jobqueue_pull_extract mem size queue [] with
            | none => some none
            | some (jobs, q) =>
              let duration_next := current_time + duration
              let q2 : JobQueue :=
                if q.highest_expected_return < duration_next then
                  { q with highest_expected_return := duration_next }
                else q
              some (some (finish ({ jobs := jobs, size := size }, q2)))

/-- The end of `thpool_wait`: once `len` is `0` and there is no group chain
(and no thread is working) the two assignments are made. No result while it
waits. -/
def thpool_wait (queue : JobQueue) : Option JobQueue :=
  if queue.len = 0 ∧ queue.group_front = [] then
    some { queue with total_time := 0, highest_expected_return := 0 }
  else none

/-- The addresses `l` are the records reached from the pointer `p` by
following `prev` up to the null pointer. -/
def IsChain (heap : Nat → JobCell) : Option Nat → List Nat → Prop
  | p, [] => p = none
  | p, a :: l => p = some a ∧ IsChain heap (heap a).prev l

/-- The record `malloc` returns is none of the records in the queue. -/
def Fresh (queue : JobQueue) (newjob : Nat) : Prop :=
  ∀ l, IsChain queue.heap queue.front l → newjob ∉ l

/-- The queues reached from `jobqueue_init` by `jobqueue_push` and
`jobqueue_multipush` of newly allocated records, by the static push, by
`jobqueue_extract_single`, by `jobqueue_pull` (any settings, any clock read)
and by the reset at the end of `thpool_wait`. -/
inductive Reachable (mem : Nat → ℚ) (num_threads : Nat) : JobQueue → Prop where
  | init (heap : Nat → JobCell) : Reachable mem num_threads (jobqueue_init heap)
  | push (q q' : JobQueue) (newjob : Nat) (job : Job) :
      Reachable mem num_threads q → Fresh q newjob →
      jobqueue_push mem (job_store q newjob job) newjob = some q' →
      Reachable mem num_threads q'
  | multipush (q q' : JobQueue) (newjobs : List (Nat × Job)) :
      Reachable mem num_threads q → (newjobs.map (fun x => x.1)).Nodup →
      (∀ x ∈ newjobs, Fresh q x.1) →
      jobqueue_multipush mem (newjobs.foldl (fun q x => job_store q x.1 x.2) q)
        (newjobs.map (fun x => x.1)) = some q' →
      Reachable mem num_threads q'
  | push_static (q : JobQueue) (groups : List WorkGroup) :
      Reachable mem num_threads q →
      Reachable mem num_threads (jobqueue_push_static_chain q groups)
  | extract_single (q q' : JobQueue) (r : Option Nat) :
      Reachable mem num_threads q → jobqueue_extract_single mem q = some (r, q') →
      Reachable mem num_threads q'
  | pull (q q' : JobQueue) (g : Globals) (clock : Option ℚ) (grp : WorkGroup) :
      Reachable mem num_threads q →
      jobqueue_pull g mem clock num_threads q = some (some (grp, q')) →
      Reachable mem num_threads q'
  | wait (q q' : JobQueue) :
      Reachable mem num_threads q → thpool_wait q = some q' → Reachable mem num_threads q'

/-- The queue `q` is well formed with chain `l`: `l` lists the records from
`front` on, without repetition, `len` is their number, `rear` the last of
them, and `total_time` the sum of their averages. -/
def WellFormed (mem : Nat → ℚ) (q : JobQueue) (l : List Nat) : Prop :=
  IsChain q.heap q.front l ∧ l.Nodup ∧ l.length = q.len ∧ q.rear = l.getLast? ∧
    q.total_time = (l.map (fun a => jobAvg mem (q.heap a).job)).sum

/-- A heap in which nothing has been written yet. -/
def empty_heap : Nat → JobCell := fun _ => { prev := none, job := default }

/-- The queue after `thpool_add_job` has allocated its record at address `5`
and pushed it on the queue built by `jobqueue_init`. -/
def example_queue (mem : Nat → ℚ) : JobQueue :=
  (jobqueue_push mem (job_store (jobqueue_init empty_heap) 5 ⟨10, 20, some 0, none⟩) 5).getD
    (jobqueue_init empty_heap)

/-- The queue after a second record, allocated at address `3`, has been
pushed. -/
def example_queue2 (mem : Nat → ℚ) : JobQueue :=
  (jobqueue_push mem (job_store (example_queue mem) 3 ⟨11, 21, some 1, none⟩) 3).getD
    (jobqueue_init empty_heap)

end Heap

/-! ## `DummyDerivatives::nextColumnSelection` and the brute-force loop of
`selectDummyDerivatives` (`cg_dummy_deriv.hpp`)

A `std::vector<size_t>` is the list of its entries, a `std::set<size_t>` the
increasing list of its elements. -/

/-- The width of `size_t`. -/
def SIZE_WIDTH : Nat := 18446744073709551616

/-- The difference `a - b` of two `size_t` values. -/
def size_sub (a b : Nat) : Nat := (a + SIZE_WIDTH - b) % SIZE_WIDTH

/-- The member `insert` of `std::set<size_t>`. -/
def set_insert (x : Nat) : List Nat → List Nat
  | [] => [x]
  | y :: ys =>
    if x < y then x :: y :: ys
    else if x = y then y :: ys
    else y :: set_insert x ys

/-- The inner loop of `nextColumnSelection`:
`vcols2keep[cc2] = vcols2keep[cc2 - 1] + 1` for `cc2` from the given start,
`count` times. -/
def nextColumnSelection_reset : Nat → Nat → List Nat → List Nat
  | 0, _, vcols2keep => vcols2keep
  | count + 1, cc2, vcols2keep =>
    nextColumnSelection_reset count (cc2 + 1)
      (vcols2keep.set cc2 ((vcols2keep.getD (cc2 - 1) 0 + 1) % SIZE_WIDTH))

/-- The loop `for (cc = 1; cc < vcols2keep.size(); cc++)` of
`nextColumnSelection`, from `cc` on for at most `count` values of `cc`, with
its `break`; `nfree` is `freeCols.size()`. -/
def nextColumnSelection_scan (nfree : Nat) : Nat → Nat → List Nat → List Nat
  | 0, _, vcols2keep => vcols2keep
  | count + 1, cc, vcols2keep =>
    if vcols2keep.getD cc 0 = size_sub nfree (size_sub vcols2keep.length cc) then
      let v1 := vcols2keep.set (cc - 1) ((vcols2keep.getD (cc - 1) 0 + 1) % SIZE_WIDTH)
      nextColumnSelection_reset (v1.length - cc) cc v1
    else nextColumnSelection_scan nfree count (cc + 1) vcols2keep

/-- The part of `nextColumnSelection` that changes a non-empty `vcols2keep`:
the vector afterwards, or `none` at the return marked "end of combinations". -/
def nextColumnSelection_advance (nfree : Nat) (vcols2keep : List Nat) : Option (List Nat) :=
  if vcols2keep.getLastD 0 = size_sub nfree 1 then
    if vcols2keep.headD 0 = size_sub nfree vcols2keep.length then none
    else some (nextColumnSelection_scan nfree (vcols2keep.length - 1) 1 vcols2keep)
  else
    some (vcols2keep.set (vcols2keep.length - 1)
      ((vcols2keep.getLastD 0 + 1) % SIZE_WIDTH))

/-- The loop that inserts `freeCols[vcols2keep[c]]` into the set `cols2keep`.
No result when an index is outside `freeCols`. -/
def nextColumnSelection_insert (freeCols : List Nat) : List Nat → List Nat →
    Option (List Nat)
  | [], cols2keep => some cols2keep
  | c :: rest, cols2keep =>
    match freeCols[c]? with
    | none => none
    | some vColIndex =>
      nextColumnSelection_insert freeCols rest (set_insert vColIndex cols2keep)

/-- The function `nextColumnSelection`: the vector returned and `vcols2keep`
as the call leaves it. No result when an index is outside `freeCols`. -/
def nextColumnSelection (fixedCols freeCols vcols2keep : List Nat) :
    Option (List Nat × List Nat) :=
  if vcols2keep = [] then some ([], vcols2keep)
  else
    match nextColumnSelection_advance freeCols.length vcols2keep with
    | none => some ([], vcols2keep)
    | some v => (nextColumnSelection_insert freeCols v fixedCols).map (fun cols => (cols, v))

/-- How a run of the brute-force loop ends: by its `break`, by an index
outside `freeCols`, or cut off after the given number of iterations. -/
inductive LoopEnd where
  | exited
  | fault
  | cut_off
deriving DecidableEq, Repr

/-- The `while (true)` loop of `selectDummyDerivatives`, for at most `fuel`
iterations: the column selections evaluated, each with the value of
`vcols2keep` at that moment, and how the run ends. What the evaluation of a
selection computes (`bestCols2keep`) is not followed. -/
def selectDummyDerivatives_loop (fixedCols freeCols : List Nat) :
    Nat → List Nat → List Nat → List (List Nat × List Nat) × LoopEnd
  | 0, _, _ => ([], LoopEnd.cut_off)
  | fuel + 1, vcols2keep, cols2keep =>
    match nextColumnSelection fixedCols freeCols vcols2keep with
    | none => ([(vcols2keep, cols2keep)], LoopEnd.fault)
    | some (next, v) =>
      if next = [] then ([(vcols2keep, cols2keep)], LoopEnd.exited)
      else
        let r := selectDummyDerivatives_loop fixedCols freeCols fuel v next
        ((vcols2keep, cols2keep) :: r.1, r.2)

/-- The brute-force part of `selectDummyDerivatives`, from the initial values
of `vcols2keep` (`0, 1, ..., eqs.size() - fixedCols.size() - 1`) and
`cols2keep`; `eqs_size` is `eqs.size()`. -/
def selectDummyDerivatives_selections (fixedCols freeCols : List Nat) (eqs_size fuel : Nat) :
    List (List Nat × List Nat) × LoopEnd :=
  let vcols2keep := List.range (size_sub eqs_size fixedCols.length)
  match nextColumnSelection_insert freeCols vcols2keep fixedCols with
  | none => ([], LoopEnd.fault)
  | some cols2keepAux =>
    if eqs_size < cols2keepAux.length then ([], LoopEnd.fault)
    else
      selectDummyDerivatives_loop fixedCols freeCols fuel vcols2keep
        (cols2keepAux ++ List.replicate (eqs_size - cols2keepAux.length) 0)

/-- All strictly increasing lists of `k` numbers taken from
`lo, lo + 1, ..., lo + m - 1`, in lexicographic order. -/
def combos : Nat → Nat → Nat → List (List Nat)
  | _, _, 0 => [[]]
  | 0, _, _ + 1 => []
  | m + 1, lo, k + 1 =>
    (combos m (lo + 1) k).map (fun t => lo :: t) ++ combos m (lo + 1) (k + 1)

/-! ## The queue and the pool with rounded `float` arithmetic

The definitions of this section follow the same functions of
`pthread_pool.c` as the sections above, with every `float` operation followed
by a rounding `round : ℚ → ℚ` of its exact result, as the C compiler
evaluates `float` expressions one operation at a time. With the identity for
`round` they are the definitions above; with `binary32_round` they are the
arithmetic of IEEE 754 `binary32` on finite values. -/

/-- The power `2 ^ e` for an integer exponent. -/
def pow2 (e : Int) : ℚ :=
  match e with
  | Int.ofNat n => Rat.ofInt (2 ^ n)
  | Int.negSucc n => mkRat 1 (2 ^ (n + 1))

/-- The number of halvings that bring `n` below `2` (the integer binary
logarithm of `n ≥ 1`), with a bound on the number of steps. -/
def nat_log2 : Nat → Nat → Nat
  | 0, _ => 0
  | fuel + 1, n => if n < 2 then 0 else nat_log2 fuel (n / 2) + 1

/-- The exponent `e` with `2 ^ e ≤ |q| < 2 ^ (e + 1)` of a non-zero `q`, and
`-126` (the exponent of the subnormal `binary32` numbers) when that is
smaller. -/
def binary32_exponent (q : ℚ) : Int :=
  let a : ℚ := if q < 0 then -q else q
  let e0 : Int := (nat_log2 q.num.natAbs q.num.natAbs : Int) - (nat_log2 q.den q.den : Int)
  let e : Int := if pow2 e0 ≤ a then e0 else e0 - 1
  if e < -126 then -126 else e

/-- Rounding to the nearest `binary32` number, ties to the even significand
(24 significant bits, smallest step `2 ^ (-149)`). Overflow to an infinity is
not represented: the rounding is applied as if the exponent range had no upper
end. -/
def binary32_round (q : ℚ) : ℚ :=
  if q = 0 then 0
  else
    let ulp := pow2 (binary32_exponent q - 23)
    let m := q / ulp
    let n : Int := Rat.floor m
    let r := m - n
    let k : Int :=
      if r < 1 / 2 then n
      else if 1 / 2 < r then n + 1
      else if n % 2 = 0 then n else n + 1
    k * ulp

namespace Rounded

/-- The function `jobqueue_push_internal`. -/
def jobqueue_push_internal (round : ℚ → ℚ) (mem : Nat → ℚ) (queue : JobQueue) (newjob : Job) :
    JobQueue :=
  let q1 : JobQueue :=
    match queue.len with
    | 0 => { queue with front := [newjob] }
    | _ => { queue with front := queue.front ++ [newjob] }
  let q2 : JobQueue :=
    match newjob.avgElapsed with
    | some p => { q1 with total_time := round (q1.total_time + mem p) }
    | none => q1
  { q2 with len := q2.len + 1 }

/-- The function `jobqueue_push`. -/
def jobqueue_push (round : ℚ → ℚ) (mem : Nat → ℚ) (queue : JobQueue) (newjob : Job) :
    JobQueue :=
  { jobqueue_push_internal round mem queue newjob with has_jobs := 1 }

/-- The function `jobqueue_multipush`. -/
def jobqueue_multipush (round : ℚ → ℚ) (mem : Nat → ℚ) (queue : JobQueue)
    (newjob : List Job) : JobQueue :=
  { newjob.foldl (jobqueue_push_internal round mem) queue with has_jobs := 1 }

/-- The function `jobqueue_extract_single`: the returned pointer (`none` is
`NULL`) and the queue afterwards. No result when `job->prev` is read through
a null `front`. -/
def jobqueue_extract_single (round : ℚ → ℚ) (mem : Nat → ℚ) (queue : JobQueue) :
    Option (Option Job × JobQueue) :=
  match queue.len with
  | 0 => some (none, queue)
  | 1 => some (queue.front.head?,
      { queue with front := [], len := 0, total_time := 0, highest_expected_return := 0 })
  | _ =>
    match queue.front with
    | [] => none
    | job :: rest =>
      let q1 : JobQueue := { queue with front := rest, len := queue.len - 1 }
      match job.avgElapsed with
      | some p => some (some job, { q1 with total_time := round (q1.total_time - mem p) })
      | none => some (some job, q1)

/-- The function `jobqueue_extract_single_group`: the fields written into
`group` and the queue afterwards. -/
def jobqueue_extract_single_group (round : ℚ → ℚ) (mem : Nat → ℚ) (queue : JobQueue) :
    Option (WorkGroup × JobQueue) :=
  match jobqueue_extract_single round mem queue with
  | none => none
  | some (some job, q) => some ({ jobs := [job], size := 1 }, q)
  | some (none, q) => some ({ jobs := [], size := 0 }, q)

/-- The `do ... while` loop of `jobqueue_pull`: the first list argument is the
chain from `job` on. Returns `size` and `duration`. Reading `job->avgElapsed`
at the end of the chain is a null dereference. The test `job != queue->front`
of the loop never fails on a chain. -/
def jobqueue_pull_walk (round : ℚ → ℚ) (mem : Nat → ℚ) (target_duration : ℚ) :
    List Job → Nat → ℚ → ℚ → Option (Nat × ℚ)
  | [], _, _, _ => none
  | job :: rest, size, duration, duration_next =>
    match job.avgElapsed with
    | none => some (size, duration)
    | some p =>
      if round (duration_next + mem p) < target_duration then
        jobqueue_pull_walk round mem target_duration rest (size + 1)
          (round (duration_next + mem p)) (round (duration_next + mem p))
      else some (size, duration)

/-- The extraction loop of `jobqueue_pull`: `count` calls of
`jobqueue_extract_single`, each result copied into the next slot of
`group->jobs`. Copying from a null result is a null dereference. -/
def jobqueue_pull_extract (round : ℚ → ℚ) (mem : Nat → ℚ) : Nat → JobQueue → List Job →
    Option (List Job × JobQueue)
  | 0, queue, jobs => some (jobs, queue)
  | count + 1, queue, jobs =>
    match jobqueue_extract_single round mem queue with
    | some (some job, q) => jobqueue_pull_extract round mem count q (jobs ++ [job])
    | _ => none

/-- The value of `target_duration` when the walk of `jobqueue_pull` starts:
`total_time * multijob_maxgroupwork / num_threads`, enlarged to
`0.9f * (highest_expected_return - current_time)` under the test of the
source. -/
def jobqueue_pull_target (round : ℚ → ℚ) (g : Globals) (clock : Option ℚ) (thpool : ThPool) :
    ℚ :=
  let queue := thpool.jobqueue
  let target0 : ℚ := round (round (queue.total_time * g.cppadcg_pool_multijob_maxgroupwork) /
    round (thpool.num_threads : ℚ))
  let t := get_monotonic_time clock
  let min_duration : ℚ := round (round (9 / 10) * round (queue.highest_expected_return - t.1))
  if 0 < queue.highest_expected_return ∧ t.2 ≠ 0 then
    (if target0 < min_duration then min_duration else target0)
  else target0

/-- The function `jobqueue_pull`: the work group handed to the worker and the
pool afterwards. -/
def jobqueue_pull (round : ℚ → ℚ) (g : Globals) (mem : Nat → ℚ) (clock : Option ℚ)
    (thpool : ThPool) : Option (WorkGroup × ThPool) :=
  let queue := thpool.jobqueue
  let finish : WorkGroup × JobQueue → WorkGroup × ThPool :=
    fun r => (r.1, { thpool with jobqueue := jobqueue_pull_post r.2 })
  match decide (g.group_gen_strategy = ScheduleStrategy.SCHED_STATIC), queue.group_front with
  | true, group :: prev => some (finish (group, { queue with group_front := prev }))
  | _, _ =>
    if g.group_gen_strategy = ScheduleStrategy.SCHED_SINGLE_JOB ∨ queue.len ≤ 1 ∨
        queue.total_time ≤ 0 then
      (jobqueue_extract_single_group round mem queue).map finish
    else
      match queue.front with
      | [] => none
      | job :: rest =>
        match job.avgElapsed with
        | none => (jobqueue_extract_single_group round mem queue).map finish
        | some p =>
          let duration := mem p
          let target_duration := jobqueue_pull_target round g clock thpool
          let current_time := (get_monotonic_time clock).1
          match jobqueue_pull_walk round mem target_duration rest 1 duration duration with
          | none => none
          | some (size, duration) =>
            match jobqueue_pull_extract round mem size queue [] with
            | none => none
            | some (jobs, q) =>
              let duration_next := round (current_time + duration)
              let q2 : JobQueue :=
                if q.highest_expected_return < duration_next then
                  { q with highest_expected_return := duration_next }
                else q
              some (finish ({ jobs := jobs, size := size }, q2))

/-- Calls `jobqueue_pull` again and again until `len = 0`, at most `fuel`
times; pull number `k` reads the monotonic clock successfully as `clock k`.
Returns the work groups in pull order. No result when a pull has none, or
when the queue is not empty after `fuel` pulls. -/
def pull_until_empty (round : ℚ → ℚ) (g : Globals) (mem : Nat → ℚ) (clock : Nat → ℚ) :
    Nat → Nat → ThPool → Option (List WorkGroup × ThPool)
  | 0, _, thpool => if thpool.jobqueue.len = 0 then some ([], thpool) else none
  | fuel + 1, k, thpool =>
    if thpool.jobqueue.len = 0 then some ([], thpool)
    else
      match jobqueue_pull round g mem (some (clock k)) thpool with
      | none => none
      | some (group, p) =>
        (pull_until_empty round g mem clock fuel (k + 1) p).map (fun r => (group :: r.1, r.2))

/-- Successive calls of `jobqueue_pull`, `count` of them; call number `k`
reads the monotonic clock as `clock k` (`none` when the read fails). Returns
the work groups in pull order. No result when one of the pulls has none. -/
def jobqueue_pull_many (round : ℚ → ℚ) (g : Globals) (mem : Nat → ℚ)
    (clock : Nat → Option ℚ) : Nat → Nat → ThPool → Option (List WorkGroup × ThPool)
  | 0, _, thpool => some ([], thpool)
  | count + 1, k, thpool =>
    match jobqueue_pull round g mem (clock k) thpool with
    | none => none
    | some (group, p) =>
      (jobqueue_pull_many round g mem clock count (k + 1) p).map
        (fun r => (group :: r.1, r.2))

/-- The inner first-fit loop of `jobqueue_push_static_jobs`: the first bin `i`
(counted from `i0`) with `durations[i] + avgElapsed[j] < target_duration`. -/
def static_first_fit (round : ℚ → ℚ) (target_duration a : ℚ) : List ℚ → Nat → Option Nat
  | [], _ => none
  | d :: ds, i0 =>
    if round (d + a) < target_duration then some i0
    else static_first_fit round target_duration a ds (i0 + 1)

/-- The fallback loop over the bins from `i0` on: keeps `best_duration` and
`iBest`, replaced only by a strictly smaller `next_duration`. -/
def static_least_loaded (round : ℚ → ℚ) (a : ℚ) : List ℚ → Nat → ℚ → Nat → ℚ × Nat
  | [], _, best_duration, iBest => (best_duration, iBest)
  | d :: ds, i0, best_duration, iBest =>
    if round (d + a) < best_duration then
      static_least_loaded round a ds (i0 + 1) (round (d + a)) i0
    else static_least_loaded round a ds (i0 + 1) best_duration iBest

/-- One iteration of the placement loop, for a job of average `a`. -/
def static_place (round : ℚ → ℚ) (target_duration : ℚ) (st : StaticBins) (a : ℚ) :
    StaticBins :=
  match static_first_fit round target_duration a st.durations 0 with
  | some i =>
    { durations := st.durations.set i (round (st.durations.getD i 0 + a))
      n_jobs := st.n_jobs.set i (st.n_jobs.getD i 0 + 1)
      jobs2thread := st.jobs2thread ++ [i] }
  | none =>
    let r := static_least_loaded round a st.durations.tail 1
      (round (st.durations.headD 0 + a)) 0
    { durations := st.durations.set r.2 r.1
      n_jobs := st.n_jobs.set r.2 (st.n_jobs.getD r.2 0 + 1)
      jobs2thread := st.jobs2thread ++ [r.2] }

/-- The sum `total_duration` of `avgElapsed[0 .. nJobs-1]`. -/
def static_total_duration (round : ℚ → ℚ) (avgElapsed : Nat → ℚ) (nJobs : Nat) : ℚ :=
  (List.range nJobs).foldl (fun t i => round (t + avgElapsed i)) 0

/-- The placement part of `jobqueue_push_static_jobs`: the bins after all
`nJobs` jobs have been placed. -/
def static_assign (round : ℚ → ℚ) (num_threads : Nat) (avgElapsed : Nat → ℚ) (nJobs : Nat) :
    StaticBins :=
  let bins := static_num_bins num_threads nJobs
  let target_duration := round (static_total_duration round avgElapsed nJobs /
    round (bins : ℚ))
  (List.range nJobs).foldl
    (fun st j => static_place round target_duration st (avgElapsed j))
    { durations := List.replicate bins 0, n_jobs := List.replicate bins 0, jobs2thread := [] }

/-- The function `jobqueue_push_static_jobs`: the return value and the pool
afterwards. `avgElapsed` is the address of the caller's array. No result when
there is no bin (`groups[num_threads - 1]` is then outside the array). -/
def jobqueue_push_static_jobs (round : ℚ → ℚ) (env : Env) (thpool : ThPool)
    (newjobs : List Job) (avgElapsed : Nat) (nJobs : Nat) : Option (Int × ThPool) :=
  let num_threads := static_num_bins thpool.num_threads nJobs
  if !env.malloc_static then some (-1, thpool)
  else if num_threads = 0 then none
  else
    let st := static_assign round thpool.num_threads (fun j => env.mem (avgElapsed + j)) nJobs
    let groups : List WorkGroup :=
      st.n_jobs.map (fun n => { jobs := List.replicate n default, size := 0 })
    let groups := static_fill groups (List.zip newjobs st.jobs2thread)
    let queue := thpool.jobqueue
    some (0, { thpool with
      jobqueue := { queue with group_front := groups ++ queue.group_front, has_jobs := 1 } })

/-- The function `thpool_add_job`. -/
def thpool_add_job (round : ℚ → ℚ) (env : Env) (thpool : ThPool) (function arg : Nat)
    (avgElapsed elapsed : Option Nat) : Int × ThPool :=
  if !env.malloc_job 0 then (-1, thpool)
  else
    let newjob : Job :=
      { function := function, arg := arg, avgElapsed := avgElapsed, elapsed := elapsed }
    (0, { thpool with jobqueue := jobqueue_push round env.mem thpool.jobqueue newjob })

/-- The function `thpool_add_jobs`: the return value and the pool afterwards. -/
def thpool_add_jobs (round : ℚ → ℚ) (g : Globals) (env : Env) (thpool : ThPool)
    (functions args : Nat → Nat) (avgElapsed elapsed : Option Nat)
    (order : Option (Nat → Nat)) (nJobs : Nat) : Option (Int × ThPool) :=
  if !(List.range nJobs).all env.malloc_job then some (-1, thpool)
  else
    let newjobs := thpool_add_jobs_records functions args avgElapsed elapsed order nJobs
    if thpool_add_jobs_static g env avgElapsed order nJobs then
      jobqueue_push_static_jobs round env thpool newjobs (avgElapsed.getD 0) nJobs
    else
      some (0, { thpool with
        jobqueue := jobqueue_multipush round env.mem thpool.jobqueue newjobs })

/-- One step of a worker in `thread_do`, from one lock-protected action to
the next. `clock` is the monotonic clock read of `jobqueue_pull`. The jobs of
the pulled group are run in state `running`. No result while the worker blocks
in `bsem_wait`, when `jobqueue_pull` has none, and after the worker has
returned. -/
def thread_do_step (round : ℚ → ℚ) (g : Globals) (mem : Nat → ℚ) (clock : Option ℚ)
    (pc : WorkerPc) (thpool : ThPool) : Option (WorkerPc × ThPool) :=
  match pc with
  | WorkerPc.starting =>
    some (WorkerPc.idle, { thpool with num_threads_alive := thpool.num_threads_alive + 1 })
  | WorkerPc.idle =>
    if thpool.threads_keepalive ≠ 0 then
      (bsem_wait thpool.jobqueue.has_jobs).map (fun v =>
        (WorkerPc.woken, { thpool with jobqueue := { thpool.jobqueue with has_jobs := v } }))
    else some (WorkerPc.leaving, thpool)
  | WorkerPc.woken =>
    if thpool.threads_keepalive = 0 then some (WorkerPc.leaving, thpool)
    else some (WorkerPc.counting, thpool)
  | WorkerPc.counting =>
    some (WorkerPc.pulling,
      { thpool with num_threads_working := thpool.num_threads_working + 1 })
  | WorkerPc.pulling =>
    (jobqueue_pull round g mem clock thpool).map (fun r => (WorkerPc.running, r.2))
  | WorkerPc.running =>
    some (WorkerPc.idle, { thpool with num_threads_working := thpool.num_threads_working - 1 })
  | WorkerPc.leaving =>
    some (WorkerPc.exited, { thpool with num_threads_alive := thpool.num_threads_alive - 1 })
  | WorkerPc.exited => none

/-- One action on the pool. `cppadcg_thpool_prepare` returns when every worker
of a new pool has marked itself alive, and is then at its loop test. No result
when the action cannot be taken. -/
def pool_step (round : ℚ → ℚ) (env : Env) (s : PoolRun) : PoolAction → Option PoolRun
  | PoolAction.prepare =>
    match s.g.cppadcg_pool with
    | some _ => some s
    | none =>
      let g1 := cppadcg_thpool_prepare s.g env
      match g1.cppadcg_pool with
      | some pool => some { g := g1, pcs := List.replicate pool.num_threads WorkerPc.idle }
      | none => some { g := g1, pcs := [] }
  | PoolAction.set_threads n => some { s with g := cppadcg_thpool_set_threads s.g n }
  | PoolAction.set_scheduler_strategy st =>
    some { s with g := cppadcg_thpool_set_scheduler_strategy s.g st }
  | PoolAction.set_multijob_maxgroupwork v =>
    some { s with g := cppadcg_thpool_set_multijob_maxgroupwork s.g v }
  | PoolAction.add_job function arg avgElapsed elapsed =>
    match s.g.cppadcg_pool with
    | some pool =>
      some { s with g := { s.g with
        cppadcg_pool :=
          some (thpool_add_job round env pool function arg avgElapsed elapsed).2 } }
    | none => none
  | PoolAction.add_jobs functions args avgElapsed elapsed order nJobs =>
    match s.g.cppadcg_pool with
    | some pool =>
      (thpool_add_jobs round s.g env pool functions args avgElapsed elapsed order nJobs).map
        (fun r => { s with g := { s.g with cppadcg_pool := some r.2 } })
    | none => none
  | PoolAction.worker i clock =>
    match s.g.cppadcg_pool, s.pcs[i]? with
    | some pool, some pc =>
      (thread_do_step round s.g env.mem clock pc pool).map (fun r =>
        { g := { s.g with cppadcg_pool := some r.2 }, pcs := s.pcs.set i r.1 })
    | _, _ => none
  | PoolAction.destroy_keepalive =>
    match s.g.cppadcg_pool with
    | some pool =>
      some { s with g := { s.g with cppadcg_pool := some { pool with threads_keepalive := 0 } } }
    | none => none
  | PoolAction.destroy_post =>
    match s.g.cppadcg_pool with
    | some pool =>
      if pool.threads_keepalive = 0 ∧ pool.num_threads_alive ≠ 0 then
        some { s with g := { s.g with cppadcg_pool := some { pool with
          jobqueue := { pool.jobqueue with has_jobs := bsem_post_all pool.jobqueue.has_jobs } } } }
      else none
    | none => none
  | PoolAction.destroy_free =>
    match s.g.cppadcg_pool with
    | some pool =>
      if pool.threads_keepalive = 0 ∧ pool.num_threads_alive = 0 then
        some { g := { s.g with cppadcg_pool := none }, pcs := [] }
      else none
    | none => none

/-- The actions of a list, one after the other. -/
def pool_run (round : ℚ → ℚ) (env : Env) : PoolRun → List PoolAction → Option PoolRun
  | s, [] => some s
  | s, a :: rest =>
    match pool_step round env s a with
    | some s1 => pool_run round env s1 rest
    | none => none

/-- The calls `function(arg)` a worker makes after one step in `thread_do`:
the worker that leaves `jobqueue_pull` with a work group runs the job loop
over it before its next step. -/
def thread_do_step_calls (round : ℚ → ℚ) (g : Globals) (mem : Nat → ℚ) (clock : Option ℚ)
    (pc : WorkerPc) (thpool : ThPool) : List (Nat × Nat) :=
  match pc with
  | WorkerPc.pulling =>
    match jobqueue_pull round g mem clock thpool with
    | some r => (thread_do_group (fun _ => none) (worker_start mem) r.1).calls
    | none => []
  | _ => []

/-- The calls `function(arg)` the workers make during one action of the run. -/
def pool_step_calls (round : ℚ → ℚ) (env : Env) (s : PoolRun) :
    PoolAction → List (Nat × Nat)
  | PoolAction.worker i clock =>
    match s.g.cppadcg_pool, s.pcs[i]? with
    | some pool, some pc => thread_do_step_calls round s.g env.mem clock pc pool
    | _, _ => []
  | _ => []

/-- The calls made by the workers during a run, in the order of the actions. -/
def pool_run_calls (round : ℚ → ℚ) (env : Env) : PoolRun → List PoolAction →
    List (Nat × Nat)
  | _, [] => []
  | s, a :: rest =>
    match pool_step round env s a with
    | some s1 => pool_step_calls round env s a ++ pool_run_calls round env s1 rest
    | none => []

end Rounded

/-- The calls `fn(arg)` that an action hands to the pool: the one job of
`cppadcg_thpool_add_job`, and the jobs of the records that
`cppadcg_thpool_add_jobs` builds (`functions[j](args[j])` with `j = order[i]`,
or `j = i` without `order`). -/
def PoolAction.submitted : PoolAction → List (Nat × Nat)
  | PoolAction.add_job function arg _ _ => [(function, arg)]
  | PoolAction.add_jobs functions args avgElapsed elapsed order nJobs =>
    (thpool_add_jobs_records functions args avgElapsed elapsed order nJobs).map
      (fun job => (job.function, job.arg))
  | _ => []

/-- An action other than the release of the pool by `thpool_destroy`. -/
def PoolAction.keeps_pool : PoolAction → Bool
  | PoolAction.destroy_free => false
  | _ => true

/-- The function `thpool_wait`: it returns once `len`, `group_front` and
`num_threads_working` are all zero, and resets `total_time` and
`highest_expected_return`. No result while it blocks. -/
def thpool_wait (thpool : ThPool) : Option ThPool :=
  if thpool.jobqueue.len ≠ 0 ∨ thpool.jobqueue.group_front ≠ [] ∨
      thpool.num_threads_working ≠ 0 then none
  else some { thpool with
    jobqueue := { thpool.jobqueue with total_time := 0, highest_expected_return := 0 } }

/-- A pool of `num_threads` threads whose queue holds `nJobs` records handed
over by one `jobqueue_multipush`: record `j` has function `j`, argument `j`
and `avgElapsed = &mem[j]`. -/
def Rounded.queued_pool (round : ℚ → ℚ) (mem : Nat → ℚ) (num_threads nJobs : Nat) : ThPool :=
  { fresh_pool num_threads with
    jobqueue := Rounded.jobqueue_multipush round mem jobqueue_init
      (thpool_add_jobs_records id id (some 0) none none nJobs) }

/-- The calls `fn(arg)` of the jobs that the queue holds: the records of the
FIFO chain and the jobs of the pre-built work groups. -/
def queued_calls (queue : JobQueue) : List (Nat × Nat) :=
  (queue.front ++ (queue.group_front.map (fun grp => grp.jobs)).flatten).map
    (fun job => (job.function, job.arg))

/-- The counters of the queue agree with its contents: `len` counts the FIFO
chain and the `size` of every pre-built group counts its jobs. -/
def queue_counted (queue : JobQueue) : Prop :=
  queue.len = queue.front.length ∧ ∀ grp ∈ queue.group_front, grp.size = grp.jobs.length

/-- A live pool of `n` workers, all at their loop test, as
`cppadcg_thpool_prepare` leaves it when `n` threads are configured. -/
def live_pool_run (n : Nat) : PoolRun :=
  { g := { Globals.initial with cppadcg_pool := some (fresh_pool n) }
    pcs := List.replicate n WorkerPc.idle }

/-- The five steps that take worker `i` from its loop test through
`bsem_wait`, `num_threads_working++`, `jobqueue_pull` and the job loop back to
its loop test. -/
def worker_cycle (i : Nat) (clock : Option ℚ) : List PoolAction :=
  List.replicate 5 (PoolAction.worker i clock)

/-- Surroundings in which the second allocation of a job record fails. -/
def env_second_malloc_fails (mem : Nat → ℚ) : Env :=
  { mem := mem, malloc_pool := true, malloc_job := fun i => decide (i ≠ 1),
    malloc_static := true }

/-- The average `2^-24 + 2^-30`, a `binary32` number just above half the
spacing of the `binary32` numbers at `1`. -/
def avg_small : ℚ := mkRat 65 1073741824

/-- One average of `1` followed by four of `avg_small`. -/
def avg_one_small : Nat → ℚ := arr [1, avg_small, avg_small, avg_small, avg_small]

/-! ## Theorems -/

theorem update_order_avg_spec (avg : Nat → ℚ) (n : Nat) (el : Nat → ℚ) (k : Nat) :
    update_order_avg avg n el k =
      (fun i => if i < k then movingAvg avg n el i else avg i,
       (List.range k).map (fun i => { val := movingAvg avg n el i, index := i })) := by
  induction k with
  | zero => simp [update_order_avg]
  | succ k ih =>
    unfold update_order_avg at ih ⊢
    rw [List.range_succ, List.foldl_append, ih]
    simp only [List.foldl_cons, List.foldl_nil, update_order_avg_step, List.map_append,
      List.map_cons, List.map_nil]
    refine Prod.ext ?_ ?_
    · funext i
      simp only [Function.update_apply]
      by_cases h : i = k
      · subst h; simp [movingAvg]
      · have : (i < k + 1) = (i < k) := by
          apply propext; omega
        simp [h, this]
    · simp [movingAvg]

theorem comparePair_le_zero_iff (a b : pair_double_int) :
    comparePair a b ≤ 0 ↔ a.val ≤ b.val := by
  unfold comparePair
  split_ifs with h1 h2
  · simp [le_of_lt h1]
  · simp [h2]
  · have : ¬ a.val ≤ b.val := fun h => (lt_or_eq_of_le h).elim h1 h2
    simp [this]

theorem update_order_write_not_mem (n : Nat) (s : List pair_double_int) :
    ∀ (st : Nat) (o : Nat → Nat) (k : Nat), (∀ p ∈ s, p.index ≠ k) →
      update_order_write n s st o k = o k := by
  induction s with
  | nil => intro st o k _; rfl
  | cons p ps ih =>
    intro st o k hk
    simp only [update_order_write]
    rw [ih (st + 1) _ k (fun q hq => hk q (List.mem_cons_of_mem _ hq))]
    have : k ≠ p.index := fun h => hk p (List.mem_cons_self _ _) h.symm
    simp [Function.update_apply, this]

theorem update_order_write_le (n : Nat) (s : List pair_double_int) :
    ∀ (st : Nat) (o : Nat → Nat), (s.map (fun p => p.index)).Nodup →
      ∀ b ∈ s, update_order_write n s st o b.index ≤ n - st - 1 := by
  induction s with
  | nil => intro st o _ b hb; simp at hb
  | cons p ps ih =>
    intro st o hnd b hb
    simp only [List.map_cons, List.nodup_cons, List.mem_map, not_exists, not_and] at hnd
    simp only [update_order_write]
    by_cases hbp : b ∈ ps
    · have := ih (st + 1) (Function.update o p.index (n - st - 1)) hnd.2 b hbp
      omega
    · have hbe : b = p := by
        rcases List.mem_cons.mp hb with h | h
        · exact h
        · exact absurd h hbp
      subst hbe
      rw [update_order_write_not_mem n ps (st + 1) _ b.index
        (fun q hq h => hnd.1 q hq h)]
      simp

theorem update_order_write_before (n : Nat) (s : List pair_double_int) :
    ∀ (st : Nat) (o : Nat → Nat), (s.map (fun p => p.index)).Nodup →
      st + s.length ≤ n → ∀ a b, List.Sublist [a, b] s →
      update_order_write n s st o b.index < update_order_write n s st o a.index := by
  induction s with
  | nil => intro st o _ _ a b hab; simp at hab
  | cons p ps ih =>
    intro st o hnd hlen a b hab
    simp only [List.map_cons, List.nodup_cons, List.mem_map, not_exists, not_and] at hnd
    simp only [List.length_cons] at hlen
    simp only [update_order_write]
    by_cases h : List.Sublist [a, b] ps
    · exact ih (st + 1) _ hnd.2 (by omega) a b h
    · have h2 : a = p ∧ List.Sublist [b] ps := by
        cases hab with
        | cons _ h' => exact absurd h' h
        | cons₂ _ h' => exact ⟨rfl, h'⟩
      obtain ⟨rfl, hb⟩ := h2
      have hbm : b ∈ ps := List.singleton_sublist.mp hb
      have hle := update_order_write_le n ps (st + 1)
        (Function.update o a.index (n - st - 1)) hnd.2 b hbm
      rw [update_order_write_not_mem n ps (st + 1) _ a.index
        (fun q hq h' => hnd.1 q hq h')]
      have hpos : 1 ≤ ps.length := List.length_pos_of_mem hbm
      simp only [Function.update_same]
      omega

theorem sublist_pair_of_sorted (s : List pair_double_int)
    (hs : s.Pairwise (fun a b => comparePair a b ≤ 0)) :
    ∀ a b, a ∈ s → b ∈ s → a.val < b.val → List.Sublist [a, b] s := by
  induction s with
  | nil => intro a b ha; simp at ha
  | cons p ps ih =>
    intro a b ha hb hlt
    rw [List.pairwise_cons] at hs
    rcases List.mem_cons.mp ha with rfl | ha'
    · rcases List.mem_cons.mp hb with rfl | hb'
      · exact absurd hlt (lt_irrefl _)
      · exact List.Sublist.cons₂ _ (List.singleton_sublist.mpr hb')
    · rcases List.mem_cons.mp hb with rfl | hb'
      · have := (comparePair_le_zero_iff _ _).mp (hs.1 a ha')
        exact absurd hlt (not_lt.mpr this)
      · exact List.Sublist.cons _ (ih hs.2 a b ha' hb' hlt)

theorem update_order_nonZero_pos (el : Nat → ℚ) (nJobs : Nat)
    (h : update_order_nonZero el nJobs = true) : nJobs ≠ 0 := by
  rintro rfl
  simp [update_order_nonZero] at h

theorem update_order_some (qsort : (pair_double_int → pair_double_int → Int) →
    List pair_double_int → List pair_double_int)
    (avg : Nat → ℚ) (n : Nat) (el : Nat → ℚ) (ord : Nat → Nat) (nJobs : Nat)
    (hnz : update_order_nonZero el nJobs = true) :
    cppadcg_thpool_update_order qsort (some avg) n (some el) (some ord) nJobs =
      (some (fun i => if i < nJobs then movingAvg avg n el i else avg i),
       some (update_order_write nJobs (qsort comparePair ((List.range nJobs).map
          (fun i => { val := movingAvg avg n el i, index := i }))) 0 ord)) := by
  have h0 := update_order_nonZero_pos el nJobs hnz
  simp [cppadcg_thpool_update_order, h0, hnz, update_order_avg_spec]

/-- Facts about the sorted array `elapsed2` that follow from the `qsort` contract. -/
theorem elapsed2_facts (qsort : (pair_double_int → pair_double_int → Int) →
    List pair_double_int → List pair_double_int) (hq : QsortContract qsort)
    (v : Nat → ℚ) (nJobs : Nat) :
    let s := qsort comparePair ((List.range nJobs).map (fun i => { val := v i, index := i }))
    (s.map (fun p => p.index)).Nodup ∧ s.length = nJobs ∧
      s.Pairwise (fun a b => comparePair a b ≤ 0) ∧
      ∀ i, i < nJobs → ({ val := v i, index := i } : pair_double_int) ∈ s := by
  intro s
  obtain ⟨hp, hs⟩ := hq ((List.range nJobs).map (fun i => { val := v i, index := i }))
  refine ⟨?_, ?_, hs, ?_⟩
  · have h1 : (s.map (fun p => p.index)).Perm (List.range nJobs) := by
      have := hp.map (fun p => p.index)
      simpa [List.map_map, Function.comp_def] using this
    exact h1.nodup_iff.mpr (List.nodup_range nJobs)
  · simpa using hp.length_eq
  · intro i hi
    exact hp.mem_iff.mpr (List.mem_map.mpr ⟨i, List.mem_range.mpr hi, rfl⟩)

theorem elapsed2_mem_inv (qsort : (pair_double_int → pair_double_int → Int) →
    List pair_double_int → List pair_double_int) (hq : QsortContract qsort)
    (v : Nat → ℚ) (nJobs : Nat) (p : pair_double_int)
    (hp : p ∈ qsort comparePair ((List.range nJobs).map (fun i => { val := v i, index := i }))) :
    p.index < nJobs ∧ p.val = v p.index := by
  have := ((hq _).1.mem_iff).mp hp
  obtain ⟨i, hi, rfl⟩ := List.mem_map.mp this
  exact ⟨List.mem_range.mp hi, rfl⟩

theorem update_order_nonZero_iff (el : Nat → ℚ) (nJobs : Nat) :
    update_order_nonZero el nJobs = true ↔ ∃ i, i < nJobs ∧ el i ≠ 0 := by
  simp [update_order_nonZero]

theorem update_order_write_getElem (n : Nat) (s : List pair_double_int) :
    ∀ (st : Nat) (o : Nat → Nat), (s.map (fun p => p.index)).Nodup →
      ∀ (k : Nat) (hk : k < s.length),
        update_order_write n s st o (s.get ⟨k, hk⟩).index = n - (st + k) - 1 := by
  induction s with
  | nil => intro st o _ k hk; simp at hk
  | cons p ps ih =>
    intro st o hnd k hk
    simp only [List.map_cons, List.nodup_cons, List.mem_map, not_exists, not_and] at hnd
    simp only [update_order_write]
    cases k with
    | zero =>
      simp only [List.get_eq_getElem, List.getElem_cons_zero]
      rw [update_order_write_not_mem n ps (st + 1) _ p.index (fun q hq h => hnd.1 q hq h)]
      simp
    | succ k =>
      have hk' : k < ps.length := by simpa using hk
      have := ih (st + 1) (Function.update o p.index (n - st - 1)) hnd.2 k hk'
      simp only [List.get_eq_getElem, List.getElem_cons_succ] at this ⊢
      rw [this]
      omega

theorem qsort_stable_contract : QsortContract qsort_stable := by
  intro l
  haveI : IsTotal pair_double_int (fun a b => comparePair a b ≤ 0) :=
    ⟨fun a b => by
      simp only [comparePair_le_zero_iff]
      exact le_total _ _⟩
  haveI : IsTrans pair_double_int (fun a b => comparePair a b ≤ 0) :=
    ⟨fun a b c => by
      simp only [comparePair_le_zero_iff]
      exact le_trans⟩
  exact ⟨List.perm_insertionSort _ l, List.sorted_insertionSort _ l⟩

theorem qsort_stable_stable : QsortStable qsort_stable := by
  intro l a b hab h
  exact List.pair_sublist_insertionSort (r := fun a b => comparePair a b ≤ 0)
    (by simp [hab]) h

theorem range_pair_sublist (v : Nat → ℚ) (nJobs i j : Nat) (hij : i < j) (hj : j < nJobs) :
    List.Sublist [({ val := v i, index := i } : pair_double_int), { val := v j, index := j }]
      ((List.range nJobs).map (fun i => { val := v i, index := i })) := by
  have h : List.Sublist [i, j] (List.range nJobs) := by
    have h1 : List.Sublist [i, j] (List.range (j + 1)) := by
      rw [List.range_succ]
      have : List.Sublist [i] (List.range j) :=
        List.singleton_sublist.mpr (List.mem_range.mpr hij)
      simpa using this.append (List.Sublist.refl [j])
    exact h1.trans (List.range_sublist.mpr (by omega))
  simpa using h.map (fun i => ({ val := v i, index := i } : pair_double_int))

/-! ### C5: moving-average identity -/

/-- C5 (counterexample): the divisor `n_time_meas + 1` is computed in
`unsigned int`; for `n_time_meas = 4294967295` it wraps to `0`, and the entry
written for `avg = [0]`, `elapsed = [1]` is not `(0 * n + 1) / (n + 1)`. -/
theorem C5_counterexample_unsigned_wrap :
    ∃ avg' ord', cppadcg_thpool_update_order qsort_stable (some (arr [0])) 4294967295
        (some (arr [1])) (some (arr [0])) 1 = (some avg', ord') ∧
      avg' 0 ≠ ((arr [0] : Nat → ℚ) 0 * ((4294967295 : Nat) : ℚ) + (arr [1] : Nat → ℚ) 0) /
        (((4294967295 : Nat) : ℚ) + 1) := by
  have hnz : update_order_nonZero (arr [1]) 1 = true := by
    rw [update_order_nonZero_iff]
    exact ⟨0, by norm_num, by simp [arr]⟩
  refine ⟨_, _, update_order_some qsort_stable (arr [0]) 4294967295 (arr [1]) (arr [0]) 1 hnz, ?_⟩
  simp only [movingAvg, UINT_WIDTH, arr]
  norm_num

/-- C5 (amended): when `n_time_meas + 1` does not wrap (`n + 1 < 2^32`) and
`elapsed[]` is not all zero, every entry `i < nJobs` of `avgElapsed` becomes
`(avg_old[i] * n + elapsed[i]) / (n + 1)`. -/
theorem C5_moving_average_identity
    (qsort : (pair_double_int → pair_double_int → Int) →
      List pair_double_int → List pair_double_int)
    (avg : Nat → ℚ) (n : Nat) (el : Nat → ℚ) (ord : Nat → Nat) (nJobs : Nat)
    (hn : n + 1 < UINT_WIDTH) (hnz : ∃ i, i < nJobs ∧ el i ≠ 0) :
    ∃ avg' ord', cppadcg_thpool_update_order qsort (some avg) n (some el) (some ord) nJobs =
        (some avg', some ord') ∧
      ∀ i, i < nJobs → avg' i = (avg i * (n : ℚ) + el i) / ((n : ℚ) + 1) := by
  refine ⟨_, _, update_order_some qsort avg n el ord nJobs
    ((update_order_nonZero_iff el nJobs).mpr hnz), ?_⟩
  intro i hi
  simp only [hi, if_true, movingAvg]
  rw [Nat.mod_eq_of_lt hn]
  push_cast
  rfl

/-- C5 (witness): the amended identity at `avg = [0,0,0]`, `n = 0`,
`elapsed = [1,3,2]`. -/
theorem C5_moving_average_identity_witness :
    (0 + 1 < UINT_WIDTH) ∧ (∃ i, i < 3 ∧ (arr [1, 3, 2] : Nat → ℚ) i ≠ 0) ∧
    ∃ avg' ord', cppadcg_thpool_update_order qsort_stable (some (arr [0, 0, 0])) 0
        (some (arr [1, 3, 2])) (some (arr [0, 0, 0])) 3 = (some avg', some ord') ∧
      ∀ i, i < 3 → avg' i =
        ((arr [0, 0, 0] : Nat → ℚ) i * ((0 : Nat) : ℚ) + (arr [1, 3, 2] : Nat → ℚ) i) /
          (((0 : Nat) : ℚ) + 1) :=
  ⟨by decide, ⟨0, by decide, by simp [arr]⟩,
    C5_moving_average_identity qsort_stable (arr [0, 0, 0]) 0 (arr [1, 3, 2]) (arr [0, 0, 0]) 3
      (by decide) ⟨0, by decide, by simp [arr]⟩⟩

/-! ### C6: descending-rank law -/

theorem update_order_rank_lt (qsort : (pair_double_int → pair_double_int → Int) →
    List pair_double_int → List pair_double_int) (hq : QsortContract qsort)
    (v : Nat → ℚ) (ord : Nat → Nat) (nJobs i j : Nat) (hi : i < nJobs) (hj : j < nJobs)
    (hlt : v i < v j) :
    update_order_write nJobs (qsort comparePair ((List.range nJobs).map
        (fun i => { val := v i, index := i }))) 0 ord j <
      update_order_write nJobs (qsort comparePair ((List.range nJobs).map
        (fun i => { val := v i, index := i }))) 0 ord i := by
  obtain ⟨hnd, hlen, hs, hmem⟩ := elapsed2_facts qsort hq v nJobs
  have hsub := sublist_pair_of_sorted _ hs _ _ (hmem i hi) (hmem j hj) hlt
  exact update_order_write_before nJobs _ 0 ord hnd (by omega) _ _ hsub

theorem update_order_rank_bound (qsort : (pair_double_int → pair_double_int → Int) →
    List pair_double_int → List pair_double_int) (hq : QsortContract qsort)
    (v : Nat → ℚ) (ord : Nat → Nat) (nJobs i : Nat) (hi : i < nJobs) :
    update_order_write nJobs (qsort comparePair ((List.range nJobs).map
        (fun i => { val := v i, index := i }))) 0 ord i < nJobs := by
  obtain ⟨hnd, _, _, hmem⟩ := elapsed2_facts qsort hq v nJobs
  have := update_order_write_le nJobs _ 0 ord hnd _ (hmem i hi)
  simp only at this
  omega

theorem update_order_rank_top (qsort : (pair_double_int → pair_double_int → Int) →
    List pair_double_int → List pair_double_int) (hq : QsortContract qsort)
    (v : Nat → ℚ) (ord : Nat → Nat) (nJobs j : Nat) (hj : j < nJobs)
    (hmax : ∀ i, i < nJobs → i ≠ j → v i < v j) :
    update_order_write nJobs (qsort comparePair ((List.range nJobs).map
        (fun i => { val := v i, index := i }))) 0 ord j = 0 := by
  obtain ⟨hnd, hlen, hs, hmem⟩ := elapsed2_facts qsort hq v nJobs
  obtain ⟨k, hk, hkeq⟩ := List.getElem_of_mem (hmem j hj)
  have hval := update_order_write_getElem nJobs _ 0 ord hnd k hk
  simp only [List.get_eq_getElem, hkeq] at hval
  rw [hval]
  by_contra hne
  have hk1 : k + 1 < (qsort comparePair ((List.range nJobs).map
      (fun i => ({ val := v i, index := i } : pair_double_int)))).length := by omega
  have hrel := (List.pairwise_iff_getElem.mp hs) k (k + 1) hk hk1 (by omega)
  rw [hkeq, comparePair_le_zero_iff] at hrel
  obtain ⟨hlt, hv⟩ := elapsed2_mem_inv qsort hq v nJobs _ (List.getElem_mem hk1)
  have hidx : (qsort comparePair ((List.range nJobs).map
      (fun i => ({ val := v i, index := i } : pair_double_int))))[k + 1].index ≠ j := by
    intro h
    have hinj := List.nodup_iff_injective_get.mp hnd
    have h1 := @hinj ⟨k, by simpa using hk⟩ ⟨k + 1, by simpa using hk1⟩ (by simp [h, hkeq])
    simp at h1
  have := hmax _ hlt hidx
  rw [← hv] at this
  exact absurd hrel (not_le.mpr this)

/-- C6: under the `qsort` contract, when `elapsed[]` is not all zero the
written `order[]` satisfies `avg[i] < avg[j] → order[i] > order[j]` for the
updated averages, a job whose updated average is strictly the largest gets
rank `0`, and for `avg = [0,0,0]`, `n = 0`, `elapsed = [1,3,2]` the result is
`avg = [1,3,2]`, `order = [2,0,1]`. -/
theorem C6_descending_rank_law
    (qsort : (pair_double_int → pair_double_int → Int) →
      List pair_double_int → List pair_double_int) (hq : QsortContract qsort) :
    (∀ (avg : Nat → ℚ) (n : Nat) (el : Nat → ℚ) (ord : Nat → Nat) (nJobs : Nat),
      (∃ i, i < nJobs ∧ el i ≠ 0) →
      ∃ avg' ord', cppadcg_thpool_update_order qsort (some avg) n (some el) (some ord) nJobs =
          (some avg', some ord') ∧
        (∀ i j, i < nJobs → j < nJobs → avg' i < avg' j → ord' j < ord' i) ∧
        (∀ j, j < nJobs → (∀ i, i < nJobs → i ≠ j → avg' i < avg' j) → ord' j = 0)) ∧
    (∀ ord : Nat → Nat,
      ∃ avg' ord', cppadcg_thpool_update_order qsort (some (arr [0, 0, 0])) 0
          (some (arr [1, 3, 2])) (some ord) 3 = (some avg', some ord') ∧
        firstN avg' 3 = [1, 3, 2] ∧ firstN ord' 3 = [2, 0, 1]) := by
  have main : ∀ (avg : Nat → ℚ) (n : Nat) (el : Nat → ℚ) (ord : Nat → Nat) (nJobs : Nat),
      (∃ i, i < nJobs ∧ el i ≠ 0) →
      ∃ avg' ord', cppadcg_thpool_update_order qsort (some avg) n (some el) (some ord) nJobs =
          (some avg', some ord') ∧
        (∀ i, i < nJobs → avg' i = movingAvg avg n el i) ∧
        (∀ i, i < nJobs → ord' i < nJobs) ∧
        (∀ i j, i < nJobs → j < nJobs → avg' i < avg' j → ord' j < ord' i) ∧
        (∀ j, j < nJobs → (∀ i, i < nJobs → i ≠ j → avg' i < avg' j) → ord' j = 0) := by
    intro avg n el ord nJobs hnz
    refine ⟨_, _, update_order_some qsort avg n el ord nJobs
      ((update_order_nonZero_iff el nJobs).mpr hnz), ?_, ?_, ?_, ?_⟩
    · intro i hi; simp [hi]
    · intro i hi
      exact update_order_rank_bound qsort hq _ ord nJobs i hi
    · intro i j hi hj hlt
      simp only [hi, hj, if_true] at hlt
      exact update_order_rank_lt qsort hq _ ord nJobs i j hi hj hlt
    · intro j hj hmax
      refine update_order_rank_top qsort hq _ ord nJobs j hj ?_
      intro i hi hne
      have := hmax i hi hne
      simpa [hi, hj] using this
  refine ⟨?_, ?_⟩
  · intro avg n el ord nJobs hnz
    obtain ⟨avg', ord', h, _, _, h3, h4⟩ := main avg n el ord nJobs hnz
    exact ⟨avg', ord', h, h3, h4⟩
  · intro ord
    obtain ⟨avg', ord', h, h1, h2, h3, _⟩ := main (arr [0, 0, 0]) 0 (arr [1, 3, 2]) ord 3
      ⟨0, by decide, by simp [arr]⟩
    refine ⟨avg', ord', h, ?_, ?_⟩
    · simp only [firstN, List.range, List.range.loop, List.map]
      rw [h1 0 (by decide), h1 1 (by decide), h1 2 (by decide)]
      simp [movingAvg, arr, UINT_WIDTH]
    · have a0 : avg' 0 = 1 := by rw [h1 0 (by decide)]; simp [movingAvg, arr, UINT_WIDTH]
      have a1 : avg' 1 = 3 := by rw [h1 1 (by decide)]; simp [movingAvg, arr, UINT_WIDTH]
      have a2 : avg' 2 = 2 := by rw [h1 2 (by decide)]; simp [movingAvg, arr, UINT_WIDTH]
      have o1 := h3 0 2 (by decide) (by decide) (by rw [a0, a2]; norm_num)
      have o2 := h3 2 1 (by decide) (by decide) (by rw [a1, a2]; norm_num)
      have b0 := h2 0 (by decide)
      simp only [firstN, List.range, List.range.loop, List.map]
      have e0 : ord' 0 = 2 := by omega
      have e1 : ord' 1 = 0 := by omega
      have e2 : ord' 2 = 1 := by omega
      rw [e0, e1, e2]

/-- C6 (witness): the law for the stable `qsort` at `avg = [0,0,0]`, `n = 0`,
`elapsed = [1,3,2]`. -/
theorem C6_descending_rank_law_witness :
    QsortContract qsort_stable ∧ (∃ i, i < 3 ∧ (arr [1, 3, 2] : Nat → ℚ) i ≠ 0) ∧
    ∃ avg' ord', cppadcg_thpool_update_order qsort_stable (some (arr [0, 0, 0])) 0
        (some (arr [1, 3, 2])) (some (arr [0, 0, 0])) 3 = (some avg', some ord') ∧
      (∀ i j, i < 3 → j < 3 → avg' i < avg' j → ord' j < ord' i) ∧
      (∀ j, j < 3 → (∀ i, i < 3 → i ≠ j → avg' i < avg' j) → ord' j = 0) :=
  ⟨qsort_stable_contract, ⟨0, by decide, by simp [arr]⟩,
    (C6_descending_rank_law qsort_stable qsort_stable_contract).1 (arr [0, 0, 0]) 0
      (arr [1, 3, 2]) (arr [0, 0, 0]) 3 ⟨0, by decide, by simp [arr]⟩⟩

/-! ### C7: all-zero `elapsed` -/

theorem update_order_all_zero
    (qsort : (pair_double_int → pair_double_int → Int) →
      List pair_double_int → List pair_double_int)
    (avg : Option (Nat → ℚ)) (n : Nat) (el : Nat → ℚ) (ord : Option (Nat → Nat))
    (nJobs : Nat) (hz : ∀ i, i < nJobs → el i = 0) :
    cppadcg_thpool_update_order qsort avg n (some el) ord nJobs = (avg, ord) := by
  have hnz : update_order_nonZero el nJobs = false := by
    rw [Bool.eq_false_iff, Ne, update_order_nonZero_iff]
    rintro ⟨i, hi, hne⟩
    exact hne (hz i hi)
  cases avg with
  | none => simp [cppadcg_thpool_update_order]
  | some a =>
    cases ord with
    | none => simp [cppadcg_thpool_update_order]
    | some o => simp [cppadcg_thpool_update_order, hnz]

/-- C7: when every `elapsed[i]` is `0`, `cppadcg_thpool_update_order` leaves
`avgElapsed[]` and `order[]` as they were, for every `n` and `nJobs`, and any
number `k ≥ 1` of such calls gives what one call gives. -/
theorem C7_all_zero_elapsed_unchanged
    (qsort : (pair_double_int → pair_double_int → Int) →
      List pair_double_int → List pair_double_int)
    (avg : Option (Nat → ℚ)) (n : Nat) (el : Nat → ℚ) (ord : Option (Nat → Nat))
    (nJobs : Nat) (hz : ∀ i, i < nJobs → el i = 0) :
    cppadcg_thpool_update_order qsort avg n (some el) ord nJobs = (avg, ord) ∧
    ∀ k, 1 ≤ k → update_order_repeat qsort n (some el) nJobs k (avg, ord) =
      cppadcg_thpool_update_order qsort avg n (some el) ord nJobs := by
  have h1 := update_order_all_zero qsort avg n el ord nJobs hz
  refine ⟨h1, ?_⟩
  have hrep : ∀ k, update_order_repeat qsort n (some el) nJobs k (avg, ord) = (avg, ord) := by
    intro k
    induction k with
    | zero => rfl
    | succ k ih =>
      simp only [update_order_repeat]
      rw [h1]
      exact ih
  intro k _
  rw [hrep k, h1]

/-- C7 (witness): `elapsed = [0,0,0]` with `avg = [4,5,6]`, `order = [1,2,0]`,
`n = 10`, three calls. -/
theorem C7_all_zero_elapsed_unchanged_witness :
    (∀ i, i < 3 → (arr [0, 0, 0] : Nat → ℚ) i = 0) ∧
    (cppadcg_thpool_update_order qsort_stable (some (arr [4, 5, 6])) 10 (some (arr [0, 0, 0]))
        (some (arr [1, 2, 0])) 3 = (some (arr [4, 5, 6]), some (arr [1, 2, 0])) ∧
      ∀ k, 1 ≤ k → update_order_repeat qsort_stable 10 (some (arr [0, 0, 0])) 3 k
          (some (arr [4, 5, 6]), some (arr [1, 2, 0])) =
        cppadcg_thpool_update_order qsort_stable (some (arr [4, 5, 6])) 10
          (some (arr [0, 0, 0])) (some (arr [1, 2, 0])) 3) :=
  ⟨fun i _ => by
      have : ∀ i : Nat, (arr [0, 0, 0] : Nat → ℚ) i = 0 := by
        intro i
        rcases i with _ | _ | _ | i <;> simp [arr]
      exact this i,
    C7_all_zero_elapsed_unchanged qsort_stable (some (arr [4, 5, 6])) 10 (arr [0, 0, 0])
      (some (arr [1, 2, 0])) 3 (fun i _ => by
        rcases i with _ | _ | _ | i <;> simp [arr])⟩

/-! ### C8: ties -/

/-- C8 (counterexample): with a stable `qsort`, `avg = [0,0]`, `n = 0` and
`elapsed = [1,1]` give equal updated averages and `order = [1,0]`: job `0`
does not keep the earlier rank. -/
theorem C8_counterexample_ties_reversed :
    QsortContract qsort_stable ∧
    ∃ avg' ord', cppadcg_thpool_update_order qsort_stable (some (arr [0, 0])) 0
        (some (arr [1, 1])) (some (arr [0, 0])) 2 = (some avg', some ord') ∧
      avg' 0 = avg' 1 ∧ ord' 0 = 1 ∧ ord' 1 = 0 ∧ ¬ ord' 0 < ord' 1 := by
  refine ⟨qsort_stable_contract, ?_⟩
  have hnz : update_order_nonZero (arr [1, 1]) 2 = true := by
    rw [update_order_nonZero_iff]
    exact ⟨0, by decide, by simp [arr]⟩
  refine ⟨_, _, update_order_some qsort_stable (arr [0, 0]) 0 (arr [1, 1]) (arr [0, 0]) 2 hnz,
    ?_, ?_, ?_, ?_⟩
  · simp [movingAvg, arr, UINT_WIDTH]
  all_goals
    simp [movingAvg, arr, UINT_WIDTH, qsort_stable, List.range, List.range.loop,
      List.insertionSort, List.orderedInsert, comparePair, update_order_write,
      Function.update_apply]

/-- C8 (amended): under the `qsort` contract, with a `qsort` that keeps equal
elements in their array order, for every pair `i < j` of jobs whose updated
averages are equal the later job gets the earlier rank: `order[j] < order[i]`. -/
theorem C8_ties_ranked_in_reverse
    (qsort : (pair_double_int → pair_double_int → Int) →
      List pair_double_int → List pair_double_int)
    (hq : QsortContract qsort) (hst : QsortStable qsort)
    (avg : Nat → ℚ) (n : Nat) (el : Nat → ℚ) (ord : Nat → Nat) (nJobs : Nat)
    (hnz : ∃ i, i < nJobs ∧ el i ≠ 0) :
    ∃ avg' ord', cppadcg_thpool_update_order qsort (some avg) n (some el) (some ord) nJobs =
        (some avg', some ord') ∧
      ∀ i j, i < j → j < nJobs → avg' i = avg' j → ord' j < ord' i := by
  refine ⟨_, _, update_order_some qsort avg n el ord nJobs
    ((update_order_nonZero_iff el nJobs).mpr hnz), ?_⟩
  intro i j hij hj heq
  have hi : i < nJobs := by omega
  simp only [hi, hj, if_true] at heq
  obtain ⟨hnd, hlen, _, _⟩ := elapsed2_facts qsort hq (movingAvg avg n el) nJobs
  have hsub := hst _ _ _ (by simp [comparePair, heq])
    (range_pair_sublist (movingAvg avg n el) nJobs i j hij hj)
  exact update_order_write_before nJobs _ 0 ord hnd (by omega) _ _ hsub

/-- C8 (witness): the amended statement for the stable `qsort` at
`avg = [0,0]`, `n = 0`, `elapsed = [1,1]`. -/
theorem C8_ties_ranked_in_reverse_witness :
    QsortContract qsort_stable ∧ QsortStable qsort_stable ∧
    (∃ i, i < 2 ∧ (arr [1, 1] : Nat → ℚ) i ≠ 0) ∧
    ∃ avg' ord', cppadcg_thpool_update_order qsort_stable (some (arr [0, 0])) 0
        (some (arr [1, 1])) (some (arr [0, 0])) 2 = (some avg', some ord') ∧
      ∀ i j, i < j → j < 2 → avg' i = avg' j → ord' j < ord' i :=
  ⟨qsort_stable_contract, qsort_stable_stable, ⟨0, by decide, by simp [arr]⟩,
    C8_ties_ranked_in_reverse qsort_stable qsort_stable_contract qsort_stable_stable
      (arr [0, 0]) 0 (arr [1, 1]) (arr [0, 0]) 2 ⟨0, by decide, by simp [arr]⟩⟩

/-! ### C1: disabled pool -/

/-- C1 (the code at the failing input): with the pool disabled and
`order = [2,0,1]`, `cppadcg_thpool_add_jobs` calls `fns[0](args[0])`,
`fns[1](args[1])`, `fns[2](args[2])` in that sequence; the sequence
`fns[order[i]](args[order[i]])` would be `fns[2]`, `fns[0]`, `fns[1]`. -/
theorem C1_disabled_ignores_order :
    (cppadcg_thpool_add_jobs { Globals.initial with cppadcg_pool_disabled := 1 }
        (env_ok (arr [])) (arr [10, 11, 12]) (arr [20, 21, 22]) none none
        (some (arr [2, 0, 1])) 3).map (fun r => r.2) =
      some [(10, 20), (11, 21), (12, 22)] ∧
    calls_in_order (arr [10, 11, 12]) (arr [20, 21, 22]) (arr [2, 0, 1]) 3 =
      [(12, 22), (10, 20), (11, 21)] ∧
    (cppadcg_thpool_add_jobs { Globals.initial with cppadcg_pool_disabled := 1 }
        (env_ok (arr [])) (arr [10, 11, 12]) (arr [20, 21, 22]) none none
        (some (arr [2, 0, 1])) 3).map (fun r => r.2) ≠
      some (calls_in_order (arr [10, 11, 12]) (arr [20, 21, 22]) (arr [2, 0, 1]) 3) := by
  refine ⟨?_, ?_, ?_⟩ <;> decide

/-! ### C2: records appended by `thpool_add_jobs` through `jobqueue_multipush` -/

theorem jobqueue_push_internal_spec (mem : Nat → ℚ) (q : JobQueue) (job : Job)
    (h : q.len = q.front.length) :
    jobqueue_push_internal mem q job =
      { q with front := q.front ++ [job], len := q.len + 1,
               total_time := q.total_time + jobAvg mem job } := by
  unfold jobqueue_push_internal jobAvg
  cases hl : q.len with
  | zero =>
    have hf : q.front = [] := List.length_eq_zero.mp (by omega)
    cases ha : job.avgElapsed <;> simp [hf]
  | succ k =>
    cases ha : job.avgElapsed <;> simp

theorem jobqueue_push_all_spec (mem : Nat → ℚ) (l : List Job) :
    ∀ q : JobQueue, q.len = q.front.length →
      l.foldl (jobqueue_push_internal mem) q =
        { q with front := q.front ++ l, len := q.len + l.length,
                 total_time := q.total_time + sumAvg mem l } := by
  induction l with
  | nil => intro q _; simp [sumAvg]
  | cons job rest ih =>
    intro q h
    rw [List.foldl_cons, jobqueue_push_internal_spec mem q job h, ih _ (by simp [h])]
    simp [sumAvg, add_assoc, Nat.add_comm 1]

theorem thpool_add_jobs_multipush_eq (g : Globals) (env : Env) (thpool : ThPool)
    (functions args : Nat → Nat) (avgElapsed elapsed : Option Nat)
    (order : Option (Nat → Nat)) (nJobs : Nat)
    (halloc : ∀ i, i < nJobs → env.malloc_job i = true)
    (hroute : thpool_add_jobs_static g env avgElapsed order nJobs = false) :
    ∃ p, thpool_add_jobs g env thpool functions args avgElapsed elapsed order nJobs =
        some (0, p) ∧
      p.jobqueue = jobqueue_multipush env.mem thpool.jobqueue
        (thpool_add_jobs_records functions args avgElapsed elapsed order nJobs) := by
  have hall : (List.range nJobs).all env.malloc_job = true := by
    rw [List.all_eq_true]
    intro i hi
    exact halloc i (List.mem_range.mp hi)
  have hr : thpool_add_jobs g env thpool functions args avgElapsed elapsed order nJobs =
      some (0, ThPool.mk thpool.num_threads thpool.num_threads_alive
        thpool.num_threads_working (jobqueue_multipush env.mem thpool.jobqueue
          (thpool_add_jobs_records functions args avgElapsed elapsed order nJobs))
        thpool.threads_keepalive thpool.threads_on_hold) := by
    simp [thpool_add_jobs, hall, hroute]
  exact ⟨_, hr, rfl⟩

theorem thpool_add_jobs_records_getElem (functions args : Nat → Nat)
    (avgElapsed elapsed : Option Nat) (order : Option (Nat → Nat)) (nJobs i : Nat)
    (hi : i < nJobs) :
    (thpool_add_jobs_records functions args avgElapsed elapsed order nJobs)[i]? = some
      { function := functions ((order.map (fun o => o i)).getD i)
        arg := args ((order.map (fun o => o i)).getD i)
        avgElapsed := avgElapsed.map (fun base => base + (order.map (fun o => o i)).getD i)
        elapsed := elapsed.map (fun base => base + (order.map (fun o => o i)).getD i) } := by
  simp only [thpool_add_jobs_records]
  rw [List.getElem?_map, List.getElem?_range hi]
  cases order <;> rfl

/-- C2: with a pool whose queue is well formed (`len` counts the chain), all
allocations succeeding and the batch routed to `jobqueue_multipush`,
`thpool_add_jobs` returns `0` and appends `nJobs` records to the tail of the
queue; record `i` is `(fns[j], args[j], &avg[j] or null, &elapsed[j] or null)`
with `j = order[i]` when `order` is given and `j = i` otherwise. -/
theorem C2_add_jobs_appends_permuted_records (g : Globals) (env : Env) (thpool : ThPool)
    (functions args : Nat → Nat) (avgElapsed elapsed : Option Nat)
    (order : Option (Nat → Nat)) (nJobs : Nat)
    (hlive : thpool.jobqueue.len = thpool.jobqueue.front.length)
    (halloc : ∀ i, i < nJobs → env.malloc_job i = true)
    (hroute : thpool_add_jobs_static g env avgElapsed order nJobs = false) :
    ∃ p recs, thpool_add_jobs g env thpool functions args avgElapsed elapsed order nJobs =
        some (0, p) ∧
      p.jobqueue.front = thpool.jobqueue.front ++ recs ∧ recs.length = nJobs ∧
      p.jobqueue.len = thpool.jobqueue.len + nJobs ∧
      ∀ i, i < nJobs →
        recs[i]? = some
          { function := functions ((order.map (fun o => o i)).getD i)
            arg := args ((order.map (fun o => o i)).getD i)
            avgElapsed := avgElapsed.map (fun base => base + (order.map (fun o => o i)).getD i)
            elapsed := elapsed.map (fun base => base + (order.map (fun o => o i)).getD i) } := by
  obtain ⟨p, hp, hq⟩ := thpool_add_jobs_multipush_eq g env thpool functions args avgElapsed
    elapsed order nJobs halloc hroute
  refine ⟨p, thpool_add_jobs_records functions args avgElapsed elapsed order nJobs, hp,
    ?_, ?_, ?_, ?_⟩
  · rw [hq]
    simp [jobqueue_multipush, jobqueue_push_all_spec env.mem _ _ hlive]
  · simp [thpool_add_jobs_records]
  · rw [hq]
    simp [jobqueue_multipush, jobqueue_push_all_spec env.mem _ _ hlive, thpool_add_jobs_records]
  · intro i hi
    exact thpool_add_jobs_records_getElem functions args avgElapsed elapsed order nJobs i hi

/-- C2 (witness): three jobs with `order = [2,0,1]` on a fresh pool under
`SCHED_SINGLE_JOB`. -/
theorem C2_add_jobs_appends_permuted_records_witness :
    (fresh_pool 2).jobqueue.len = (fresh_pool 2).jobqueue.front.length ∧
    (∀ i, i < 3 → (env_ok (arr [])).malloc_job i = true) ∧
    thpool_add_jobs_static Globals.initial (env_ok (arr [])) (some 0) (some (arr [2, 0, 1])) 3 =
      false ∧
    ∃ p recs, thpool_add_jobs Globals.initial (env_ok (arr [])) (fresh_pool 2)
        (arr [10, 11, 12]) (arr [20, 21, 22]) (some 0) (some 100) (some (arr [2, 0, 1])) 3 =
        some (0, p) ∧
      p.jobqueue.front = (fresh_pool 2).jobqueue.front ++ recs ∧ recs.length = 3 ∧
      p.jobqueue.len = (fresh_pool 2).jobqueue.len + 3 ∧
      ∀ i, i < 3 →
        recs[i]? = some
          { function := (arr [10, 11, 12] : Nat → Nat)
              (((some (arr [2, 0, 1] : Nat → Nat)).map (fun o => o i)).getD i)
            arg := (arr [20, 21, 22] : Nat → Nat)
              (((some (arr [2, 0, 1] : Nat → Nat)).map (fun o => o i)).getD i)
            avgElapsed := (some 0).map
              (fun base => base + ((some (arr [2, 0, 1] : Nat → Nat)).map (fun o => o i)).getD i)
            elapsed := (some 100).map
              (fun base => base +
                ((some (arr [2, 0, 1] : Nat → Nat)).map (fun o => o i)).getD i) } :=
  ⟨rfl, fun _ _ => rfl, by decide,
    C2_add_jobs_appends_permuted_records Globals.initial (env_ok (arr [])) (fresh_pool 2)
      (arr [10, 11, 12]) (arr [20, 21, 22]) (some 0) (some 100) (some (arr [2, 0, 1])) 3
      rfl (fun _ _ => rfl) (by decide)⟩

/-! ### C9: feeding `order[]` back to `thpool_add_jobs` -/

/-- C9 (the code at the failing input): for `avg = [0,0,0]`, `n = 0`,
`elapsed = [1,3,2]` the helper writes `avg = [1,3,2]`, `order = [2,0,1]`;
`thpool_add_jobs` with that `order[]` enqueues the jobs `2, 0, 1`, whose
averages are `2, 1, 3`: position 1 holds a cheaper job than position 2. -/
theorem C9_feedback_not_descending :
    ∃ avg' ord', cppadcg_thpool_update_order qsort_stable (some (arr [0, 0, 0])) 0
        (some (arr [1, 3, 2])) (some (arr [0, 0, 0])) 3 = (some avg', some ord') ∧
      firstN avg' 3 = [1, 3, 2] ∧ firstN ord' 3 = [2, 0, 1] ∧
      (∃ p, thpool_add_jobs Globals.initial (env_ok avg') (fresh_pool 2) id id (some 0) none
          (some ord') 3 = some (0, p) ∧
        p.jobqueue.front.map (fun job => job.function) = [2, 0, 1] ∧
        p.jobqueue.front.map (fun job => job.avgElapsed.map avg') =
          [some 2, some 1, some 3]) ∧
      avg' (ord' 1) < avg' (ord' 2) := by
  have hnz : update_order_nonZero (arr [1, 3, 2]) 3 = true := by
    rw [update_order_nonZero_iff]
    exact ⟨0, by decide, by simp [arr]⟩
  refine ⟨_, _, update_order_some qsort_stable (arr [0, 0, 0]) 0 (arr [1, 3, 2])
    (arr [0, 0, 0]) 3 hnz, ?_, ?_, ?_, ?_⟩
  · simp [firstN, movingAvg, arr, UINT_WIDTH, List.range, List.range.loop]
  · simp [firstN, movingAvg, arr, UINT_WIDTH, qsort_stable, List.range, List.range.loop,
      List.insertionSort, List.orderedInsert, comparePair, update_order_write,
      Function.update_apply]
  · obtain ⟨p, hp, hq⟩ := thpool_add_jobs_multipush_eq Globals.initial
      (env_ok (fun i => if i < 3 then movingAvg (arr [0, 0, 0]) 0 (arr [1, 3, 2]) i
        else (arr [0, 0, 0] : Nat → ℚ) i)) (fresh_pool 2) id id (some 0) none
      (some (update_order_write 3 (qsort_stable comparePair ((List.range 3).map
        (fun i => { val := movingAvg (arr [0, 0, 0]) 0 (arr [1, 3, 2]) i, index := i })))
        0 (arr [0, 0, 0]))) 3 (fun _ _ => rfl) (by simp [thpool_add_jobs_static, Globals.initial])
    refine ⟨p, hp, ?_, ?_⟩
    · rw [hq]
      simp [thpool_add_jobs_records, jobqueue_multipush, jobqueue_push_internal, fresh_pool,
        jobqueue_init, env_ok, movingAvg, arr, UINT_WIDTH, qsort_stable, List.range,
        List.range.loop, List.insertionSort, List.orderedInsert, comparePair,
        update_order_write, Function.update_apply]
    · rw [hq]
      simp [thpool_add_jobs_records, jobqueue_multipush, jobqueue_push_internal, fresh_pool,
        jobqueue_init, env_ok, movingAvg, arr, UINT_WIDTH, qsort_stable, List.range,
        List.range.loop, List.insertionSort, List.orderedInsert, comparePair,
        update_order_write, Function.update_apply]
  · simp [movingAvg, arr, UINT_WIDTH, qsort_stable, List.range, List.range.loop,
      List.insertionSort, List.orderedInsert, comparePair, update_order_write,
      Function.update_apply]

/-! ### C10: greedy bound of the static placement -/

theorem static_total_duration_eq_sum (avg : Nat → ℚ) (n : Nat) :
    static_total_duration avg n = ∑ i in Finset.range n, avg i := by
  unfold static_total_duration
  induction n with
  | zero => simp
  | succ n ih => rw [List.range_succ, List.foldl_append, ih, Finset.sum_range_succ]; simp

theorem static_max_spec (avg : Nat → ℚ) (n : Nat) :
    0 ≤ static_max avg n ∧ ∀ j, j < n → avg j ≤ static_max avg n := by
  unfold static_max
  induction n with
  | zero => simp
  | succ n ih =>
    rw [List.range_succ, List.foldl_append]
    simp only [List.foldl_cons, List.foldl_nil]
    refine ⟨le_max_of_le_left ih.1, ?_⟩
    intro j hj
    by_cases h : j = n
    · subst h; exact le_max_right _ _
    · exact le_max_of_le_left (ih.2 j (by omega))

theorem static_max_attained (avg : Nat → ℚ) (n : Nat) (hn : 1 ≤ n)
    (hpos : ∀ j, j < n → 0 < avg j) : ∃ j, j < n ∧ static_max avg n = avg j := by
  induction n with
  | zero => omega
  | succ n ih =>
    have hstep : static_max avg (n + 1) = max (static_max avg n) (avg n) := by
      simp [static_max, List.range_succ, List.foldl_append]
    rw [hstep]
    by_cases hle : static_max avg n ≤ avg n
    · exact ⟨n, by omega, max_eq_right hle⟩
    · have hlt : avg n < static_max avg n := not_le.mp hle
      rw [max_eq_left (le_of_lt hlt)]
      by_cases h0 : n = 0
      · subst h0
        have : static_max avg 0 = 0 := by simp [static_max]
        rw [this] at hlt
        exact absurd (hpos 0 (by omega)) (not_lt.mpr (le_of_lt hlt))
      · obtain ⟨j, hj, he⟩ := ih (by omega) (fun j hj => hpos j (by omega))
        exact ⟨j, by omega, he⟩

theorem static_first_fit_some (t a : ℚ) :
    ∀ (ds : List ℚ) (i0 i : Nat), static_first_fit t a ds i0 = some i →
      i0 ≤ i ∧ i - i0 < ds.length ∧ ds.getD (i - i0) 0 + a < t := by
  intro ds
  induction ds with
  | nil => intro i0 i h; simp [static_first_fit] at h
  | cons d ds ih =>
    intro i0 i h
    simp only [static_first_fit] at h
    split_ifs at h with hd
    · simp only [Option.some.injEq] at h
      subst h
      simpa using hd
    · obtain ⟨h1, h2, h3⟩ := ih (i0 + 1) i h
      have e : i - i0 = (i - (i0 + 1)) + 1 := by omega
      refine ⟨by omega, ?_, ?_⟩
      · simp only [List.length_cons]; omega
      · rw [e, List.getD_cons_succ]; exact h3

theorem static_least_loaded_spec (a : ℚ) :
    ∀ (ds pre : List ℚ) (best : ℚ) (iBest : Nat),
      iBest < pre.length → (pre ++ ds).getD iBest 0 + a = best →
      (∀ d ∈ pre, best ≤ d + a) →
      (static_least_loaded a ds pre.length best iBest).2 < (pre ++ ds).length ∧
      (pre ++ ds).getD (static_least_loaded a ds pre.length best iBest).2 0 + a =
        (static_least_loaded a ds pre.length best iBest).1 ∧
      ∀ d ∈ pre ++ ds, (static_least_loaded a ds pre.length best iBest).1 ≤ d + a := by
  intro ds
  induction ds with
  | nil =>
    intro pre best iBest hi hb hmin
    simp only [static_least_loaded, List.append_nil] at hb ⊢
    exact ⟨hi, hb, hmin⟩
  | cons d ds ih =>
    intro pre best iBest hi hb hmin
    have happ : pre ++ d :: ds = (pre ++ [d]) ++ ds := by simp
    have hlen : pre.length + 1 = (pre ++ [d]).length := by simp
    simp only [static_least_loaded]
    split_ifs with hd
    · rw [happ, hlen]
      refine ih (pre ++ [d]) (d + a) pre.length (by simp) ?_ ?_
      · rw [List.getD_append _ _ _ _ (by simp)]
        simp [List.getD_eq_getElem?_getD]
      · intro x hx
        rcases List.mem_append.mp hx with hx | hx
        · exact le_trans (le_of_lt hd) (hmin x hx)
        · simp only [List.mem_singleton] at hx
          subst hx; exact le_refl _
    · rw [happ, hlen]
      refine ih (pre ++ [d]) best iBest (by simp; omega) ?_ ?_
      · rw [← happ]; exact hb
      · intro x hx
        rcases List.mem_append.mp hx with hx | hx
        · exact hmin x hx
        · simp only [List.mem_singleton] at hx
          subst hx; exact not_lt.mp hd

/-- One placement step changes one bin `i`: either a first fit below the
target, or a bin whose new duration is the least possible. -/
theorem static_place_spec (t a : ℚ) (st : StaticBins) (hne : st.durations ≠ []) :
    ∃ i, i < st.durations.length ∧
      (static_place t st a).durations = st.durations.set i (st.durations.getD i 0 + a) ∧
      (st.durations.getD i 0 + a < t ∨ ∀ d ∈ st.durations, st.durations.getD i 0 ≤ d) := by
  unfold static_place
  cases hff : static_first_fit t a st.durations 0 with
  | some i =>
    obtain ⟨_, h2, h3⟩ := static_first_fit_some t a st.durations 0 i hff
    simp only [Nat.sub_zero] at h2 h3
    exact ⟨i, h2, rfl, Or.inl h3⟩
  | none =>
    obtain ⟨d0, tl, hD⟩ := List.exists_cons_of_ne_nil hne
    have h := static_least_loaded_spec a tl [d0] (d0 + a) 0 (by simp) (by simp) (by simp)
    simp only [List.length_singleton, List.singleton_append] at h
    obtain ⟨h1, h2, h3⟩ := h
    simp only [hD, List.tail_cons, List.headD_cons]
    refine ⟨_, h1, ?_, Or.inr ?_⟩
    · rw [h2]
    · intro d hd
      have := h3 d hd
      rw [← h2] at this
      linarith

theorem list_length_mul_le_sum (m : ℚ) : ∀ l : List ℚ, (∀ d ∈ l, m ≤ d) →
    (l.length : ℚ) * m ≤ l.sum := by
  intro l
  induction l with
  | nil => intro _; simp
  | cons x xs ih =>
    intro h
    have h1 := h x (List.mem_cons_self _ _)
    have h2 := ih (fun d hd => h d (List.mem_cons_of_mem _ hd))
    simp only [List.length_cons, List.sum_cons]
    push_cast
    linarith

theorem static_assign_upto_succ (bins : Nat) (t : ℚ) (avg : Nat → ℚ) (k : Nat) :
    static_assign_upto bins t avg (k + 1) =
      static_place t (static_assign_upto bins t avg k) (avg k) := by
  simp [static_assign_upto, List.range_succ, List.foldl_append]

theorem static_assign_eq_upto (n : Nat) (avg : Nat → ℚ) (N : Nat) :
    static_assign n avg N =
      static_assign_upto (static_num_bins n N)
        (static_total_duration avg N / ((static_num_bins n N : Nat) : ℚ)) avg N := rfl

theorem sum_range_le_mul (avg : Nat → ℚ) (M : ℚ) (N : Nat) (hM : ∀ j, j < N → avg j ≤ M) :
    ∑ i in Finset.range N, avg i ≤ (N : ℚ) * M := by
  induction N with
  | zero => simp
  | succ N ih =>
    rw [Finset.sum_range_succ]
    have h1 := ih (fun j hj => hM j (by omega))
    have h2 := hM N (by omega)
    push_cast
    linarith

theorem sum_range_mono (avg : Nat → ℚ) (N : Nat) (hpos : ∀ j, j < N → 0 < avg j) :
    ∀ k, k ≤ N → ∑ i in Finset.range k, avg i ≤ ∑ i in Finset.range N, avg i := by
  intro k hk
  apply Finset.sum_le_sum_of_subset_of_nonneg
  · intro x hx
    simp only [Finset.mem_range] at hx ⊢
    omega
  · intro i hi _
    exact le_of_lt (hpos i (Finset.mem_range.mp hi))

theorem countP_set_add_one_ge (p : ℚ → Bool) (l : List ℚ) (i : Nat) (a : ℚ)
    (h : i < l.length) : l.countP p ≤ (l.set i a).countP p + 1 := by
  rw [List.countP_set _ _ _ _ h]
  split_ifs <;> omega

/-- Invariant of the placement loop after `k` jobs. -/
theorem static_loop_inv (n N : Nat) (hn : 1 ≤ n) (hN : 1 ≤ N) (avg : Nat → ℚ) (M : ℚ)
    (hpos : ∀ j, j < N → 0 < avg j) (hM : ∀ j, j < N → avg j ≤ M) :
    ∀ k, k ≤ N →
      (static_assign_upto (static_num_bins n N)
        ((∑ i in Finset.range N, avg i) / ((static_num_bins n N : Nat) : ℚ)) avg k).durations.length
          = static_num_bins n N ∧
      (∀ d ∈ (static_assign_upto (static_num_bins n N)
        ((∑ i in Finset.range N, avg i) / ((static_num_bins n N : Nat) : ℚ)) avg k).durations,
          0 ≤ d ∧ d ≤ M + (∑ i in Finset.range N, avg i) / (n : ℚ)) ∧
      (static_assign_upto (static_num_bins n N)
        ((∑ i in Finset.range N, avg i) / ((static_num_bins n N : Nat) : ℚ)) avg k).durations.sum
          = ∑ i in Finset.range k, avg i ∧
      static_num_bins n N ≤ (static_assign_upto (static_num_bins n N)
        ((∑ i in Finset.range N, avg i) / ((static_num_bins n N : Nat) : ℚ)) avg
          k).durations.countP (fun d => decide (d = 0)) + k := by
  have hT0 : 0 ≤ ∑ i in Finset.range N, avg i :=
    Finset.sum_nonneg (fun i hi => le_of_lt (hpos i (Finset.mem_range.mp hi)))
  have hM0 : 0 ≤ M := le_trans (le_of_lt (hpos 0 (by omega))) (hM 0 (by omega))
  have hnq : (0 : ℚ) < (n : ℚ) := by exact_mod_cast hn
  have hNq : (0 : ℚ) < (N : ℚ) := by exact_mod_cast hN
  have hTn : 0 ≤ (∑ i in Finset.range N, avg i) / (n : ℚ) := div_nonneg hT0 (le_of_lt hnq)
  have hbins : 1 ≤ static_num_bins n N := by
    unfold static_num_bins; split_ifs <;> omega
  -- the target never exceeds the bound
  have ht : (∑ i in Finset.range N, avg i) / ((static_num_bins n N : Nat) : ℚ) ≤
      M + (∑ i in Finset.range N, avg i) / (n : ℚ) := by
    unfold static_num_bins
    split_ifs with h
    · have := sum_range_le_mul avg M N hM
      have h1 : (∑ i in Finset.range N, avg i) / (N : ℚ) ≤ M := by
        rw [div_le_iff₀ hNq]; linarith
      linarith
    · linarith
  intro k
  induction k with
  | zero =>
    intro _
    refine ⟨by simp [static_assign_upto], ?_, by simp [static_assign_upto], ?_⟩
    · intro d hd
      simp only [static_assign_upto, List.range_zero, List.foldl_nil] at hd
      have := List.eq_of_mem_replicate hd
      subst this
      exact ⟨le_refl _, by linarith⟩
    · simp [static_assign_upto, List.countP_replicate]
  | succ k ih =>
    intro hk
    obtain ⟨hlen, hbd, hsum, hcnt⟩ := ih (by omega)
    rw [static_assign_upto_succ]
    have hne : (static_assign_upto (static_num_bins n N)
        ((∑ i in Finset.range N, avg i) / ((static_num_bins n N : Nat) : ℚ)) avg k).durations
          ≠ [] := by
      intro h; rw [h] at hlen; simp at hlen; omega
    obtain ⟨i, hi, hset, hcase⟩ := static_place_spec
      ((∑ i in Finset.range N, avg i) / ((static_num_bins n N : Nat) : ℚ)) (avg k) _ hne
    rw [hset]
    have hget := List.getD_eq_getElem _ (0 : ℚ) hi
    have hDi_mem := List.getElem_mem hi
    have ha := hpos k (by omega)
    have haM := hM k (by omega)
    have hDi0 := (hbd _ hDi_mem).1
    -- the new duration of bin `i` is within the bound
    have hnew : (static_assign_upto (static_num_bins n N)
        ((∑ i in Finset.range N, avg i) / ((static_num_bins n N : Nat) : ℚ)) avg
          k).durations.getD i 0 + avg k ≤ M + (∑ i in Finset.range N, avg i) / (n : ℚ) := by
      rcases hcase with hfit | hmin
      · linarith
      · suffices hs : (static_assign_upto (static_num_bins n N)
            ((∑ i in Finset.range N, avg i) / ((static_num_bins n N : Nat) : ℚ)) avg
              k).durations.getD i 0 ≤ (∑ i in Finset.range N, avg i) / (n : ℚ) by linarith
        by_cases h : N < n
        · -- as many bins as jobs: some bin is still empty
          have hb : static_num_bins n N = N := by simp [static_num_bins, h]
          rw [hb] at hcnt
          have hpos' : 0 < (static_assign_upto (static_num_bins n N)
              ((∑ i in Finset.range N, avg i) / ((static_num_bins n N : Nat) : ℚ)) avg
                k).durations.countP (fun d => decide (d = 0)) := by omega
          obtain ⟨d, hd, hd0⟩ := List.countP_pos_iff.mp hpos'
          have hd0' : d = 0 := by simpa using hd0
          have := hmin d hd
          rw [hd0'] at this
          linarith
        · have hb : static_num_bins n N = n := by simp [static_num_bins, h]
          have h1 := list_length_mul_le_sum _ _ hmin
          have hlenq : (((static_assign_upto (static_num_bins n N)
              ((∑ i in Finset.range N, avg i) / ((static_num_bins n N : Nat) : ℚ)) avg
                k).durations.length : Nat) : ℚ) = (n : ℚ) := by
            rw [hlen, hb]
          rw [hsum, hlenq] at h1
          have h2 := sum_range_mono avg N hpos k (by omega)
          rw [le_div_iff₀ hnq]
          linarith
    refine ⟨by simp [hlen], ?_, ?_, ?_⟩
    · intro d hd
      rcases List.mem_or_eq_of_mem_set hd with h | h
      · exact hbd d h
      · rw [h]
        exact ⟨by rw [hget]; linarith, hnew⟩
    · rw [List.sum_set', dif_pos hi, hsum, Finset.sum_range_succ, hget]
      ring
    · have := countP_set_add_one_ge (fun d => decide (d = 0)) _ i
        ((static_assign_upto (static_num_bins n N)
          ((∑ i in Finset.range N, avg i) / ((static_num_bins n N : Nat) : ℚ)) avg
            k).durations.getD i 0 + avg k) hi
      omega

/-- C10: for `nJobs ≥ 1`, `num_threads ≥ 1` and `avgElapsed[j] > 0` for all
`j < nJobs`, `jobqueue_push_static_jobs` completes, has
`min(num_threads, nJobs)` bins, and every bin's accumulated duration is at most
`max(avg) + T / num_threads`, `T` the sum of the averages; the same holds with
any upper bound `M` of the averages in place of `max(avg)`. -/
theorem C10_static_greedy_bound (env : Env) (thpool : ThPool) (newjobs : List Job)
    (avgElapsed nJobs : Nat) (hJ : 1 ≤ nJobs) (hT : 1 ≤ thpool.num_threads)
    (halloc : env.malloc_static = true)
    (hpos : ∀ j, j < nJobs → 0 < env.mem (avgElapsed + j)) :
    (∃ p, jobqueue_push_static_jobs env thpool newjobs avgElapsed nJobs = some (0, p)) ∧
    (static_assign thpool.num_threads (fun j => env.mem (avgElapsed + j)) nJobs).durations.length
      = min thpool.num_threads nJobs ∧
    (∀ d ∈ (static_assign thpool.num_threads (fun j => env.mem (avgElapsed + j))
        nJobs).durations,
      d ≤ static_max (fun j => env.mem (avgElapsed + j)) nJobs +
        static_total_duration (fun j => env.mem (avgElapsed + j)) nJobs /
          (thpool.num_threads : ℚ)) ∧
    (∃ j, j < nJobs ∧ static_max (fun j => env.mem (avgElapsed + j)) nJobs =
      env.mem (avgElapsed + j)) ∧
    ∀ M : ℚ, (∀ j, j < nJobs → env.mem (avgElapsed + j) ≤ M) →
      ∀ d ∈ (static_assign thpool.num_threads (fun j => env.mem (avgElapsed + j))
          nJobs).durations,
        d ≤ M + static_total_duration (fun j => env.mem (avgElapsed + j)) nJobs /
          (thpool.num_threads : ℚ) := by
  have hbins : static_num_bins thpool.num_threads nJobs = min thpool.num_threads nJobs := by
    unfold static_num_bins
    split_ifs with h
    · exact (Nat.min_eq_right (le_of_lt h)).symm
    · exact (Nat.min_eq_left (not_lt.mp h)).symm
  have hmax := static_max_spec (fun j => env.mem (avgElapsed + j)) nJobs
  have hgen : ∀ M : ℚ, (∀ j, j < nJobs → env.mem (avgElapsed + j) ≤ M) →
      (static_assign thpool.num_threads (fun j => env.mem (avgElapsed + j))
          nJobs).durations.length = static_num_bins thpool.num_threads nJobs ∧
      ∀ d ∈ (static_assign thpool.num_threads (fun j => env.mem (avgElapsed + j))
          nJobs).durations,
        d ≤ M + static_total_duration (fun j => env.mem (avgElapsed + j)) nJobs /
          (thpool.num_threads : ℚ) := by
    intro M hM
    have hinv := static_loop_inv thpool.num_threads nJobs hT hJ
      (fun j => env.mem (avgElapsed + j)) M hpos hM nJobs (le_refl _)
    rw [← static_total_duration_eq_sum, ← static_assign_eq_upto] at hinv
    exact ⟨hinv.1, fun d hd => (hinv.2.1 d hd).2⟩
  refine ⟨?_, ?_, ?_, ?_, ?_⟩
  · have hb0 : static_num_bins thpool.num_threads nJobs ≠ 0 := by
      rw [hbins]; omega
    simp [jobqueue_push_static_jobs, halloc, hb0]
  · rw [(hgen _ hmax.2).1, hbins]
  · exact (hgen _ hmax.2).2
  · exact static_max_attained (fun j => env.mem (avgElapsed + j)) nJobs hJ hpos
  · intro M hM
    exact (hgen M hM).2

/-- C10 (witness): three threads and the averages `[10,1,1,1,1,1]`. -/
theorem C10_static_greedy_bound_witness :
    1 ≤ 6 ∧ 1 ≤ (fresh_pool 3).num_threads ∧
    (env_ok (arr [10, 1, 1, 1, 1, 1])).malloc_static = true ∧
    (∀ j, j < 6 → 0 < (env_ok (arr [10, 1, 1, 1, 1, 1])).mem (0 + j)) ∧
    (∃ p, jobqueue_push_static_jobs (env_ok (arr [10, 1, 1, 1, 1, 1])) (fresh_pool 3)
        (thpool_add_jobs_records id id (some 0) none none 6) 0 6 = some (0, p)) ∧
    (static_assign (fresh_pool 3).num_threads
        (fun j => (env_ok (arr [10, 1, 1, 1, 1, 1])).mem (0 + j)) 6).durations.length
      = min (fresh_pool 3).num_threads 6 ∧
    ∀ d ∈ (static_assign (fresh_pool 3).num_threads
        (fun j => (env_ok (arr [10, 1, 1, 1, 1, 1])).mem (0 + j)) 6).durations,
      d ≤ static_max (fun j => (env_ok (arr [10, 1, 1, 1, 1, 1])).mem (0 + j)) 6 +
        static_total_duration (fun j => (env_ok (arr [10, 1, 1, 1, 1, 1])).mem (0 + j)) 6 /
          ((fresh_pool 3).num_threads : ℚ) :=
  have hpos : ∀ j, j < 6 → 0 < (env_ok (arr [10, 1, 1, 1, 1, 1])).mem (0 + j) := by
    intro j hj
    interval_cases j <;> simp [env_ok, arr]
  have h := C10_static_greedy_bound (env_ok (arr [10, 1, 1, 1, 1, 1])) (fresh_pool 3)
      (thpool_add_jobs_records id id (some 0) none none 6) 0 6 (by decide) (by decide) rfl hpos
  ⟨by decide, by decide, rfl, hpos, h.1, h.2.1, h.2.2.1⟩

/-! ### Lemmas on the queue in exact arithmetic: conservation and FIFO order -/

theorem sumAvg_cons (mem : Nat → ℚ) (job : Job) (rest : List Job) :
    sumAvg mem (job :: rest) = jobAvg mem job + sumAvg mem rest := by
  simp [sumAvg]

/-- On a well-formed non-empty queue `jobqueue_extract_single` detaches the
head record and leaves a well-formed queue. -/
theorem jobqueue_extract_single_spec (mem : Nat → ℚ) (q : JobQueue) (job : Job)
    (rest : List Job) (hf : q.front = job :: rest) (hlen : q.len = q.front.length)
    (htot : q.total_time = sumAvg mem q.front) :
    ∃ q', jobqueue_extract_single mem q = some (some job, q') ∧ q'.front = rest ∧
      q'.len = rest.length ∧ q'.total_time = sumAvg mem rest ∧
      q'.group_front = q.group_front := by
  rw [hf] at hlen htot
  simp only [List.length_cons] at hlen
  unfold jobqueue_extract_single
  cases rest with
  | nil =>
    simp only [List.length_nil, Nat.zero_add] at hlen
    simp [hlen, hf, sumAvg]
  | cons r rs =>
    simp only [List.length_cons] at hlen
    rw [hlen, hf]
    simp only []
    rw [sumAvg_cons] at htot
    cases ha : job.avgElapsed with
    | none =>
      simp only [jobAvg, ha] at htot
      refine ⟨_, rfl, rfl, ?_, ?_, rfl⟩
      · simp [hlen]
      · simp [htot]
    | some p =>
      simp only [jobAvg, ha] at htot
      refine ⟨_, rfl, rfl, ?_, ?_, rfl⟩
      · simp [hlen]
      · simp [htot]

theorem jobqueue_pull_extract_spec (mem : Nat → ℚ) :
    ∀ (count : Nat) (q : JobQueue) (acc : List Job), count ≤ q.front.length →
      q.len = q.front.length → q.total_time = sumAvg mem q.front →
      ∃ q', jobqueue_pull_extract mem count q acc = some (acc ++ q.front.take count, q') ∧
        q'.front = q.front.drop count ∧ q'.len = q'.front.length ∧
        q'.total_time = sumAvg mem q'.front ∧ q'.group_front = q.group_front := by
  intro count
  induction count with
  | zero =>
    intro q acc _ hlen htot
    exact ⟨q, by simp [jobqueue_pull_extract], by simp, hlen, htot, rfl⟩
  | succ c ih =>
    intro q acc hc hlen htot
    cases hf : q.front with
    | nil => rw [hf] at hc; simp at hc
    | cons job rest =>
      obtain ⟨q1, h1, h2, h3, h4, h5⟩ :=
        jobqueue_extract_single_spec mem q job rest hf hlen htot
      rw [hf] at hc
      simp only [List.length_cons, Nat.add_le_add_iff_right] at hc
      obtain ⟨q2, e1, e2, e3, e4, e5⟩ := ih q1 (acc ++ [job]) (by rw [h2]; exact hc)
        (by rw [h3, h2]) (by rw [h4, h2])
      refine ⟨q2, ?_, ?_, e3, e4, by rw [e5, h5]⟩
      · simp only [jobqueue_pull_extract, h1]
        rw [e1, h2]
        simp
      · rw [e2, h2]; simp

/-- The grouping walk stops inside the chain when the target does not exceed
the total of the averages still queued. -/
theorem jobqueue_pull_walk_spec (mem : Nat → ℚ) (target total : ℚ) (htt : target ≤ total) :
    ∀ (rest : List Job) (size : Nat) (d : ℚ), rest ≠ [] → d + sumAvg mem rest = total →
      ∃ size' d', jobqueue_pull_walk mem target rest size d d = some (size', d') ∧
        size ≤ size' ∧ size' < size + rest.length := by
  intro rest
  induction rest with
  | nil => intro size d h; exact absurd rfl h
  | cons job rest ih =>
    intro size d _ hsum
    rw [sumAvg_cons] at hsum
    unfold jobqueue_pull_walk
    cases ha : job.avgElapsed with
    | none => exact ⟨size, d, rfl, le_refl _, by simp⟩
    | some p =>
      simp only [jobAvg, ha] at hsum
      simp only []
      split_ifs with hlt
      · have hne : rest ≠ [] := by
          rintro rfl
          simp only [sumAvg, List.map_nil, List.sum_nil, add_zero] at hsum
          linarith
        obtain ⟨s', d', h1, h2, h3⟩ := ih (size + 1) (d + mem p) hne (by linarith)
        refine ⟨s', d', h1, by omega, ?_⟩
        simp only [List.length_cons]
        omega
      · exact ⟨size, d, rfl, le_refl _, by simp⟩

theorem jobqueue_extract_single_group_spec (mem : Nat → ℚ) (q : JobQueue) (job : Job)
    (rest : List Job) (hf : q.front = job :: rest) (hlen : q.len = q.front.length)
    (htot : q.total_time = sumAvg mem q.front) :
    ∃ q', jobqueue_extract_single_group mem q = some ({ jobs := [job], size := 1 }, q') ∧
      q'.front = rest ∧ q'.len = rest.length ∧ q'.total_time = sumAvg mem rest ∧
      q'.group_front = q.group_front := by
  obtain ⟨q', h1, h2, h3, h4, h5⟩ := jobqueue_extract_single_spec mem q job rest hf hlen htot
  exact ⟨q', by simp [jobqueue_extract_single_group, h1], h2, h3, h4, h5⟩

theorem jobqueue_pull_post_fields (q : JobQueue) :
    (jobqueue_pull_post q).front = q.front ∧ (jobqueue_pull_post q).len = q.len ∧
      (jobqueue_pull_post q).total_time = q.total_time ∧
      (jobqueue_pull_post q).group_front = q.group_front := by
  unfold jobqueue_pull_post
  split_ifs <;> simp

/-- C11 (counterexample): with 3 threads, `SCHED_STATIC` and 6 jobs submitted
in identity order with `avg = [10,1,1,1,1,1]`, the work groups hold 1, 4 and 1
jobs; no relabelling of the bins gives the sizes 1, 3, 2. -/
theorem C11_counterexample_bin_sizes :
    (thpool_add_jobs globals_static (env_ok (arr [10, 1, 1, 1, 1, 1])) (fresh_pool 3) id id
        (some 0) none (some identity_order) 6).map
      (fun r => r.2.jobqueue.group_front.map (fun grp => grp.size)) = some [1, 4, 1] ∧
    ¬ List.Perm [1, 4, 1] [1, 3, 2] := by
  refine ⟨by with_unfolding_all decide, by decide⟩

/-- C11 (amended): with 3 threads, `SCHED_STATIC` and 6 jobs submitted in
identity order with `avg = [10,1,1,1,1,1]`, `jobqueue_push_static_jobs` is
reached and builds the groups `{job 0}`, `{jobs 1,2,3,4}`, `{job 5}`, that is
the bins `{10}`, `{1,1,1,1}`, `{1}` with durations 10, 4 and 1; the largest
bin duration is 10. -/
theorem C11_static_scenario_bins :
    thpool_add_jobs_static globals_static (env_ok (arr [10, 1, 1, 1, 1, 1])) (some 0)
      (some identity_order) 6 = true ∧
    (thpool_add_jobs globals_static (env_ok (arr [10, 1, 1, 1, 1, 1])) (fresh_pool 3) id id
        (some 0) none (some identity_order) 6).map
      (fun r => (r.1, r.2.jobqueue.group_front.map
        (fun grp => (grp.size, grp.jobs.map (fun job => job.function))),
        r.2.jobqueue.front)) =
      some (0, [(1, [0]), (4, [1, 2, 3, 4]), (1, [5])], []) ∧
    (static_assign 3 (arr [10, 1, 1, 1, 1, 1]) 6).durations = [10, 4, 1] ∧
    (static_assign 3 (arr [10, 1, 1, 1, 1, 1]) 6).jobs2thread = [0, 1, 1, 1, 1, 2] ∧
    (∀ d ∈ (static_assign 3 (arr [10, 1, 1, 1, 1, 1]) 6).durations, d ≤ 10) := by
  refine ⟨by with_unfolding_all decide, by with_unfolding_all decide, by with_unfolding_all decide, by with_unfolding_all decide, by with_unfolding_all decide⟩

/-! ### C12: which batches go to `jobqueue_push_static_jobs` -/

/-- C12 (counterexample): under `SCHED_STATIC` with `avg = [1,1]` non-null and
`avg[0] > 0` but `order = NULL`, `thpool_add_jobs` does what
`jobqueue_multipush` does (two records in the FIFO, no work group) and not
what `jobqueue_push_static_jobs` does. -/
theorem C12_counterexample_null_order :
    globals_static.group_gen_strategy = ScheduleStrategy.SCHED_STATIC ∧
    0 < (env_ok (arr [1, 1])).mem 0 ∧
    (thpool_add_jobs globals_static (env_ok (arr [1, 1])) (fresh_pool 2) id id (some 0) none
        none 2).map (fun r => (r.1, r.2.jobqueue)) =
      some (0, jobqueue_multipush (arr [1, 1]) (fresh_pool 2).jobqueue
        (thpool_add_jobs_records id id (some 0) none none 2)) ∧
    (thpool_add_jobs globals_static (env_ok (arr [1, 1])) (fresh_pool 2) id id (some 0) none
        none 2).map (fun r => (r.2.jobqueue.front.length, r.2.jobqueue.group_front.length)) =
      some (2, 0) ∧
    thpool_add_jobs globals_static (env_ok (arr [1, 1])) (fresh_pool 2) id id (some 0) none
        none 2 ≠
      jobqueue_push_static_jobs (env_ok (arr [1, 1])) (fresh_pool 2)
        (thpool_add_jobs_records id id (some 0) none none 2) 0 2 := by
  refine ⟨rfl, ?_, ?_, ?_, ?_⟩
  · simp [env_ok, arr]
  · with_unfolding_all decide
  · with_unfolding_all decide
  · with_unfolding_all decide

theorem thpool_add_jobs_static_iff (g : Globals) (env : Env) (avgElapsed : Option Nat)
    (order : Option (Nat → Nat)) (nJobs : Nat) :
    thpool_add_jobs_static g env avgElapsed order nJobs = true ↔
      g.group_gen_strategy = ScheduleStrategy.SCHED_STATIC ∧
      (∃ base, avgElapsed = some base ∧ 0 < env.mem base) ∧ order.isSome = true ∧
      0 < nJobs := by
  unfold thpool_add_jobs_static
  cases avgElapsed with
  | none => simp
  | some base =>
    cases order with
    | none => simp
    | some o =>
      simp only [Bool.and_eq_true, decide_eq_true_eq, Option.some.injEq, exists_eq_left',
        Option.isSome_some, true_and]
      tauto

/-- C12 (amended): for every non-empty batch whose records are allocated,
`thpool_add_jobs` hands the batch to `jobqueue_push_static_jobs` exactly when
`strategy == SCHED_STATIC`, `avgElapsed` is non-null, `order` is non-null and
`avgElapsed[0] > 0`; in every other case it hands it to `jobqueue_multipush`
and returns `0`. -/
theorem C12_static_route_condition (g : Globals) (env : Env) (thpool : ThPool)
    (functions args : Nat → Nat) (avgElapsed elapsed : Option Nat)
    (order : Option (Nat → Nat)) (nJobs : Nat) (hn : 0 < nJobs)
    (halloc : ∀ i, i < nJobs → env.malloc_job i = true) :
    ((g.group_gen_strategy = ScheduleStrategy.SCHED_STATIC ∧
        (∃ base, avgElapsed = some base ∧ 0 < env.mem base) ∧ order.isSome = true) →
      ∃ base, avgElapsed = some base ∧
        thpool_add_jobs g env thpool functions args avgElapsed elapsed order nJobs =
          jobqueue_push_static_jobs env thpool
            (thpool_add_jobs_records functions args avgElapsed elapsed order nJobs) base nJobs) ∧
    (¬ (g.group_gen_strategy = ScheduleStrategy.SCHED_STATIC ∧
        (∃ base, avgElapsed = some base ∧ 0 < env.mem base) ∧ order.isSome = true) →
      ∃ p, thpool_add_jobs g env thpool functions args avgElapsed elapsed order nJobs =
          some (0, p) ∧
        p.jobqueue = jobqueue_multipush env.mem thpool.jobqueue
          (thpool_add_jobs_records functions args avgElapsed elapsed order nJobs) ∧
        p.jobqueue.group_front = thpool.jobqueue.group_front) := by
  have hall : (List.range nJobs).all env.malloc_job = true := by
    rw [List.all_eq_true]
    intro i hi
    exact halloc i (List.mem_range.mp hi)
  constructor
  · rintro ⟨hs, ⟨base, hb, hpos⟩, ho⟩
    have hst : thpool_add_jobs_static g env avgElapsed order nJobs = true :=
      (thpool_add_jobs_static_iff g env avgElapsed order nJobs).mpr
        ⟨hs, ⟨base, hb, hpos⟩, ho, hn⟩
    refine ⟨base, hb, ?_⟩
    subst hb
    simp [thpool_add_jobs, hall, hst]
  · intro hneg
    have hst : thpool_add_jobs_static g env avgElapsed order nJobs = false := by
      rw [Bool.eq_false_iff, Ne, thpool_add_jobs_static_iff]
      rintro ⟨h1, h2, h3, _⟩
      exact hneg ⟨h1, h2, h3⟩
    obtain ⟨p, hp, hq⟩ := thpool_add_jobs_multipush_eq g env thpool functions args avgElapsed
      elapsed order nJobs halloc hst
    refine ⟨p, hp, hq, ?_⟩
    rw [hq]
    simp only [jobqueue_multipush]
    clear hq hp
    generalize thpool_add_jobs_records functions args avgElapsed elapsed order nJobs = l
    generalize thpool.jobqueue = q
    induction l generalizing q with
    | nil => rfl
    | cons job rest ih =>
      rw [List.foldl_cons, ih]
      unfold jobqueue_push_internal
      cases q.len <;> cases job.avgElapsed <;> rfl

/-- C12 (witness): under `SCHED_STATIC` with `avg = [1,1]`, the batch with
`order = [0,1]` goes to `jobqueue_push_static_jobs`. -/
theorem C12_static_route_condition_witness :
    0 < 2 ∧ (∀ i, i < 2 → (env_ok (arr [1, 1])).malloc_job i = true) ∧
    (globals_static.group_gen_strategy = ScheduleStrategy.SCHED_STATIC ∧
      (∃ base, some 0 = some base ∧ 0 < (env_ok (arr [1, 1])).mem base) ∧
      (some identity_order).isSome = true) ∧
    ∃ base, some 0 = some base ∧
      thpool_add_jobs globals_static (env_ok (arr [1, 1])) (fresh_pool 2) id id (some 0) none
          (some identity_order) 2 =
        jobqueue_push_static_jobs (env_ok (arr [1, 1])) (fresh_pool 2)
          (thpool_add_jobs_records id id (some 0) none (some identity_order) 2) base 2 :=
  have hc : globals_static.group_gen_strategy = ScheduleStrategy.SCHED_STATIC ∧
      (∃ base, some 0 = some base ∧ 0 < (env_ok (arr [1, 1])).mem base) ∧
      (some identity_order).isSome = true :=
    ⟨rfl, ⟨0, rfl, by simp [env_ok, arr]⟩, rfl⟩
  ⟨by decide, fun _ _ => rfl, hc,
    (C12_static_route_condition globals_static (env_ok (arr [1, 1])) (fresh_pool 2) id id
      (some 0) none (some identity_order) 2 (by decide) (fun _ _ => rfl)).1 hc⟩

/-! ### C13: `cppadcg_thpool_prepare` with no threads configured -/

/-- C13: when `cppadcg_thpool_prepare` runs with no pool present and the
configured `n_threads` is `0` or negative, the pool handle stays null and the
disabled flag is set; every later `cppadcg_thpool_add_job` and
`cppadcg_thpool_add_jobs` makes its calls on the calling thread and leaves the
variables as they are. -/
theorem C13_prepare_without_threads (g : Globals) (env : Env)
    (hpool : g.cppadcg_pool = none) (hn : g.cppadcg_pool_n_threads ≤ 0) :
    (cppadcg_thpool_prepare g env).cppadcg_pool = none ∧
    (cppadcg_thpool_prepare g env).cppadcg_pool_disabled = 1 ∧
    (∀ (env' : Env) (function arg : Nat) (avgElapsed elapsed : Option Nat),
      cppadcg_thpool_add_job (cppadcg_thpool_prepare g env) env' function arg avgElapsed
          elapsed =
        (cppadcg_thpool_prepare g env, [(function, arg)])) ∧
    (∀ (env' : Env) (functions args : Nat → Nat) (avgElapsed elapsed : Option Nat)
        (order : Option (Nat → Nat)) (nJobs : Nat),
      cppadcg_thpool_add_jobs (cppadcg_thpool_prepare g env) env' functions args avgElapsed
          elapsed order nJobs =
        some (cppadcg_thpool_prepare g env,
          (List.range nJobs).map (fun i => (functions i, args i)))) := by
  have hinit : thpool_init g env g.cppadcg_pool_n_threads =
      ({ g with cppadcg_pool_disabled := 1 }, none) := by
    unfold thpool_init
    by_cases h : g.cppadcg_pool_n_threads < 0
    · simp [h]
    · have h0 : g.cppadcg_pool_n_threads = 0 := by omega
      simp [h0]
  have hprep : cppadcg_thpool_prepare g env =
      { g with cppadcg_pool_disabled := 1, cppadcg_pool := none } := by
    unfold cppadcg_thpool_prepare
    rw [hpool]
    simp only [hinit]
  refine ⟨by rw [hprep], by rw [hprep], ?_, ?_⟩
  · intro env' function arg avgElapsed elapsed
    rw [hprep]
    simp [cppadcg_thpool_add_job]
  · intro env' functions args avgElapsed elapsed order nJobs
    rw [hprep]
    simp [cppadcg_thpool_add_jobs]

/-- C13 (witness): `n_threads = 0` at program start. -/
theorem C13_prepare_without_threads_witness :
    globals_no_threads.cppadcg_pool = none ∧ globals_no_threads.cppadcg_pool_n_threads ≤ 0 ∧
    (cppadcg_thpool_prepare globals_no_threads (env_ok (arr []))).cppadcg_pool = none ∧
    (cppadcg_thpool_prepare globals_no_threads (env_ok (arr []))).cppadcg_pool_disabled = 1 :=
  have h := C13_prepare_without_threads globals_no_threads (env_ok (arr [])) rfl (by decide)
  ⟨rfl, by decide, h.1, h.2.1⟩

/-! ### C14: what a worker does with each job of its group -/

theorem thread_do_job_calls (clock : Nat → Option ℚ) (st : WorkerRun) (job : Job) :
    (thread_do_job clock st job).calls = st.calls ++ [(job.function, job.arg)] := by
  unfold thread_do_job
  cases he : job.elapsed with
  | none => simp
  | some p =>
    simp only [Option.isSome_some, if_true, true_and]
    split_ifs <;> rfl

theorem thread_do_group_calls (clock : Nat → Option ℚ) (jobs : List Job) :
    ∀ st : WorkerRun, (jobs.foldl (thread_do_job clock) st).calls =
      st.calls ++ jobs.map (fun job => (job.function, job.arg)) := by
  induction jobs with
  | nil => intro st; simp
  | cons job rest ih =>
    intro st
    rw [List.foldl_cons, ih, thread_do_job_calls]
    simp

/-- C14: for a job of the group, the worker calls `fn(arg)` exactly once
whatever the clock does; `*elapsed` is written exactly when `elapsed` is
non-null and the clock reads before and after the call both succeed, the value
being `post - pre`, and memory is untouched in every other case. Over a whole
group the calls are those of `jobs[0 .. size-1]`, in group order. -/
theorem C14_worker_job_execution (clock : Nat → Option ℚ) (st : WorkerRun) (job : Job) :
    (thread_do_job clock st job).calls = st.calls ++ [(job.function, job.arg)] ∧
    (∀ p pre post, job.elapsed = some p → clock st.reads = some pre →
        clock (st.reads + 1) = some post →
      (thread_do_job clock st job).mem = Function.update st.mem p (post - pre)) ∧
    ((job.elapsed = none ∨ clock st.reads = none ∨ clock (st.reads + 1) = none) →
      (thread_do_job clock st job).mem = st.mem) ∧
    (∀ group : WorkGroup, (thread_do_group clock st group).calls =
      st.calls ++ (group.jobs.take group.size).map (fun j => (j.function, j.arg))) := by
  refine ⟨thread_do_job_calls clock st job, ?_, ?_, ?_⟩
  · intro p pre post he h1 h2
    simp only [thread_do_job, he, h1, h2, get_thread_time, Option.isSome_some, if_true,
      and_self]
    have hv : -pre + post = post - pre := by ring
    rw [hv]
  · intro h
    unfold thread_do_job
    cases he : job.elapsed with
    | none => simp
    | some p =>
      simp only [Option.isSome_some, if_true, true_and]
      cases h1 : clock st.reads with
      | none => simp [get_thread_time]
      | some pre =>
        cases h2 : clock (st.reads + 1) with
        | none => simp [get_thread_time]
        | some post =>
          rcases h with h | h | h
          · rw [he] at h; exact absurd h (by simp)
          · rw [h1] at h; exact absurd h (by simp)
          · rw [h2] at h; exact absurd h (by simp)
  · intro group
    exact thread_do_group_calls clock _ st

/-- C14 (witness): a job with `elapsed = &mem[7]`, clock reads `2` before and
`5` after the call. -/
theorem C14_worker_job_execution_witness :
    (⟨10, 20, none, some 7⟩ : Job).elapsed = some 7 ∧
    (fun k => if k = 0 then some (2 : ℚ) else some 5) (worker_start (arr [])).reads = some 2 ∧
    (fun k => if k = 0 then some (2 : ℚ) else some 5) ((worker_start (arr [])).reads + 1) =
      some 5 ∧
    (thread_do_job (fun k => if k = 0 then some (2 : ℚ) else some 5) (worker_start (arr []))
      ⟨10, 20, none, some 7⟩).mem = Function.update (worker_start (arr [])).mem 7 (5 - 2) :=
  ⟨rfl, rfl, rfl,
    (C14_worker_job_execution (fun k => if k = 0 then some (2 : ℚ) else some 5)
      (worker_start (arr [])) ⟨10, 20, none, some 7⟩).2.1 7 2 5 rfl rfl rfl⟩

/-! ### The greedy branch of `jobqueue_pull` -/

/-- The greedy branch of `jobqueue_pull` on a well-formed queue: when the walk
returns `size`, the group is made of the first `size` records of the chain. -/
theorem jobqueue_pull_greedy_spec (g : Globals) (mem : Nat → ℚ) (clock : Option ℚ)
    (thpool : ThPool) (job : Job) (rest : List Job) (a size : Nat) (d : ℚ)
    (hnopop : g.group_gen_strategy ≠ ScheduleStrategy.SCHED_STATIC ∨
      thpool.jobqueue.group_front = [])
    (hs : g.group_gen_strategy ≠ ScheduleStrategy.SCHED_SINGLE_JOB)
    (hl : 2 ≤ thpool.jobqueue.len) (ht : 0 < thpool.jobqueue.total_time)
    (hf : thpool.jobqueue.front = job :: rest) (ha : job.avgElapsed = some a)
    (hlen : thpool.jobqueue.len = thpool.jobqueue.front.length)
    (htot : thpool.jobqueue.total_time = sumAvg mem thpool.jobqueue.front)
    (hw : jobqueue_pull_walk mem (jobqueue_pull_target g clock thpool) rest 1 (mem a) (mem a) =
      some (size, d))
    (hsz : size ≤ thpool.jobqueue.front.length) :
    ∃ p, jobqueue_pull g mem clock thpool =
        some ({ jobs := thpool.jobqueue.front.take size, size := size }, p) ∧
      p.jobqueue.front = thpool.jobqueue.front.drop size ∧
      p.jobqueue.len = p.jobqueue.front.length ∧
      p.jobqueue.total_time = sumAvg mem p.jobqueue.front ∧
      p.jobqueue.group_front = thpool.jobqueue.group_front ∧
      p.num_threads = thpool.num_threads := by
  obtain ⟨q', e1, e2, e3, e4, e5⟩ := jobqueue_pull_extract_spec mem size thpool.jobqueue []
    hsz hlen htot
  simp only [jobqueue_pull_target] at hw
  have hbranch : ¬ (g.group_gen_strategy = ScheduleStrategy.SCHED_SINGLE_JOB ∨
      thpool.jobqueue.len ≤ 1 ∨ thpool.jobqueue.total_time ≤ 0) := by
    rintro (h | h | h)
    · exact hs h
    · omega
    · exact absurd ht (not_lt.mpr h)
  unfold jobqueue_pull
  simp only []
  split
  · rename_i hst hgf
    rcases hnopop with h | h
    · simp [h] at hst
    · rw [h] at hgf; exact absurd hgf (by simp)
  · rw [if_neg hbranch]
    split
    · rename_i hnil
      rw [hf] at hnil
      exact absurd hnil (by simp)
    · rename_i job' rest' hcons
      rw [hf] at hcons
      simp only [List.cons.injEq] at hcons
      obtain ⟨rfl, rfl⟩ := hcons
      rw [ha]
      simp only []
      rw [hw]
      simp only []
      rw [e1]
      simp only [List.nil_append]
      refine ⟨_, rfl, ?_, ?_, ?_, ?_, rfl⟩
      · rw [(jobqueue_pull_post_fields _).1]
        split_ifs <;> simp [e2]
      · rw [(jobqueue_pull_post_fields _).1, (jobqueue_pull_post_fields _).2.1]
        split_ifs <;> simp [e3]
      · rw [(jobqueue_pull_post_fields _).1, (jobqueue_pull_post_fields _).2.2.1]
        split_ifs <;> simp [e4]
      · rw [(jobqueue_pull_post_fields _).2.2.2]
        split_ifs <;> simp [e5]

/-! ### The stopping rule of the greedy branch in exact arithmetic -/

/-- C16 (the code at the failing input): 2 threads, factor `3/4`, nine queued
jobs with averages `[4,1,1,1,1,1,1,1,1]`. A first pull at instant 100 takes the
head job and records `highest_expected_return = 104`. For a second pull whose
clock read succeeds with `now = 100`, the target used is
`total_time * 3/4 / 2 = 3` and the group has 2 jobs, although
`0.9 * (104 - 100) = 3.6` is larger and would give 3 jobs. The target is
enlarged only when the clock read fails (then with `now = 0`, to `93.6`). -/
theorem C16_target_not_enlarged_after_clock_success :
    (jobqueue_pull globals_multi_job (arr [4, 1, 1, 1, 1, 1, 1, 1, 1]) (some 100)
        (queued_pool (arr [4, 1, 1, 1, 1, 1, 1, 1, 1]) 2 9)).map
      (fun r => (r.1.size, r.2.jobqueue.highest_expected_return, r.2.jobqueue.total_time)) =
      some (1, 104, 8) ∧
    (jobqueue_pull globals_multi_job (arr [4, 1, 1, 1, 1, 1, 1, 1, 1]) (some 100)
        (queued_pool (arr [4, 1, 1, 1, 1, 1, 1, 1, 1]) 2 9)).map
      (fun r => (jobqueue_pull_target globals_multi_job (some 100) r.2,
        max (r.2.jobqueue.total_time * globals_multi_job.cppadcg_pool_multijob_maxgroupwork /
            (r.2.num_threads : ℚ))
          (9 / 10 * (r.2.jobqueue.highest_expected_return - 100)))) =
      some (3, 18 / 5) ∧
    (jobqueue_pull globals_multi_job (arr [4, 1, 1, 1, 1, 1, 1, 1, 1]) (some 100)
        (queued_pool (arr [4, 1, 1, 1, 1, 1, 1, 1, 1]) 2 9)).map
      (fun r =>
        ((jobqueue_pull globals_multi_job (arr [4, 1, 1, 1, 1, 1, 1, 1, 1]) (some 100) r.2).map
          (fun r2 => r2.1.size),
        jobqueue_pull_walk (arr [4, 1, 1, 1, 1, 1, 1, 1, 1]) (18 / 5)
          r.2.jobqueue.front.tail 1 1 1)) =
      some (some 2, some (3, 3)) ∧
    (jobqueue_pull globals_multi_job (arr [4, 1, 1, 1, 1, 1, 1, 1, 1]) (some 100)
        (queued_pool (arr [4, 1, 1, 1, 1, 1, 1, 1, 1]) 2 9)).map
      (fun r => jobqueue_pull_target globals_multi_job none r.2) = some (468 / 5) := by
  refine ⟨?_, ?_, ?_, ?_⟩ <;> with_unfolding_all decide

/-! ### C17: how much work one greedy pull takes -/

theorem jobqueue_pull_target_plain (g : Globals) (clock : Option ℚ) (thpool : ThPool)
    (h : thpool.jobqueue.highest_expected_return ≤ 0 ∨ clock.isSome = true) :
    jobqueue_pull_target g clock thpool =
      thpool.jobqueue.total_time * g.cppadcg_pool_multijob_maxgroupwork /
        (thpool.num_threads : ℚ) := by
  unfold jobqueue_pull_target
  simp only []
  rw [if_neg]
  rintro ⟨h1, h2⟩
  rcases h with h | h
  · exact absurd h1 (not_lt.mpr h)
  · cases clock with
    | none => simp at h
    | some t => simp [get_monotonic_time] at h2

/-- C19 (the code at the failing input): under `SCHED_STATIC`, a batch of 8
jobs of average 1 submitted with `order = NULL` goes to the FIFO; there is no
group chain, and the pull of a pool with 2 threads returns a group of 2 jobs:
the greedy branch is taken although the strategy is not `SCHED_MULTI_JOB`. -/
theorem C19_static_without_chain_groups_jobs :
    globals_static.group_gen_strategy = ScheduleStrategy.SCHED_STATIC ∧
    (thpool_add_jobs globals_static (env_ok avg_ones) (fresh_pool 2) id id (some 0) none none
        8).map (fun r => (r.2.jobqueue.len, r.2.jobqueue.group_front)) = some (8, []) ∧
    ((thpool_add_jobs globals_static (env_ok avg_ones) (fresh_pool 2) id id (some 0) none none
        8).bind (fun r => jobqueue_pull globals_static avg_ones (some 100) r.2)).map
      (fun r => (r.1.size, r.1.jobs.map (fun job => job.function))) = some (2, [0, 1]) := by
  refine ⟨rfl, ?_, ?_⟩ <;> with_unfolding_all decide

/-! ### C20: the work groups built by `jobqueue_push_static_jobs` -/

/-- One placement step picks a bin `i`, counts the job in `n_jobs[i]` and
records `i` in `jobs2thread`. -/
theorem static_place_assign (t a : ℚ) (st : StaticBins) (hne : st.durations ≠ []) :
    ∃ i, i < st.durations.length ∧
      (static_place t st a).n_jobs = st.n_jobs.set i (st.n_jobs.getD i 0 + 1) ∧
      (static_place t st a).jobs2thread = st.jobs2thread ++ [i] ∧
      (static_place t st a).durations.length = st.durations.length := by
  unfold static_place
  cases hff : static_first_fit t a st.durations 0 with
  | some i =>
    obtain ⟨_, h2, _⟩ := static_first_fit_some t a st.durations 0 i hff
    simp only [Nat.sub_zero] at h2
    exact ⟨i, h2, rfl, rfl, by simp⟩
  | none =>
    obtain ⟨d0, tl, hD⟩ := List.exists_cons_of_ne_nil hne
    have h := static_least_loaded_spec a tl [d0] (d0 + a) 0 (by simp) (by simp) (by simp)
    simp only [List.length_singleton, List.singleton_append] at h
    obtain ⟨h1, _, _⟩ := h
    simp only [hD, List.tail_cons, List.headD_cons]
    exact ⟨_, h1, rfl, rfl, by simp⟩

/-- Invariant of the placement loop on `n_jobs` and `jobs2thread`. -/
theorem static_assign_upto_bins (bins : Nat) (hb : 1 ≤ bins) (t : ℚ) (avg : Nat → ℚ) :
    ∀ k, (static_assign_upto bins t avg k).durations.length = bins ∧
      (static_assign_upto bins t avg k).n_jobs.length = bins ∧
      (static_assign_upto bins t avg k).jobs2thread.length = k ∧
      (∀ b ∈ (static_assign_upto bins t avg k).jobs2thread, b < bins) ∧
      ∀ i, i < bins → (static_assign_upto bins t avg k).n_jobs[i]? =
        some ((static_assign_upto bins t avg k).jobs2thread.count i) := by
  intro k
  induction k with
  | zero =>
    refine ⟨by simp [static_assign_upto], by simp [static_assign_upto],
      by simp [static_assign_upto], by simp [static_assign_upto], ?_⟩
    intro i hi
    simp [static_assign_upto, List.getElem?_replicate, hi]
  | succ k ih =>
    obtain ⟨h1, h2, h3, h4, h5⟩ := ih
    rw [static_assign_upto_succ]
    have hne : (static_assign_upto bins t avg k).durations ≠ [] := by
      intro h; rw [h] at h1; simp at h1; omega
    obtain ⟨b, hb1, e1, e2, e3⟩ := static_place_assign t (avg k) _ hne
    rw [h1] at hb1
    refine ⟨by rw [e3, h1], by rw [e1]; simp [h2], by rw [e2]; simp [h3], ?_, ?_⟩
    · intro x hx
      rw [e2] at hx
      rcases List.mem_append.mp hx with hx | hx
      · exact h4 x hx
      · simp only [List.mem_singleton] at hx
        rw [hx]; exact hb1
    · intro i hi
      rw [e1, e2, List.count_append, List.getElem?_set]
      by_cases hbi : b = i
      · subst hbi
        have hg : (static_assign_upto bins t avg k).n_jobs.getD b 0 =
            (static_assign_upto bins t avg k).jobs2thread.count b := by
          rw [List.getD_eq_getElem?_getD, h5 b hi]; rfl
        have h5b := h5 b hi
        rw [List.getElem?_eq_getElem (by omega)] at h5b
        simp only [Option.some.injEq] at h5b
        simp [h2, hi, hg, h5b]
      · have : List.count i [b] = 0 := by
          simp [List.count_singleton, hbi]
        simp [hbi, h5 i hi, this]

theorem static_fill_spec : ∀ (todo : List (Job × Nat)) (groups : List WorkGroup),
    (∀ x ∈ todo, x.2 < groups.length) →
      (static_fill groups todo).length = groups.length ∧
      ∀ (i : Nat) (A : List Job) (c : Nat),
        groups[i]? = some { jobs := A ++ List.replicate c default, size := A.length } →
        (todo.filter (fun x => decide (x.2 = i))).length ≤ c →
        (static_fill groups todo)[i]? = some
          { jobs := A ++ (todo.filter (fun x => decide (x.2 = i))).map (fun x => x.1) ++
              List.replicate (c - (todo.filter (fun x => decide (x.2 = i))).length) default
            size := A.length + (todo.filter (fun x => decide (x.2 = i))).length } := by
  intro todo
  induction todo with
  | nil =>
    intro groups _
    refine ⟨rfl, ?_⟩
    intro i A c hg _
    simp [static_fill, hg]
  | cons x rest ih =>
    intro groups hall
    obtain ⟨job, b⟩ := x
    have hb : b < groups.length := hall (job, b) (List.mem_cons_self _ _)
    have hrest : ∀ y ∈ rest, y.2 < (groups.set b
        { jobs := (groups.getD b default).jobs.set (groups.getD b default).size job
          size := (groups.getD b default).size + 1 }).length := by
      intro y hy
      rw [List.length_set]
      exact hall y (List.mem_cons_of_mem _ hy)
    obtain ⟨il, ic⟩ := ih _ hrest
    simp only [static_fill]
    refine ⟨by rw [il, List.length_set], ?_⟩
    intro i A c hg hc
    by_cases hbi : b = i
    · subst hbi
      have hgb : groups.getD b default =
          { jobs := A ++ List.replicate c default, size := A.length } := by
        rw [List.getD_eq_getElem?_getD, hg]; rfl
      have hfil : List.filter (fun x => decide (x.2 = b)) ((job, b) :: rest) =
          (job, b) :: List.filter (fun x => decide (x.2 = b)) rest := by
        simp [List.filter_cons]
      rw [hfil] at hc ⊢
      simp only [List.length_cons] at hc
      obtain ⟨c', rfl⟩ : ∃ c', c = c' + 1 := ⟨c - 1, by omega⟩
      have hset : (A ++ List.replicate (c' + 1) (default : Job)).set A.length job =
          (A ++ [job]) ++ List.replicate c' default := by
        rw [List.set_append_right _ _ (le_refl _)]
        simp [List.replicate_succ]
      have hg1 : (groups.set b
          { jobs := (groups.getD b default).jobs.set (groups.getD b default).size job
            size := (groups.getD b default).size + 1 })[b]? =
          some { jobs := (A ++ [job]) ++ List.replicate c' default,
                 size := (A ++ [job]).length } := by
        rw [List.getElem?_set_self hb, hgb]
        simp only [hset, List.length_append, List.length_singleton]
      have := ic b (A ++ [job]) c' hg1 (by omega)
      rw [this]
      simp only [List.map_cons, List.length_cons, List.length_append, List.length_singleton,
        List.append_assoc, List.singleton_append, Option.some.injEq, WorkGroup.mk.injEq]
      have hsub : c' + 1 - ((List.filter (fun x => decide (x.2 = b)) rest).length + 1) =
          c' - (List.filter (fun x => decide (x.2 = b)) rest).length := by omega
      rw [hsub]
      refine ⟨rfl, ?_⟩
      simp only [List.length_nil]
      omega
    · have hfil : List.filter (fun x => decide (x.2 = i)) ((job, b) :: rest) =
          List.filter (fun x => decide (x.2 = i)) rest := by
        simp [List.filter_cons, hbi]
      rw [hfil] at hc ⊢
      have hg1 : (groups.set b
          { jobs := (groups.getD b default).jobs.set (groups.getD b default).size job
            size := (groups.getD b default).size + 1 })[i]? =
          some { jobs := A ++ List.replicate c default, size := A.length } := by
        rw [List.getElem?_set_ne hbi]; exact hg
      exact ic i A c hg1 hc

theorem zip_filter_snd_length (newjobs : List Job) (j2t : List Nat) (i : Nat)
    (h : newjobs.length = j2t.length) :
    ((newjobs.zip j2t).filter (fun x => decide (x.2 = i))).length = j2t.count i := by
  have hm : (newjobs.zip j2t).map (fun x => x.2) = j2t := by
    have := List.map_snd_zip newjobs j2t (le_of_eq h.symm)
    simpa using this
  rw [← List.countP_eq_length_filter]
  conv_rhs => rw [← hm]
  rw [List.count_eq_countP, List.countP_map]
  apply List.countP_congr
  intro x _
  simp

/-- Splitting a list of pairs by their second component, for the values below
`n`, rearranges the list. -/
theorem flatten_filter_perm : ∀ (n : Nat) (l : List (Job × Nat)), (∀ x ∈ l, x.2 < n) →
    List.Perm ((List.range n).map (fun i => l.filter (fun x => decide (x.2 = i)))).flatten l := by
  intro n
  induction n with
  | zero =>
    intro l hl
    cases l with
    | nil => simp
    | cons x xs => exact absurd (hl x (List.mem_cons_self _ _)) (by omega)
  | succ n ih =>
    intro l hl
    rw [List.range_succ, List.map_append, List.flatten_append]
    simp only [List.map_cons, List.map_nil, List.flatten_cons, List.flatten_nil,
      List.append_nil]
    have hcongr : (List.range n).map (fun i => l.filter (fun x => decide (x.2 = i))) =
        (List.range n).map (fun i =>
          (l.filter (fun x => decide (x.2 ≠ n))).filter (fun x => decide (x.2 = i))) := by
      apply List.map_congr_left
      intro i hi
      have hin : i < n := List.mem_range.mp hi
      rw [List.filter_filter]
      apply List.filter_congr
      intro x _
      by_cases hx : x.2 = i
      · have : x.2 ≠ n := by omega
        simp [hx, this]
        omega
      · simp [hx]
    rw [hcongr]
    have h1 := ih (l.filter (fun x => decide (x.2 ≠ n))) (by
      intro x hx
      have hx' := List.mem_filter.mp hx
      have := hl x hx'.1
      have hne : x.2 ≠ n := by simpa using hx'.2
      omega)
    have h2 := List.filter_append_perm (fun x : Job × Nat => decide (x.2 ≠ n)) l
    have h3 : l.filter (fun x => !decide (x.2 ≠ n)) = l.filter (fun x => decide (x.2 = n)) := by
      apply List.filter_congr
      intro x _
      by_cases hx : x.2 = n <;> simp [hx]
    rw [h3] at h2
    exact (h1.append_right _).trans h2

/-- C20: for a batch of `nJobs ≥ 1` records on a pool with `num_threads ≥ 1`,
`jobqueue_push_static_jobs` completes and puts `min(num_threads, nJobs)` work
groups in front of the group chain; every job is assigned one bin below that
number; group `i` holds exactly the records assigned to bin `i`, in input
order, and its `size` is the number of jobs assigned to bin `i`; the groups
together hold every input record exactly once. -/
theorem C20_static_partition (env : Env) (thpool : ThPool) (newjobs : List Job)
    (avgElapsed nJobs : Nat) (hJ : 1 ≤ nJobs) (hT : 1 ≤ thpool.num_threads)
    (halloc : env.malloc_static = true) (hnew : newjobs.length = nJobs) :
    ∃ p groups, jobqueue_push_static_jobs env thpool newjobs avgElapsed nJobs = some (0, p) ∧
      p.jobqueue.group_front = groups ++ thpool.jobqueue.group_front ∧
      groups.length = min thpool.num_threads nJobs ∧
      (static_assign thpool.num_threads (fun j => env.mem (avgElapsed + j))
        nJobs).jobs2thread.length = nJobs ∧
      (∀ b ∈ (static_assign thpool.num_threads (fun j => env.mem (avgElapsed + j))
        nJobs).jobs2thread, b < groups.length) ∧
      (∀ i, i < groups.length → ∃ grp, groups[i]? = some grp ∧
        grp.jobs = ((newjobs.zip (static_assign thpool.num_threads
            (fun j => env.mem (avgElapsed + j)) nJobs).jobs2thread).filter
          (fun x => decide (x.2 = i))).map (fun x => x.1) ∧
        grp.size = (static_assign thpool.num_threads (fun j => env.mem (avgElapsed + j))
          nJobs).jobs2thread.count i ∧
        grp.size = grp.jobs.length) ∧
      List.Perm ((groups.map (fun grp => grp.jobs)).flatten) newjobs := by
  have hbins : static_num_bins thpool.num_threads nJobs = min thpool.num_threads nJobs := by
    unfold static_num_bins
    split_ifs with h
    · exact (Nat.min_eq_right (le_of_lt h)).symm
    · exact (Nat.min_eq_left (not_lt.mp h)).symm
  have hb1 : 1 ≤ static_num_bins thpool.num_threads nJobs := by rw [hbins]; omega
  have hb0 : static_num_bins thpool.num_threads nJobs ≠ 0 := by omega
  obtain ⟨_, a2, a3, a4, a5⟩ := static_assign_upto_bins
    (static_num_bins thpool.num_threads nJobs) hb1
    (static_total_duration (fun j => env.mem (avgElapsed + j)) nJobs /
      ((static_num_bins thpool.num_threads nJobs : Nat) : ℚ))
    (fun j => env.mem (avgElapsed + j)) nJobs
  rw [← static_assign_eq_upto] at a2 a3 a4 a5
  generalize hst : static_assign thpool.num_threads (fun j => env.mem (avgElapsed + j)) nJobs
    = st at a2 a3 a4 a5 ⊢
  have hg0len : (st.n_jobs.map (fun n =>
      ({ jobs := List.replicate n default, size := 0 } : WorkGroup))).length =
      static_num_bins thpool.num_threads nJobs := by simp [a2]
  have hallp : ∀ x ∈ newjobs.zip st.jobs2thread, x.2 < (st.n_jobs.map (fun n =>
      ({ jobs := List.replicate n default, size := 0 } : WorkGroup))).length := by
    intro x hx
    rw [hg0len]
    exact a4 x.2 (List.of_mem_zip hx).2
  obtain ⟨fl, fs⟩ := static_fill_spec (newjobs.zip st.jobs2thread) _ hallp
  have hres : jobqueue_push_static_jobs env thpool newjobs avgElapsed nJobs =
      some (0, { thpool with jobqueue := { thpool.jobqueue with
        group_front := static_fill (st.n_jobs.map (fun n =>
          ({ jobs := List.replicate n default, size := 0 } : WorkGroup)))
            (newjobs.zip st.jobs2thread) ++ thpool.jobqueue.group_front, has_jobs := 1 } }) := by
    simp [jobqueue_push_static_jobs, halloc, hb0, hst]
  have hgrp : ∀ i, i < static_num_bins thpool.num_threads nJobs →
      (static_fill (st.n_jobs.map (fun n =>
        ({ jobs := List.replicate n default, size := 0 } : WorkGroup)))
          (newjobs.zip st.jobs2thread))[i]? = some
        { jobs := ((newjobs.zip st.jobs2thread).filter
            (fun x => decide (x.2 = i))).map (fun x => x.1)
          size := st.jobs2thread.count i } := by
    intro i hi
    have hcount := zip_filter_snd_length newjobs st.jobs2thread i (by rw [hnew, a3])
    have h0 : (st.n_jobs.map (fun n =>
        ({ jobs := List.replicate n default, size := 0 } : WorkGroup)))[i]? =
        some { jobs := [] ++ List.replicate (st.jobs2thread.count i) default,
               size := ([] : List Job).length } := by
      rw [List.getElem?_map, a5 i hi]
      rfl
    have := fs i [] (st.jobs2thread.count i) h0 (by rw [hcount])
    rw [this, hcount]
    simp
  refine ⟨_, _, hres, rfl, by rw [fl, hg0len, hbins], a3, ?_, ?_, ?_⟩
  · intro b hb
    rw [fl, hg0len]
    exact a4 b hb
  · intro i hi
    rw [fl, hg0len] at hi
    refine ⟨_, hgrp i hi, rfl, rfl, ?_⟩
    simp only [List.length_map]
    exact (zip_filter_snd_length newjobs st.jobs2thread i (by rw [hnew, a3])).symm
  · have hmap : (static_fill (st.n_jobs.map (fun n =>
        ({ jobs := List.replicate n default, size := 0 } : WorkGroup)))
          (newjobs.zip st.jobs2thread)).map (fun grp => grp.jobs) =
        (List.range (static_num_bins thpool.num_threads nJobs)).map (fun i =>
          ((newjobs.zip st.jobs2thread).filter
            (fun x => decide (x.2 = i))).map (fun x => x.1)) := by
      apply List.ext_getElem?
      intro i
      by_cases hi : i < static_num_bins thpool.num_threads nJobs
      · rw [List.getElem?_map, hgrp i hi, List.getElem?_map, List.getElem?_range hi]
        rfl
      · rw [List.getElem?_eq_none (by simp [fl, hg0len]; omega),
          List.getElem?_eq_none (by simp; omega)]
    rw [hmap]
    have hperm := flatten_filter_perm (static_num_bins thpool.num_threads nJobs)
      (newjobs.zip st.jobs2thread) (by
        intro x hx
        exact a4 x.2 (List.of_mem_zip hx).2)
    have hfst : (newjobs.zip st.jobs2thread).map (fun x => x.1) = newjobs := by
      have := List.map_fst_zip newjobs st.jobs2thread (by rw [hnew, a3])
      simpa using this
    have hflat : ((List.range (static_num_bins thpool.num_threads nJobs)).map (fun i =>
          ((newjobs.zip st.jobs2thread).filter
            (fun x => decide (x.2 = i))).map (fun x => x.1))).flatten =
        (((List.range (static_num_bins thpool.num_threads nJobs)).map (fun i =>
          (newjobs.zip st.jobs2thread).filter
            (fun x => decide (x.2 = i)))).flatten).map (fun x => x.1) := by
      rw [List.map_flatten, List.map_map]
      rfl
    rw [hflat]
    have := hperm.map (fun x => x.1)
    rw [hfst] at this
    exact this

/-- C20 (witness): three threads and six records with averages
`[10,1,1,1,1,1]`. -/
theorem C20_static_partition_witness :
    1 ≤ 6 ∧ 1 ≤ (fresh_pool 3).num_threads ∧
    (env_ok (arr [10, 1, 1, 1, 1, 1])).malloc_static = true ∧
    (thpool_add_jobs_records id id (some 0) none (some identity_order) 6).length = 6 ∧
    ∃ p groups, jobqueue_push_static_jobs (env_ok (arr [10, 1, 1, 1, 1, 1])) (fresh_pool 3)
        (thpool_add_jobs_records id id (some 0) none (some identity_order) 6) 0 6 =
        some (0, p) ∧
      p.jobqueue.group_front = groups ++ (fresh_pool 3).jobqueue.group_front ∧
      groups.length = min (fresh_pool 3).num_threads 6 ∧
      List.Perm ((groups.map (fun grp => grp.jobs)).flatten)
        (thpool_add_jobs_records id id (some 0) none (some identity_order) 6) :=
  have h := C20_static_partition (env_ok (arr [10, 1, 1, 1, 1, 1])) (fresh_pool 3)
    (thpool_add_jobs_records id id (some 0) none (some identity_order) 6) 0 6
    (by decide) (by decide) rfl (by decide)
  ⟨by decide, by decide, rfl, by decide,
    h.elim fun p hp => hp.elim fun groups hg =>
      ⟨p, groups, hg.1, hg.2.1, hg.2.2.1, hg.2.2.2.2.2.2⟩⟩

/-! ### C28: the written `order[]` is a permutation -/

/-- C28: for `nJobs > 0`, an `elapsed[]` that is not all zero and a `qsort`
meeting its contract, the `order[]` written by `cppadcg_thpool_update_order`
is a permutation of `0 .. nJobs-1`, whatever the averages and their ties:
every entry is below `nJobs`, no two jobs get the same rank, every rank is
given to exactly one job, and the entries from `nJobs` on are not written. -/
theorem C28_order_is_permutation
    (qsort : (pair_double_int → pair_double_int → Int) →
      List pair_double_int → List pair_double_int) (hq : QsortContract qsort)
    (avg : Nat → ℚ) (n : Nat) (el : Nat → ℚ) (ord : Nat → Nat) (nJobs : Nat)
    (_hJ : 0 < nJobs) (hnz : ∃ i, i < nJobs ∧ el i ≠ 0) :
    ∃ avg' ord', cppadcg_thpool_update_order qsort (some avg) n (some el) (some ord) nJobs =
        (some avg', some ord') ∧
      (∀ i, i < nJobs → ord' i < nJobs) ∧
      (∀ i j, i < nJobs → j < nJobs → ord' i = ord' j → i = j) ∧
      (∀ r, r < nJobs → ∃ i, i < nJobs ∧ ord' i = r ∧ ∀ j, j < nJobs → ord' j = r → j = i) ∧
      List.Perm (firstN ord' nJobs) (List.range nJobs) ∧
      (∀ i, nJobs ≤ i → ord' i = ord i) := by
  refine ⟨_, _, update_order_some qsort avg n el ord nJobs
    ((update_order_nonZero_iff el nJobs).mpr hnz), ?_⟩
  obtain ⟨hnd, hlen, -, hmem⟩ := elapsed2_facts qsort hq (movingAvg avg n el) nJobs
  set s := qsort comparePair ((List.range nJobs).map
    (fun i => ({ val := movingAvg avg n el i, index := i } : pair_double_int))) with hsdef
  set ord' := update_order_write nJobs s 0 ord with hord
  have hpos : ∀ i, i < nJobs → ∃ k, ∃ hk : k < s.length, (s.get ⟨k, hk⟩).index = i ∧
      ord' i = nJobs - k - 1 := by
    intro i hi
    have hm := hmem i hi
    obtain ⟨k, hk, hkeq⟩ := List.getElem_of_mem hm
    refine ⟨k, hk, by simp [hkeq], ?_⟩
    have := update_order_write_getElem nJobs s 0 ord hnd k hk
    simp only [List.get_eq_getElem, hkeq, Nat.zero_add] at this
    exact this
  have hbound : ∀ i, i < nJobs → ord' i < nJobs := by
    intro i hi
    obtain ⟨k, hk, -, hv⟩ := hpos i hi
    omega
  have hinj : ∀ i j, i < nJobs → j < nJobs → ord' i = ord' j → i = j := by
    intro i j hi hj hij
    obtain ⟨k, hk, hki, hv⟩ := hpos i hi
    obtain ⟨k', hk', hkj, hv'⟩ := hpos j hj
    have : k = k' := by omega
    subst this
    rw [← hki, ← hkj]
  have hsurj : ∀ r, r < nJobs → ∃ i, i < nJobs ∧ ord' i = r := by
    intro r hr
    have hk : nJobs - 1 - r < s.length := by omega
    have hlt := (elapsed2_mem_inv qsort hq _ nJobs _ (List.getElem_mem hk)).1
    refine ⟨(s.get ⟨nJobs - 1 - r, hk⟩).index, by simpa using hlt, ?_⟩
    have := update_order_write_getElem nJobs s 0 ord hnd (nJobs - 1 - r) hk
    rw [hord, this]
    omega
  refine ⟨hbound, hinj, ?_, ?_, ?_⟩
  · intro r hr
    obtain ⟨i, hi, hir⟩ := hsurj r hr
    exact ⟨i, hi, hir, fun j hj hjr => hinj j i hj hi (hjr.trans hir.symm)⟩
  · apply (List.perm_ext_iff_of_nodup ?_ (List.nodup_range nJobs)).mpr
    · intro a
      simp only [firstN, List.mem_map, List.mem_range]
      constructor
      · rintro ⟨i, hi, rfl⟩
        exact hbound i hi
      · intro ha
        obtain ⟨i, hi, hia⟩ := hsurj a ha
        exact ⟨i, hi, hia⟩
    · unfold firstN
      apply List.Nodup.map_on _ (List.nodup_range nJobs)
      intro i hi j hj hij
      exact hinj i j (List.mem_range.mp hi) (List.mem_range.mp hj) hij
  · intro i hi
    apply update_order_write_not_mem
    intro p hp hpi
    have := (elapsed2_mem_inv qsort hq _ nJobs p hp).1
    omega

/-- C28 (witness): three jobs whose updated averages are `3/2, 3/2, 1`, with
the stable `qsort`. -/
theorem C28_order_is_permutation_witness :
    QsortContract qsort_stable ∧ 0 < 3 ∧ (∃ i, i < 3 ∧ (arr [1, 1, 0] : Nat → ℚ) i ≠ 0) ∧
    ∃ avg' ord', cppadcg_thpool_update_order qsort_stable (some (arr [2, 2, 2])) 1
        (some (arr [1, 1, 0])) (some (arr [7, 7, 7])) 3 = (some avg', some ord') ∧
      (∀ i, i < 3 → ord' i < 3) ∧
      (∀ i j, i < 3 → j < 3 → ord' i = ord' j → i = j) ∧
      (∀ r, r < 3 → ∃ i, i < 3 ∧ ord' i = r ∧ ∀ j, j < 3 → ord' j = r → j = i) ∧
      List.Perm (firstN ord' 3) (List.range 3) ∧
      (∀ i, 3 ≤ i → ord' i = (arr [7, 7, 7] : Nat → Nat) i) :=
  ⟨qsort_stable_contract, by decide, ⟨0, by decide, by simp [arr]⟩,
    C28_order_is_permutation qsort_stable qsort_stable_contract (arr [2, 2, 2]) 1
      (arr [1, 1, 0]) (arr [7, 7, 7]) 3 (by decide) ⟨0, by decide, by simp [arr]⟩⟩

/-! ### C26: the grouping walk stays inside the queue -/

/-- C26: when `jobqueue_pull` reaches its last branch (no group popped,
strategy not `SCHED_SINGLE_JOB`, `len ≥ 2`, `total_time > 0`) on a queue whose
`len` counts the chain and whose `total_time` is the sum of the queued
averages, with `multijob_maxgroupwork ≤ 1`, `num_threads ≥ 1` and a successful
clock read, the pull has a result and `1 ≤ size < len`: the walk returns
(it never reads a record past the last one), the extraction loop gets a
record from each of its `size` calls, the group is the first `size` records
and at least one record stays queued. -/
theorem C26_greedy_walk_bounded (g : Globals) (mem : Nat → ℚ) (t : ℚ) (thpool : ThPool)
    (hnopop : g.group_gen_strategy ≠ ScheduleStrategy.SCHED_STATIC ∨
      thpool.jobqueue.group_front = [])
    (hs : g.group_gen_strategy ≠ ScheduleStrategy.SCHED_SINGLE_JOB)
    (hl : 2 ≤ thpool.jobqueue.len) (ht : 0 < thpool.jobqueue.total_time)
    (hlen : thpool.jobqueue.len = thpool.jobqueue.front.length)
    (htot : thpool.jobqueue.total_time = sumAvg mem thpool.jobqueue.front)
    (hm1 : g.cppadcg_pool_multijob_maxgroupwork ≤ 1) (hn : 1 ≤ thpool.num_threads) :
    ∃ grp p, jobqueue_pull g mem (some t) thpool = some (grp, p) ∧
      1 ≤ grp.size ∧ grp.size < thpool.jobqueue.len ∧
      grp.jobs = thpool.jobqueue.front.take grp.size ∧
      p.jobqueue.front = thpool.jobqueue.front.drop grp.size ∧
      p.jobqueue.len = thpool.jobqueue.len - grp.size ∧ 1 ≤ p.jobqueue.len ∧
      p.jobqueue.len = p.jobqueue.front.length ∧
      (∀ job rest a, thpool.jobqueue.front = job :: rest → job.avgElapsed = some a →
        ∃ d, jobqueue_pull_walk mem (jobqueue_pull_target g (some t) thpool) rest 1 (mem a)
          (mem a) = some (grp.size, d)) ∧
      (∃ q', jobqueue_pull_extract mem grp.size thpool.jobqueue [] = some (grp.jobs, q')) := by
  obtain ⟨job, rest, hf⟩ : ∃ job rest, thpool.jobqueue.front = job :: rest := by
    cases hfr : thpool.jobqueue.front with
    | nil => rw [hlen, hfr] at hl; simp at hl
    | cons x xs => exact ⟨x, xs, rfl⟩
  have hrest : rest ≠ [] := by
    rintro rfl
    rw [hlen, hf] at hl
    simp at hl
  have hfl : thpool.jobqueue.front.length = rest.length + 1 := by rw [hf]; simp
  cases ha : job.avgElapsed with
  | none =>
    obtain ⟨q', h1, h2, h3, h4, h5⟩ :=
      jobqueue_extract_single_group_spec mem thpool.jobqueue job rest hf hlen htot
    obtain ⟨f1, f2, f3, f4⟩ := jobqueue_pull_post_fields q'
    have hbranch : ¬ (g.group_gen_strategy = ScheduleStrategy.SCHED_SINGLE_JOB ∨
        thpool.jobqueue.len ≤ 1 ∨ thpool.jobqueue.total_time ≤ 0) := by
      rintro (h | h | h)
      · exact hs h
      · omega
      · exact absurd ht (not_lt.mpr h)
    have hp : jobqueue_pull g mem (some t) thpool =
        some ({ jobs := [job], size := 1 },
          { thpool with jobqueue := jobqueue_pull_post q' }) := by
      unfold jobqueue_pull
      simp only []
      split
      · rename_i hst hgf
        rcases hnopop with h | h
        · simp [h] at hst
        · rw [h] at hgf; exact absurd hgf (by simp)
      · rw [if_neg hbranch, hf]
        simp only [ha]
        rw [h1]
        rfl
    obtain ⟨q2, e1, -⟩ := jobqueue_pull_extract_spec mem 1 thpool.jobqueue []
      (by omega) hlen htot
    have hrl := List.length_pos.mpr hrest
    refine ⟨_, _, hp, le_refl _, ?_, by rw [hf]; simp, ?_, ?_, ?_, ?_, ?_, ?_⟩
    · show 1 < thpool.jobqueue.len
      omega
    · simp only [f1, h2, hf, List.drop_succ_cons, List.drop_zero]
    · show (jobqueue_pull_post q').len = thpool.jobqueue.len - 1
      rw [f2, h3]; omega
    · show 1 ≤ (jobqueue_pull_post q').len
      rw [f2, h3]; omega
    · simp only [f1, f2, h2, h3]
    · intro job' rest' a hf' ha'
      rw [hf] at hf'
      simp only [List.cons.injEq] at hf'
      rw [← hf'.1, ha] at ha'
      exact absurd ha' (by simp)
    · refine ⟨q2, ?_⟩
      rw [e1, hf]; simp
  | some a =>
    have hnq : (1 : ℚ) ≤ (thpool.num_threads : ℚ) := by exact_mod_cast hn
    have htarget := jobqueue_pull_target_plain g (some t) thpool (Or.inr rfl)
    have htle : jobqueue_pull_target g (some t) thpool ≤ thpool.jobqueue.total_time := by
      rw [htarget, div_le_iff₀ (by linarith)]
      nlinarith [mul_nonneg (le_of_lt ht) (by linarith : (0:ℚ) ≤ (thpool.num_threads : ℚ) - 1),
        mul_nonneg (le_of_lt ht)
          (by linarith : (0:ℚ) ≤ 1 - g.cppadcg_pool_multijob_maxgroupwork)]
    have hja : jobAvg mem job = mem a := by simp [jobAvg, ha]
    have hsum : mem a + sumAvg mem rest = thpool.jobqueue.total_time := by
      rw [htot, hf, sumAvg_cons, hja]
    obtain ⟨size, d, hw, hs1, hs2⟩ := jobqueue_pull_walk_spec mem _ _ htle rest 1 (mem a)
      hrest hsum
    have hsl : size ≤ thpool.jobqueue.front.length := by omega
    obtain ⟨p, hp, p1, p2, -⟩ := jobqueue_pull_greedy_spec g mem (some t) thpool job rest a
      size d hnopop hs hl ht hf ha hlen htot hw hsl
    obtain ⟨q2, e1, -⟩ := jobqueue_pull_extract_spec mem size thpool.jobqueue []
      hsl hlen htot
    have hpl : p.jobqueue.len = thpool.jobqueue.len - size := by
      rw [p2, p1, List.length_drop, hlen]
    refine ⟨_, p, hp, hs1, ?_, rfl, p1, hpl, ?_, p2, ?_, ?_⟩
    · show size < thpool.jobqueue.len
      omega
    · rw [hpl]; omega
    · intro job' rest' a' hf' ha'
      rw [hf] at hf'
      simp only [List.cons.injEq] at hf'
      obtain ⟨rfl, rfl⟩ := hf'
      rw [ha] at ha'
      simp only [Option.some.injEq] at ha'
      subst ha'
      exact ⟨d, hw⟩
    · exact ⟨q2, by rw [e1]; simp⟩

/-- C26 (witness): two threads, factor `3/4`, eight queued jobs of average
`1`. -/
theorem C26_greedy_walk_bounded_witness :
    (globals_multi_job.group_gen_strategy ≠ ScheduleStrategy.SCHED_STATIC ∨
      (queued_pool avg_ones 2 8).jobqueue.group_front = []) ∧
    globals_multi_job.group_gen_strategy ≠ ScheduleStrategy.SCHED_SINGLE_JOB ∧
    2 ≤ (queued_pool avg_ones 2 8).jobqueue.len ∧
    0 < (queued_pool avg_ones 2 8).jobqueue.total_time ∧
    (queued_pool avg_ones 2 8).jobqueue.len = (queued_pool avg_ones 2 8).jobqueue.front.length ∧
    (queued_pool avg_ones 2 8).jobqueue.total_time =
      sumAvg avg_ones (queued_pool avg_ones 2 8).jobqueue.front ∧
    globals_multi_job.cppadcg_pool_multijob_maxgroupwork ≤ 1 ∧
    1 ≤ (queued_pool avg_ones 2 8).num_threads ∧
    ∃ grp p, jobqueue_pull globals_multi_job avg_ones (some 100) (queued_pool avg_ones 2 8) =
        some (grp, p) ∧
      1 ≤ grp.size ∧ grp.size < (queued_pool avg_ones 2 8).jobqueue.len :=
  have h1 : (globals_multi_job.group_gen_strategy ≠ ScheduleStrategy.SCHED_STATIC ∨
      (queued_pool avg_ones 2 8).jobqueue.group_front = []) := Or.inl (by decide)
  have h2 : globals_multi_job.group_gen_strategy ≠ ScheduleStrategy.SCHED_SINGLE_JOB := by
    decide
  have h3 : 2 ≤ (queued_pool avg_ones 2 8).jobqueue.len := by decide
  have h4 : 0 < (queued_pool avg_ones 2 8).jobqueue.total_time := by
    with_unfolding_all decide
  have h5 : (queued_pool avg_ones 2 8).jobqueue.len =
      (queued_pool avg_ones 2 8).jobqueue.front.length := by decide
  have h6 : (queued_pool avg_ones 2 8).jobqueue.total_time =
      sumAvg avg_ones (queued_pool avg_ones 2 8).jobqueue.front := by
    with_unfolding_all decide
  have h7 : globals_multi_job.cppadcg_pool_multijob_maxgroupwork ≤ 1 := by
    with_unfolding_all decide
  have h8 : 1 ≤ (queued_pool avg_ones 2 8).num_threads := by decide
  ⟨h1, h2, h3, h4, h5, h6, h7, h8,
    let ⟨grp, p, hp, a, b, _⟩ := C26_greedy_walk_bounded globals_multi_job avg_ones 100
      (queued_pool avg_ones 2 8) h1 h2 h3 h4 h5 h6 h7 h8
    ⟨grp, p, hp, a, b⟩⟩

/-! ### C21: order in which the static groups are handed out -/

/-- The work groups that `jobqueue_push_static_jobs` builds and where it puts
them: in front of the group chain, with the semaphore posted. -/
theorem jobqueue_push_static_jobs_groups (env : Env) (thpool : ThPool) (newjobs : List Job)
    (avgElapsed nJobs : Nat) (hJ : 1 ≤ nJobs) (hT : 1 ≤ thpool.num_threads)
    (halloc : env.malloc_static = true) (hnew : newjobs.length = nJobs) :
    ∃ groups, jobqueue_push_static_jobs env thpool newjobs avgElapsed nJobs =
        some (0, { thpool with jobqueue := { thpool.jobqueue with
          group_front := groups ++ thpool.jobqueue.group_front, has_jobs := 1 } }) ∧
      groups.length = min thpool.num_threads nJobs ∧
      ∀ i, i < groups.length → groups[i]? = some
        { jobs := ((newjobs.zip (static_assign thpool.num_threads
              (fun j => env.mem (avgElapsed + j)) nJobs).jobs2thread).filter
            (fun x => decide (x.2 = i))).map (fun x => x.1)
          size := (static_assign thpool.num_threads (fun j => env.mem (avgElapsed + j))
            nJobs).jobs2thread.count i } := by
  have hbins : static_num_bins thpool.num_threads nJobs = min thpool.num_threads nJobs := by
    unfold static_num_bins
    split_ifs with h
    · exact (Nat.min_eq_right (le_of_lt h)).symm
    · exact (Nat.min_eq_left (not_lt.mp h)).symm
  have hb1 : 1 ≤ static_num_bins thpool.num_threads nJobs := by rw [hbins]; omega
  have hb0 : static_num_bins thpool.num_threads nJobs ≠ 0 := by omega
  obtain ⟨_, a2, a3, a4, a5⟩ := static_assign_upto_bins
    (static_num_bins thpool.num_threads nJobs) hb1
    (static_total_duration (fun j => env.mem (avgElapsed + j)) nJobs /
      ((static_num_bins thpool.num_threads nJobs : Nat) : ℚ))
    (fun j => env.mem (avgElapsed + j)) nJobs
  rw [← static_assign_eq_upto] at a2 a3 a4 a5
  generalize hst : static_assign thpool.num_threads (fun j => env.mem (avgElapsed + j)) nJobs
    = st at a2 a3 a4 a5 ⊢
  have hg0len : (st.n_jobs.map (fun n =>
      ({ jobs := List.replicate n default, size := 0 } : WorkGroup))).length =
      static_num_bins thpool.num_threads nJobs := by simp [a2]
  have hallp : ∀ x ∈ newjobs.zip st.jobs2thread, x.2 < (st.n_jobs.map (fun n =>
      ({ jobs := List.replicate n default, size := 0 } : WorkGroup))).length := by
    intro x hx
    rw [hg0len]
    exact a4 x.2 (List.of_mem_zip hx).2
  obtain ⟨fl, fs⟩ := static_fill_spec (newjobs.zip st.jobs2thread) _ hallp
  refine ⟨static_fill (st.n_jobs.map (fun n =>
      ({ jobs := List.replicate n default, size := 0 } : WorkGroup)))
        (newjobs.zip st.jobs2thread), ?_, by rw [fl, hg0len, hbins], ?_⟩
  · simp [jobqueue_push_static_jobs, halloc, hb0, hst]
  · intro i hi
    rw [fl, hg0len] at hi
    have hcount := zip_filter_snd_length newjobs st.jobs2thread i (by rw [hnew, a3])
    have h0 : (st.n_jobs.map (fun n =>
        ({ jobs := List.replicate n default, size := 0 } : WorkGroup)))[i]? =
        some { jobs := [] ++ List.replicate (st.jobs2thread.count i) default,
               size := ([] : List Job).length } := by
      rw [List.getElem?_map, a5 i hi]
      rfl
    have := fs i [] (st.jobs2thread.count i) h0 (by rw [hcount])
    rw [this, hcount]
    simp

/-- Under `SCHED_STATIC` every pull pops the head of the group chain while
there is one, and leaves the job FIFO as it is. -/
theorem jobqueue_pull_many_static (g : Globals) (mem : Nat → ℚ) (clock : Nat → Option ℚ)
    (hst : g.group_gen_strategy = ScheduleStrategy.SCHED_STATIC) :
    ∀ (count k : Nat) (thpool : ThPool), count ≤ thpool.jobqueue.group_front.length →
      ∃ p, jobqueue_pull_many g mem clock count k thpool =
          some (thpool.jobqueue.group_front.take count, p) ∧
        p.jobqueue.group_front = thpool.jobqueue.group_front.drop count ∧
        p.jobqueue.front = thpool.jobqueue.front ∧ p.jobqueue.len = thpool.jobqueue.len ∧
        p.jobqueue.total_time = thpool.jobqueue.total_time ∧
        p.jobqueue.highest_expected_return = thpool.jobqueue.highest_expected_return ∧
        p.num_threads = thpool.num_threads := by
  intro count
  induction count with
  | zero =>
    intro k thpool _
    exact ⟨thpool, by simp [jobqueue_pull_many], by simp, rfl, rfl, rfl, rfl, rfl⟩
  | succ c ih =>
    intro k thpool hc
    cases hgf : thpool.jobqueue.group_front with
    | nil => rw [hgf] at hc; simp at hc
    | cons grp rest =>
      let q1 : JobQueue := { thpool.jobqueue with group_front := rest }
      have hp : jobqueue_pull g mem (clock k) thpool =
          some (grp, { thpool with jobqueue := jobqueue_pull_post q1 }) := by
        unfold jobqueue_pull
        simp [hst, hgf, q1]
      obtain ⟨f1, f2, f3, f4⟩ := jobqueue_pull_post_fields q1
      have hf5 : (jobqueue_pull_post q1).highest_expected_return =
          thpool.jobqueue.highest_expected_return := by
        unfold jobqueue_pull_post
        split_ifs <;> rfl
      rw [hgf] at hc
      simp only [List.length_cons, Nat.add_le_add_iff_right] at hc
      obtain ⟨p, e1, e2, e3, e4, e5, e6, e7⟩ := ih (k + 1)
        { thpool with jobqueue := jobqueue_pull_post q1 }
        (by simp only [f4]; exact hc)
      refine ⟨p, ?_, ?_, ?_, ?_, ?_, ?_, ?_⟩
      · simp only [jobqueue_pull_many, hp, e1, f4]
        simp
      · rw [e2]; simp only [f4]; simp
      · rw [e3]; simp only [f1]
      · rw [e4]; simp only [f2]
      · rw [e5]; simp only [f3]
      · rw [e6]; simp only [hf5]
      · rw [e7]

/-- C21: under `SCHED_STATIC`, after `jobqueue_push_static_jobs` has built
the bins `0 .. m-1` (`m = min(num_threads, nJobs)`, bin `i` holding the
records assigned to it) on a queue whose group chain was `C`, the chain is
the bins followed by `C`, and `count` successive pulls, for every `count` up
to the length of that chain, return its first `count` groups in order: bin
`0`, bin `1`, ..., bin `m-1`, then the groups of `C` in their previous order.
After all of them the chain is empty (each group was handed out once), and
`front`, `len`, `total_time` and `highest_expected_return` are as they were
before the push. The clock is not read, so the reads may fail. -/
theorem C21_static_dispatch_order (g : Globals) (env : Env) (clock : Nat → Option ℚ)
    (thpool : ThPool) (newjobs : List Job) (avgElapsed nJobs : Nat)
    (hst : g.group_gen_strategy = ScheduleStrategy.SCHED_STATIC)
    (hJ : 1 ≤ nJobs) (hT : 1 ≤ thpool.num_threads)
    (halloc : env.malloc_static = true) (hnew : newjobs.length = nJobs) :
    ∃ p bins, jobqueue_push_static_jobs env thpool newjobs avgElapsed nJobs = some (0, p) ∧
      bins.length = min thpool.num_threads nJobs ∧
      (∀ i, i < bins.length → bins[i]? = some
        { jobs := ((newjobs.zip (static_assign thpool.num_threads
              (fun j => env.mem (avgElapsed + j)) nJobs).jobs2thread).filter
            (fun x => decide (x.2 = i))).map (fun x => x.1)
          size := (static_assign thpool.num_threads (fun j => env.mem (avgElapsed + j))
            nJobs).jobs2thread.count i }) ∧
      p.jobqueue.group_front = bins ++ thpool.jobqueue.group_front ∧
      ∀ count, count ≤ bins.length + thpool.jobqueue.group_front.length →
        ∃ p', jobqueue_pull_many g env.mem clock count 0 p =
            some ((bins ++ thpool.jobqueue.group_front).take count, p') ∧
          p'.jobqueue.group_front = (bins ++ thpool.jobqueue.group_front).drop count ∧
          p'.jobqueue.front = thpool.jobqueue.front ∧
          p'.jobqueue.len = thpool.jobqueue.len ∧
          p'.jobqueue.total_time = thpool.jobqueue.total_time ∧
          p'.jobqueue.highest_expected_return = thpool.jobqueue.highest_expected_return := by
  obtain ⟨bins, hres, hlen, hbins⟩ :=
    jobqueue_push_static_jobs_groups env thpool newjobs avgElapsed nJobs hJ hT halloc hnew
  refine ⟨_, bins, hres, hlen, hbins, rfl, ?_⟩
  intro count hc
  obtain ⟨p', e1, e2, e3, e4, e5, e6, -⟩ := jobqueue_pull_many_static g env.mem clock hst count 0
    { thpool with jobqueue := { thpool.jobqueue with
      group_front := bins ++ thpool.jobqueue.group_front, has_jobs := 1 } }
    (by simpa using hc)
  exact ⟨p', e1, e2, e3, e4, e5, e6⟩

/-- C21 (witness): three threads and six records with averages
`[10,1,1,1,1,1]` on a new pool; three pulls return the three bins. -/
theorem C21_static_dispatch_order_witness :
    globals_static.group_gen_strategy = ScheduleStrategy.SCHED_STATIC ∧ 1 ≤ 6 ∧
    1 ≤ (fresh_pool 3).num_threads ∧
    (env_ok (arr [10, 1, 1, 1, 1, 1])).malloc_static = true ∧
    (thpool_add_jobs_records id id (some 0) none (some identity_order) 6).length = 6 ∧
    ∃ p bins, jobqueue_push_static_jobs (env_ok (arr [10, 1, 1, 1, 1, 1])) (fresh_pool 3)
        (thpool_add_jobs_records id id (some 0) none (some identity_order) 6) 0 6 =
        some (0, p) ∧
      bins.length = min (fresh_pool 3).num_threads 6 ∧
      p.jobqueue.group_front = bins ++ (fresh_pool 3).jobqueue.group_front ∧
      ∃ p', jobqueue_pull_many globals_static (env_ok (arr [10, 1, 1, 1, 1, 1])).mem
          (fun _ => none) 3 0 p =
          some ((bins ++ (fresh_pool 3).jobqueue.group_front).take 3, p') ∧
        p'.jobqueue.front = (fresh_pool 3).jobqueue.front ∧
        p'.jobqueue.len = (fresh_pool 3).jobqueue.len :=
  have h := C21_static_dispatch_order globals_static (env_ok (arr [10, 1, 1, 1, 1, 1]))
    (fun _ => none) (fresh_pool 3)
    (thpool_add_jobs_records id id (some 0) none (some identity_order) 6) 0 6
    rfl (by decide) (by decide) rfl (by decide)
  ⟨rfl, by decide, by decide, rfl, by decide,
    h.elim fun p hp => hp.elim fun bins hb =>
      ⟨p, bins, hb.1, hb.2.1, hb.2.2.2.1,
        (hb.2.2.2.2 3 (by rw [hb.2.1]; decide)).elim fun p' hp' =>
          ⟨p', hp'.1, hp'.2.2.1, hp'.2.2.2.1⟩⟩⟩

/-! ### The worker loop and the counters -/


theorem countP_set_eq (p : WorkerPc → Bool) : ∀ (l : List WorkerPc) (i : Nat) (x y : WorkerPc),
    l[i]? = some x →
    (l.set i y).countP p + (if p x then 1 else 0) = l.countP p + (if p y then 1 else 0) := by
  intro l
  induction l with
  | nil => intro i x y h; simp at h
  | cons a t ih =>
    intro i x y h
    cases i with
    | zero =>
      simp only [List.getElem?_cons_zero, Option.some.injEq] at h
      subst h
      simp only [List.set_cons_zero, List.countP_cons]
      omega
    | succ i =>
      simp only [List.getElem?_cons_succ] at h
      have := ih i x y h
      simp only [List.set_cons_succ, List.countP_cons]
      omega

theorem jobqueue_extract_single_has_jobs (mem : Nat → ℚ) (q q' : JobQueue) (r : Option Job)
    (h : jobqueue_extract_single mem q = some (r, q')) :
    q'.has_jobs = q.has_jobs ∧ q'.group_front = q.group_front := by
  unfold jobqueue_extract_single at h
  split at h
  · simp only [Option.some.injEq, Prod.mk.injEq] at h
    rw [← h.2]; exact ⟨rfl, rfl⟩
  · simp only [Option.some.injEq, Prod.mk.injEq] at h
    rw [← h.2]; exact ⟨rfl, rfl⟩
  · split at h
    · simp at h
    · split at h <;>
      · simp only [Option.some.injEq, Prod.mk.injEq] at h
        rw [← h.2]; exact ⟨rfl, rfl⟩

theorem jobqueue_pull_extract_has_jobs (mem : Nat → ℚ) :
    ∀ (count : Nat) (q q' : JobQueue) (acc jobs : List Job),
      jobqueue_pull_extract mem count q acc = some (jobs, q') →
      q'.has_jobs = q.has_jobs ∧ q'.group_front = q.group_front := by
  intro count
  induction count with
  | zero =>
    intro q q' acc jobs h
    simp only [jobqueue_pull_extract, Option.some.injEq, Prod.mk.injEq] at h
    rw [← h.2]; exact ⟨rfl, rfl⟩
  | succ c ih =>
    intro q q' acc jobs h
    simp only [jobqueue_pull_extract] at h
    split at h
    · rename_i job q1 he
      obtain ⟨h1, h2⟩ := jobqueue_extract_single_has_jobs mem q q1 _ he
      obtain ⟨h3, h4⟩ := ih q1 q' _ jobs h
      exact ⟨h3.trans h1, h4.trans h2⟩
    · simp at h

/-- A pull changes nothing of the pool but its queue, and of the semaphore
only what its final `bsem_post` does. -/
theorem jobqueue_pull_frame (g : Globals) (mem : Nat → ℚ) (clock : Option ℚ)
    (thpool p : ThPool) (grp : WorkGroup)
    (h : jobqueue_pull g mem clock thpool = some (grp, p)) :
    ∃ q, p = { thpool with jobqueue := jobqueue_pull_post q } ∧
      q.has_jobs = thpool.jobqueue.has_jobs := by
  have single : ∀ r, (jobqueue_extract_single_group mem thpool.jobqueue).map
      (fun r => (r.1, { thpool with jobqueue := jobqueue_pull_post r.2 })) = some r →
      ∃ q, r.2 = { thpool with jobqueue := jobqueue_pull_post q } ∧
        q.has_jobs = thpool.jobqueue.has_jobs := by
    intro r hr
    unfold jobqueue_extract_single_group at hr
    split at hr
    · simp at hr
    · rename_i job q he
      simp only [Option.map_some', Option.some.injEq] at hr
      exact ⟨q, by rw [← hr], (jobqueue_extract_single_has_jobs mem _ q _ he).1⟩
    · rename_i q he
      simp only [Option.map_some', Option.some.injEq] at hr
      exact ⟨q, by rw [← hr], (jobqueue_extract_single_has_jobs mem _ q _ he).1⟩
  unfold jobqueue_pull at h
  simp only [] at h
  split at h
  · simp only [Option.some.injEq, Prod.mk.injEq] at h
    exact ⟨_, h.2.symm, rfl⟩
  · split at h
    · exact single _ h
    · split at h
      · simp at h
      · split at h
        · exact single _ h
        · split at h
          · simp at h
          · split at h
            · simp at h
            · rename_i jobs q he
              simp only [Option.some.injEq, Prod.mk.injEq] at h
              have hq := (jobqueue_pull_extract_has_jobs mem _ _ q _ jobs he).1
              refine ⟨_, h.2.symm, ?_⟩
              split_ifs <;> exact hq

theorem thread_do_step_counters (g : Globals) (mem : Nat → ℚ) (clock : Option ℚ)
    (pc pc' : WorkerPc) (thpool p : ThPool)
    (h : thread_do_step g mem clock pc thpool = some (pc', p))
    (hw : pc.working = true → 1 ≤ thpool.num_threads_working)
    (ha : pc.alive = true → 1 ≤ thpool.num_threads_alive) :
    p.num_threads = thpool.num_threads ∧
    p.num_threads_working + (if pc.working then 1 else 0) =
      thpool.num_threads_working + (if pc'.working then 1 else 0) ∧
    p.num_threads_alive + (if pc.alive then 1 else 0) =
      thpool.num_threads_alive + (if pc'.alive then 1 else 0) := by
  cases pc with
  | starting =>
    simp only [thread_do_step, Option.some.injEq, Prod.mk.injEq] at h
    obtain ⟨rfl, rfl⟩ := h
    simp [WorkerPc.working, WorkerPc.alive]
  | idle =>
    simp only [thread_do_step] at h
    split_ifs at h with hk
    · simp only [bsem_wait] at h
      split_ifs at h
      · simp only [Option.map_some', Option.some.injEq, Prod.mk.injEq] at h
        obtain ⟨rfl, rfl⟩ := h
        simp [WorkerPc.working, WorkerPc.alive]
      · simp at h
    · simp only [Option.some.injEq, Prod.mk.injEq] at h
      obtain ⟨rfl, rfl⟩ := h
      simp [WorkerPc.working, WorkerPc.alive]
  | woken =>
    simp only [thread_do_step] at h
    split_ifs at h with hk <;>
    · simp only [Option.some.injEq, Prod.mk.injEq] at h
      obtain ⟨rfl, rfl⟩ := h
      simp [WorkerPc.working, WorkerPc.alive]
  | counting =>
    simp only [thread_do_step, Option.some.injEq, Prod.mk.injEq] at h
    obtain ⟨rfl, rfl⟩ := h
    simp [WorkerPc.working, WorkerPc.alive]
  | pulling =>
    simp only [thread_do_step] at h
    cases hp : jobqueue_pull g mem clock thpool with
    | none => rw [hp] at h; simp at h
    | some r =>
      rw [hp] at h
      simp only [Option.map_some', Option.some.injEq, Prod.mk.injEq] at h
      obtain ⟨rfl, rfl⟩ := h
      obtain ⟨q, hq, -⟩ := jobqueue_pull_frame g mem clock thpool r.2 r.1 hp
      rw [hq]
      simp [WorkerPc.working, WorkerPc.alive]
  | running =>
    simp only [thread_do_step, Option.some.injEq, Prod.mk.injEq] at h
    obtain ⟨rfl, rfl⟩ := h
    have := hw rfl
    refine ⟨rfl, ?_, rfl⟩
    show thpool.num_threads_working - 1 + 1 = thpool.num_threads_working + 0
    omega
  | leaving =>
    simp only [thread_do_step, Option.some.injEq, Prod.mk.injEq] at h
    obtain ⟨rfl, rfl⟩ := h
    have := ha rfl
    refine ⟨rfl, rfl, ?_⟩
    show thpool.num_threads_alive - 1 + 1 = thpool.num_threads_alive + 0
    omega
  | exited => simp [thread_do_step] at h

theorem countP_pos_of_getElem (p : WorkerPc → Bool) (l : List WorkerPc) (i : Nat)
    (x : WorkerPc) (h : l[i]? = some x) (hx : p x = true) : 1 ≤ l.countP p := by
  have hm : x ∈ l := List.mem_iff_getElem?.mpr ⟨i, h⟩
  exact List.countP_pos_iff.mpr ⟨x, hm, hx⟩

/-- Every action keeps the counters consistent with the positions of the
workers. -/
theorem pool_step_consistent (env : Env) (s s' : PoolRun) (a : PoolAction)
    (hinv : counters_consistent s) (h : pool_step env s a = some s') :
    counters_consistent s' := by
  cases a with
  | prepare =>
    simp only [pool_step] at h
    cases hp : s.g.cppadcg_pool with
    | some pool =>
      rw [hp] at h
      simp only [Option.some.injEq] at h
      rw [← h]; exact hinv
    | none =>
      rw [hp] at h
      simp only [] at h
      cases hp1 : (cppadcg_thpool_prepare s.g env).cppadcg_pool with
      | none =>
        rw [hp1] at h
        simp only [Option.some.injEq] at h
        intro pool hpool
        rw [← h] at hpool
        simp only [hp1] at hpool
        exact absurd hpool (by simp)
      | some pool =>
        rw [hp1] at h
        simp only [Option.some.injEq] at h
        intro pool' hpool
        rw [← h] at hpool ⊢
        simp only [hp1, Option.some.injEq] at hpool
        subst hpool
        -- the pool is the one `thpool_init` returns
        have hinit : pool.num_threads_alive = pool.num_threads ∧
            pool.num_threads_working = 0 := by
          simp only [cppadcg_thpool_prepare, hp, thpool_init] at hp1
          split_ifs at hp1 <;>
            (simp only [Option.some.injEq] at hp1
             rw [← hp1]
             exact ⟨rfl, rfl⟩)
        refine ⟨by simp, ?_, ?_⟩
        · rw [hinit.2]
          simp [List.countP_replicate, WorkerPc.working]
        · rw [hinit.1]
          simp [List.countP_replicate, WorkerPc.alive]
  | set_threads n =>
    simp only [pool_step, Option.some.injEq] at h
    rw [← h]; exact hinv
  | set_scheduler_strategy st =>
    simp only [pool_step, Option.some.injEq] at h
    rw [← h]
    intro pool hpool
    apply hinv pool
    simp only [cppadcg_thpool_set_scheduler_strategy] at hpool
    split at hpool <;> exact hpool
  | set_multijob_maxgroupwork v =>
    simp only [pool_step, Option.some.injEq] at h
    rw [← h]
    intro pool hpool
    apply hinv pool
    simp only [cppadcg_thpool_set_multijob_maxgroupwork] at hpool
    split at hpool <;> exact hpool
  | add_job function arg avgElapsed elapsed =>
    simp only [pool_step] at h
    cases hp : s.g.cppadcg_pool with
    | none => rw [hp] at h; simp at h
    | some pool =>
      rw [hp] at h
      simp only [Option.some.injEq] at h
      obtain ⟨i1, i2, i3⟩ := hinv pool hp
      intro pool' hpool
      rw [← h] at hpool ⊢
      simp only [Option.some.injEq] at hpool
      subst hpool
      simp only [thpool_add_job]
      split_ifs <;> exact ⟨i1, i2, i3⟩
  | add_jobs functions args avgElapsed elapsed order nJobs =>
    simp only [pool_step] at h
    cases hp : s.g.cppadcg_pool with
    | none => rw [hp] at h; simp at h
    | some pool =>
      rw [hp] at h
      simp only [] at h
      obtain ⟨i1, i2, i3⟩ := hinv pool hp
      cases hr : thpool_add_jobs s.g env pool functions args avgElapsed elapsed order nJobs with
      | none => rw [hr] at h; simp at h
      | some r =>
        rw [hr] at h
        simp only [Option.map_some', Option.some.injEq] at h
        intro pool' hpool
        rw [← h] at hpool ⊢
        simp only [Option.some.injEq] at hpool
        subst hpool
        have hframe : r.2.num_threads = pool.num_threads ∧
            r.2.num_threads_working = pool.num_threads_working ∧
            r.2.num_threads_alive = pool.num_threads_alive := by
          simp only [thpool_add_jobs] at hr
          split_ifs at hr
          · simp only [Option.some.injEq] at hr
            rw [← hr]; exact ⟨rfl, rfl, rfl⟩
          · simp only [jobqueue_push_static_jobs] at hr
            split_ifs at hr
            · simp only [Option.some.injEq] at hr
              rw [← hr]; exact ⟨rfl, rfl, rfl⟩
            · simp only [Option.some.injEq] at hr
              rw [← hr]; exact ⟨rfl, rfl, rfl⟩
          · simp only [Option.some.injEq] at hr
            rw [← hr]; exact ⟨rfl, rfl, rfl⟩
        exact ⟨by rw [hframe.1]; exact i1, by rw [hframe.2.1]; exact i2,
          by rw [hframe.2.2]; exact i3⟩
  | worker i clock =>
    simp only [pool_step] at h
    cases hp : s.g.cppadcg_pool with
    | none => rw [hp] at h; simp at h
    | some pool =>
      cases hpc : s.pcs[i]? with
      | none => rw [hp, hpc] at h; simp at h
      | some pc =>
        rw [hp, hpc] at h
        simp only [] at h
        obtain ⟨i1, i2, i3⟩ := hinv pool hp
        cases hr : thread_do_step s.g env.mem clock pc pool with
        | none => rw [hr] at h; simp at h
        | some r =>
          rw [hr] at h
          simp only [Option.map_some', Option.some.injEq] at h
          obtain ⟨c1, c2, c3⟩ := thread_do_step_counters s.g env.mem clock pc r.1 pool r.2 hr
            (fun hw => by rw [i2]; exact countP_pos_of_getElem _ _ i pc hpc hw)
            (fun ha => by rw [i3]; exact countP_pos_of_getElem _ _ i pc hpc ha)
          have k2 := countP_set_eq WorkerPc.working s.pcs i pc r.1 hpc
          have k3 := countP_set_eq WorkerPc.alive s.pcs i pc r.1 hpc
          intro pool' hpool
          rw [← h] at hpool ⊢
          simp only [Option.some.injEq] at hpool
          subst hpool
          refine ⟨by simp [i1, c1], ?_, ?_⟩
          · simp only []
            omega
          · simp only []
            omega
  | destroy_keepalive =>
    simp only [pool_step] at h
    cases hp : s.g.cppadcg_pool with
    | none => rw [hp] at h; simp at h
    | some pool =>
      rw [hp] at h
      simp only [Option.some.injEq] at h
      obtain ⟨i1, i2, i3⟩ := hinv pool hp
      intro pool' hpool
      rw [← h] at hpool ⊢
      simp only [Option.some.injEq] at hpool
      subst hpool
      exact ⟨i1, i2, i3⟩
  | destroy_post =>
    simp only [pool_step] at h
    cases hp : s.g.cppadcg_pool with
    | none => rw [hp] at h; simp at h
    | some pool =>
      rw [hp] at h
      simp only [] at h
      split_ifs at h
      simp only [Option.some.injEq] at h
      obtain ⟨i1, i2, i3⟩ := hinv pool hp
      intro pool' hpool
      rw [← h] at hpool ⊢
      simp only [Option.some.injEq] at hpool
      subst hpool
      exact ⟨i1, i2, i3⟩
  | destroy_free =>
    simp only [pool_step] at h
    cases hp : s.g.cppadcg_pool with
    | none => rw [hp] at h; simp at h
    | some pool =>
      rw [hp] at h
      simp only [] at h
      split_ifs at h
      simp only [Option.some.injEq] at h
      intro pool' hpool
      rw [← h] at hpool
      simp at hpool

theorem pool_run_consistent (env : Env) : ∀ (acts : List PoolAction) (s s' : PoolRun),
    counters_consistent s → pool_run env s acts = some s' → counters_consistent s' := by
  intro acts
  induction acts with
  | nil =>
    intro s s' hinv h
    simp only [pool_run, Option.some.injEq] at h
    rw [← h]; exact hinv
  | cons a rest ih =>
    intro s s' hinv h
    simp only [pool_run] at h
    cases hs : pool_step env s a with
    | none => rw [hs] at h; simp at h
    | some s1 =>
      rw [hs] at h
      exact ih s1 s' (pool_step_consistent env s s1 a hinv hs) h


/-! ### C25: the thread counters -/

/-- C25 (counterexample): `cppadcg_thpool_set_threads` only assigns the
variable that `cppadcg_thpool_get_threads` returns. After a pool of two
threads has been created, `set_threads(1)` leaves two threads alive while
`get_threads()` is `1`: `num_threads_alive ≤ n_threads` fails. -/
theorem C25_counterexample_set_threads_after_init :
    (pool_run (env_ok (arr [])) ⟨Globals.initial, []⟩
        [PoolAction.prepare, PoolAction.set_threads 1]).map
      (fun s => (cppadcg_thpool_get_threads s.g,
        s.g.cppadcg_pool.map (fun p =>
          (p.num_threads_working, p.num_threads_alive, p.num_threads)))) =
      some (1, some (0, 2, 2)) ∧
    ¬ (((2 : Nat) : Int) ≤ 1) := by
  refine ⟨?_, by decide⟩
  with_unfolding_all decide

/-- C25 (amended): in every state reached from a state without pool by pool
creation, submissions, worker steps, the setters (`set_threads` included) and
the actions of destroy, a pool that exists satisfies
`num_threads_working ≤ num_threads_alive ≤ num_threads`, where `num_threads`
is the field of the pool; the two counters count the workers between the
respective increment and decrement. A pool created from the start state has
`num_threads` equal to the value `get_threads()` had then. -/
theorem C25_counters_bounded_by_pool_size (env : Env) (g0 : Globals)
    (acts : List PoolAction) (s : PoolRun) (pool : ThPool)
    (h0 : g0.cppadcg_pool = none)
    (hrun : pool_run env ⟨g0, []⟩ acts = some s) (hpool : s.g.cppadcg_pool = some pool) :
    pool.num_threads_working ≤ pool.num_threads_alive ∧
    pool.num_threads_alive ≤ pool.num_threads ∧
    s.pcs.length = pool.num_threads ∧
    pool.num_threads_working = s.pcs.countP WorkerPc.working ∧
    pool.num_threads_alive = s.pcs.countP WorkerPc.alive ∧
    (∀ created, (cppadcg_thpool_prepare g0 env).cppadcg_pool = some created →
      (created.num_threads : Int) = cppadcg_thpool_get_threads g0) := by
  have hstart : counters_consistent ⟨g0, []⟩ := by
    intro p hp
    simp only [h0] at hp
    exact absurd hp (by simp)
  obtain ⟨i1, i2, i3⟩ := pool_run_consistent env acts ⟨g0, []⟩ s hstart hrun pool hpool
  refine ⟨?_, ?_, i1, i2, i3, ?_⟩
  · rw [i2, i3]
    apply List.countP_mono_left
    intro x _ hx
    cases x <;> simp_all [WorkerPc.working, WorkerPc.alive]
  · rw [i3, ← i1]
    exact List.countP_le_length _
  · intro created hc
    simp only [cppadcg_thpool_prepare, h0, thpool_init] at hc
    split_ifs at hc <;> simp only [Option.some.injEq, reduceCtorEq] at hc
    all_goals
      rw [← hc]
      simp only [cppadcg_thpool_get_threads]
      omega

/-- C25 (witness): a new pool of two threads, one submitted job, and worker
`0` taken up to its pull: one thread is working, two are alive. -/
theorem C25_counters_bounded_by_pool_size_witness :
    Globals.initial.cppadcg_pool = none ∧
    ∃ s pool, pool_run (env_ok (arr [])) ⟨Globals.initial, []⟩ example_actions = some s ∧
      s.g.cppadcg_pool = some pool ∧
      pool.num_threads_working = 1 ∧
      pool.num_threads_working ≤ pool.num_threads_alive ∧
      pool.num_threads_alive ≤ pool.num_threads := by
  have hfacts : (pool_run (env_ok (arr [])) ⟨Globals.initial, []⟩ example_actions).map
      (fun s => s.g.cppadcg_pool.map (fun p => p.num_threads_working)) = some (some 1) := by
    with_unfolding_all decide
  cases hrun : pool_run (env_ok (arr [])) ⟨Globals.initial, []⟩ example_actions with
  | none => rw [hrun] at hfacts; simp at hfacts
  | some s =>
    rw [hrun] at hfacts
    simp only [Option.map_some', Option.some.injEq] at hfacts
    cases hpool : s.g.cppadcg_pool with
    | none => rw [hpool] at hfacts; simp at hfacts
    | some pool =>
      rw [hpool] at hfacts
      simp only [Option.map_some', Option.some.injEq] at hfacts
      have h := C25_counters_bounded_by_pool_size (env_ok (arr [])) Globals.initial
        example_actions s pool rfl hrun hpool
      exact ⟨rfl, s, pool, rfl, hpool, hfacts, h.1, h.2.1⟩

/-! ### C24: the semaphore `has_jobs` -/

theorem jobqueue_push_all_len (mem : Nat → ℚ) (l : List Job) :
    ∀ q : JobQueue, (l.foldl (jobqueue_push_internal mem) q).len = q.len + l.length := by
  induction l with
  | nil => intro q; simp
  | cons job rest ih =>
    intro q
    simp only [List.foldl_cons, List.length_cons]
    rw [ih]
    have : (jobqueue_push_internal mem q job).len = q.len + 1 := by
      unfold jobqueue_push_internal
      cases q.len <;> cases job.avgElapsed <;> rfl
    rw [this]
    omega

/-- C24 (counterexample): the semaphore does not follow the queue both ways.
`thpool_add_jobs` with an empty batch on a new pool ends with `has_jobs = 1`
while `len = 0` and there is no group chain. With two workers, a second
submission between the `bsem_wait` and the pull of the first worker lets the
second worker empty the queue while `has_jobs` stays `1`. And a setter called
after a worker has taken the semaphore ends its critical section with
`has_jobs = 0` and one job queued. -/
theorem C24_counterexample_semaphore_without_work :
    (thpool_add_jobs Globals.initial (env_ok (arr [])) (fresh_pool 2) id id none none none 0).map
      (fun r => (r.1, r.2.jobqueue.has_jobs, r.2.jobqueue.len, r.2.jobqueue.group_front)) =
      some (0, 1, 0, []) ∧
    ¬ ((1 : Nat) = 1 ↔ (0 < (0 : Nat) ∨ ([] : List WorkGroup) ≠ [])) ∧
    (pool_run (env_ok (arr [])) ⟨Globals.initial, []⟩
        [PoolAction.prepare, PoolAction.add_job 10 20 none none, PoolAction.worker 0 none,
          PoolAction.add_job 11 21 none none, PoolAction.worker 1 none,
          PoolAction.worker 0 none, PoolAction.worker 0 none, PoolAction.worker 0 none,
          PoolAction.worker 1 none, PoolAction.worker 1 none, PoolAction.worker 1 none]).map
      (fun s => (s.pcs, s.g.cppadcg_pool.map (fun p =>
        (p.jobqueue.has_jobs, p.jobqueue.len, p.jobqueue.group_front)))) =
      some ([WorkerPc.running, WorkerPc.running], some (1, 0, [])) ∧
    (pool_run (env_ok (arr [])) ⟨Globals.initial, []⟩
        [PoolAction.prepare, PoolAction.add_job 10 20 none none, PoolAction.worker 0 none,
          PoolAction.set_scheduler_strategy ScheduleStrategy.SCHED_MULTI_JOB]).map
      (fun s => (s.pcs, s.g.cppadcg_pool.map (fun p =>
        (p.jobqueue.has_jobs, p.jobqueue.len, p.jobqueue.group_front)))) =
      some ([WorkerPc.woken, WorkerPc.idle], some (0, 1, [])) ∧
    ¬ ((0 : Nat) = 1 ↔ (0 < (1 : Nat) ∨ ([] : List WorkGroup) ≠ [])) := by
  refine ⟨?_, by decide, ?_, ?_, by decide⟩ <;> with_unfolding_all decide

/-- C24 (amended): `jobqueue_push`, `jobqueue_multipush` (any batch) and
`jobqueue_push_static_jobs` end with `has_jobs = 1`; a push and a multipush
of a non-empty batch leave `len > 0` and a static push leaves a group chain.
A pull ends with `has_jobs = 1` when `len > 0` or a group chain remains, and
otherwise with the value `has_jobs` had when it started; so a pull that
starts with `has_jobs = 0`, as `bsem_wait` leaves it, ends with
`has_jobs = 1` exactly when work remains. The two setters do not change the
pool. -/
theorem C24_semaphore_posted_when_work_remains :
    (∀ (mem : Nat → ℚ) (q : JobQueue) (job : Job),
      (jobqueue_push mem q job).has_jobs = 1 ∧ 0 < (jobqueue_push mem q job).len) ∧
    (∀ (mem : Nat → ℚ) (q : JobQueue) (jobs : List Job),
      (jobqueue_multipush mem q jobs).has_jobs = 1 ∧
      (jobs ≠ [] → 0 < (jobqueue_multipush mem q jobs).len)) ∧
    (∀ (env : Env) (thpool : ThPool) (newjobs : List Job) (avgElapsed nJobs : Nat),
      1 ≤ nJobs → 1 ≤ thpool.num_threads → env.malloc_static = true →
      newjobs.length = nJobs →
      ∃ p, jobqueue_push_static_jobs env thpool newjobs avgElapsed nJobs = some (0, p) ∧
        p.jobqueue.has_jobs = 1 ∧ p.jobqueue.group_front ≠ []) ∧
    (∀ (g : Globals) (mem : Nat → ℚ) (clock : Option ℚ) (thpool p : ThPool) (grp : WorkGroup),
      jobqueue_pull g mem clock thpool = some (grp, p) →
      ((0 < p.jobqueue.len ∨ p.jobqueue.group_front ≠ []) → p.jobqueue.has_jobs = 1) ∧
      (¬ (0 < p.jobqueue.len ∨ p.jobqueue.group_front ≠ []) →
        p.jobqueue.has_jobs = thpool.jobqueue.has_jobs) ∧
      (thpool.jobqueue.has_jobs = 0 →
        (p.jobqueue.has_jobs = 1 ↔ (0 < p.jobqueue.len ∨ p.jobqueue.group_front ≠ [])))) ∧
    (∀ (g : Globals) (s : ScheduleStrategy),
      (cppadcg_thpool_set_scheduler_strategy g s).cppadcg_pool = g.cppadcg_pool) ∧
    (∀ (g : Globals) (v : ℚ),
      (cppadcg_thpool_set_multijob_maxgroupwork g v).cppadcg_pool = g.cppadcg_pool) := by
  refine ⟨?_, ?_, ?_, ?_, ?_, ?_⟩
  · intro mem q job
    refine ⟨rfl, ?_⟩
    have := jobqueue_push_all_len mem [job] q
    simp only [List.foldl_cons, List.foldl_nil, List.length_singleton] at this
    show 0 < (jobqueue_push_internal mem q job).len
    omega
  · intro mem q jobs
    refine ⟨rfl, ?_⟩
    intro hne
    have := jobqueue_push_all_len mem jobs q
    have hl := List.length_pos.mpr hne
    show 0 < (jobs.foldl (jobqueue_push_internal mem) q).len
    omega
  · intro env thpool newjobs avgElapsed nJobs hJ hT halloc hnew
    obtain ⟨groups, hres, hlen, -⟩ :=
      jobqueue_push_static_jobs_groups env thpool newjobs avgElapsed nJobs hJ hT halloc hnew
    refine ⟨_, hres, rfl, ?_⟩
    intro h
    have hg : groups = [] := (List.append_eq_nil.mp h).1
    rw [hg] at hlen
    simp only [List.length_nil] at hlen
    omega
  · intro g mem clock thpool p grp h
    obtain ⟨q, hq, hv⟩ := jobqueue_pull_frame g mem clock thpool p grp h
    have hpq : p.jobqueue = jobqueue_pull_post q := by rw [hq]
    obtain ⟨-, f2, -, f4⟩ := jobqueue_pull_post_fields q
    have hwork : (0 < p.jobqueue.len ∨ p.jobqueue.group_front ≠ []) ↔
        (0 < q.len ∨ q.group_front ≠ []) := by rw [hpq, f2, f4]
    have h1 : (0 < q.len ∨ q.group_front ≠ []) → p.jobqueue.has_jobs = 1 := by
      intro hw
      rw [hpq]
      unfold jobqueue_pull_post
      rw [if_pos hw]
    have h2 : ¬ (0 < q.len ∨ q.group_front ≠ []) →
        p.jobqueue.has_jobs = thpool.jobqueue.has_jobs := by
      intro hw
      rw [hpq]
      unfold jobqueue_pull_post
      rw [if_neg hw]
      exact hv
    refine ⟨fun hw => h1 (hwork.mp hw), fun hw => h2 (fun h' => hw (hwork.mpr h')), ?_⟩
    intro h0
    constructor
    · intro hp1
      by_contra hw
      have := h2 (fun h' => hw (hwork.mpr h'))
      omega
    · intro hw
      exact h1 (hwork.mp hw)
  · intro g s
    unfold cppadcg_thpool_set_scheduler_strategy
    split <;> rfl
  · intro g v
    unfold cppadcg_thpool_set_multijob_maxgroupwork
    split <;> rfl

/-- C24 (witness): a pull of the single queued job from a queue whose
semaphore has been taken ends with `has_jobs = 0` and no work. -/
theorem C24_semaphore_posted_when_work_remains_witness :
    ∃ grp p, jobqueue_pull Globals.initial avg_ones none
        { queued_pool avg_ones 2 1 with
          jobqueue := { (queued_pool avg_ones 2 1).jobqueue with has_jobs := 0 } } =
        some (grp, p) ∧
      (p.jobqueue.has_jobs = 1 ↔ (0 < p.jobqueue.len ∨ p.jobqueue.group_front ≠ [])) := by
  have hfacts : (jobqueue_pull Globals.initial avg_ones none
      { queued_pool avg_ones 2 1 with
        jobqueue := { (queued_pool avg_ones 2 1).jobqueue with has_jobs := 0 } }).isSome =
      true := by with_unfolding_all decide
  obtain ⟨r, hr⟩ := Option.isSome_iff_exists.mp hfacts
  exact ⟨r.1, r.2, hr,
    (C24_semaphore_posted_when_work_remains.2.2.2.1 Globals.initial avg_ones none _ r.2 r.1
      hr).2.2 rfl⟩

/-! ### C27: bin durations and bin contents -/

theorem bin_sum_append (l : List Nat) (b i : Nat) (f : Nat → ℚ) :
    bin_sum (l ++ [b]) i f = bin_sum l i f + (if b = i then f l.length else 0) := by
  unfold bin_sum
  rw [List.length_append, List.length_singleton, List.range_succ,
    List.zip_append (by simp)]
  simp only [List.zip_cons_cons, List.zip_nil_right, List.filter_append, List.map_append,
    List.sum_append]
  by_cases h : b = i
  · simp [h, List.filter_cons]
  · simp [h, List.filter_cons]

theorem static_place_bin (t a : ℚ) (st : StaticBins) (hne : st.durations ≠ []) :
    ∃ i, i < st.durations.length ∧
      (static_place t st a).durations = st.durations.set i (st.durations.getD i 0 + a) ∧
      (static_place t st a).jobs2thread = st.jobs2thread ++ [i] := by
  unfold static_place
  cases hff : static_first_fit t a st.durations 0 with
  | some i =>
    obtain ⟨_, h2, _⟩ := static_first_fit_some t a st.durations 0 i hff
    simp only [Nat.sub_zero] at h2
    exact ⟨i, h2, rfl, rfl⟩
  | none =>
    obtain ⟨d0, tl, hD⟩ := List.exists_cons_of_ne_nil hne
    have h := static_least_loaded_spec a tl [d0] (d0 + a) 0 (by simp) (by simp) (by simp)
    simp only [List.length_singleton, List.singleton_append] at h
    obtain ⟨h1, h2, _⟩ := h
    simp only [hD, List.tail_cons, List.headD_cons]
    exact ⟨_, h1, by rw [h2], rfl⟩

/-- Invariant of the placement loop on `durations`: the duration of a bin is
the sum of `avgElapsed[j]` over the positions `j` placed in it. -/
theorem static_assign_upto_durations (bins : Nat) (hb : 1 ≤ bins) (t : ℚ) (avg : Nat → ℚ) :
    ∀ k, (static_assign_upto bins t avg k).durations.length = bins ∧
      (static_assign_upto bins t avg k).jobs2thread.length = k ∧
      ∀ i, i < bins → (static_assign_upto bins t avg k).durations[i]? =
        some (bin_sum (static_assign_upto bins t avg k).jobs2thread i avg) := by
  intro k
  induction k with
  | zero =>
    refine ⟨by simp [static_assign_upto], by simp [static_assign_upto], ?_⟩
    intro i hi
    simp [static_assign_upto, List.getElem?_replicate, hi, bin_sum]
  | succ k ih =>
    obtain ⟨h1, h3, h5⟩ := ih
    rw [static_assign_upto_succ]
    have hne : (static_assign_upto bins t avg k).durations ≠ [] := by
      intro h; rw [h] at h1; simp at h1; omega
    obtain ⟨b, hb1, e1, e2⟩ := static_place_bin t (avg k) _ hne
    rw [h1] at hb1
    refine ⟨by rw [e1]; simp [h1], by rw [e2]; simp [h3], ?_⟩
    intro i hi
    rw [e1, e2, bin_sum_append, h3, List.getElem?_set]
    by_cases hbi : b = i
    · subst hbi
      have hg : (static_assign_upto bins t avg k).durations.getD b 0 =
          bin_sum (static_assign_upto bins t avg k).jobs2thread b avg := by
        rw [List.getD_eq_getElem?_getD, h5 b hi]; rfl
      have h5b := h5 b hi
      rw [List.getElem?_eq_getElem (by omega)] at h5b
      simp only [Option.some.injEq] at h5b
      simp [h1, hi, hg, h5b]
    · simp [hbi, h5 i hi]

theorem zip_records_filter (recs : Nat → Job) (j2t : List Nat) (n i : Nat)
    (hn : j2t.length = n) (mem : Nat → ℚ) :
    sumAvg mem (((((List.range n).map recs).zip j2t).filter
      (fun x => decide (x.2 = i))).map (fun x => x.1)) =
    bin_sum j2t i (fun j => jobAvg mem (recs j)) := by
  unfold bin_sum sumAvg
  rw [hn, List.zip_map_left, List.filter_map, List.map_map, List.map_map]
  rfl

/-- C27: `jobqueue_push_static_jobs` adds `avgElapsed[j]` to the duration of
the bin that takes the record at position `j`, while that record was built by
`thpool_add_jobs` from job `order[j]` and carries `&avgElapsed[order[j]]`.
For every batch routed to it, the duration of bin `i` is the sum of
`avgElapsed[j]` over the positions `j` placed in the bin, and the sum of the
averages of the records in its work group is the sum of `avgElapsed[order[j]]`
over the same positions. With two threads, `avg = [3,1,2]` and
`order = [1,2,0]` the durations are `3, 3` while the groups hold jobs `1` and
`2, 0`, whose averages sum to `1` and `5`. -/
theorem C27_bin_duration_ignores_order :
    (∀ (env : Env) (thpool : ThPool) (functions args : Nat → Nat) (base : Nat)
        (elapsed : Option Nat) (order : Option (Nat → Nat)) (nJobs : Nat),
      1 ≤ nJobs → 1 ≤ thpool.num_threads → env.malloc_static = true →
      ∃ p bins, jobqueue_push_static_jobs env thpool
          (thpool_add_jobs_records functions args (some base) elapsed order nJobs) base nJobs =
          some (0, p) ∧
        p.jobqueue.group_front = bins ++ thpool.jobqueue.group_front ∧
        bins.length = min thpool.num_threads nJobs ∧
        ∀ i, i < bins.length → ∃ grp, bins[i]? = some grp ∧
          (static_assign thpool.num_threads (fun j => env.mem (base + j)) nJobs).durations[i]? =
            some (bin_sum (static_assign thpool.num_threads (fun j => env.mem (base + j))
              nJobs).jobs2thread i (fun j => env.mem (base + j))) ∧
          sumAvg env.mem grp.jobs =
            bin_sum (static_assign thpool.num_threads (fun j => env.mem (base + j))
              nJobs).jobs2thread i
              (fun j => env.mem (base + (order.map (fun o => o j)).getD j))) ∧
    (thpool_add_jobs_static globals_static (env_ok (arr [3, 1, 2])) (some 0)
        (some (arr [1, 2, 0])) 3 = true ∧
      (static_assign 2 (arr [3, 1, 2]) 3).jobs2thread = [0, 1, 1] ∧
      (static_assign 2 (arr [3, 1, 2]) 3).durations = [3, 3] ∧
      (thpool_add_jobs globals_static (env_ok (arr [3, 1, 2])) (fresh_pool 2) id id (some 0)
          none (some (arr [1, 2, 0])) 3).map
        (fun r => r.2.jobqueue.group_front.map
          (fun grp => (grp.jobs.map (fun job => job.function),
            sumAvg (arr [3, 1, 2]) grp.jobs))) =
        some [([1], 1), ([2, 0], 5)]) := by
  refine ⟨?_, ?_⟩
  · intro env thpool functions args base elapsed order nJobs hJ hT halloc
    have hnew : (thpool_add_jobs_records functions args (some base) elapsed order
        nJobs).length = nJobs := by simp [thpool_add_jobs_records]
    obtain ⟨bins, hres, hlen, hbins⟩ := jobqueue_push_static_jobs_groups env thpool _ base
      nJobs hJ hT halloc hnew
    have hnb : static_num_bins thpool.num_threads nJobs = min thpool.num_threads nJobs := by
      unfold static_num_bins
      split_ifs with h
      · exact (Nat.min_eq_right (le_of_lt h)).symm
      · exact (Nat.min_eq_left (not_lt.mp h)).symm
    obtain ⟨-, d2, d3⟩ := static_assign_upto_durations
      (static_num_bins thpool.num_threads nJobs) (by rw [hnb]; omega)
      (static_total_duration (fun j => env.mem (base + j)) nJobs /
        ((static_num_bins thpool.num_threads nJobs : Nat) : ℚ))
      (fun j => env.mem (base + j)) nJobs
    rw [← static_assign_eq_upto] at d2 d3
    refine ⟨_, bins, hres, rfl, hlen, ?_⟩
    intro i hi
    refine ⟨_, hbins i hi, d3 i (by rw [hnb, ← hlen]; exact hi), ?_⟩
    have hrec : thpool_add_jobs_records functions args (some base) elapsed order nJobs =
        (List.range nJobs).map (fun j =>
          ({ function := functions ((order.map (fun o => o j)).getD j)
             arg := args ((order.map (fun o => o j)).getD j)
             avgElapsed := some (base + (order.map (fun o => o j)).getD j)
             elapsed := elapsed.map (fun b => b + (order.map (fun o => o j)).getD j) } :
            Job)) := by
      unfold thpool_add_jobs_records
      cases order <;> rfl
    simp only []
    rw [hrec, zip_records_filter _ _ nJobs i d2]
    rfl
  · refine ⟨?_, ?_, ?_, ?_⟩ <;> with_unfolding_all decide

/-- C27 (witness): the batch `avg = [3,1,2]`, `order = [1,2,0]` on two
threads. -/
theorem C27_bin_duration_ignores_order_witness :
    1 ≤ 3 ∧ 1 ≤ (fresh_pool 2).num_threads ∧ (env_ok (arr [3, 1, 2])).malloc_static = true ∧
    ∃ p bins, jobqueue_push_static_jobs (env_ok (arr [3, 1, 2])) (fresh_pool 2)
        (thpool_add_jobs_records id id (some 0) none (some (arr [1, 2, 0])) 3) 0 3 =
        some (0, p) ∧
      p.jobqueue.group_front = bins ++ (fresh_pool 2).jobqueue.group_front ∧
      bins.length = min (fresh_pool 2).num_threads 3 :=
  ⟨by decide, by decide, rfl,
    (C27_bin_duration_ignores_order.1 (env_ok (arr [3, 1, 2])) (fresh_pool 2) id id 0 none
      (some (arr [1, 2, 0])) 3 (by decide) (by decide) rfl).elim fun p hp =>
        hp.elim fun bins hb => ⟨p, bins, hb.1, hb.2.1, hb.2.2.1⟩⟩


/-! ### C29: the residuals kept by `reduceEquations` -/

theorem reduceEquations_fill_spec {α : Type} (res0 : Nat → α) (removed : List Nat) :
    ∀ (todo : List Nat) (A B : List α),
      reduceEquations_fill res0 removed todo (A ++ B, A.length) =
        if (todo.filter (fun i => decide (i ∈ removed))).length ≤ B.length then
          some (A ++ (todo.filter (fun i => decide (i ∈ removed))).map res0 ++
              B.drop (todo.filter (fun i => decide (i ∈ removed))).length,
            A.length + (todo.filter (fun i => decide (i ∈ removed))).length)
        else none := by
  intro todo
  induction todo with
  | nil => intro A B; simp [reduceEquations_fill]
  | cons i rest ih =>
    intro A B
    simp only [reduceEquations_fill]
    by_cases hi : i ∈ removed
    · simp only [hi, if_true, List.filter_cons, decide_True, List.length_cons, List.map_cons]
      cases B with
      | nil => simp
      | cons b B' =>
        have hlt : A.length < (A ++ b :: B').length := by simp
        rw [if_pos hlt]
        have hset : (A ++ b :: B').set A.length (res0 i) = (A ++ [res0 i]) ++ B' := by
          rw [List.set_append_right _ _ (le_refl _)]
          simp
        have h1 := ih (A ++ [res0 i]) B'
        simp only [List.length_append, List.length_singleton] at h1
        rw [hset, h1]
        simp only [List.length_cons, Nat.add_le_add_iff_right, List.append_assoc,
          List.singleton_append, List.drop_succ_cons]
        split_ifs
        · simp only [Option.some.injEq, Prod.mk.injEq, true_and]
          omega
        · rfl
    · simp only [hi, if_false, List.filter_cons, decide_False]
      exact ih A B

/-- C29: the loop of `reduceEquations` copies `res0[i]` for the equations
`i` that ARE in `removedEquations` (its test is `find(i) != end()`), in
increasing index order, into a vector of `Range - |dummyD_|` entries: when
they fit, `resNew` is those residuals followed by default entries, and when
there are more of them than `Range - |dummyD_|` an assignment falls outside
the vector. With three equations and the dummy derivative assigned by
equation `1`, `resNew` is `[res0[1], 0]` and not `[res0[0], res0[2]]`; with
two dummy derivatives assigned by equations `0` and `1` the second
assignment is outside `resNew`. -/
theorem C29_reduce_equations_keeps_removed :
    (∀ (res0 : Nat → Nat) (range enodes : Nat) (dummyD : List Nat),
      dummyD.length ≤ range →
      ((((List.range enodes).filter (fun i => decide (i ∈ dummyD))).length ≤
          range - dummyD.length →
        reduceEquations_resNew 0 res0 range dummyD enodes =
          some (((List.range enodes).filter (fun i => decide (i ∈ dummyD))).map res0 ++
            List.replicate (range - dummyD.length -
              ((List.range enodes).filter (fun i => decide (i ∈ dummyD))).length) 0)) ∧
       (range - dummyD.length <
          ((List.range enodes).filter (fun i => decide (i ∈ dummyD))).length →
        reduceEquations_resNew 0 res0 range dummyD enodes = none))) ∧
    reduceEquations_resNew 0 (arr [10, 11, 12]) 3 [1] 3 = some [11, 0] ∧
    reduceEquations_resNew 0 (arr [10, 11, 12]) 3 [1] 3 ≠
      some [(arr [10, 11, 12] : Nat → Nat) 0, (arr [10, 11, 12] : Nat → Nat) 2] ∧
    reduceEquations_resNew 0 (arr [10, 11, 12]) 3 [0, 1] 3 = none := by
  refine ⟨?_, by decide, by decide, by decide⟩
  intro res0 range enodes dummyD hle
  have h := reduceEquations_fill_spec res0 dummyD (List.range enodes) []
    (List.replicate (range - dummyD.length) 0)
  simp only [List.nil_append, List.length_nil, List.length_replicate, Nat.zero_add] at h
  have hnot : ¬ range < dummyD.length := by omega
  constructor
  · intro hfit
    simp only [reduceEquations_resNew, if_neg hnot, h, if_pos hfit, Option.map_some',
      List.drop_replicate]
  · intro hover
    have : ¬ ((List.range enodes).filter (fun i => decide (i ∈ dummyD))).length ≤
        range - dummyD.length := by omega
    simp only [reduceEquations_resNew, if_neg hnot, h, if_neg this, Option.map_none']

/-- C29 (witness): three equations, one dummy derivative assigned by
equation `1`. -/
theorem C29_reduce_equations_keeps_removed_witness :
    [1].length ≤ 3 ∧
    ((List.range 3).filter (fun i => decide (i ∈ [1]))).length ≤ 3 - [1].length ∧
    reduceEquations_resNew 0 (arr [10, 11, 12]) 3 [1] 3 =
      some (((List.range 3).filter (fun i => decide (i ∈ [1]))).map (arr [10, 11, 12]) ++
        List.replicate
          (3 - [1].length - ((List.range 3).filter (fun i => decide (i ∈ [1]))).length) 0) :=
  ⟨by decide, by decide,
    (C29_reduce_equations_keeps_removed.1 (arr [10, 11, 12]) 3 3 [1] (by decide)).1
      (by decide)⟩

/-! ### The job queue with its pointers -/

theorem heap_isChain_unique (heap : Nat → Heap.JobCell) :
    ∀ (l l' : List Nat) (p : Option Nat), Heap.IsChain heap p l → Heap.IsChain heap p l' →
      l = l' := by
  intro l
  induction l with
  | nil =>
    intro l' p h h'
    cases l' with
    | nil => rfl
    | cons a t =>
      simp only [Heap.IsChain] at h h'
      rw [h] at h'
      exact absurd h'.1 (by simp)
  | cons a t ih =>
    intro l' p h h'
    cases l' with
    | nil =>
      simp only [Heap.IsChain] at h h'
      rw [h'] at h
      exact absurd h.1 (by simp)
    | cons b t' =>
      simp only [Heap.IsChain] at h h'
      have hab : a = b := by
        have := h.1.symm.trans h'.1
        simpa using this
      subst hab
      rw [ih t' _ h.2 h'.2]

theorem heap_isChain_congr (heap heap' : Nat → Heap.JobCell) :
    ∀ (l : List Nat) (p : Option Nat), (∀ a ∈ l, (heap' a).prev = (heap a).prev) →
      Heap.IsChain heap p l → Heap.IsChain heap' p l := by
  intro l
  induction l with
  | nil => intro p _ h; exact h
  | cons a t ih =>
    intro p hc h
    simp only [Heap.IsChain] at h ⊢
    refine ⟨h.1, ?_⟩
    rw [hc a (List.mem_cons_self _ _)]
    exact ih _ (fun x hx => hc x (List.mem_cons_of_mem _ hx)) h.2

theorem heap_isChain_snoc (heap heap' : Nat → Heap.JobCell) (r n : Nat) :
    ∀ (l : List Nat) (p : Option Nat), (∀ a ∈ l, (heap' a).prev = (heap a).prev) →
      (heap' r).prev = some n → (heap' n).prev = none →
      Heap.IsChain heap p (l ++ [r]) → Heap.IsChain heap' p (l ++ [r, n]) := by
  intro l
  induction l with
  | nil =>
    intro p _ hr hn h
    simp only [List.nil_append, Heap.IsChain] at h ⊢
    exact ⟨h.1, hr, hn⟩
  | cons a t ih =>
    intro p hc hr hn h
    simp only [List.cons_append, Heap.IsChain] at h ⊢
    refine ⟨h.1, ?_⟩
    rw [hc a (List.mem_cons_self _ _)]
    exact ih _ (fun x hx => hc x (List.mem_cons_of_mem _ hx)) hr hn h.2

theorem heap_sum_congr (mem : Nat → ℚ) (heap heap' : Nat → Heap.JobCell) (l : List Nat)
    (h : ∀ a ∈ l, (heap' a).job = (heap a).job) :
    (l.map (fun a => jobAvg mem (heap' a).job)).sum =
      (l.map (fun a => jobAvg mem (heap a).job)).sum := by
  congr 1
  apply List.map_congr_left
  intro a ha
  rw [h a ha]

/-- Writing the fields of a record that is not queued keeps the queue well
formed. -/
theorem heap_job_store_wf (mem : Nat → ℚ) (q : Heap.JobQueue) (l : List Nat) (newjob : Nat)
    (job : Job) (hwf : Heap.WellFormed mem q l) (hfresh : newjob ∉ l) :
    Heap.WellFormed mem (Heap.job_store q newjob job) l ∧
      ((Heap.job_store q newjob job).heap newjob).job = job ∧
      (∀ a, a ≠ newjob → (Heap.job_store q newjob job).heap a = q.heap a) ∧
      (Heap.job_store q newjob job).group_front = q.group_front := by
  obtain ⟨h1, h2, h3, h4, h5⟩ := hwf
  have hne : ∀ a ∈ l, a ≠ newjob := fun a ha h => hfresh (h ▸ ha)
  refine ⟨⟨?_, h2, h3, h4, ?_⟩, ?_, ?_, rfl⟩
  · apply heap_isChain_congr q.heap _ l _ _ h1
    intro a ha
    simp only [Heap.job_store, Function.update_noteq (hne a ha)]
  · show q.total_time = _
    rw [h5]
    symm
    apply heap_sum_congr
    intro a ha
    simp only [Heap.job_store, Function.update_noteq (hne a ha)]
  · simp [Heap.job_store]
  · intro a ha
    simp only [Heap.job_store, Function.update_noteq ha]

/-- On a well-formed queue `jobqueue_push_internal` of a record that is not
queued links it behind the last record. -/
theorem heap_push_internal_wf (mem : Nat → ℚ) (q : Heap.JobQueue) (l : List Nat)
    (newjob : Nat) (hwf : Heap.WellFormed mem q l) (hfresh : newjob ∉ l) :
    ∃ q', Heap.jobqueue_push_internal mem q newjob = some q' ∧
      Heap.WellFormed mem q' (l ++ [newjob]) ∧
      (∀ a, (q'.heap a).job = (q.heap a).job) ∧
      q'.group_front = q.group_front := by
  obtain ⟨h1, h2, h3, h4, h5⟩ := hwf
  have hjob1 : ∀ a, ((Function.update q.heap newjob
      { q.heap newjob with prev := none }) a).job = (q.heap a).job := by
    intro a
    by_cases ha : a = newjob
    · subst ha; simp
    · simp [Function.update_noteq ha]
  have hnd : (l ++ [newjob]).Nodup := by
    rw [List.nodup_append]
    refine ⟨h2, by simp, ?_⟩
    intro a ha hb
    simp only [List.mem_singleton] at hb
    exact hfresh (hb ▸ ha)
  cases hl : q.len with
  | zero =>
    have hnil : l = [] := List.length_eq_zero.mp (by omega)
    subst hnil
    simp only [List.map_nil, List.sum_nil] at h5
    have htot : ∀ t : ℚ, t = q.total_time + jobAvg mem (q.heap newjob).job →
        t = ([newjob].map (fun a => jobAvg mem (q.heap a).job)).sum := by
      intro t ht
      simp [ht, h5]
    simp only [Heap.jobqueue_push_internal, hl, Option.map_some', Function.update_same]
    cases ha : (q.heap newjob).job.avgElapsed with
    | none =>
      refine ⟨_, rfl, ⟨?_, hnd, by simp, rfl, ?_⟩, hjob1, rfl⟩
      · simp [Heap.IsChain]
      · simp only [List.nil_append]
        rw [heap_sum_congr mem q.heap _ [newjob] (fun a _ => hjob1 a)]
        apply htot
        simp [jobAvg, ha]
    | some p =>
      refine ⟨_, rfl, ⟨?_, hnd, by simp, rfl, ?_⟩, hjob1, rfl⟩
      · simp [Heap.IsChain]
      · simp only [List.nil_append]
        rw [heap_sum_congr mem q.heap _ [newjob] (fun a _ => hjob1 a)]
        apply htot
        simp [jobAvg, ha]
  | succ k =>
    have hne : l ≠ [] := by
      intro h; rw [h] at h3; simp at h3; omega
    obtain ⟨l0, r, rfl⟩ : ∃ l0 r, l = l0 ++ [r] :=
      ⟨l.dropLast, l.getLast hne, (List.dropLast_append_getLast hne).symm⟩
    have hrear : q.rear = some r := by rw [h4]; simp
    have hrn : r ≠ newjob := by
      intro h; apply hfresh; rw [← h]; simp
    have hr0 : r ∉ l0 := by
      intro hr
      have := List.nodup_append.mp h2
      exact this.2.2 hr (by simp)
    have hjob2 : ∀ a, ((Function.update (Function.update q.heap newjob
        { q.heap newjob with prev := none }) r
        { (Function.update q.heap newjob { q.heap newjob with prev := none }) r with
          prev := some newjob }) a).job = (q.heap a).job := by
      intro a
      by_cases ha : a = r
      · subst ha
        simp [Function.update_noteq hrn]
      · rw [Function.update_noteq ha]
        exact hjob1 a
    have hchain : Heap.IsChain (Function.update (Function.update q.heap newjob
        { q.heap newjob with prev := none }) r
        { (Function.update q.heap newjob { q.heap newjob with prev := none }) r with
          prev := some newjob }) q.front (l0 ++ [r, newjob]) := by
      apply heap_isChain_snoc q.heap _ r newjob l0 q.front _ _ _ h1
      · intro a ha
        have har : a ≠ r := fun h => hr0 (h ▸ ha)
        have han : a ≠ newjob := fun h => hfresh (by rw [← h]; simp [ha])
        rw [Function.update_noteq har, Function.update_noteq han]
      · simp
      · rw [Function.update_noteq hrn.symm]
        simp
    have htot : ∀ t : ℚ, t = q.total_time + jobAvg mem (q.heap newjob).job →
        t = ((l0 ++ [r] ++ [newjob]).map (fun a => jobAvg mem (q.heap a).job)).sum := by
      intro t ht
      rw [ht, h5]
      simp only [List.map_append, List.sum_append, List.map_cons, List.map_nil, List.sum_cons,
        List.sum_nil]
      ring
    have hlist : l0 ++ [r] ++ [newjob] = l0 ++ [r, newjob] := by simp
    simp only [Heap.jobqueue_push_internal, hl, hrear, Option.map_some']
    have hjn : ((Function.update (Function.update q.heap newjob
        { q.heap newjob with prev := none }) r
        { (Function.update q.heap newjob { q.heap newjob with prev := none }) r with
          prev := some newjob }) newjob).job = (q.heap newjob).job := hjob2 newjob
    rw [hjn]
    cases ha : (q.heap newjob).job.avgElapsed with
    | none =>
      refine ⟨_, rfl, ⟨?_, hnd, ?_, ?_, ?_⟩, hjob2, rfl⟩
      · rw [hlist]; exact hchain
      · simp only [List.length_append, List.length_singleton] at h3 ⊢
        omega
      · simp
      · rw [heap_sum_congr mem q.heap _ _ (fun a _ => hjob2 a)]
        apply htot
        simp [jobAvg, ha]
    | some p =>
      refine ⟨_, rfl, ⟨?_, hnd, ?_, ?_, ?_⟩, hjob2, rfl⟩
      · rw [hlist]; exact hchain
      · simp only [List.length_append, List.length_singleton] at h3 ⊢
        omega
      · simp
      · rw [heap_sum_congr mem q.heap _ _ (fun a _ => hjob2 a)]
        apply htot
        simp [jobAvg, ha]


theorem heap_multipush_loop_wf (mem : Nat → ℚ) :
    ∀ (newjob : List Nat) (q : Heap.JobQueue) (l : List Nat),
      Heap.WellFormed mem q l → newjob.Nodup → (∀ a ∈ newjob, a ∉ l) →
      ∃ q', Heap.jobqueue_multipush_loop mem q newjob = some q' ∧
        Heap.WellFormed mem q' (l ++ newjob) ∧ q'.group_front = q.group_front := by
  intro newjob
  induction newjob with
  | nil =>
    intro q l hwf _ _
    exact ⟨q, rfl, by simpa using hwf, rfl⟩
  | cons a rest ih =>
    intro q l hwf hnd hfresh
    obtain ⟨q1, e1, w1, -, g1⟩ := heap_push_internal_wf mem q l a hwf
      (hfresh a (List.mem_cons_self _ _))
    have hnd' := List.nodup_cons.mp hnd
    obtain ⟨q2, e2, w2, g2⟩ := ih q1 (l ++ [a]) w1 hnd'.2 (by
      intro b hb hmem
      rcases List.mem_append.mp hmem with h | h
      · exact hfresh b (List.mem_cons_of_mem _ hb) h
      · simp only [List.mem_singleton] at h
        exact hnd'.1 (h ▸ hb))
    refine ⟨q2, ?_, ?_, g2.trans g1⟩
    · simp only [Heap.jobqueue_multipush_loop, e1, e2]
    · simpa using w2

theorem heap_job_store_all_wf (mem : Nat → ℚ) :
    ∀ (newjobs : List (Nat × Job)) (q : Heap.JobQueue) (l : List Nat),
      Heap.WellFormed mem q l → (∀ x ∈ newjobs, x.1 ∉ l) →
      Heap.WellFormed mem (newjobs.foldl (fun q x => Heap.job_store q x.1 x.2) q) l ∧
        (newjobs.foldl (fun q x => Heap.job_store q x.1 x.2) q).group_front =
          q.group_front := by
  intro newjobs
  induction newjobs with
  | nil => intro q l hwf _; exact ⟨hwf, rfl⟩
  | cons x rest ih =>
    intro q l hwf hfresh
    obtain ⟨w1, -, -, g1⟩ := heap_job_store_wf mem q l x.1 x.2 hwf
      (hfresh x (List.mem_cons_self _ _))
    obtain ⟨w2, g2⟩ := ih (Heap.job_store q x.1 x.2) l w1
      (fun y hy => hfresh y (List.mem_cons_of_mem _ hy))
    exact ⟨w2, g2.trans g1⟩

/-- On a well-formed queue `jobqueue_extract_single` detaches the first
record, when there is one, and leaves a well-formed queue. -/
theorem heap_extract_single_wf (mem : Nat → ℚ) (q q' : Heap.JobQueue) (l : List Nat)
    (r : Option Nat) (hwf : Heap.WellFormed mem q l)
    (h : Heap.jobqueue_extract_single mem q = some (r, q')) :
    Heap.WellFormed mem q' l.tail ∧ r = l.head? ∧ q'.heap = q.heap ∧
      q'.group_front = q.group_front := by
  obtain ⟨h1, h2, h3, h4, h5⟩ := hwf
  unfold Heap.jobqueue_extract_single at h
  cases l with
  | nil =>
    simp only [List.length_nil] at h3
    rw [← h3] at h
    simp only [Option.some.injEq, Prod.mk.injEq] at h
    obtain ⟨rfl, rfl⟩ := h
    exact ⟨⟨h1, h2, h3, h4, h5⟩, rfl, rfl, rfl⟩
  | cons a t =>
    simp only [Heap.IsChain] at h1
    cases t with
    | nil =>
      simp only [List.length_cons, List.length_nil, Nat.zero_add] at h3
      rw [← h3] at h
      simp only [Option.some.injEq, Prod.mk.injEq] at h
      obtain ⟨rfl, rfl⟩ := h
      refine ⟨⟨?_, by simp, rfl, rfl, by simp⟩, by simp [h1.1], rfl, rfl⟩
      simp [Heap.IsChain]
    | cons b t' =>
      simp only [List.length_cons] at h3
      have hlen : q.len = t'.length + 1 + 1 := h3.symm
      rw [hlen, h1.1] at h
      simp only [] at h
      have hnd := (List.nodup_cons.mp h2).2
      have hrear : q.rear = (b :: t').getLast? := by
        rw [h4]; simp [List.getLast?_cons_cons]
      have hsum : q.total_time - jobAvg mem (q.heap a).job =
          ((b :: t').map (fun a => jobAvg mem (q.heap a).job)).sum := by
        rw [h5]; simp
      cases ha : (q.heap a).job.avgElapsed with
      | none =>
        rw [ha] at h
        simp only [Option.some.injEq, Prod.mk.injEq] at h
        obtain ⟨rfl, rfl⟩ := h
        refine ⟨⟨h1.2, hnd, ?_, hrear, ?_⟩, rfl, rfl, rfl⟩
        · simp [hlen]
        · simp only [jobAvg, ha, sub_zero] at hsum
          exact hsum
      | some p =>
        rw [ha] at h
        simp only [Option.some.injEq, Prod.mk.injEq] at h
        obtain ⟨rfl, rfl⟩ := h
        refine ⟨⟨h1.2, hnd, ?_, hrear, ?_⟩, rfl, rfl, rfl⟩
        · simp [hlen]
        · simp only [jobAvg, ha] at hsum
          exact hsum

theorem heap_pull_extract_wf (mem : Nat → ℚ) :
    ∀ (count : Nat) (q q' : Heap.JobQueue) (l : List Nat) (acc jobs : List Job),
      Heap.WellFormed mem q l → Heap.jobqueue_pull_extract mem count q acc = some (jobs, q') →
      Heap.WellFormed mem q' (l.drop count) ∧ q'.group_front = q.group_front := by
  intro count
  induction count with
  | zero =>
    intro q q' l acc jobs hwf h
    simp only [Heap.jobqueue_pull_extract, Option.some.injEq, Prod.mk.injEq] at h
    obtain ⟨-, rfl⟩ := h
    exact ⟨by simpa using hwf, rfl⟩
  | succ c ih =>
    intro q q' l acc jobs hwf h
    simp only [Heap.jobqueue_pull_extract] at h
    split at h
    · rename_i job q1 he
      obtain ⟨w1, -, -, g1⟩ := heap_extract_single_wf mem q q1 l _ hwf he
      obtain ⟨w2, g2⟩ := ih q1 q' l.tail _ jobs w1 h
      refine ⟨?_, g2.trans g1⟩
      rw [List.drop_tail] at w2
      exact w2
    · simp at h

theorem heap_wf_frame (mem : Nat → ℚ) (q q' : Heap.JobQueue) (l : List Nat)
    (hwf : Heap.WellFormed mem q l) (hh : q'.heap = q.heap) (hf : q'.front = q.front)
    (hr : q'.rear = q.rear) (hl : q'.len = q.len) (ht : q'.total_time = q.total_time) :
    Heap.WellFormed mem q' l := by
  unfold Heap.WellFormed at hwf ⊢
  rw [hh, hf, hr, hl, ht]
  exact hwf

theorem heap_pull_post_wf (mem : Nat → ℚ) (q : Heap.JobQueue) (l : List Nat)
    (hwf : Heap.WellFormed mem q l) : Heap.WellFormed mem (Heap.jobqueue_pull_post q) l := by
  unfold Heap.jobqueue_pull_post
  split_ifs
  · exact heap_wf_frame mem q _ l hwf rfl rfl rfl rfl rfl
  · exact hwf

theorem heap_extract_single_group_wf (mem : Nat → ℚ) (q q' : Heap.JobQueue) (l : List Nat)
    (grp : WorkGroup) (hwf : Heap.WellFormed mem q l)
    (h : Heap.jobqueue_extract_single_group mem q = some (grp, q')) :
    Heap.WellFormed mem q' l.tail := by
  unfold Heap.jobqueue_extract_single_group at h
  split at h
  · simp at h
  · rename_i job q1 he
    simp only [Option.some.injEq, Prod.mk.injEq] at h
    rw [← h.2]
    exact (heap_extract_single_wf mem q q1 l _ hwf he).1
  · rename_i q1 he
    simp only [Option.some.injEq, Prod.mk.injEq] at h
    rw [← h.2]
    exact (heap_extract_single_wf mem q q1 l _ hwf he).1

/-- A pull that returns leaves a well-formed queue well formed. -/
theorem heap_pull_wf (g : Globals) (mem : Nat → ℚ) (clock : Option ℚ) (num_threads : Nat)
    (q q' : Heap.JobQueue) (l : List Nat) (grp : WorkGroup)
    (hwf : Heap.WellFormed mem q l)
    (h : Heap.jobqueue_pull g mem clock num_threads q = some (some (grp, q'))) :
    ∃ l', Heap.WellFormed mem q' l' := by
  have single : ∀ r : WorkGroup × Heap.JobQueue,
      (Heap.jobqueue_extract_single_group mem q).map
        (fun r => (r.1, Heap.jobqueue_pull_post r.2)) = some r →
      ∃ l', Heap.WellFormed mem r.2 l' := by
    intro r hr
    cases he : Heap.jobqueue_extract_single_group mem q with
    | none => rw [he] at hr; simp at hr
    | some x =>
      rw [he] at hr
      simp only [Option.map_some', Option.some.injEq] at hr
      rw [← hr]
      exact ⟨l.tail, heap_pull_post_wf mem _ _
        (heap_extract_single_group_wf mem q x.2 l x.1 hwf he)⟩
  unfold Heap.jobqueue_pull at h
  simp only [] at h
  split at h
  · simp only [Option.some.injEq, Prod.mk.injEq] at h
    rw [← h.2]
    exact ⟨l, heap_pull_post_wf mem _ _ (heap_wf_frame mem q _ l hwf rfl rfl rfl rfl rfl)⟩
  · split at h
    · simp only [Option.some.injEq] at h
      exact single (grp, q') h
    · split at h
      · simp at h
      · split at h
        · simp only [Option.some.injEq] at h
          exact single (grp, q') h
        · split at h
          · simp at h
          · simp at h
          · split at h
            · simp at h
            · rename_i jobs q1 he
              simp only [Option.some.injEq, Prod.mk.injEq] at h
              obtain ⟨l1, w1⟩ : ∃ l1, Heap.WellFormed mem q1 l1 :=
                ⟨_, (heap_pull_extract_wf mem _ q q1 l [] jobs hwf he).1⟩
              rw [← h.2]
              refine ⟨l1, heap_pull_post_wf mem _ _ ?_⟩
              split_ifs
              · exact heap_wf_frame mem q1 _ _ w1 rfl rfl rfl rfl rfl
              · exact w1

/-- Every reachable queue is well formed. -/
theorem heap_reachable_wf (mem : Nat → ℚ) (num_threads : Nat) (q : Heap.JobQueue)
    (h : Heap.Reachable mem num_threads q) : ∃ l, Heap.WellFormed mem q l := by
  induction h with
  | init heap =>
    exact ⟨[], by simp [Heap.WellFormed, Heap.jobqueue_init, Heap.IsChain]⟩
  | push q q' newjob job _ hfresh hpush ih =>
    obtain ⟨l, hwf⟩ := ih
    have hn : newjob ∉ l := hfresh l hwf.1
    obtain ⟨w1, -, -, -⟩ := heap_job_store_wf mem q l newjob job hwf hn
    obtain ⟨q1, e1, w2, -, -⟩ := heap_push_internal_wf mem _ l newjob w1 hn
    simp only [Heap.jobqueue_push, e1, Option.map_some', Option.some.injEq] at hpush
    rw [← hpush]
    exact ⟨_, heap_wf_frame mem q1 _ _ w2 rfl rfl rfl rfl rfl⟩
  | multipush q q' newjobs _ hnd hfresh hpush ih =>
    obtain ⟨l, hwf⟩ := ih
    have hn : ∀ x ∈ newjobs, x.1 ∉ l := fun x hx => hfresh x hx l hwf.1
    obtain ⟨w1, -⟩ := heap_job_store_all_wf mem newjobs q l hwf hn
    obtain ⟨q1, e1, w2, -⟩ := heap_multipush_loop_wf mem (newjobs.map (fun x => x.1)) _ l w1
      hnd (by
        intro a ha
        obtain ⟨x, hx, rfl⟩ := List.mem_map.mp ha
        exact hn x hx)
    simp only [Heap.jobqueue_multipush, e1, Option.map_some', Option.some.injEq] at hpush
    rw [← hpush]
    exact ⟨_, heap_wf_frame mem q1 _ _ w2 rfl rfl rfl rfl rfl⟩
  | push_static q groups _ ih =>
    obtain ⟨l, hwf⟩ := ih
    exact ⟨l, heap_wf_frame mem q _ l hwf rfl rfl rfl rfl rfl⟩
  | extract_single q q' r _ he ih =>
    obtain ⟨l, hwf⟩ := ih
    exact ⟨l.tail, (heap_extract_single_wf mem q q' l r hwf he).1⟩
  | pull q q' g clock grp _ hp ih =>
    obtain ⟨l, hwf⟩ := ih
    exact heap_pull_wf g mem clock num_threads q q' l grp hwf hp
  | wait q q' _ hw ih =>
    obtain ⟨l, hwf⟩ := ih
    unfold Heap.thpool_wait at hw
    split_ifs at hw with hc
    simp only [Option.some.injEq] at hw
    obtain ⟨h1, h2, h3, h4, h5⟩ := hwf
    have hnil : l = [] := List.length_eq_zero.mp (by omega)
    subst hnil
    rw [← hw]
    exact ⟨[], h1, h2, h3, h4, by simp⟩

/-- On a chain, the walk of `jobqueue_pull` ends within as many iterations as
there are records left, plus the one that meets the null pointer. -/
theorem heap_pull_walk_fuel (heap : Nat → Heap.JobCell) (mem : Nat → ℚ) (target : ℚ)
    (front : Option Nat) :
    ∀ (rest : List Nat) (fuel : Nat) (job : Option Nat) (size : Nat) (d dn : ℚ),
      Heap.IsChain heap job rest → rest.length < fuel →
      Heap.jobqueue_pull_walk heap mem target front fuel job size d dn ≠ none := by
  intro rest
  induction rest with
  | nil =>
    intro fuel job size d dn hc hf
    simp only [Heap.IsChain] at hc
    obtain ⟨f, rfl⟩ : ∃ f, fuel = f + 1 := ⟨fuel - 1, by simp at hf; omega⟩
    simp [Heap.jobqueue_pull_walk, hc]
  | cons a t ih =>
    intro fuel job size d dn hc hf
    simp only [Heap.IsChain] at hc
    simp only [List.length_cons] at hf
    obtain ⟨f, rfl⟩ : ∃ f, fuel = f + 1 := ⟨fuel - 1, by omega⟩
    simp only [Heap.jobqueue_pull_walk, hc.1]
    cases ha : (heap a).job.avgElapsed with
    | none => simp
    | some p =>
      simp only []
      split_ifs
      · simp
      · exact ih f _ _ _ _ hc.2 (by omega)
      · simp

/-- On a well-formed queue the iterations given to the walk are enough. -/
theorem heap_pull_total (g : Globals) (mem : Nat → ℚ) (clock : Option ℚ) (num_threads : Nat)
    (q : Heap.JobQueue) (l : List Nat) (hwf : Heap.WellFormed mem q l) :
    Heap.jobqueue_pull g mem clock num_threads q ≠ none := by
  obtain ⟨h1, -, h3, -, -⟩ := hwf
  unfold Heap.jobqueue_pull
  simp only []
  split
  · simp
  · split
    · simp
    · split
      · simp
      · rename_i a hfront
        split
        · simp
        · cases l with
          | nil =>
            simp only [Heap.IsChain] at h1
            rw [h1] at hfront
            simp at hfront
          | cons b t =>
            simp only [Heap.IsChain] at h1
            have hab : a = b := by
              have := hfront.symm.trans h1.1
              simpa using this
            subst hab
            have hw := fun (tgt d dn : ℚ) => heap_pull_walk_fuel q.heap mem tgt
              q.front t q.len (q.heap a).prev 1 d dn h1.2 (by rw [← h3]; simp)
            split
            · rename_i hnone
              exact absurd hnone (hw _ _ _)
            · simp
            · split <;> simp


theorem heap_sum_filterMap (mem : Nat → ℚ) (heap : Nat → Heap.JobCell) (l : List Nat) :
    (l.map (fun a => jobAvg mem (heap a).job)).sum =
      ((l.filterMap (fun a => (heap a).job.avgElapsed)).map mem).sum := by
  induction l with
  | nil => simp
  | cons a t ih =>
    simp only [List.map_cons, List.sum_cons, List.filterMap_cons, ih]
    cases ha : (heap a).job.avgElapsed with
    | none => simp [jobAvg, ha]
    | some p => simp [jobAvg, ha]

theorem heap_example_reachable (mem : Nat → ℚ) :
    Heap.Reachable mem 2 (Heap.example_queue2 mem) := by
  have h1 : Heap.Reachable mem 2 (Heap.example_queue mem) := by
    refine Heap.Reachable.push (Heap.jobqueue_init Heap.empty_heap) _ 5 ⟨10, 20, some 0, none⟩
      (Heap.Reachable.init _) ?_ rfl
    intro l hl
    cases l with
    | nil => simp
    | cons a t =>
      simp [Heap.IsChain, Heap.jobqueue_init] at hl
  refine Heap.Reachable.push (Heap.example_queue mem) _ 3 ⟨11, 21, some 1, none⟩ h1 ?_ rfl
  intro l hl
  have hc : Heap.IsChain (Heap.example_queue mem).heap (Heap.example_queue mem).front [5] := by
    simp [Heap.IsChain, Heap.example_queue, Heap.jobqueue_push, Heap.jobqueue_push_internal,
      Heap.job_store, Heap.jobqueue_init]
  rw [heap_isChain_unique _ l [5] _ hl hc]
  simp

/-! ### C22: `len`, `front` and `rear` -/

/-- C22: in every queue reached from `jobqueue_init` by pushes and multipushes
of newly allocated records, static pushes, `jobqueue_extract_single`,
`jobqueue_pull` and the reset of `thpool_wait`, the records reached from
`front` by following `prev` form one finite chain without repetition, `len`
is the number of these records, `rear` is the last of them, and `front` and
`rear` are null exactly when `len = 0`. On such a queue the walk of
`jobqueue_pull` ends within `len` iterations. -/
theorem C22_queue_length_invariant (mem : Nat → ℚ) (num_threads : Nat) (q : Heap.JobQueue)
    (h : Heap.Reachable mem num_threads q) :
    ∃ l : List Nat, Heap.IsChain q.heap q.front l ∧ l.length = q.len ∧ l.Nodup ∧
      (∀ l', Heap.IsChain q.heap q.front l' → l' = l) ∧
      q.rear = l.getLast? ∧
      (q.len = 0 ↔ q.front = none) ∧ (q.len = 0 ↔ q.rear = none) ∧
      (∀ (g : Globals) (clock : Option ℚ),
        Heap.jobqueue_pull g mem clock num_threads q ≠ none) := by
  obtain ⟨l, hwf⟩ := heap_reachable_wf mem num_threads q h
  have hwf' := hwf
  obtain ⟨h1, h2, h3, h4, -⟩ := hwf
  refine ⟨l, h1, h3, h2, fun l' hl' => heap_isChain_unique _ l' l _ hl' h1, h4, ?_, ?_,
    fun g clock => heap_pull_total g mem clock num_threads q l hwf'⟩
  · cases l with
    | nil =>
      simp only [Heap.IsChain] at h1
      simp only [List.length_nil] at h3
      simp [h1, ← h3]
    | cons a t =>
      simp only [Heap.IsChain] at h1
      simp only [List.length_cons] at h3
      simp [h1.1, ← h3]
  · cases l with
    | nil =>
      simp only [List.length_nil] at h3
      simp [h4, ← h3]
    | cons a t =>
      simp only [List.length_cons] at h3
      have : (a :: t).getLast? ≠ none := by simp [List.getLast?_eq_none_iff]
      rw [h4]
      constructor
      · intro h0; omega
      · intro hn; exact absurd hn this

/-- C22 (witness): the queue after two pushes, of the records at addresses
`5` and `3`. -/
theorem C22_queue_length_invariant_witness :
    Heap.Reachable (arr [1, 1]) 2 (Heap.example_queue2 (arr [1, 1])) ∧
    (Heap.example_queue2 (arr [1, 1])).len = 2 ∧
    (Heap.example_queue2 (arr [1, 1])).front = some 5 ∧
    (Heap.example_queue2 (arr [1, 1])).rear = some 3 ∧
    ∃ l : List Nat, Heap.IsChain (Heap.example_queue2 (arr [1, 1])).heap
        (Heap.example_queue2 (arr [1, 1])).front l ∧
      l.length = (Heap.example_queue2 (arr [1, 1])).len ∧
      (Heap.example_queue2 (arr [1, 1])).rear = l.getLast? :=
  ⟨heap_example_reachable (arr [1, 1]), rfl, rfl, rfl,
    (C22_queue_length_invariant (arr [1, 1]) 2 (Heap.example_queue2 (arr [1, 1]))
      (heap_example_reachable (arr [1, 1]))).elim fun l hl => ⟨l, hl.1, hl.2.1, hl.2.2.2.2.1⟩⟩

/-! ### C23: `total_time` -/

/-- C23: in every queue reached from `jobqueue_init` by pushes and multipushes
of newly allocated records, static pushes, `jobqueue_extract_single`,
`jobqueue_pull` and the reset of `thpool_wait`, with the caller's averages
unchanged, `total_time` is the sum of `*avgElapsed` over the records of the
chain from `front` that have a non-null `avgElapsed`; it is `0` when none of
them has one and when `len = 0`. -/
theorem C23_total_time_invariant (mem : Nat → ℚ) (num_threads : Nat) (q : Heap.JobQueue)
    (h : Heap.Reachable mem num_threads q) :
    ∃ l : List Nat, Heap.IsChain q.heap q.front l ∧ l.length = q.len ∧
      q.total_time = ((l.filterMap (fun a => (q.heap a).job.avgElapsed)).map mem).sum ∧
      ((∀ a ∈ l, (q.heap a).job.avgElapsed = none) → q.total_time = 0) ∧
      (q.len = 0 → q.total_time = 0) := by
  obtain ⟨l, h1, -, h3, -, h5⟩ := heap_reachable_wf mem num_threads q h
  rw [heap_sum_filterMap] at h5
  refine ⟨l, h1, h3, h5, ?_, ?_⟩
  · intro hall
    rw [h5]
    have : l.filterMap (fun a => (q.heap a).job.avgElapsed) = [] := by
      rw [List.filterMap_eq_nil_iff]
      exact hall
    simp [this]
  · intro h0
    have hnil : l = [] := List.length_eq_zero.mp (by omega)
    rw [h5, hnil]
    simp

/-- C23 (witness): the queue after two pushes of records with average `1`. -/
theorem C23_total_time_invariant_witness :
    Heap.Reachable (arr [1, 1]) 2 (Heap.example_queue2 (arr [1, 1])) ∧
    ∃ l : List Nat, Heap.IsChain (Heap.example_queue2 (arr [1, 1])).heap
        (Heap.example_queue2 (arr [1, 1])).front l ∧
      (Heap.example_queue2 (arr [1, 1])).total_time =
        ((l.filterMap (fun a => ((Heap.example_queue2 (arr [1, 1])).heap a).job.avgElapsed)).map
          (arr [1, 1])).sum :=
  ⟨heap_example_reachable (arr [1, 1]),
    (C23_total_time_invariant (arr [1, 1]) 2 (Heap.example_queue2 (arr [1, 1]))
      (heap_example_reachable (arr [1, 1]))).elim fun l hl => ⟨l, hl.1, hl.2.2.1⟩⟩

/-! ### Lemmas for C30: `nextColumnSelection` as the lexicographic successor -/

theorem size_sub_eq {a b : Nat} (hb : b ≤ a) (ha : a < SIZE_WIDTH) : size_sub a b = a - b := by
  unfold size_sub
  have h : a + SIZE_WIDTH - b = (a - b) + SIZE_WIDTH := by omega
  rw [h, Nat.add_mod_right, Nat.mod_eq_of_lt (by omega)]

theorem size_succ_eq {a : Nat} (ha : a + 1 < SIZE_WIDTH) : (a + 1) % SIZE_WIDTH = a + 1 :=
  Nat.mod_eq_of_lt ha

theorem getLastD_range_succ : ∀ (k s d : Nat), (List.range' s (k + 1)).getLastD d = s + k
  | 0, s, d => by simp [List.range']
  | k + 1, s, d => by
    have h : List.range' s (k + 1 + 1) = s :: List.range' (s + 1) (k + 1) := by
      simp [List.range'_succ]
    rw [h, List.getLastD_cons, getLastD_range_succ k (s + 1) s]
    omega

theorem nextColumnSelection_reset_spec : ∀ (j : Nat) (pre suf : List Nat) (b : Nat),
    suf.length = j → b + j < SIZE_WIDTH →
    nextColumnSelection_reset j (pre ++ [b]).length ((pre ++ [b]) ++ suf)
      = (pre ++ [b]) ++ List.range' (b + 1) j
  | 0, pre, suf, b, hs, _ => by
    have : suf = [] := List.length_eq_zero.mp hs
    subst this
    simp [nextColumnSelection_reset]
  | j + 1, pre, suf, b, hs, hb => by
    obtain ⟨s, suf', rfl⟩ : ∃ s suf', suf = s :: suf' := by
      cases suf with
      | nil => simp at hs
      | cons s t => exact ⟨s, t, rfl⟩
    have hs' : suf'.length = j := by simpa using hs
    unfold nextColumnSelection_reset
    have hget : ((pre ++ [b]) ++ s :: suf').getD ((pre ++ [b]).length - 1) 0 = b := by
      have hlt : (pre ++ [b]).length - 1 < ((pre ++ [b]) ++ s :: suf').length := by
        simp
      rw [List.getD_eq_getElem _ _ hlt]
      simp [List.getElem_append_left, List.getElem_append_right]
    have hset : ((pre ++ [b]) ++ s :: suf').set (pre ++ [b]).length ((b + 1) % SIZE_WIDTH)
        = ((pre ++ [b]) ++ [b + 1]) ++ suf' := by
      rw [size_succ_eq (by omega)]
      rw [List.set_append_right _ _ (le_refl _)]
      simp
    rw [hget, hset]
    have hl : (pre ++ [b]).length + 1 = ((pre ++ [b]) ++ [b + 1]).length := by simp
    rw [hl, nextColumnSelection_reset_spec j (pre ++ [b]) suf' (b + 1) hs' (by omega)]
    simp [List.range'_succ]

theorem nextColumnSelection_reset_cons : ∀ (j cc2 a : Nat) (v : List Nat), 1 ≤ cc2 →
    nextColumnSelection_reset j (cc2 + 1) (a :: v) = a :: nextColumnSelection_reset j cc2 v
  | 0, _, _, _, _ => rfl
  | j + 1, cc2, a, v, h => by
    obtain ⟨c, rfl⟩ : ∃ c, cc2 = c + 1 := ⟨cc2 - 1, by omega⟩
    unfold nextColumnSelection_reset
    have h1 : (a :: v).getD (c + 1 + 1 - 1) 0 = v.getD (c + 1 - 1) 0 := by
      simp [List.getD_eq_getElem?_getD]
    rw [h1, List.set_cons_succ, nextColumnSelection_reset_cons j (c + 1 + 1) a _ (by omega)]

theorem nextColumnSelection_scan_cons (n : Nat) : ∀ (j cc a : Nat) (v : List Nat), 1 ≤ cc →
    nextColumnSelection_scan n j (cc + 1) (a :: v) = a :: nextColumnSelection_scan n j cc v
  | 0, _, _, _, _ => rfl
  | j + 1, cc, a, v, h => by
    obtain ⟨c, rfl⟩ : ∃ c, cc = c + 1 := ⟨cc - 1, by omega⟩
    unfold nextColumnSelection_scan
    have h1 : (a :: v).getD (c + 1 + 1) 0 = v.getD (c + 1) 0 := by
      simp [List.getD_eq_getElem?_getD]
    have h2 : size_sub (a :: v).length (c + 1 + 1) = size_sub v.length (c + 1) := by
      unfold size_sub
      have : (a :: v).length + SIZE_WIDTH - (c + 1 + 1) = v.length + SIZE_WIDTH - (c + 1) := by
        simp only [List.length_cons]; omega
      rw [this]
    have h3 : (a :: v).getD (c + 1 + 1 - 1) 0 = v.getD (c + 1 - 1) 0 := by
      simp [List.getD_eq_getElem?_getD]
    rw [h1, h2, h3]
    by_cases hc : v.getD (c + 1) 0 = size_sub n (size_sub v.length (c + 1))
    · rw [if_pos hc, if_pos hc]
      simp only []
      have h4 : (a :: v).set (c + 1 + 1 - 1) ((v.getD (c + 1 - 1) 0 + 1) % SIZE_WIDTH)
          = a :: v.set (c + 1 - 1) ((v.getD (c + 1 - 1) 0 + 1) % SIZE_WIDTH) := by
        simp
      rw [h4]
      have h5 : (a :: v.set (c + 1 - 1) ((v.getD (c + 1 - 1) 0 + 1) % SIZE_WIDTH)).length
          - (c + 1 + 1) = (v.set (c + 1 - 1) ((v.getD (c + 1 - 1) 0 + 1) % SIZE_WIDTH)).length
          - (c + 1) := by
        simp
      rw [h5, nextColumnSelection_reset_cons _ (c + 1) a _ (by omega)]
    · rw [if_neg hc, if_neg hc]
      exact nextColumnSelection_scan_cons n j (c + 1 + 1) a v (by omega)

theorem nextColumnSelection_advance_cons (n a : Nat) (x y : List Nat) (hx : x ≠ [])
    (hlen : x.length < SIZE_WIDTH)
    (ha : x.getLastD 0 = size_sub n 1 → a ≠ size_sub n (x.length + 1))
    (h : nextColumnSelection_advance n x = some y) :
    nextColumnSelection_advance n (a :: x) = some (a :: y) := by
  obtain ⟨b, t, rfl⟩ : ∃ b t, x = b :: t := by
    cases x with
    | nil => exact absurd rfl hx
    | cons b t => exact ⟨b, t, rfl⟩
  unfold nextColumnSelection_advance at h ⊢
  have hlast : (a :: b :: t).getLastD 0 = (b :: t).getLastD 0 := by
    simp [List.getLastD_cons]
  rw [hlast]
  by_cases hb : (b :: t).getLastD 0 = size_sub n 1
  · rw [if_pos hb] at h ⊢
    have ha' := ha hb
    by_cases hh : (b :: t).headD 0 = size_sub n (b :: t).length
    · rw [if_pos hh] at h
      exact absurd h (by simp)
    · rw [if_neg hh] at h
      have ha2 : ¬ (a :: b :: t).headD 0 = size_sub n (a :: b :: t).length := by
        simpa using ha'
      rw [if_neg ha2]
      simp only [Option.some.injEq] at h ⊢
      rw [← h]
      have hl1 : (a :: b :: t).length - 1 = t.length + 1 := by simp
      have hl2 : (b :: t).length - 1 = t.length := by simp
      rw [hl1, hl2, nextColumnSelection_scan]
      have hs : size_sub (a :: b :: t).length 1 = (b :: t).length := by
        unfold size_sub
        have : (a :: b :: t).length + SIZE_WIDTH - 1 = (b :: t).length + SIZE_WIDTH := by
          simp only [List.length_cons]; omega
        rw [this, Nat.add_mod_right, Nat.mod_eq_of_lt hlen]
      have hg : (a :: b :: t).getD 1 0 = (b :: t).headD 0 := by simp
      rw [hs, hg, if_neg hh]
      exact nextColumnSelection_scan_cons n t.length 1 a (b :: t) (le_refl 1)
  · rw [if_neg hb] at h ⊢
    simp only [Option.some.injEq] at h ⊢
    rw [← h]
    simp

theorem nextColumnSelection_advance_carry (n lo k : Nat) (h : lo + k + 2 ≤ n)
    (hn : n < SIZE_WIDTH) :
    nextColumnSelection_advance n (lo :: List.range' (n - k) k)
      = some (List.range' (lo + 1) (k + 1)) := by
  unfold nextColumnSelection_advance
  cases k with
  | zero =>
    have h1 : size_sub n 1 = n - 1 := size_sub_eq (by omega) hn
    have h2 : ¬ lo = n - 1 := by omega
    simp [h1, h2, size_succ_eq (show lo + 1 < SIZE_WIDTH by omega)]
  | succ k =>
    have hlastd : (lo :: List.range' (n - (k + 1)) (k + 1)).getLastD 0 = n - 1 := by
      rw [List.getLastD_cons, getLastD_range_succ]; omega
    have h1 : size_sub n 1 = n - 1 := size_sub_eq (by omega) hn
    rw [hlastd, h1, if_pos rfl]
    have hlen : (lo :: List.range' (n - (k + 1)) (k + 1)).length = k + 2 := by simp
    have h2 : size_sub n (k + 2) = n - (k + 2) := size_sub_eq (by omega) hn
    rw [hlen, h2]
    have h3 : ¬ (lo :: List.range' (n - (k + 1)) (k + 1)).headD 0 = n - (k + 2) := by
      simp; omega
    rw [if_neg h3]
    have h4 : k + 2 - 1 = k + 1 := rfl
    rw [h4]
    unfold nextColumnSelection_scan
    rw [hlen]
    have h5 : size_sub (k + 2) 1 = k + 1 := size_sub_eq (by omega) (by omega)
    have h6 : size_sub n (k + 1) = n - (k + 1) := size_sub_eq (by omega) hn
    have h7 : (lo :: List.range' (n - (k + 1)) (k + 1)).getD 1 0 = n - (k + 1) := by
      simp [List.range'_succ]
    rw [h5, h6, h7, if_pos rfl]
    simp only []
    have h8 : (lo :: List.range' (n - (k + 1)) (k + 1)).set (1 - 1)
        (((lo :: List.range' (n - (k + 1)) (k + 1)).getD (1 - 1) 0 + 1) % SIZE_WIDTH)
        = ([] ++ [lo + 1]) ++ List.range' (n - (k + 1)) (k + 1) := by
      simp [size_succ_eq (show lo + 1 < SIZE_WIDTH by omega)]
    rw [h8]
    have h9 : (([] : List Nat) ++ [lo + 1] ++ List.range' (n - (k + 1)) (k + 1)).length - 1
        = k + 1 := by simp
    rw [h9]
    have h10 := nextColumnSelection_reset_spec (k + 1) [] (List.range' (n - (k + 1)) (k + 1))
      (lo + 1) (by simp) (by omega)
    simp only [List.nil_append, List.length_singleton] at h10 ⊢
    rw [h10]
    simp [List.range'_succ]

theorem nextColumnSelection_advance_end (n k : Nat) (hk1 : 1 ≤ k) (hkn : k ≤ n)
    (hn : n < SIZE_WIDTH) :
    nextColumnSelection_advance n (List.range' (n - k) k) = none := by
  obtain ⟨j, rfl⟩ : ∃ j, k = j + 1 := ⟨k - 1, by omega⟩
  unfold nextColumnSelection_advance
  have h1 : size_sub n 1 = n - 1 := size_sub_eq (by omega) hn
  have h2 : size_sub n (j + 1) = n - (j + 1) := size_sub_eq hkn hn
  rw [getLastD_range_succ, h1, if_pos (by omega)]
  simp [h2, List.range'_succ]

theorem combos_zero_right (m lo : Nat) : combos m lo 0 = [[]] := by
  cases m <;> rfl

theorem combos_succ (m lo k : Nat) : combos (m + 1) lo (k + 1)
    = (combos m (lo + 1) k).map (fun t => lo :: t) ++ combos m (lo + 1) (k + 1) := rfl

theorem combos_length : ∀ (m lo k : Nat), (combos m lo k).length = Nat.choose m k
  | m, lo, 0 => by rw [combos_zero_right]; simp
  | 0, lo, k + 1 => by simp [combos]
  | m + 1, lo, k + 1 => by
    rw [combos_succ, List.length_append, List.length_map, combos_length m, combos_length m,
      Nat.choose_succ_succ]

theorem combos_eq_nil (m lo k : Nat) (h : m < k) : combos m lo k = [] :=
  List.length_eq_zero.mp (by rw [combos_length]; exact Nat.choose_eq_zero_of_lt h)

theorem mem_combos : ∀ (m lo k : Nat) (v : List Nat),
    v ∈ combos m lo k ↔ v.length = k ∧ v.Sorted (· < ·) ∧ ∀ x ∈ v, lo ≤ x ∧ x < lo + m
  | m, lo, 0, v => by
    rw [combos_zero_right]
    constructor
    · intro h
      have : v = [] := by simpa using h
      subst this; simp
    · rintro ⟨h, -, -⟩
      have : v = [] := List.length_eq_zero.mp h
      simp [this]
  | 0, lo, k + 1, v => by
    simp only [combos, List.not_mem_nil, false_iff]
    rintro ⟨h1, -, h3⟩
    cases v with
    | nil => simp at h1
    | cons a t => have := h3 a (List.mem_cons_self _ _); omega
  | m + 1, lo, k + 1, v => by
    rw [combos_succ, List.mem_append, List.mem_map]
    constructor
    · rintro (⟨t, ht, rfl⟩ | h)
      · obtain ⟨h1, h2, h3⟩ := (mem_combos m (lo + 1) k t).mp ht
        refine ⟨by simp [h1], ?_, ?_⟩
        · exact List.sorted_cons.mpr ⟨fun b hb => by have := h3 b hb; omega, h2⟩
        · intro x hx
          rcases List.mem_cons.mp hx with rfl | hx
          · omega
          · have := h3 x hx; omega
      · obtain ⟨h1, h2, h3⟩ := (mem_combos m (lo + 1) (k + 1) v).mp h
        exact ⟨h1, h2, fun x hx => by have := h3 x hx; omega⟩
    · rintro ⟨h1, h2, h3⟩
      cases v with
      | nil => simp at h1
      | cons a t =>
        have hs := List.sorted_cons.mp h2
        have ha := h3 a (List.mem_cons_self _ _)
        by_cases hal : a = lo
        · left
          refine ⟨t, (mem_combos m (lo + 1) k t).mpr ⟨by simpa using h1, hs.2, ?_⟩, by rw [hal]⟩
          intro x hx
          have := hs.1 x hx
          have := h3 x (List.mem_cons_of_mem _ hx)
          omega
        · right
          refine (mem_combos m (lo + 1) (k + 1) _).mpr ⟨h1, h2, ?_⟩
          intro x hx
          have hx3 := h3 x hx
          rcases List.mem_cons.mp hx with rfl | hx'
          · omega
          · have := hs.1 x hx'; omega

theorem combos_lex : ∀ (m lo k : Nat), (combos m lo k).Pairwise (List.Lex (· < ·))
  | m, lo, 0 => by rw [combos_zero_right]; exact List.pairwise_singleton _ _
  | 0, lo, k + 1 => by simp [combos]
  | m + 1, lo, k + 1 => by
    rw [combos_succ, List.pairwise_append]
    refine ⟨?_, combos_lex m (lo + 1) (k + 1), ?_⟩
    · rw [List.pairwise_map]
      exact (combos_lex m (lo + 1) k).imp (fun h => List.Lex.cons h)
    · intro a ha b hb
      obtain ⟨t, -, rfl⟩ := List.mem_map.mp ha
      obtain ⟨h1, -, h3⟩ := (mem_combos m (lo + 1) (k + 1) b).mp hb
      cases b with
      | nil => simp at h1
      | cons c t' =>
        have := h3 c (List.mem_cons_self _ _)
        exact List.Lex.rel (by omega)

theorem lex_lt_irrefl : ∀ (a : List Nat), ¬ List.Lex (· < ·) a a
  | [], h => by cases h
  | x :: t, h => by
    cases h with
    | cons h' => exact lex_lt_irrefl t h'
    | rel h' => exact lt_irrefl _ h'

theorem combos_head : ∀ (m lo k : Nat), k ≤ m →
    (combos m lo k).head? = some (List.range' lo k)
  | m, lo, 0, _ => by rw [combos_zero_right]; rfl
  | 0, lo, k + 1, h => by omega
  | m + 1, lo, k + 1, h => by
    rw [combos_succ, List.head?_append, List.head?_map, combos_head m (lo + 1) k (by omega)]
    simp [List.range'_succ]

theorem combos_getLast : ∀ (m lo k : Nat), k ≤ m →
    (combos m lo k).getLast? = some (List.range' (lo + m - k) k)
  | m, lo, 0, _ => by rw [combos_zero_right]; rfl
  | 0, lo, k + 1, h => by omega
  | m + 1, lo, k + 1, h => by
    rw [combos_succ, List.getLast?_append, List.getLast?_map,
      combos_getLast m (lo + 1) k (by omega)]
    by_cases hk : k + 1 ≤ m
    · rw [combos_getLast m (lo + 1) (k + 1) hk]
      have : lo + 1 + m - (k + 1) = lo + (m + 1) - (k + 1) := by omega
      simp [this]
    · have hm : m = k := by omega
      subst hm
      rw [combos_eq_nil m (lo + 1) (m + 1) (by omega)]
      have : lo + 1 + m - m = lo + 1 := by omega
      have h2 : lo + (m + 1) - (m + 1) = lo := by omega
      simp [this, h2, List.range'_succ]

theorem chain_succ_or_last {α : Type} {R : α → α → Prop} : ∀ (l : List α), List.Chain' R l →
    ∀ x ∈ l, l.getLast? = some x ∨ ∃ y ∈ l, R x y
  | [], _, x, hx => by simp at hx
  | [a], _, x, hx => by
    have : x = a := by simpa using hx
    subst this; left; rfl
  | a :: b :: t, h, x, hx => by
    have hc := List.chain'_cons.mp h
    rcases List.mem_cons.mp hx with rfl | hx'
    · exact Or.inr ⟨b, by simp, hc.1⟩
    · rcases chain_succ_or_last (b :: t) hc.2 x hx' with h1 | ⟨y, hy, hr⟩
      · left; rw [List.getLast?_cons_cons]; exact h1
      · exact Or.inr ⟨y, List.mem_cons_of_mem _ hy, hr⟩

theorem combos_chain (n : Nat) (hn : n < SIZE_WIDTH) : ∀ (m lo k : Nat), lo + m = n → 1 ≤ k →
    List.Chain' (fun v w => nextColumnSelection_advance n v = some w) (combos m lo k)
  | 0, lo, k, _, hk => by
    rw [combos_eq_nil 0 lo k (by omega)]
    exact List.chain'_nil
  | m + 1, lo, 0, _, hk => by omega
  | m + 1, lo, k + 1, hlo, _ => by
    rw [combos_succ, List.chain'_append]
    refine ⟨?_, combos_chain n hn m (lo + 1) (k + 1) (by omega) (by omega), ?_⟩
    · rw [List.chain'_map]
      by_cases hk0 : k = 0
      · subst hk0
        rw [combos_zero_right]
        exact List.chain'_singleton _
      · have ih := combos_chain n hn m (lo + 1) k (by omega) (by omega)
        rw [List.Chain'.iff_mem] at ih
        refine ih.imp ?_
        rintro x y ⟨hx, hy, hr⟩
        obtain ⟨hx1, -, -⟩ := (mem_combos m (lo + 1) k x).mp hx
        by_cases hmk : m ≤ k
        · -- a single selection has no successor
          exfalso
          have hlen : (combos m (lo + 1) k).length ≤ 1 := by
            rw [combos_length]
            rcases Nat.lt_or_eq_of_le hmk with h | h
            · rw [Nat.choose_eq_zero_of_lt h]; omega
            · rw [h, Nat.choose_self]
          have hm : m = k := by
            by_contra hne
            rw [combos_eq_nil m (lo + 1) k (by omega)] at hx
            simp at hx
          subst hm
          have hl := combos_getLast m (lo + 1) m (le_refl _)
          have hh := combos_head m (lo + 1) m (le_refl _)
          have hx' : x = List.range' (lo + 1) m := by
            cases hc : combos m (lo + 1) m with
            | nil => rw [hc] at hx; simp at hx
            | cons a t =>
              rw [hc] at hlen hx hh
              have ht : t = [] := by
                cases t with
                | nil => rfl
                | cons b t' => simp at hlen
              subst ht
              simp at hx hh
              rw [hx, hh]
          have hend := nextColumnSelection_advance_end n m (by omega) (by omega) hn
          have : n - m = lo + 1 := by omega
          rw [this, ← hx', hr] at hend
          exact absurd hend (by simp)
        · apply nextColumnSelection_advance_cons n lo x y
          · intro hnil; rw [hnil] at hx1; simp at hx1; omega
          · omega
          · intro _
            rw [hx1, size_sub_eq (by omega) hn]
            omega
          · exact hr
    · intro x hx y hy
      by_cases hk : k + 1 ≤ m
      · rw [combos_head m (lo + 1) (k + 1) hk] at hy
        rw [List.getLast?_map, combos_getLast m (lo + 1) k (by omega)] at hx
        simp only [Option.map_some', Option.mem_def, Option.some.injEq] at hx hy
        subst hx; subst hy
        have : lo + 1 + m - k = n - k := by omega
        rw [this]
        exact nextColumnSelection_advance_carry n lo k (by omega) hn
      · rw [combos_eq_nil m (lo + 1) (k + 1) (by omega)] at hy
        simp at hy

theorem mem_set_insert (x y : Nat) : ∀ (l : List Nat), y ∈ set_insert x l ↔ y = x ∨ y ∈ l
  | [] => by simp [set_insert]
  | z :: zs => by
    unfold set_insert
    split_ifs with h1 h2
    · simp
    · subst h2; simp
    · simp only [List.mem_cons, mem_set_insert x y zs]; tauto

theorem set_insert_sorted (x : Nat) : ∀ (l : List Nat), l.Sorted (· < ·) →
    (set_insert x l).Sorted (· < ·)
  | [], _ => by simp [set_insert]
  | z :: zs, h => by
    unfold set_insert
    have hs := List.sorted_cons.mp h
    split_ifs with h1 h2
    · refine List.sorted_cons.mpr ⟨fun b hb => ?_, h⟩
      rcases List.mem_cons.mp hb with rfl | hb
      · exact h1
      · exact lt_trans h1 (hs.1 b hb)
    · exact h
    · refine List.sorted_cons.mpr ⟨fun b hb => ?_, set_insert_sorted x zs hs.2⟩
      rcases (mem_set_insert x b zs).mp hb with rfl | hb
      · omega
      · exact hs.1 b hb

theorem set_insert_length_le (x : Nat) : ∀ (l : List Nat),
    (set_insert x l).length ≤ l.length + 1
  | [] => by simp [set_insert]
  | z :: zs => by
    unfold set_insert
    have := set_insert_length_le x zs
    split_ifs
    · simp
    · simp
    · simp only [List.length_cons]; omega

theorem nextColumnSelection_insert_spec (freeCols : List Nat) : ∀ (v cols : List Nat),
    (∀ c ∈ v, c < freeCols.length) →
    ∃ r, nextColumnSelection_insert freeCols v cols = some r ∧
      (cols.Sorted (· < ·) → r.Sorted (· < ·)) ∧
      (∀ x, x ∈ r ↔ (x ∈ cols ∨ ∃ c ∈ v, freeCols[c]? = some x)) ∧
      (v ≠ [] → r ≠ []) ∧ r.length ≤ cols.length + v.length
  | [], cols, _ => ⟨cols, rfl, id, by simp, by simp, by simp⟩
  | c :: rest, cols, h => by
    have hc := h c (List.mem_cons_self _ _)
    obtain ⟨r, hr, h1, h2, -, h4⟩ := nextColumnSelection_insert_spec freeCols rest
      (set_insert freeCols[c] cols) (fun c' hc' => h c' (List.mem_cons_of_mem _ hc'))
    have hmem : freeCols[c] ∈ r :=
      (h2 _).mpr (Or.inl ((mem_set_insert _ _ _).mpr (Or.inl rfl)))
    refine ⟨r, ?_, ?_, ?_, ?_, ?_⟩
    · unfold nextColumnSelection_insert
      rw [List.getElem?_eq_getElem hc]
      exact hr
    · intro hs
      exact h1 (set_insert_sorted _ _ hs)
    · intro x
      rw [h2, mem_set_insert]
      simp only [List.mem_cons, exists_eq_or_imp, List.getElem?_eq_getElem hc,
        Option.some.injEq]
      constructor
      · rintro ((h | h) | h)
        · exact Or.inr (Or.inl h.symm)
        · exact Or.inl h
        · exact Or.inr (Or.inr h)
      · rintro (h | h | h)
        · exact Or.inl (Or.inr h)
        · exact Or.inl (Or.inl h.symm)
        · exact Or.inr h
    · intro _ hnil
      rw [hnil] at hmem
      simp at hmem
    · have := set_insert_length_le freeCols[c] cols
      simp only [List.length_cons]
      omega

theorem nextColumnSelection_of_advance_none (fixedCols freeCols v : List Nat)
    (h : nextColumnSelection_advance freeCols.length v = none) :
    nextColumnSelection fixedCols freeCols v = some ([], v) := by
  unfold nextColumnSelection
  rw [h]
  split_ifs <;> rfl

theorem nextColumnSelection_of_advance_some (fixedCols freeCols v w : List Nat) (hv : v ≠ [])
    (hw : w ≠ []) (hb : ∀ c ∈ w, c < freeCols.length)
    (h : nextColumnSelection_advance freeCols.length v = some w) :
    nextColumnSelection fixedCols freeCols v
      = some ((nextColumnSelection_insert freeCols w fixedCols).getD [], w) ∧
    (nextColumnSelection_insert freeCols w fixedCols).getD [] ≠ [] := by
  obtain ⟨r, hr, -, -, h3, -⟩ := nextColumnSelection_insert_spec freeCols w fixedCols hb
  unfold nextColumnSelection
  rw [if_neg hv, h]
  show Option.map (fun cols => (cols, w)) (nextColumnSelection_insert freeCols w fixedCols)
      = some ((nextColumnSelection_insert freeCols w fixedCols).getD [], w) ∧
    (nextColumnSelection_insert freeCols w fixedCols).getD [] ≠ []
  rw [hr]
  exact ⟨rfl, h3 hw⟩

theorem selectDummyDerivatives_loop_trace (fixedCols freeCols : List Nat) :
    ∀ (L : List (List Nat)) (v0 cols0 : List Nat) (fuel : Nat),
    List.Chain' (fun v w => nextColumnSelection_advance freeCols.length v = some w) (v0 :: L) →
    (∀ v ∈ v0 :: L, v ≠ [] ∧ ∀ c ∈ v, c < freeCols.length) →
    (∀ z, (v0 :: L).getLast? = some z →
      nextColumnSelection_advance freeCols.length z = none) →
    L.length + 1 ≤ fuel →
    selectDummyDerivatives_loop fixedCols freeCols fuel v0 cols0 =
      ((v0, cols0) :: L.map (fun v =>
        (v, (nextColumnSelection_insert freeCols v fixedCols).getD [])), LoopEnd.exited) ∧
    List.Chain' (fun e e' => nextColumnSelection fixedCols freeCols e.1 = some (e'.2, e'.1) ∧
        e'.2 ≠ [])
      ((v0, cols0) :: L.map (fun v =>
        (v, (nextColumnSelection_insert freeCols v fixedCols).getD [])))
  | [], v0, cols0, fuel, _, _, hlast, hfuel => by
    obtain ⟨f, rfl⟩ : ∃ f, fuel = f + 1 := ⟨fuel - 1, by simp at hfuel; omega⟩
    have h := nextColumnSelection_of_advance_none fixedCols freeCols v0 (hlast v0 rfl)
    refine ⟨?_, List.chain'_singleton _⟩
    unfold selectDummyDerivatives_loop
    rw [h]
    simp
  | w :: L, v0, cols0, fuel, hch, hsel, hlast, hfuel => by
    obtain ⟨f, rfl⟩ : ∃ f, fuel = f + 1 := ⟨fuel - 1, by simp at hfuel; omega⟩
    have hc := List.chain'_cons.mp hch
    have hv0 := hsel v0 (List.mem_cons_self _ _)
    have hw := hsel w (List.mem_cons_of_mem _ (List.mem_cons_self _ _))
    obtain ⟨hcall, hne⟩ := nextColumnSelection_of_advance_some fixedCols freeCols v0 w hv0.1
      hw.1 hw.2 hc.1
    obtain ⟨ih1, ih2⟩ := selectDummyDerivatives_loop_trace fixedCols freeCols L w
      ((nextColumnSelection_insert freeCols w fixedCols).getD []) f hc.2
      (fun v hv => hsel v (List.mem_cons_of_mem _ hv))
      (fun z hz => hlast z (by rw [List.getLast?_cons_cons]; exact hz))
      (by simp only [List.length_cons] at hfuel; omega)
    constructor
    · unfold selectDummyDerivatives_loop
      rw [hcall]
      simp only [if_neg hne, ih1, List.map_cons]
    · rw [List.map_cons, List.chain'_cons]
      exact ⟨⟨hcall, hne⟩, ih2⟩

theorem selectDummyDerivatives_selections_eq (fixedCols freeCols : List Nat) (k fuel : Nat)
    (hkn : k ≤ freeCols.length) (hW : fixedCols.length + k < SIZE_WIDTH) :
    ∃ cols0, selectDummyDerivatives_selections fixedCols freeCols (fixedCols.length + k) fuel
      = selectDummyDerivatives_loop fixedCols freeCols fuel (List.range k) cols0 := by
  obtain ⟨r, hr, -, -, -, h4⟩ := nextColumnSelection_insert_spec freeCols (List.range k)
    fixedCols (fun c hc => by have := List.mem_range.mp hc; omega)
  have hs : size_sub (fixedCols.length + k) fixedCols.length = k := by
    rw [size_sub_eq (by omega) hW]; omega
  unfold selectDummyDerivatives_selections
  simp only [hs, hr]
  rw [List.length_range] at h4
  rw [if_neg (by omega)]
  exact ⟨_, rfl⟩

/-! ### C30: `nextColumnSelection` enumerates the column selections -/

/-- C30: for `n = freeCols.size()` and `1 ≤ k ≤ n`, the brute-force loop of
`selectDummyDerivatives` started from `vcols2keep = [0, 1, ..., k-1]` and given at
least `C(n, k)` iterations leaves by its `break` after evaluating exactly
`C(n, k)` column selections. The values of `vcols2keep` at the evaluations
start with `[0, ..., k-1]`, end with `[n-k, ..., n-1]`, are exactly the strictly
increasing `k`-tuples over `0..n-1`, in strictly increasing lexicographic
order and hence each once. Each call of `nextColumnSelection` between two
consecutive evaluations takes `vcols2keep` from the one to the next and returns
the non-empty vector evaluated next; that vector is increasing and holds
exactly the members of `fixedCols` and the free columns selected by
`vcols2keep`. On a strictly increasing `k`-tuple over `0..n-1` the call returns
the empty vector exactly when the tuple is `[n-k, ..., n-1]`. The same count
holds for the loop entered with the initial `cols2keep` that
`selectDummyDerivatives` builds for `eqs.size() = fixedCols.size() + k`. -/
theorem C30_column_selections_enumerated (fixedCols freeCols cols0 : List Nat) (k fuel : Nat)
    (hk1 : 1 ≤ k) (hkn : k ≤ freeCols.length) (hn : freeCols.length < SIZE_WIDTH)
    (heqs : fixedCols.length + k < SIZE_WIDTH) (hfix : fixedCols.Sorted (· < ·))
    (hfuel : Nat.choose freeCols.length k ≤ fuel) :
    ∃ trace : List (List Nat × List Nat),
      selectDummyDerivatives_loop fixedCols freeCols fuel (List.range k) cols0
        = (trace, LoopEnd.exited) ∧
      trace.length = Nat.choose freeCols.length k ∧
      trace.head? = some (List.range k, cols0) ∧
      (trace.map Prod.fst).getLast? = some (List.range' (freeCols.length - k) k) ∧
      (∀ v, v ∈ trace.map Prod.fst ↔
        (v.length = k ∧ v.Sorted (· < ·) ∧ ∀ c ∈ v, c < freeCols.length)) ∧
      (trace.map Prod.fst).Pairwise (List.Lex (· < ·)) ∧
      (trace.map Prod.fst).Nodup ∧
      List.Chain' (fun e e' =>
        nextColumnSelection fixedCols freeCols e.1 = some (e'.2, e'.1) ∧ e'.2 ≠ []) trace ∧
      (∀ e ∈ trace.tail, e.2.Sorted (· < ·) ∧
        ∀ x, x ∈ e.2 ↔ (x ∈ fixedCols ∨ ∃ c ∈ e.1, freeCols[c]? = some x)) ∧
      (∀ v, v.length = k → v.Sorted (· < ·) → (∀ c ∈ v, c < freeCols.length) →
        ((nextColumnSelection fixedCols freeCols v).map Prod.fst = some [] ↔
          v = List.range' (freeCols.length - k) k)) ∧
      (selectDummyDerivatives_selections fixedCols freeCols (fixedCols.length + k) fuel).2
        = LoopEnd.exited ∧
      (selectDummyDerivatives_selections fixedCols freeCols (fixedCols.length + k) fuel).1.length
        = Nat.choose freeCols.length k := by
  have hch := combos_chain freeCols.length hn freeCols.length 0 k (by omega) hk1
  have hhead := combos_head freeCols.length 0 k hkn
  have hlast := combos_getLast freeCols.length 0 k hkn
  have hlen := combos_length freeCols.length 0 k
  have hmem := mem_combos freeCols.length 0 k
  have hlex := combos_lex freeCols.length 0 k
  rw [← List.range_eq_range'] at hhead
  have hl0 : 0 + freeCols.length - k = freeCols.length - k := by omega
  rw [hl0] at hlast
  obtain ⟨L, hL⟩ : ∃ L, combos freeCols.length 0 k = List.range k :: L := by
    cases hc : combos freeCols.length 0 k with
    | nil => rw [hc] at hhead; simp at hhead
    | cons a t =>
      rw [hc] at hhead
      simp only [List.head?_cons, Option.some.injEq] at hhead
      exact ⟨t, by rw [hhead]⟩
  have hmem' : ∀ v, v ∈ List.range k :: L ↔
      (v.length = k ∧ v.Sorted (· < ·) ∧ ∀ c ∈ v, c < freeCols.length) := by
    intro v
    rw [← hL, hmem v]
    constructor
    · rintro ⟨h1, h2, h3⟩
      exact ⟨h1, h2, fun c hc => by have := h3 c hc; omega⟩
    · rintro ⟨h1, h2, h3⟩
      exact ⟨h1, h2, fun c hc => ⟨Nat.zero_le _, by have := h3 c hc; omega⟩⟩
  rw [hL] at hch hlast hlen hlex
  have hsel : ∀ v ∈ List.range k :: L, v ≠ [] ∧ ∀ c ∈ v, c < freeCols.length := by
    intro v hv
    obtain ⟨h1, -, h3⟩ := (hmem' v).mp hv
    refine ⟨?_, h3⟩
    intro h
    rw [h] at h1
    simp only [List.length_nil] at h1
    omega
  have hadv := nextColumnSelection_advance_end freeCols.length k hk1 hkn hn
  have hend : ∀ z, (List.range k :: L).getLast? = some z →
      nextColumnSelection_advance freeCols.length z = none := by
    intro z hz
    rw [hlast] at hz
    rw [← Option.some.inj hz]
    exact hadv
  have hfuel' : L.length + 1 ≤ fuel := by
    simp only [List.length_cons] at hlen
    omega
  have hloop := fun c => selectDummyDerivatives_loop_trace fixedCols freeCols L (List.range k)
    c fuel hch hsel hend hfuel'
  obtain ⟨ht1, ht2⟩ := hloop cols0
  have hmap : ∀ c, (((List.range k, c) :: L.map (fun v =>
      (v, (nextColumnSelection_insert freeCols v fixedCols).getD []))).map Prod.fst)
      = List.range k :: L := by
    intro c
    simp [List.map_map, Function.comp_def]
  refine ⟨_, ht1, ?_, rfl, ?_, ?_, ?_, ?_, ht2, ?_, ?_, ?_, ?_⟩
  · rw [← hlen]; simp
  · rw [hmap]; exact hlast
  · rw [hmap]; exact hmem'
  · rw [hmap]; exact hlex
  · rw [hmap]
    unfold List.Nodup
    refine hlex.imp ?_
    intro a b h hab
    rw [hab] at h
    exact lex_lt_irrefl b h
  · intro e he
    simp only [List.tail_cons, List.mem_map] at he
    obtain ⟨v, hv, rfl⟩ := he
    obtain ⟨r, hr, h1, h2, -, -⟩ := nextColumnSelection_insert_spec freeCols v fixedCols
      (hsel v (List.mem_cons_of_mem _ hv)).2
    simp only [hr, Option.getD_some]
    exact ⟨h1 hfix, h2⟩
  · intro v hv1 hv2 hv3
    have hvm : v ∈ List.range k :: L := (hmem' v).mpr ⟨hv1, hv2, hv3⟩
    constructor
    · intro hret
      rcases chain_succ_or_last _ hch v hvm with h | ⟨w, hw, hr⟩
      · rw [hlast] at h
        exact (Option.some.inj h).symm
      · exfalso
        obtain ⟨hcall, hne⟩ := nextColumnSelection_of_advance_some fixedCols freeCols v w
          (hsel v hvm).1 (hsel w hw).1 (hsel w hw).2 hr
        rw [hcall] at hret
        simp only [Option.map_some', Option.some.injEq] at hret
        exact hne hret
    · intro hv
      rw [hv, nextColumnSelection_of_advance_none fixedCols freeCols _ hadv]
      rfl
  · obtain ⟨c, hc⟩ := selectDummyDerivatives_selections_eq fixedCols freeCols k fuel hkn heqs
    rw [hc, (hloop c).1]
  · obtain ⟨c, hc⟩ := selectDummyDerivatives_selections_eq fixedCols freeCols k fuel hkn heqs
    rw [hc, (hloop c).1, ← hlen]
    simp

/-- C30 (witness): two of the four free columns `0, 1, 3, 4` are chosen next to
the fixed column `2`; the loop evaluates `C(4, 2) = 6` selections. -/
theorem C30_column_selections_enumerated_witness :
    1 ≤ 2 ∧ 2 ≤ [0, 1, 3, 4].length ∧ [0, 1, 3, 4].length < SIZE_WIDTH ∧
    [2].length + 2 < SIZE_WIDTH ∧ [2].Sorted (· < ·) ∧ Nat.choose [0, 1, 3, 4].length 2 ≤ 6 ∧
    (selectDummyDerivatives_loop [2] [0, 1, 3, 4] 6 (List.range 2) [0, 1, 2]).2
      = LoopEnd.exited ∧
    (selectDummyDerivatives_loop [2] [0, 1, 3, 4] 6 (List.range 2) [0, 1, 2]).1.length = 6 ∧
    (selectDummyDerivatives_loop [2] [0, 1, 3, 4] 6 (List.range 2) [0, 1, 2]).1
      = [([0, 1], [0, 1, 2]), ([0, 2], [0, 2, 3]), ([0, 3], [0, 2, 4]),
         ([1, 2], [1, 2, 3]), ([1, 3], [1, 2, 4]), ([2, 3], [2, 3, 4])] :=
  ⟨by decide, by decide, by decide, by decide, List.sorted_singleton 2, by decide,
    (C30_column_selections_enumerated [2] [0, 1, 3, 4] [0, 1, 2] 2 6 (by decide) (by decide)
      (by decide) (by decide) (List.sorted_singleton 2) (by decide)).elim
        fun _ h => by rw [h.1],
    (C30_column_selections_enumerated [2] [0, 1, 3, 4] [0, 1, 2] 2 6 (by decide) (by decide)
      (by decide) (by decide) (List.sorted_singleton 2) (by decide)).elim
        fun _ h => by rw [h.1]; exact h.2.1,
    by decide⟩

/-! ### The rounded model with exact arithmetic -/

theorem rounded_push_internal_exact (mem : Nat → ℚ) (q : JobQueue) (job : Job) :
    Rounded.jobqueue_push_internal (fun x => x) mem q job = jobqueue_push_internal mem q job :=
  rfl

theorem rounded_push_internal_fields (round : ℚ → ℚ) (mem : Nat → ℚ) (q : JobQueue)
    (job : Job) (h : q.len = q.front.length) :
    (Rounded.jobqueue_push_internal round mem q job).front = q.front ++ [job] ∧
    (Rounded.jobqueue_push_internal round mem q job).len = q.len + 1 ∧
    (Rounded.jobqueue_push_internal round mem q job).group_front = q.group_front := by
  unfold Rounded.jobqueue_push_internal
  cases hl : q.len with
  | zero =>
    have hf : q.front = [] := by
      rw [hl] at h
      exact List.length_eq_zero.mp h.symm
    cases job.avgElapsed with
    | none => simp [hf, hl]
    | some a => simp [hf, hl]
  | succ n =>
    cases job.avgElapsed with
    | none => simp [hl]
    | some a => simp [hl]

theorem rounded_push_all_fields (round : ℚ → ℚ) (mem : Nat → ℚ) (l : List Job) :
    ∀ q : JobQueue, q.len = q.front.length →
      (l.foldl (Rounded.jobqueue_push_internal round mem) q).front = q.front ++ l ∧
      (l.foldl (Rounded.jobqueue_push_internal round mem) q).len = q.len + l.length ∧
      (l.foldl (Rounded.jobqueue_push_internal round mem) q).group_front = q.group_front := by
  induction l with
  | nil => intro q _; simp
  | cons job l ih =>
    intro q h
    obtain ⟨h1, h2, h3⟩ := rounded_push_internal_fields round mem q job h
    obtain ⟨i1, i2, i3⟩ := ih (Rounded.jobqueue_push_internal round mem q job)
      (by rw [h1, h2, h]; simp)
    simp only [List.foldl_cons]
    refine ⟨by rw [i1, h1]; simp, by rw [i2, h2]; simp; omega, by rw [i3, h3]⟩

theorem rounded_extract_single_fields (round : ℚ → ℚ) (mem : Nat → ℚ) (q : JobQueue)
    (h : q.len = q.front.length) :
    (q.front = [] ∧ Rounded.jobqueue_extract_single round mem q = some (none, q)) ∨
    ∃ job rest q', q.front = job :: rest ∧
      Rounded.jobqueue_extract_single round mem q = some (some job, q') ∧
      q'.front = rest ∧ q'.len = rest.length ∧ q'.group_front = q.group_front := by
  cases hf : q.front with
  | nil =>
    left
    have hl : q.len = 0 := by rw [h, hf]; rfl
    refine ⟨rfl, ?_⟩
    unfold Rounded.jobqueue_extract_single
    rw [hl]
  | cons job rest =>
    right
    have hl2 : q.len = rest.length + 1 := by rw [h, hf]; simp
    unfold Rounded.jobqueue_extract_single
    cases rest with
    | nil =>
      simp only [List.length_nil, Nat.zero_add] at hl2
      rw [hl2, hf]
      exact ⟨job, [], _, rfl, rfl, rfl, rfl, rfl⟩
    | cons r rs =>
      simp only [List.length_cons] at hl2
      rw [hl2, hf]
      simp only []
      cases job.avgElapsed with
      | none => exact ⟨job, r :: rs, _, rfl, rfl, rfl, by simp, rfl⟩
      | some a => exact ⟨job, r :: rs, _, rfl, rfl, rfl, by simp, rfl⟩

theorem rounded_pull_extract_fields (round : ℚ → ℚ) (mem : Nat → ℚ) :
    ∀ (count : Nat) (q q' : JobQueue) (acc jobs : List Job), q.len = q.front.length →
      Rounded.jobqueue_pull_extract round mem count q acc = some (jobs, q') →
      count ≤ q.front.length ∧ jobs = acc ++ q.front.take count ∧
      q'.front = q.front.drop count ∧ q'.len = q'.front.length ∧
      q'.group_front = q.group_front := by
  intro count
  induction count with
  | zero =>
    intro q q' acc jobs hl h
    simp only [Rounded.jobqueue_pull_extract, Option.some.injEq, Prod.mk.injEq] at h
    obtain ⟨h1, h2⟩ := h
    subst h1; subst h2
    simp [hl]
  | succ c ih =>
    intro q q' acc jobs hl h
    simp only [Rounded.jobqueue_pull_extract] at h
    rcases rounded_extract_single_fields round mem q hl with ⟨_, he⟩ | ⟨job, rest, q1, hf, he, e1, e2, e3⟩
    · rw [he] at h
      simp at h
    · rw [he] at h
      simp only [] at h
      obtain ⟨i1, i2, i3, i4, i5⟩ := ih q1 q' _ jobs (by rw [e2, e1]) h
      rw [e1] at i1 i2 i3
      refine ⟨by rw [hf]; simp; omega, ?_, ?_, i4, i5.trans e3⟩
      · rw [i2, hf]; simp
      · rw [i3, hf]; simp

theorem queued_calls_post (q : JobQueue) : queued_calls (jobqueue_pull_post q) = queued_calls q := by
  obtain ⟨f1, _, _, f4⟩ := jobqueue_pull_post_fields q
  unfold queued_calls
  rw [f1, f4]

theorem queue_counted_post (q : JobQueue) (h : queue_counted q) :
    queue_counted (jobqueue_pull_post q) := by
  obtain ⟨f1, f2, _, f4⟩ := jobqueue_pull_post_fields q
  unfold queue_counted
  rw [f1, f2, f4]
  exact h

/-- What a pull that returns does with the jobs, for every rounding: the
group is the head of the group chain, or the records at the head of the FIFO
chain; the rest stays queued in its order. -/
theorem rounded_pull_split (round : ℚ → ℚ) (g : Globals) (mem : Nat → ℚ)
    (clock : Option ℚ) (thpool p : ThPool) (grp : WorkGroup)
    (hc : queue_counted thpool.jobqueue)
    (h : Rounded.jobqueue_pull round g mem clock thpool = some (grp, p)) :
    queue_counted p.jobqueue ∧ grp.size = grp.jobs.length ∧
    ((thpool.jobqueue.group_front = grp :: p.jobqueue.group_front ∧
        p.jobqueue.front = thpool.jobqueue.front) ∨
      (grp.jobs ++ p.jobqueue.front = thpool.jobqueue.front ∧
        p.jobqueue.group_front = thpool.jobqueue.group_front)) := by
  have fifo : ∀ (q : JobQueue), grp.jobs ++ q.front = thpool.jobqueue.front →
      q.len = q.front.length → q.group_front = thpool.jobqueue.group_front →
      grp.size = grp.jobs.length → p = { thpool with jobqueue := jobqueue_pull_post q } →
      queue_counted p.jobqueue ∧ grp.size = grp.jobs.length ∧
      ((thpool.jobqueue.group_front = grp :: p.jobqueue.group_front ∧
          p.jobqueue.front = thpool.jobqueue.front) ∨
        (grp.jobs ++ p.jobqueue.front = thpool.jobqueue.front ∧
          p.jobqueue.group_front = thpool.jobqueue.group_front)) := by
    intro q h1 h2 h3 h4 h5
    subst h5
    obtain ⟨f1, _, _, f4⟩ := jobqueue_pull_post_fields q
    refine ⟨queue_counted_post q ⟨h2, by rw [h3]; exact hc.2⟩, h4, Or.inr ⟨?_, ?_⟩⟩
    · show grp.jobs ++ (jobqueue_pull_post q).front = _
      rw [f1]; exact h1
    · show (jobqueue_pull_post q).group_front = _
      rw [f4]; exact h3
  have single : ∀ r, (Rounded.jobqueue_extract_single_group round mem thpool.jobqueue).map
      (fun r => (r.1, { thpool with jobqueue := jobqueue_pull_post r.2 })) = some r →
      r = (grp, p) →
      queue_counted p.jobqueue ∧ grp.size = grp.jobs.length ∧
      ((thpool.jobqueue.group_front = grp :: p.jobqueue.group_front ∧
          p.jobqueue.front = thpool.jobqueue.front) ∨
        (grp.jobs ++ p.jobqueue.front = thpool.jobqueue.front ∧
          p.jobqueue.group_front = thpool.jobqueue.group_front)) := by
    intro r hr hrp
    subst hrp
    unfold Rounded.jobqueue_extract_single_group at hr
    rcases rounded_extract_single_fields round mem thpool.jobqueue hc.1 with
      ⟨hf, he⟩ | ⟨job, rest, q1, hf, he, e1, e2, e3⟩
    · rw [he] at hr
      simp only [Option.map_some', Option.some.injEq, Prod.mk.injEq] at hr
      obtain ⟨hg, hp⟩ := hr
      subst hg
      exact fifo thpool.jobqueue (by simp) hc.1 rfl rfl hp.symm
    · rw [he] at hr
      simp only [Option.map_some', Option.some.injEq, Prod.mk.injEq] at hr
      obtain ⟨hg, hp⟩ := hr
      subst hg
      exact fifo q1 (by rw [hf, e1]; rfl) (by rw [e2, e1]) e3 rfl hp.symm
  unfold Rounded.jobqueue_pull at h
  simp only [] at h
  split at h
  · rename_i group prev hst hgf
    simp only [Option.some.injEq, Prod.mk.injEq] at h
    obtain ⟨hg, hp⟩ := h
    subst hg
    subst hp
    have hmem := hc.2
    rw [hgf] at hmem
    obtain ⟨f1, _, _, f4⟩ := jobqueue_pull_post_fields
      { thpool.jobqueue with group_front := prev }
    refine ⟨queue_counted_post _ ⟨hc.1, fun x hx => hmem x (List.mem_cons_of_mem _ hx)⟩,
      hmem _ (List.mem_cons_self _ _), Or.inl ⟨?_, ?_⟩⟩
    · show thpool.jobqueue.group_front = group :: (jobqueue_pull_post _).group_front
      rw [f4, hgf]
    · show (jobqueue_pull_post _).front = _
      rw [f1]
  · split at h
    · exact single _ h rfl
    · split at h
      · simp at h
      · split at h
        · exact single _ h rfl
        · split at h
          · simp at h
          · split at h
            · simp at h
            · rename_i _ size d hw _ jobs q he
              simp only [Option.some.injEq, Prod.mk.injEq] at h
              obtain ⟨hg, hp⟩ := h
              obtain ⟨i1, i2, i3, i4, i5⟩ :=
                rounded_pull_extract_fields round mem size _ q [] jobs hc.1 he
              subst hg
              simp only [List.nil_append] at i2
              have hq2 : ∀ (q2 : JobQueue), q2.front = q.front → q2.len = q.len →
                  q2.group_front = q.group_front →
                  p = { thpool with jobqueue := jobqueue_pull_post q2 } →
                  queue_counted p.jobqueue ∧
                  ({ jobs := jobs, size := size } : WorkGroup).size =
                    ({ jobs := jobs, size := size } : WorkGroup).jobs.length ∧
                  ((thpool.jobqueue.group_front =
                      ({ jobs := jobs, size := size } : WorkGroup) :: p.jobqueue.group_front ∧
                      p.jobqueue.front = thpool.jobqueue.front) ∨
                    (({ jobs := jobs, size := size } : WorkGroup).jobs ++ p.jobqueue.front =
                        thpool.jobqueue.front ∧
                      p.jobqueue.group_front = thpool.jobqueue.group_front)) := by
                intro q2 a1 a2 a3 a4
                refine fifo q2 ?_ (by rw [a2, a1]; exact i4) (by rw [a3]; exact i5) ?_ a4
                · show jobs ++ q2.front = _
                  rw [a1, i2, i3, List.take_append_drop]
                · show size = jobs.length
                  rw [i2, List.length_take]
                  omega
              split_ifs at hp
              · refine hq2 _ ?_ ?_ ?_ hp.symm <;> rfl
              · refine hq2 _ ?_ ?_ ?_ hp.symm <;> rfl

/-- A pull that returns keeps the jobs: the jobs of the group together with
the jobs queued afterwards are the jobs queued before. -/
theorem rounded_pull_conserve (round : ℚ → ℚ) (g : Globals) (mem : Nat → ℚ)
    (clock : Option ℚ) (thpool p : ThPool) (grp : WorkGroup)
    (hc : queue_counted thpool.jobqueue)
    (h : Rounded.jobqueue_pull round g mem clock thpool = some (grp, p)) :
    queue_counted p.jobqueue ∧ grp.size = grp.jobs.length ∧
    List.Perm (grp.jobs.map (fun job => (job.function, job.arg)) ++ queued_calls p.jobqueue)
      (queued_calls thpool.jobqueue) := by
  obtain ⟨c1, c2, c3⟩ := rounded_pull_split round g mem clock thpool p grp hc h
  refine ⟨c1, c2, ?_⟩
  unfold queued_calls
  rcases c3 with ⟨h1, h2⟩ | ⟨h1, h2⟩
  · rw [h1, h2]
    simp only [List.map_cons, List.flatten_cons, List.map_append]
    rw [← List.append_assoc, ← List.append_assoc]
    exact List.Perm.append_right _ List.perm_append_comm
  · rw [h2, ← h1]
    simp

theorem rounded_first_fit_bound (round : ℚ → ℚ) (t a : ℚ) :
    ∀ (ds : List ℚ) (i0 i : Nat), Rounded.static_first_fit round t a ds i0 = some i →
      i0 ≤ i ∧ i < i0 + ds.length := by
  intro ds
  induction ds with
  | nil => intro i0 i h; simp [Rounded.static_first_fit] at h
  | cons d ds ih =>
    intro i0 i h
    simp only [Rounded.static_first_fit] at h
    split_ifs at h with hd
    · simp only [Option.some.injEq] at h
      subst h
      simp
    · obtain ⟨h1, h2⟩ := ih (i0 + 1) i h
      simp only [List.length_cons]
      omega

theorem rounded_least_loaded_bound (round : ℚ → ℚ) (a : ℚ) :
    ∀ (ds : List ℚ) (i0 : Nat) (best : ℚ) (iBest : Nat), iBest < i0 →
      (Rounded.static_least_loaded round a ds i0 best iBest).2 < i0 + ds.length := by
  intro ds
  induction ds with
  | nil => intro i0 best iBest h; simpa [Rounded.static_least_loaded] using h
  | cons d ds ih =>
    intro i0 best iBest h
    simp only [Rounded.static_least_loaded]
    split_ifs
    · have := ih (i0 + 1) (round (d + a)) i0 (by omega)
      simp only [List.length_cons]
      omega
    · have := ih (i0 + 1) best iBest (by omega)
      simp only [List.length_cons]
      omega

theorem rounded_static_place_assign (round : ℚ → ℚ) (t a : ℚ) (st : StaticBins)
    (hne : st.durations ≠ []) :
    ∃ i, i < st.durations.length ∧
      (Rounded.static_place round t st a).n_jobs = st.n_jobs.set i (st.n_jobs.getD i 0 + 1) ∧
      (Rounded.static_place round t st a).jobs2thread = st.jobs2thread ++ [i] ∧
      (Rounded.static_place round t st a).durations.length = st.durations.length := by
  unfold Rounded.static_place
  cases hff : Rounded.static_first_fit round t a st.durations 0 with
  | some i =>
    obtain ⟨_, h2⟩ := rounded_first_fit_bound round t a st.durations 0 i hff
    exact ⟨i, by omega, rfl, rfl, by simp⟩
  | none =>
    obtain ⟨d0, tl, hD⟩ := List.exists_cons_of_ne_nil hne
    have h := rounded_least_loaded_bound round a tl 1 (round (d0 + a)) 0 (by omega)
    simp only [hD, List.tail_cons, List.headD_cons]
    exact ⟨_, by simp only [List.length_cons]; omega, rfl, rfl, by simp⟩

/-- Invariant of the placement loop on `n_jobs` and `jobs2thread`, for every
rounding. -/
theorem rounded_static_bins (round : ℚ → ℚ) (bins : Nat) (hb : 1 ≤ bins) (t : ℚ)
    (avg : Nat → ℚ) :
    ∀ k (st : StaticBins),
      st = (List.range k).foldl (fun st j => Rounded.static_place round t st (avg j))
        { durations := List.replicate bins 0, n_jobs := List.replicate bins 0,
          jobs2thread := [] } →
      st.durations.length = bins ∧ st.n_jobs.length = bins ∧ st.jobs2thread.length = k ∧
      (∀ b ∈ st.jobs2thread, b < bins) ∧
      ∀ i, i < bins → st.n_jobs[i]? = some (st.jobs2thread.count i) := by
  intro k
  induction k with
  | zero =>
    intro st hst
    subst hst
    refine ⟨by simp, by simp, by simp, by simp, ?_⟩
    intro i hi
    simp [List.getElem?_replicate, hi]
  | succ k ih =>
    intro st hst
    obtain ⟨h1, h2, h3, h4, h5⟩ := ih _ rfl
    rw [List.range_succ, List.foldl_append] at hst
    simp only [List.foldl_cons, List.foldl_nil] at hst
    generalize (List.range k).foldl (fun st j => Rounded.static_place round t st (avg j))
        { durations := List.replicate bins 0, n_jobs := List.replicate bins 0,
          jobs2thread := [] } = st0 at hst h1 h2 h3 h4 h5
    subst hst
    have hne : st0.durations ≠ [] := by
      intro h; rw [h] at h1; simp at h1; omega
    obtain ⟨b, hb1, e1, e2, e3⟩ := rounded_static_place_assign round t (avg k) st0 hne
    rw [h1] at hb1
    refine ⟨by rw [e3, h1], by rw [e1]; simp [h2], by rw [e2]; simp [h3], ?_, ?_⟩
    · intro x hx
      rw [e2] at hx
      rcases List.mem_append.mp hx with hx | hx
      · exact h4 x hx
      · simp only [List.mem_singleton] at hx
        rw [hx]; exact hb1
    · intro i hi
      rw [e1, e2, List.count_append, List.getElem?_set]
      by_cases hbi : b = i
      · subst hbi
        have hg : st0.n_jobs.getD b 0 = st0.jobs2thread.count b := by
          rw [List.getD_eq_getElem?_getD, h5 b hi]; rfl
        have h5b := h5 b hi
        rw [List.getElem?_eq_getElem (by omega)] at h5b
        simp only [Option.some.injEq] at h5b
        simp [h2, hi, hg, h5b]
      · have : List.count i [b] = 0 := by
          simp [List.count_singleton, hbi]
        simp [hbi, h5 i hi, this]

/-- The groups that `jobqueue_push_static_jobs` puts in front of the group
chain hold every record of the batch once, and their `size` counts their
jobs, for every rounding. -/
theorem rounded_push_static_groups (round : ℚ → ℚ) (env : Env) (thpool : ThPool)
    (newjobs : List Job) (avgElapsed nJobs : Nat) (r : Int × ThPool)
    (halloc : env.malloc_static = true) (hnew : newjobs.length = nJobs)
    (h : Rounded.jobqueue_push_static_jobs round env thpool newjobs avgElapsed nJobs = some r) :
    ∃ groups, r.2 = { thpool with jobqueue := { thpool.jobqueue with
          group_front := groups ++ thpool.jobqueue.group_front, has_jobs := 1 } } ∧
      (∀ grp ∈ groups, grp.size = grp.jobs.length) ∧
      List.Perm ((groups.map (fun grp => grp.jobs)).flatten) newjobs := by
  have hb0 : static_num_bins thpool.num_threads nJobs ≠ 0 := by
    intro h0
    simp [Rounded.jobqueue_push_static_jobs, halloc, h0] at h
  have hb1 : 1 ≤ static_num_bins thpool.num_threads nJobs := by omega
  obtain ⟨_, a2, a3, a4, a5⟩ := rounded_static_bins round
    (static_num_bins thpool.num_threads nJobs) hb1
    (round (Rounded.static_total_duration round (fun j => env.mem (avgElapsed + j)) nJobs /
      round ((static_num_bins thpool.num_threads nJobs : Nat) : ℚ)))
    (fun j => env.mem (avgElapsed + j)) nJobs
    (Rounded.static_assign round thpool.num_threads (fun j => env.mem (avgElapsed + j)) nJobs)
    rfl
  generalize hst : Rounded.static_assign round thpool.num_threads
    (fun j => env.mem (avgElapsed + j)) nJobs = st at a2 a3 a4 a5
  have hg0len : (st.n_jobs.map (fun n =>
      ({ jobs := List.replicate n default, size := 0 } : WorkGroup))).length =
      static_num_bins thpool.num_threads nJobs := by simp [a2]
  have hallp : ∀ x ∈ newjobs.zip st.jobs2thread, x.2 < (st.n_jobs.map (fun n =>
      ({ jobs := List.replicate n default, size := 0 } : WorkGroup))).length := by
    intro x hx
    rw [hg0len]
    exact a4 x.2 (List.of_mem_zip hx).2
  obtain ⟨fl, fs⟩ := static_fill_spec (newjobs.zip st.jobs2thread) _ hallp
  have hres : r = (0, { thpool with jobqueue := { thpool.jobqueue with
        group_front := static_fill (st.n_jobs.map (fun n =>
          ({ jobs := List.replicate n default, size := 0 } : WorkGroup)))
            (newjobs.zip st.jobs2thread) ++ thpool.jobqueue.group_front, has_jobs := 1 } }) := by
    simp [Rounded.jobqueue_push_static_jobs, halloc, hb0, hst] at h
    exact h.symm
  have hgrp : ∀ i, i < static_num_bins thpool.num_threads nJobs →
      (static_fill (st.n_jobs.map (fun n =>
        ({ jobs := List.replicate n default, size := 0 } : WorkGroup)))
          (newjobs.zip st.jobs2thread))[i]? = some
        { jobs := ((newjobs.zip st.jobs2thread).filter
            (fun x => decide (x.2 = i))).map (fun x => x.1)
          size := st.jobs2thread.count i } := by
    intro i hi
    have hcount := zip_filter_snd_length newjobs st.jobs2thread i (by rw [hnew, a3])
    have h0 : (st.n_jobs.map (fun n =>
        ({ jobs := List.replicate n default, size := 0 } : WorkGroup)))[i]? =
        some { jobs := [] ++ List.replicate (st.jobs2thread.count i) default,
               size := ([] : List Job).length } := by
      rw [List.getElem?_map, a5 i hi]
      rfl
    have := fs i [] (st.jobs2thread.count i) h0 (by rw [hcount])
    rw [this, hcount]
    simp
  refine ⟨_, by rw [hres], ?_, ?_⟩
  · intro grp hgrpm
    obtain ⟨i, hi⟩ := List.mem_iff_getElem?.mp hgrpm
    have hil : i < static_num_bins thpool.num_threads nJobs := by
      by_contra hcon
      rw [List.getElem?_eq_none (by rw [fl, hg0len]; omega)] at hi
      simp at hi
    rw [hgrp i hil] at hi
    simp only [Option.some.injEq] at hi
    rw [← hi]
    simp only [List.length_map]
    exact (zip_filter_snd_length newjobs st.jobs2thread i (by rw [hnew, a3])).symm
  · have hmap : (static_fill (st.n_jobs.map (fun n =>
        ({ jobs := List.replicate n default, size := 0 } : WorkGroup)))
          (newjobs.zip st.jobs2thread)).map (fun grp => grp.jobs) =
        (List.range (static_num_bins thpool.num_threads nJobs)).map (fun i =>
          ((newjobs.zip st.jobs2thread).filter
            (fun x => decide (x.2 = i))).map (fun x => x.1)) := by
      apply List.ext_getElem?
      intro i
      by_cases hi : i < static_num_bins thpool.num_threads nJobs
      · rw [List.getElem?_map, hgrp i hi, List.getElem?_map, List.getElem?_range hi]
        rfl
      · rw [List.getElem?_eq_none (by simp [fl, hg0len]; omega),
          List.getElem?_eq_none (by simp; omega)]
    rw [hmap]
    have hperm := flatten_filter_perm (static_num_bins thpool.num_threads nJobs)
      (newjobs.zip st.jobs2thread) (by
        intro x hx
        exact a4 x.2 (List.of_mem_zip hx).2)
    have hfst : (newjobs.zip st.jobs2thread).map (fun x => x.1) = newjobs := by
      have := List.map_fst_zip newjobs st.jobs2thread (by rw [hnew, a3])
      simpa using this
    have hflat : ((List.range (static_num_bins thpool.num_threads nJobs)).map (fun i =>
          ((newjobs.zip st.jobs2thread).filter
            (fun x => decide (x.2 = i))).map (fun x => x.1))).flatten =
        (((List.range (static_num_bins thpool.num_threads nJobs)).map (fun i =>
          (newjobs.zip st.jobs2thread).filter
            (fun x => decide (x.2 = i)))).flatten).map (fun x => x.1) := by
      rw [List.map_flatten, List.map_map]
      rfl
    rw [hflat]
    have := hperm.map (fun x => x.1)
    rw [hfst] at this
    exact this

theorem rounded_add_job_conserve (round : ℚ → ℚ) (env : Env) (pool : ThPool)
    (function arg : Nat) (avgElapsed elapsed : Option Nat) (hm : env.malloc_job 0 = true)
    (hc : queue_counted pool.jobqueue) :
    queue_counted (Rounded.thpool_add_job round env pool function arg avgElapsed
      elapsed).2.jobqueue ∧
    List.Perm (queued_calls (Rounded.thpool_add_job round env pool function arg avgElapsed
        elapsed).2.jobqueue)
      (queued_calls pool.jobqueue ++ [(function, arg)]) := by
  obtain ⟨h1, h2, h3⟩ := rounded_push_internal_fields round env.mem pool.jobqueue
    { function := function, arg := arg, avgElapsed := avgElapsed, elapsed := elapsed } hc.1
  have hq : (Rounded.thpool_add_job round env pool function arg avgElapsed elapsed).2.jobqueue
      = { Rounded.jobqueue_push_internal round env.mem pool.jobqueue
          { function := function, arg := arg, avgElapsed := avgElapsed, elapsed := elapsed }
          with has_jobs := 1 } := by
    simp [Rounded.thpool_add_job, hm, Rounded.jobqueue_push]
  rw [hq]
  constructor
  · refine ⟨?_, ?_⟩
    · show (Rounded.jobqueue_push_internal round env.mem pool.jobqueue _).len =
        (Rounded.jobqueue_push_internal round env.mem pool.jobqueue _).front.length
      rw [h1, h2, hc.1]; simp
    · show ∀ grp ∈ (Rounded.jobqueue_push_internal round env.mem pool.jobqueue _).group_front, _
      rw [h3]; exact hc.2
  · unfold queued_calls
    show List.Perm (((Rounded.jobqueue_push_internal round env.mem pool.jobqueue _).front ++
      ((Rounded.jobqueue_push_internal round env.mem pool.jobqueue _).group_front.map
        (fun grp => grp.jobs)).flatten).map _) _
    rw [h1, h3]
    simp only [List.map_append, List.map_cons, List.map_nil, List.append_assoc]
    exact List.Perm.append_left _ List.perm_append_comm

theorem rounded_add_jobs_conserve (round : ℚ → ℚ) (g : Globals) (env : Env) (pool : ThPool)
    (functions args : Nat → Nat) (avgElapsed elapsed : Option Nat)
    (order : Option (Nat → Nat)) (nJobs : Nat) (r : Int × ThPool)
    (hjob : ∀ i, env.malloc_job i = true) (hst : env.malloc_static = true)
    (hc : queue_counted pool.jobqueue)
    (h : Rounded.thpool_add_jobs round g env pool functions args avgElapsed elapsed order
      nJobs = some r) :
    queue_counted r.2.jobqueue ∧
    List.Perm (queued_calls r.2.jobqueue)
      (queued_calls pool.jobqueue ++
        (thpool_add_jobs_records functions args avgElapsed elapsed order nJobs).map
          (fun job => (job.function, job.arg))) := by
  have hall : (List.range nJobs).all env.malloc_job = true := by
    simp [hjob]
  unfold Rounded.thpool_add_jobs at h
  rw [hall] at h
  simp only [Bool.not_true, Bool.false_eq_true, if_false] at h
  by_cases hs : thpool_add_jobs_static g env avgElapsed order nJobs = true
  · rw [if_pos hs] at h
    have hlen : (thpool_add_jobs_records functions args avgElapsed elapsed order nJobs).length
        = nJobs := by simp [thpool_add_jobs_records]
    obtain ⟨groups, e1, e2, e3⟩ := rounded_push_static_groups round env pool _ _ nJobs r
      hst hlen h
    rw [e1]
    constructor
    · refine ⟨hc.1, ?_⟩
      intro grp hg
      rcases List.mem_append.mp hg with hg | hg
      · exact e2 grp hg
      · exact hc.2 grp hg
    · unfold queued_calls
      simp only [List.map_append, List.flatten_append, List.append_assoc]
      refine List.Perm.append_left _ ?_
      refine List.Perm.trans List.perm_append_comm ?_
      exact List.Perm.append_left _ (e3.map _)
  · rw [if_neg hs] at h
    simp only [Option.some.injEq] at h
    obtain ⟨h1, h2, h3⟩ := rounded_push_all_fields round env.mem
      (thpool_add_jobs_records functions args avgElapsed elapsed order nJobs) pool.jobqueue hc.1
    generalize hQ : (thpool_add_jobs_records functions args avgElapsed elapsed order
      nJobs).foldl (Rounded.jobqueue_push_internal round env.mem) pool.jobqueue = Q
      at h1 h2 h3
    have hq : r.2.jobqueue = { Q with has_jobs := 1 } := by
      rw [← h, ← hQ]
      rfl
    rw [hq]
    constructor
    · refine ⟨?_, ?_⟩
      · show Q.len = Q.front.length
        rw [h1, h2, hc.1]; simp
      · show ∀ grp ∈ Q.group_front, _
        rw [h3]; exact hc.2
    · unfold queued_calls
      show List.Perm ((Q.front ++ (Q.group_front.map (fun grp => grp.jobs)).flatten).map _) _
      rw [h1, h3]
      simp only [List.map_append, List.append_assoc]
      exact List.Perm.append_left _ List.perm_append_comm

theorem rounded_thread_do_step_conserve (round : ℚ → ℚ) (g : Globals) (mem : Nat → ℚ)
    (clock : Option ℚ) (pc pc' : WorkerPc) (pool p : ThPool)
    (hc : queue_counted pool.jobqueue)
    (h : Rounded.thread_do_step round g mem clock pc pool = some (pc', p)) :
    queue_counted p.jobqueue ∧
    List.Perm (Rounded.thread_do_step_calls round g mem clock pc pool ++
      queued_calls p.jobqueue) (queued_calls pool.jobqueue) := by
  cases pc with
  | pulling =>
    simp only [Rounded.thread_do_step] at h
    cases hpull : Rounded.jobqueue_pull round g mem clock pool with
    | none => rw [hpull] at h; simp at h
    | some r =>
      rw [hpull] at h
      simp only [Option.map_some', Option.some.injEq, Prod.mk.injEq] at h
      obtain ⟨grp, p1⟩ := r
      obtain ⟨c1, c2, c3⟩ := rounded_pull_conserve round g mem clock pool p1 grp hc hpull
      have hp : p1 = p := h.2
      subst hp
      refine ⟨c1, ?_⟩
      simp only [Rounded.thread_do_step_calls, hpull]
      have hcalls : (thread_do_group (fun _ => none) (worker_start mem) grp).calls =
          grp.jobs.map (fun job => (job.function, job.arg)) := by
        unfold thread_do_group
        rw [thread_do_group_calls, c2, List.take_length]
        rfl
      rw [hcalls]
      exact c3
  | starting =>
    simp only [Rounded.thread_do_step, Option.some.injEq, Prod.mk.injEq] at h
    rw [← h.2]
    exact ⟨hc, List.Perm.refl _⟩
  | idle =>
    simp only [Rounded.thread_do_step] at h
    split_ifs at h
    · cases hb : bsem_wait pool.jobqueue.has_jobs with
      | none => rw [hb] at h; simp at h
      | some v =>
        rw [hb] at h
        simp only [Option.map_some', Option.some.injEq, Prod.mk.injEq] at h
        rw [← h.2]
        exact ⟨hc, List.Perm.refl _⟩
    · simp only [Option.some.injEq, Prod.mk.injEq] at h
      rw [← h.2]
      exact ⟨hc, List.Perm.refl _⟩
  | woken =>
    simp only [Rounded.thread_do_step] at h
    split_ifs at h <;>
    · simp only [Option.some.injEq, Prod.mk.injEq] at h
      rw [← h.2]
      exact ⟨hc, List.Perm.refl _⟩
  | counting =>
    simp only [Rounded.thread_do_step, Option.some.injEq, Prod.mk.injEq] at h
    rw [← h.2]
    exact ⟨hc, List.Perm.refl _⟩
  | running =>
    simp only [Rounded.thread_do_step, Option.some.injEq, Prod.mk.injEq] at h
    rw [← h.2]
    exact ⟨hc, List.Perm.refl _⟩
  | leaving =>
    simp only [Rounded.thread_do_step, Option.some.injEq, Prod.mk.injEq] at h
    rw [← h.2]
    exact ⟨hc, List.Perm.refl _⟩
  | exited => simp [Rounded.thread_do_step] at h

/-- One action of a run keeps the jobs: the calls made by the workers during
the action together with the jobs queued afterwards are the jobs queued before
together with the jobs submitted by the action. -/
theorem rounded_pool_step_conserve (round : ℚ → ℚ) (env : Env) (s s' : PoolRun)
    (a : PoolAction) (pool : ThPool)
    (hjob : ∀ i, env.malloc_job i = true) (hst : env.malloc_static = true)
    (hk : a.keeps_pool = true) (hp : s.g.cppadcg_pool = some pool)
    (hc : queue_counted pool.jobqueue)
    (h : Rounded.pool_step round env s a = some s') :
    ∃ pool', s'.g.cppadcg_pool = some pool' ∧ queue_counted pool'.jobqueue ∧
      List.Perm (Rounded.pool_step_calls round env s a ++ queued_calls pool'.jobqueue)
        (queued_calls pool.jobqueue ++ a.submitted) := by
  cases a with
  | prepare =>
    simp only [Rounded.pool_step, hp, Option.some.injEq] at h
    subst h
    exact ⟨pool, hp, hc, by simp [Rounded.pool_step_calls, PoolAction.submitted]⟩
  | set_threads n =>
    simp only [Rounded.pool_step, Option.some.injEq] at h
    subst h
    exact ⟨pool, hp, hc, by simp [Rounded.pool_step_calls, PoolAction.submitted]⟩
  | set_scheduler_strategy st =>
    simp only [Rounded.pool_step, Option.some.injEq] at h
    subst h
    refine ⟨pool, ?_, hc, by simp [Rounded.pool_step_calls, PoolAction.submitted]⟩
    simp only [cppadcg_thpool_set_scheduler_strategy, hp]
  | set_multijob_maxgroupwork v =>
    simp only [Rounded.pool_step, Option.some.injEq] at h
    subst h
    refine ⟨pool, ?_, hc, by simp [Rounded.pool_step_calls, PoolAction.submitted]⟩
    simp only [cppadcg_thpool_set_multijob_maxgroupwork, hp]
  | add_job function arg avgElapsed elapsed =>
    simp only [Rounded.pool_step, hp, Option.some.injEq] at h
    subst h
    obtain ⟨c1, c2⟩ := rounded_add_job_conserve round env pool function arg avgElapsed
      elapsed (hjob 0) hc
    exact ⟨_, rfl, c1, by simpa [Rounded.pool_step_calls, PoolAction.submitted] using c2⟩
  | add_jobs functions args avgElapsed elapsed order nJobs =>
    simp only [Rounded.pool_step, hp] at h
    cases hr : Rounded.thpool_add_jobs round s.g env pool functions args avgElapsed elapsed
        order nJobs with
    | none => rw [hr] at h; simp at h
    | some r =>
      rw [hr] at h
      simp only [Option.map_some', Option.some.injEq] at h
      subst h
      obtain ⟨c1, c2⟩ := rounded_add_jobs_conserve round s.g env pool functions args
        avgElapsed elapsed order nJobs r hjob hst hc hr
      exact ⟨_, rfl, c1, by simpa [Rounded.pool_step_calls, PoolAction.submitted] using c2⟩
  | worker i clock =>
    simp only [Rounded.pool_step, hp] at h
    cases hpc : s.pcs[i]? with
    | none => rw [hpc] at h; simp at h
    | some pc =>
      rw [hpc] at h
      simp only [] at h
      cases hr : Rounded.thread_do_step round s.g env.mem clock pc pool with
      | none => rw [hr] at h; simp at h
      | some r =>
        rw [hr] at h
        simp only [Option.map_some', Option.some.injEq] at h
        subst h
        obtain ⟨pc', p⟩ := r
        obtain ⟨c1, c2⟩ := rounded_thread_do_step_conserve round s.g env.mem clock pc pc'
          pool p hc hr
        refine ⟨p, rfl, c1, ?_⟩
        simp only [Rounded.pool_step_calls, hp, hpc, PoolAction.submitted, List.append_nil]
        exact c2
  | destroy_keepalive =>
    simp only [Rounded.pool_step, hp, Option.some.injEq] at h
    subst h
    exact ⟨_, rfl, hc, by simp [Rounded.pool_step_calls, PoolAction.submitted, queued_calls]⟩
  | destroy_post =>
    simp only [Rounded.pool_step, hp] at h
    split_ifs at h
    simp only [Option.some.injEq] at h
    subst h
    exact ⟨_, rfl, hc, by simp [Rounded.pool_step_calls, PoolAction.submitted, queued_calls]⟩
  | destroy_free => simp [PoolAction.keeps_pool] at hk

/-- The jobs are kept along a run: the calls made by the workers together
with the jobs queued at the end are the jobs queued at the start together with
the jobs submitted. -/
theorem rounded_pool_run_conserve (round : ℚ → ℚ) (env : Env)
    (hjob : ∀ i, env.malloc_job i = true) (hst : env.malloc_static = true) :
    ∀ (actions : List PoolAction) (s s' : PoolRun) (pool : ThPool),
      (∀ a ∈ actions, a.keeps_pool = true) → s.g.cppadcg_pool = some pool →
      queue_counted pool.jobqueue → Rounded.pool_run round env s actions = some s' →
      ∃ pool', s'.g.cppadcg_pool = some pool' ∧ queue_counted pool'.jobqueue ∧
        List.Perm (Rounded.pool_run_calls round env s actions ++ queued_calls pool'.jobqueue)
          (queued_calls pool.jobqueue ++ (actions.map PoolAction.submitted).flatten) := by
  intro actions
  induction actions with
  | nil =>
    intro s s' pool _ hp hc h
    simp only [Rounded.pool_run, Option.some.injEq] at h
    subst h
    exact ⟨pool, hp, hc, by simp [Rounded.pool_run_calls]⟩
  | cons a rest ih =>
    intro s s' pool hk hp hc h
    simp only [Rounded.pool_run] at h
    cases hs1 : Rounded.pool_step round env s a with
    | none => rw [hs1] at h; simp at h
    | some s1 =>
      rw [hs1] at h
      simp only [] at h
      obtain ⟨pool1, p1, c1, m1⟩ := rounded_pool_step_conserve round env s s1 a pool hjob hst
        (hk a (List.mem_cons_self _ _)) hp hc hs1
      obtain ⟨pool', p2, c2, m2⟩ := ih s1 s' pool1
        (fun b hb => hk b (List.mem_cons_of_mem _ hb)) p1 c1 h
      refine ⟨pool', p2, c2, ?_⟩
      simp only [Rounded.pool_run_calls, hs1, List.map_cons, List.flatten_cons]
      have e1 : List.Perm ((Rounded.pool_step_calls round env s a ++
            Rounded.pool_run_calls round env s1 rest) ++ queued_calls pool'.jobqueue)
          (Rounded.pool_step_calls round env s a ++ (queued_calls pool1.jobqueue ++
            (rest.map PoolAction.submitted).flatten)) := by
        rw [List.append_assoc]
        exact List.Perm.append_left _ m2
      refine e1.trans ?_
      rw [← List.append_assoc, ← List.append_assoc]
      exact List.Perm.append_right _ m1

/-! ### C3: every submitted job is run once -/

/-- C3 (counterexample): three runs of a live pool of two threads in `binary32`
arithmetic. (1) The second allocation of `thpool_add_jobs` fails: the batch of
two jobs is dropped, the queue stays empty, `thpool_wait` returns and no job
has been called. (2) A batch of two jobs is submitted with an `order` under
`SCHED_STATIC` and becomes a chain of two work groups; the strategy is then set
to `SCHED_SINGLE_JOB`: a full cycle of worker `0` pulls the empty group, calls
nothing and leaves the pool and the workers exactly as before, so the cycle
repeats for ever, the two jobs are never called and `thpool_wait` blocks.
(3) Under `SCHED_MULTI_JOB` five jobs with averages `1, a, a, a, a`
(`a = 2^-24 + 2^-30`) are submitted: worker `0` runs job `0`, then jobs `1, 2`,
and its third `jobqueue_pull` dereferences null whether the clock read
succeeds or fails, while worker `1` is blocked in `bsem_wait`: jobs `3` and `4`
are never called. -/
theorem C3_counterexample_jobs_lost :
    ((Rounded.pool_run binary32_round (env_second_malloc_fails (arr [1, 1])) (live_pool_run 2)
        [PoolAction.add_jobs id id none none none 2]).bind
      (fun s => s.g.cppadcg_pool.bind (fun pool => (thpool_wait pool).map (fun _ =>
        Rounded.pool_run_calls binary32_round (env_second_malloc_fails (arr [1, 1]))
          (live_pool_run 2) [PoolAction.add_jobs id id none none none 2]))) = some [] ∧
      (PoolAction.add_jobs id id none none none 2).submitted = [(0, 0), (1, 1)]) ∧
    ((Rounded.pool_run binary32_round (env_ok (arr [1, 1])) (live_pool_run 2)
        ([PoolAction.set_scheduler_strategy ScheduleStrategy.SCHED_STATIC,
          PoolAction.add_jobs id id (some 0) none (some identity_order) 2,
          PoolAction.set_scheduler_strategy ScheduleStrategy.SCHED_SINGLE_JOB] ++
          worker_cycle 0 none)).map (fun s => (s.g, s.pcs)) =
      (Rounded.pool_run binary32_round (env_ok (arr [1, 1])) (live_pool_run 2)
        [PoolAction.set_scheduler_strategy ScheduleStrategy.SCHED_STATIC,
          PoolAction.add_jobs id id (some 0) none (some identity_order) 2,
          PoolAction.set_scheduler_strategy ScheduleStrategy.SCHED_SINGLE_JOB]).map
        (fun s => (s.g, s.pcs)) ∧
      (Rounded.pool_run binary32_round (env_ok (arr [1, 1])) (live_pool_run 2)
        [PoolAction.set_scheduler_strategy ScheduleStrategy.SCHED_STATIC,
          PoolAction.add_jobs id id (some 0) none (some identity_order) 2,
          PoolAction.set_scheduler_strategy ScheduleStrategy.SCHED_SINGLE_JOB]).bind
        (fun s => s.g.cppadcg_pool.map (fun pool =>
          (pool.jobqueue.group_front.length, (thpool_wait pool).isSome))) = some (2, false) ∧
      Rounded.pool_run_calls binary32_round (env_ok (arr [1, 1])) (live_pool_run 2)
        ([PoolAction.set_scheduler_strategy ScheduleStrategy.SCHED_STATIC,
          PoolAction.add_jobs id id (some 0) none (some identity_order) 2,
          PoolAction.set_scheduler_strategy ScheduleStrategy.SCHED_SINGLE_JOB] ++
          worker_cycle 0 none) = [] ∧
      (PoolAction.add_jobs id id (some 0) none (some identity_order) 2).submitted =
        [(0, 0), (1, 1)]) ∧
    ((Rounded.pool_run binary32_round (env_ok avg_one_small) (live_pool_run 2)
        ([PoolAction.set_scheduler_strategy ScheduleStrategy.SCHED_MULTI_JOB,
          PoolAction.add_jobs id id (some 0) none none 5] ++ worker_cycle 0 (some 5) ++
          worker_cycle 0 (some 5) ++ List.replicate 3 (PoolAction.worker 0 (some 5)))).map
        (fun s => (s.pcs, s.g.cppadcg_pool.map (fun pool => pool.jobqueue.len))) =
          some ([WorkerPc.pulling, WorkerPc.idle], some 2) ∧
      Rounded.pool_run_calls binary32_round (env_ok avg_one_small) (live_pool_run 2)
        ([PoolAction.set_scheduler_strategy ScheduleStrategy.SCHED_MULTI_JOB,
          PoolAction.add_jobs id id (some 0) none none 5] ++ worker_cycle 0 (some 5) ++
          worker_cycle 0 (some 5) ++ List.replicate 3 (PoolAction.worker 0 (some 5))) =
          [(0, 0), (1, 1), (2, 2)] ∧
      (PoolAction.add_jobs id id (some 0) none none 5).submitted =
        [(0, 0), (1, 1), (2, 2), (3, 3), (4, 4)] ∧
      (Rounded.pool_run binary32_round (env_ok avg_one_small) (live_pool_run 2)
        ([PoolAction.set_scheduler_strategy ScheduleStrategy.SCHED_MULTI_JOB,
          PoolAction.add_jobs id id (some 0) none none 5] ++ worker_cycle 0 (some 5) ++
          worker_cycle 0 (some 5) ++ List.replicate 3 (PoolAction.worker 0 (some 5)) ++
          [PoolAction.worker 0 (some 5)])).isSome = false ∧
      (Rounded.pool_run binary32_round (env_ok avg_one_small) (live_pool_run 2)
        ([PoolAction.set_scheduler_strategy ScheduleStrategy.SCHED_MULTI_JOB,
          PoolAction.add_jobs id id (some 0) none none 5] ++ worker_cycle 0 (some 5) ++
          worker_cycle 0 (some 5) ++ List.replicate 3 (PoolAction.worker 0 (some 5)) ++
          [PoolAction.worker 0 none])).isSome = false ∧
      (Rounded.pool_run binary32_round (env_ok avg_one_small) (live_pool_run 2)
        ([PoolAction.set_scheduler_strategy ScheduleStrategy.SCHED_MULTI_JOB,
          PoolAction.add_jobs id id (some 0) none none 5] ++ worker_cycle 0 (some 5) ++
          worker_cycle 0 (some 5) ++ List.replicate 3 (PoolAction.worker 0 (some 5)) ++
          [PoolAction.worker 1 (some 5)])).isSome = false) := by
  refine ⟨⟨?_, ?_⟩, ⟨?_, ?_, ?_, ?_⟩, ⟨?_, ?_, ?_, ?_, ?_, ?_⟩⟩ <;> decide!

/-- C3: for every rounding of the `float` operations, take a live pool with an
empty queue and any run of it that completes: calls of
`cppadcg_thpool_add_job` / `cppadcg_thpool_add_jobs` and of the setters,
interleaved in any way with the steps of the workers (the pool is not
released), with every allocation succeeding. At the end of the run the calls
made by the workers together with the jobs still queued (FIFO chain and group
chain) are exactly the submitted jobs, each as often as it was submitted. So
when `thpool_wait` returns at that moment, every submitted `fn(arg)` has been
called by the workers exactly as often as it was submitted: none is lost and
none is run twice. -/
theorem C3_jobs_run_exactly_once (round : ℚ → ℚ) (env : Env) (s0 s : PoolRun)
    (pool0 : ThPool) (actions : List PoolAction)
    (hjob : ∀ i, env.malloc_job i = true) (hstatic : env.malloc_static = true)
    (hpool0 : s0.g.cppadcg_pool = some pool0)
    (hfront : pool0.jobqueue.front = []) (hlen : pool0.jobqueue.len = 0)
    (hgf : pool0.jobqueue.group_front = [])
    (hkeep : ∀ a ∈ actions, a.keeps_pool = true)
    (hrun : Rounded.pool_run round env s0 actions = some s) :
    ∃ pool, s.g.cppadcg_pool = some pool ∧
      List.Perm (Rounded.pool_run_calls round env s0 actions ++ queued_calls pool.jobqueue)
        ((actions.map PoolAction.submitted).flatten) ∧
      (∀ p, thpool_wait pool = some p →
        List.Perm (Rounded.pool_run_calls round env s0 actions)
          ((actions.map PoolAction.submitted).flatten) ∧
        ∀ call, (Rounded.pool_run_calls round env s0 actions).countP
            (fun c => decide (c = call)) =
          ((actions.map PoolAction.submitted).flatten).countP
            (fun c => decide (c = call))) := by
  have hc0 : queue_counted pool0.jobqueue := by
    refine ⟨by rw [hlen, hfront]; rfl, ?_⟩
    rw [hgf]
    intro grp hg
    simp at hg
  obtain ⟨pool, hp, hc, hperm⟩ := rounded_pool_run_conserve round env hjob hstatic actions
    s0 s pool0 hkeep hpool0 hc0 hrun
  have hq0 : queued_calls pool0.jobqueue = [] := by
    simp [queued_calls, hfront, hgf]
  rw [hq0, List.nil_append] at hperm
  refine ⟨pool, hp, hperm, ?_⟩
  intro p hw
  have hq : queued_calls pool.jobqueue = [] := by
    unfold thpool_wait at hw
    split_ifs at hw with hcond
    have h1 : pool.jobqueue.len = 0 := by
      by_contra hne
      exact hcond (Or.inl hne)
    have h2 : pool.jobqueue.group_front = [] := by
      by_contra hne
      exact hcond (Or.inr (Or.inl hne))
    have h3 : pool.jobqueue.front = [] := by
      have := hc.1
      rw [h1] at this
      exact List.length_eq_zero.mp this.symm
    simp [queued_calls, h2, h3]
  rw [hq, List.append_nil] at hperm
  exact ⟨hperm, fun call => hperm.countP_eq _⟩

/-- C3 (witness): `binary32` arithmetic, a live pool of two threads under
`SCHED_SINGLE_JOB`; one job is submitted with `cppadcg_thpool_add_job` and two
with `cppadcg_thpool_add_jobs`; worker `0`, worker `1` and again worker `0`
each make a full cycle, after which `thpool_wait` returns. -/
theorem C3_jobs_run_exactly_once_witness :
    (∀ i, (env_ok (arr [1, 1])).malloc_job i = true) ∧
    (env_ok (arr [1, 1])).malloc_static = true ∧
    (live_pool_run 2).g.cppadcg_pool = some (fresh_pool 2) ∧
    (fresh_pool 2).jobqueue.front = [] ∧ (fresh_pool 2).jobqueue.len = 0 ∧
    (fresh_pool 2).jobqueue.group_front = [] ∧
    (∀ a ∈ [PoolAction.add_job 10 20 none none, PoolAction.add_jobs id id (some 0) none none 2]
        ++ worker_cycle 0 (some 5) ++ worker_cycle 1 (some 5) ++ worker_cycle 0 none,
      a.keeps_pool = true) ∧
    ∃ s pool p,
      Rounded.pool_run binary32_round (env_ok (arr [1, 1])) (live_pool_run 2)
        ([PoolAction.add_job 10 20 none none, PoolAction.add_jobs id id (some 0) none none 2]
          ++ worker_cycle 0 (some 5) ++ worker_cycle 1 (some 5) ++ worker_cycle 0 none) =
        some s ∧
      s.g.cppadcg_pool = some pool ∧ thpool_wait pool = some p ∧
      List.Perm (Rounded.pool_run_calls binary32_round (env_ok (arr [1, 1])) (live_pool_run 2)
          ([PoolAction.add_job 10 20 none none,
            PoolAction.add_jobs id id (some 0) none none 2]
            ++ worker_cycle 0 (some 5) ++ worker_cycle 1 (some 5) ++ worker_cycle 0 none))
        [(10, 20), (0, 0), (1, 1)] := by
  have hjob : ∀ i, (env_ok (arr [1, 1])).malloc_job i = true := fun _ => rfl
  have hkeep : ∀ a ∈ [PoolAction.add_job 10 20 none none,
      PoolAction.add_jobs id id (some 0) none none 2]
        ++ worker_cycle 0 (some 5) ++ worker_cycle 1 (some 5) ++ worker_cycle 0 none,
      a.keeps_pool = true := by
    intro a ha
    simp only [worker_cycle, List.mem_append, List.mem_cons, List.mem_singleton,
      List.mem_replicate, List.not_mem_nil, or_false] at ha
    rcases ha with ((((rfl | rfl) | ⟨_, rfl⟩) | ⟨_, rfl⟩) | ⟨_, rfl⟩) <;> rfl
  have hsub : (([PoolAction.add_job 10 20 none none,
      PoolAction.add_jobs id id (some 0) none none 2]
        ++ worker_cycle 0 (some 5) ++ worker_cycle 1 (some 5) ++ worker_cycle 0 none).map
        PoolAction.submitted).flatten = [(10, 20), (0, 0), (1, 1)] := by decide!
  have hfact : (Rounded.pool_run binary32_round (env_ok (arr [1, 1])) (live_pool_run 2)
      ([PoolAction.add_job 10 20 none none, PoolAction.add_jobs id id (some 0) none none 2]
        ++ worker_cycle 0 (some 5) ++ worker_cycle 1 (some 5) ++ worker_cycle 0 none)).bind
      (fun s => s.g.cppadcg_pool.bind (fun pool => (thpool_wait pool).map (fun _ => ()))) =
        some () := by decide!
  refine ⟨hjob, rfl, rfl, rfl, rfl, rfl, hkeep, ?_⟩
  cases hrun : Rounded.pool_run binary32_round (env_ok (arr [1, 1])) (live_pool_run 2)
      ([PoolAction.add_job 10 20 none none, PoolAction.add_jobs id id (some 0) none none 2]
        ++ worker_cycle 0 (some 5) ++ worker_cycle 1 (some 5) ++ worker_cycle 0 none) with
  | none => rw [hrun] at hfact; simp at hfact
  | some s =>
    rw [hrun] at hfact
    obtain ⟨pool, hp, _, hwait⟩ := C3_jobs_run_exactly_once binary32_round (env_ok (arr [1, 1]))
      (live_pool_run 2) s (fresh_pool 2) _ hjob rfl rfl rfl rfl rfl hkeep hrun
    simp only [Option.some_bind] at hfact
    rw [hp] at hfact
    simp only [Option.some_bind] at hfact
    cases hw : thpool_wait pool with
    | none => rw [hw] at hfact; simp at hfact
    | some p =>
      have := (hwait p hw).1
      rw [hsub] at this
      exact ⟨s, pool, p, rfl, hp, hw, this⟩

/-! ### C4: queue conservation and FIFO order -/

theorem rounded_pull_single_branch (round : ℚ → ℚ) (g : Globals) (mem : Nat → ℚ)
    (clock : Option ℚ) (thpool : ThPool)
    (hnopop : g.group_gen_strategy ≠ ScheduleStrategy.SCHED_STATIC ∨
      thpool.jobqueue.group_front = [])
    (hbranch : g.group_gen_strategy = ScheduleStrategy.SCHED_SINGLE_JOB ∨
      thpool.jobqueue.len ≤ 1 ∨ thpool.jobqueue.total_time ≤ 0) :
    Rounded.jobqueue_pull round g mem clock thpool =
      (Rounded.jobqueue_extract_single_group round mem thpool.jobqueue).map
        (fun r => (r.1, { thpool with jobqueue := jobqueue_pull_post r.2 })) := by
  unfold Rounded.jobqueue_pull
  simp only []
  split
  · rename_i hst hgf
    rcases hnopop with h | h
    · simp [h] at hst
    · rw [h] at hgf; exact absurd hgf (by simp)
  · rw [if_pos hbranch]

/-- C18 (counterexample): two threads, `binary32` arithmetic. A batch of two
jobs with averages `1, 1` is submitted with an `order` under `SCHED_STATIC`
and becomes a chain of two work groups; the strategy is then set to
`SCHED_SINGLE_JOB`, and worker `0` passes `bsem_wait`, which leaves
`has_jobs = 0`. Its `jobqueue_pull` pops no group (the strategy is not
`SCHED_STATIC`), finds `len = 0` and returns the empty group of size 0, but
posts `has_jobs` again because the group chain is not empty: the queue is not
left unchanged. -/
theorem C18_counterexample_semaphore_reposted :
    ((Rounded.pool_run binary32_round (env_ok (arr [1, 1]))
        { g := Globals.initial, pcs := [] }
        [PoolAction.prepare,
          PoolAction.set_scheduler_strategy ScheduleStrategy.SCHED_STATIC,
          PoolAction.add_jobs id id (some 0) none (some identity_order) 2,
          PoolAction.set_scheduler_strategy ScheduleStrategy.SCHED_SINGLE_JOB,
          PoolAction.worker 0 none, PoolAction.worker 0 none, PoolAction.worker 0 none]).bind
      (fun s => s.g.cppadcg_pool.bind (fun pool =>
        (Rounded.jobqueue_pull binary32_round s.g (arr [1, 1]) none pool).map (fun r =>
          ((s.g.group_gen_strategy, s.pcs[0]?),
            (pool.jobqueue.len, pool.jobqueue.front.length, pool.jobqueue.group_front.length),
            (pool.jobqueue.has_jobs, r.1, r.2.jobqueue.has_jobs)))))) =
      some ((ScheduleStrategy.SCHED_SINGLE_JOB, some WorkerPc.pulling), (0, 0, 2),
        (0, { jobs := [], size := 0 }, 1)) := by
  decide!

/-- C18: for every rounding of the `float` operations, when no pre-built group
is popped (the strategy is not `SCHED_STATIC` or there is no group chain) and
the strategy is `SCHED_SINGLE_JOB` or `len ≤ 1` or `total_time ≤ 0`,
`jobqueue_pull` on a queue whose `len` counts its chain returns a group of
size 1 holding the head job and lowers `len` by one when `len ≥ 1`; when
`len = 0` it returns the empty group of size 0 and leaves the pool as it is,
except that `has_jobs` is posted when there is a group chain. -/
theorem C18_singleton_dispatch (round : ℚ → ℚ) (g : Globals) (mem : Nat → ℚ)
    (clock : Option ℚ) (thpool : ThPool)
    (hnopop : g.group_gen_strategy ≠ ScheduleStrategy.SCHED_STATIC ∨
      thpool.jobqueue.group_front = [])
    (hbranch : g.group_gen_strategy = ScheduleStrategy.SCHED_SINGLE_JOB ∨
      thpool.jobqueue.len ≤ 1 ∨ thpool.jobqueue.total_time ≤ 0)
    (hlen : thpool.jobqueue.len = thpool.jobqueue.front.length) :
    (1 ≤ thpool.jobqueue.len →
      ∃ job rest p, thpool.jobqueue.front = job :: rest ∧
        Rounded.jobqueue_pull round g mem clock thpool =
          some ({ jobs := [job], size := 1 }, p) ∧
        p.jobqueue.len = thpool.jobqueue.len - 1 ∧ p.jobqueue.front = rest ∧
        p.jobqueue.group_front = thpool.jobqueue.group_front) ∧
    (thpool.jobqueue.len = 0 →
      Rounded.jobqueue_pull round g mem clock thpool = some ({ jobs := [], size := 0 },
        { thpool with jobqueue := { thpool.jobqueue with
            has_jobs := if thpool.jobqueue.group_front = [] then thpool.jobqueue.has_jobs
              else 1 } })) := by
  have hpull := rounded_pull_single_branch round g mem clock thpool hnopop hbranch
  constructor
  · intro h1
    cases hf : thpool.jobqueue.front with
    | nil => rw [hlen, hf] at h1; simp at h1
    | cons job rest =>
      have hex : ∃ q', Rounded.jobqueue_extract_single round mem thpool.jobqueue =
            some (some job, q') ∧
          q'.front = rest ∧ q'.len = thpool.jobqueue.len - 1 ∧
          q'.group_front = thpool.jobqueue.group_front := by
        have hl2 : thpool.jobqueue.len = rest.length + 1 := by rw [hlen, hf]; simp
        unfold Rounded.jobqueue_extract_single
        cases hr : rest with
        | nil =>
          rw [hr] at hl2
          simp only [List.length_nil, Nat.zero_add] at hl2
          rw [hl2, hf]
          exact ⟨_, rfl, hr.symm ▸ rfl, rfl, rfl⟩
        | cons r rs =>
          rw [hr] at hl2
          simp only [List.length_cons] at hl2
          rw [hl2, hf]
          simp only []
          cases job.avgElapsed with
          | none => exact ⟨_, rfl, hr.symm ▸ rfl, rfl, rfl⟩
          | some a => exact ⟨_, rfl, hr.symm ▸ rfl, rfl, rfl⟩
      obtain ⟨q', e1, e2, e3, e4⟩ := hex
      obtain ⟨f1, f2, _, f4⟩ := jobqueue_pull_post_fields q'
      have hp : Rounded.jobqueue_pull round g mem clock thpool =
          some ({ jobs := [job], size := 1 },
            { thpool with jobqueue := jobqueue_pull_post q' }) := by
        rw [hpull]
        simp only [Rounded.jobqueue_extract_single_group, e1, Option.map_some']
      refine ⟨job, rest, _, rfl, hp, ?_, ?_, ?_⟩
      · simp only [f2, e3]
      · simp only [f1, e2]
      · simp only [f4, e4]
  · intro h0
    have hex : Rounded.jobqueue_extract_single round mem thpool.jobqueue =
        some (none, thpool.jobqueue) := by
      unfold Rounded.jobqueue_extract_single
      rw [h0]
    rw [hpull]
    simp only [Rounded.jobqueue_extract_single_group, hex, Option.map_some']
    have hpost : jobqueue_pull_post thpool.jobqueue = { thpool.jobqueue with
        has_jobs := if thpool.jobqueue.group_front = [] then thpool.jobqueue.has_jobs
          else 1 } := by
      unfold jobqueue_pull_post
      by_cases hgf : thpool.jobqueue.group_front = []
      · rw [if_neg (by rintro (h | h); omega; exact h hgf), if_pos hgf]
      · rw [if_pos (Or.inr hgf), if_neg hgf]
    rw [hpost]

/-- C18 (witness): `binary32` arithmetic, `SCHED_SINGLE_JOB`, four queued jobs
of average 1. -/
theorem C18_singleton_dispatch_witness :
    (Globals.initial.group_gen_strategy ≠ ScheduleStrategy.SCHED_STATIC ∨
      (queued_pool avg_ones 2 4).jobqueue.group_front = []) ∧
    (Globals.initial.group_gen_strategy = ScheduleStrategy.SCHED_SINGLE_JOB ∨
      (queued_pool avg_ones 2 4).jobqueue.len ≤ 1 ∨
      (queued_pool avg_ones 2 4).jobqueue.total_time ≤ 0) ∧
    (queued_pool avg_ones 2 4).jobqueue.len = (queued_pool avg_ones 2 4).jobqueue.front.length ∧
    1 ≤ (queued_pool avg_ones 2 4).jobqueue.len ∧
    (∃ job rest p, (queued_pool avg_ones 2 4).jobqueue.front = job :: rest ∧
      Rounded.jobqueue_pull binary32_round Globals.initial avg_ones none
          (queued_pool avg_ones 2 4) = some ({ jobs := [job], size := 1 }, p) ∧
      p.jobqueue.len = (queued_pool avg_ones 2 4).jobqueue.len - 1 ∧
      p.jobqueue.front = rest ∧
      p.jobqueue.group_front = (queued_pool avg_ones 2 4).jobqueue.group_front) :=
  have h1 : Globals.initial.group_gen_strategy ≠ ScheduleStrategy.SCHED_STATIC ∨
      (queued_pool avg_ones 2 4).jobqueue.group_front = [] := Or.inl (by decide)
  have h2 : Globals.initial.group_gen_strategy = ScheduleStrategy.SCHED_SINGLE_JOB ∨
      (queued_pool avg_ones 2 4).jobqueue.len ≤ 1 ∨
      (queued_pool avg_ones 2 4).jobqueue.total_time ≤ 0 := Or.inl rfl
  have h3 : (queued_pool avg_ones 2 4).jobqueue.len =
      (queued_pool avg_ones 2 4).jobqueue.front.length := by with_unfolding_all decide
  have h4 : 1 ≤ (queued_pool avg_ones 2 4).jobqueue.len := by with_unfolding_all decide
  ⟨h1, h2, h3, h4,
    (C18_singleton_dispatch binary32_round Globals.initial avg_ones none
      (queued_pool avg_ones 2 4) h1 h2 h3).1 h4⟩

end CppadcgPool
